import Mathlib

/-!
# NVOverlay: a verification development

A shallow embedding of `src/nvoverlay/nvoverlay.cpp` (the coherence-driven versioning engine of
the NVOverlay simulator) together with theorems about it.

Conventions of the embedding.

* A function that can stop the simulator (a failed `assert`, an `error_exit`) returns
  `Except Abort _`; the `Abort` value carries the line of `nvoverlay.cpp` at which the run stops.
* Heap objects are named by the key under which the program files them: a `ver_t` by its line
  address (records are never freed), an `overlay_epoch_t` by its epoch number (the key of
  `overlay->epochs`).  Following a handle whose object has been removed is an `Abort`.
* A radix tree (`mtable_t`) is kept flattened: every allocated radix page and every non-NULL
  terminal slot is named by the list of index slices that lead to it.
* A chained hash table (`ht64_t`) is kept as the list of its key/value nodes.
* `uint64_t` statistics counters and byte sizes are natural numbers; the per-core epoch, for which
  wrap-around matters, is reduced modulo `2^64` where the program increments it.
-/

namespace NVOverlay

/-! ## Aborting runs -/

/-- Reasons for which the simulator stops; `line` is the line of `nvoverlay.cpp`. -/
inductive Abort where
  | assert_fail (line : Nat)
  | error_exit (line : Nat)
  | dangling (line : Nat)
  deriving DecidableEq

/-- The `assert(c)` of the C source written at line `line`. -/
def c_assert (c : Bool) (line : Nat) : Except Abort Unit :=
  if c then .ok () else .error (.assert_fail line)

/-! ## Constants of the absent header -/

/-- Modelled from the spec: `UTIL_CACHE_LINE_BITS`, declared in the absent `util.h`; lines are
64 bytes (spec §3). -/
def UTIL_CACHE_LINE_BITS : Nat := 6

/-- Modelled from the spec: `UTIL_CACHE_LINE_SIZE`, declared in the absent `util.h`. -/
def UTIL_CACHE_LINE_SIZE : Nat := 64

/-- Modelled from the spec: `UTIL_PAGE_BITS`, declared in the absent `util.h`; pages are 4 KiB. -/
def UTIL_PAGE_BITS : Nat := 12

/-- Modelled from the spec: `UTIL_PAGE_SIZE`, declared in the absent `util.h`. -/
def UTIL_PAGE_SIZE : Nat := 4096

/-- Modelled from the spec: the test of the header macro `ASSERT_CACHE_ALIGNED` (the low 6 bits
of a line address are zero, spec §3). -/
def cache_aligned (addr : Nat) : Bool := addr &&& (UTIL_CACHE_LINE_SIZE - 1) == 0

/-- Modelled from the spec: the test of the header macro `ASSERT_PAGE_ALIGNED` (the low 12 bits
of a page address are zero, spec §3). -/
def page_aligned (addr : Nat) : Bool := addr &&& (UTIL_PAGE_SIZE - 1) == 0

/-- Modelled from the spec: the header's `page_line_offset`, the index (0-63) of a line within
its page (spec §3). -/
def page_line_offset (addr : Nat) : Nat :=
  (addr >>> UTIL_CACHE_LINE_BITS) &&& (UTIL_PAGE_SIZE / UTIL_CACHE_LINE_SIZE - 1)

/-! ## Association lists (the content of `ht64_t` chains and of radix-tree leaves) -/

/-- First value filed under `k`. -/
def alist_find {K V : Type} [DecidableEq K] : List (K × V) → K → Option V
  | [], _ => none
  | (k', v) :: t, k => if k' = k then some v else alist_find t k

/-- Remove every node with key `k`. -/
def alist_erase {K V : Type} [DecidableEq K] (l : List (K × V)) (k : K) : List (K × V) :=
  l.filter (fun p => decide (p.1 ≠ k))

/-- File `v` under `k`, replacing what was there. -/
def alist_set {K V : Type} [DecidableEq K] (l : List (K × V)) (k : K) (v : V) : List (K × V) :=
  (k, v) :: alist_erase l k

/-! ## bitmap64_t -/

/-- Modelled from the spec: Bitmap64 (§4.2), whose operations live in the absent header; the
source only shows the field `x`, a `uint64_t`. -/
structure bitmap64_t where
  x : Nat
  deriving DecidableEq

/-- Modelled from the spec: `clear()` of Bitmap64 (§4.2). -/
def bitmap64_clear : bitmap64_t := ⟨0⟩

/-- Modelled from the spec: `has(i)` of Bitmap64 (§4.2). -/
def bitmap64_is_set (b : bitmap64_t) (pos : Nat) : Bool := b.x.testBit pos

/-- Modelled from the spec: `add(i)` of Bitmap64 (§4.2), `x |= 1UL << pos` on 64 bits. -/
def bitmap64_add (b : bitmap64_t) (pos : Nat) : bitmap64_t := ⟨(b.x ||| (1 <<< pos)) % 2 ^ 64⟩

/-- Modelled from the spec: `remove(i)` of Bitmap64 (§4.2), clearing bit `pos`. -/
def bitmap64_remove (b : bitmap64_t) (pos : Nat) : bitmap64_t :=
  ⟨b.x ^^^ (b.x &&& (1 <<< pos))⟩

/-- Members in ascending order: the sequence produced by the header's `bitmap64_iter` when it
is started at `-1` and fed its own result until it returns `-1` (Bitmap64 `iter`, §4.2). -/
def bitmap64_members (b : bitmap64_t) : List Nat :=
  (List.range 64).filter (fun i => b.x.testBit i)

/-- Modelled from the spec: `popcount()` of Bitmap64 (§4.2). -/
def bitmap64_popcount (b : bitmap64_t) : Nat := (bitmap64_members b).length

/-! ## mtable_t -/

/-- One level of the radix index (`mtable_idx_t`): `mask` and `pg_size` are computed as in
`mtable_idx_init`. -/
structure mtable_idx_t where
  rshift : Nat
  bits : Nat
  deriving DecidableEq

/-- Field `mask` set by `mtable_idx_init`. -/
def mtable_idx_t.mask (i : mtable_idx_t) : Nat := (1 <<< i.bits) - 1

/-- Field `pg_size` set by `mtable_idx_init`: `sizeof(uint64_t *) * (1 << bits)`. -/
def mtable_idx_t.pg_size (i : mtable_idx_t) : Nat := 8 * (1 <<< i.bits)

/-- Radix tree `mtable_t`, flattened.  `nodes` names each allocated radix page by the slices
leading to it (`[]` is the root); `slots` lists the non-NULL terminal slots by their full slice
path. -/
structure mtable_t (V : Type) where
  idx : List mtable_idx_t
  nodes : List (List Nat)
  slots : List (List Nat × V)
  page_count : Nat
  size : Nat

/-- What `mtable_init` followed by the `mtable_idx_add` calls for `idx` builds. -/
def mtable_init {V : Type} (idx : List mtable_idx_t) : mtable_t V :=
  { idx := idx, nodes := [], slots := [], page_count := 0, size := 0 }

/-- The `slice` computed at one level for `key`. -/
def mtable_slice (i : mtable_idx_t) (key : Nat) : Nat := (key >>> i.rshift) &&& i.mask

/-- Slices of `key` at all levels, first level first. -/
def mtable_path (idx : List mtable_idx_t) (key : Nat) : List Nat :=
  idx.map (fun i => mtable_slice i key)

/-- Loop of `_mtable_insert`: `pre` names the page `*prev` points at. -/
def mtable_insert_walk {V : Type} (key : Nat) :
    List mtable_idx_t → List Nat → mtable_t V → mtable_t V
  | [], _, m => m
  | i :: rest, pre, m =>
    let m1 : mtable_t V :=
      if pre ∈ m.nodes then m
      else { m with nodes := pre :: m.nodes, page_count := m.page_count + 1,
                    size := m.size + i.pg_size }
    mtable_insert_walk key rest (pre ++ [mtable_slice i key]) m1

/-- The allocation done by `mtable_insert` (`_mtable_insert`, with or without the JIT lookup):
every missing page on the path of `key` is created.  The slot the C function returns is the
one named `mtable_path m.idx key`; it is read with `mtable_find` and written with
`mtable_slot_write`. -/
def mtable_insert {V : Type} (m : mtable_t V) (key : Nat) : mtable_t V :=
  mtable_insert_walk key m.idx [] m

/-- Write through the slot pointer returned by `mtable_insert m key`. -/
def mtable_slot_write {V : Type} (m : mtable_t V) (key : Nat) (v : V) : mtable_t V :=
  { m with slots := alist_set m.slots (mtable_path m.idx key) v }

/-- The function `mtable_find`: the terminal slot of `key`, `none` when it is NULL or when a page
on the way is missing (a slot is only ever written below pages that `mtable_insert` created). -/
def mtable_find {V : Type} (m : mtable_t V) (key : Nat) : Option V :=
  alist_find m.slots (mtable_path m.idx key)

/-- The key handed to the callback by `_mtable_traverse` for the slot at `path`:
`key | i << rshift` accumulated over the levels. -/
def mtable_traverse_key : List mtable_idx_t → List Nat → Nat
  | i :: idx, s :: path => (s <<< i.rshift) ||| mtable_traverse_key idx path
  | _, _ => 0

/-- Order in which `_mtable_traverse` meets two slots: ascending slice, first level first. -/
def mtable_path_le : List Nat → List Nat → Bool
  | [], _ => true
  | _ :: _, [] => false
  | a :: p, b :: q => a < b || (a == b && mtable_path_le p q)

/-- The calls made by `mtable_traverse`: `(key, value)` for every non-NULL terminal slot, in the
order of the traversal. -/
def mtable_traverse {V : Type} (m : mtable_t V) : List (Nat × V) :=
  (List.insertionSort (fun a b => mtable_path_le a.1 b.1 = true) m.slots).map
    (fun s => (mtable_traverse_key m.idx s.1, s.2))

/-! ## ht64_t -/

/-- Chained hash table `ht64_t`, kept as the list of its nodes (key, value).  The bucket array and
the order inside a chain do not show through `ht64_find`, `ht64_insert` and `ht64_remove`. -/
structure ht64_t (V : Type) where
  nodes : List (Nat × V)
  item_count : Nat

/-- The table built by `ht64_init`. -/
def ht64_init {V : Type} : ht64_t V := { nodes := [], item_count := 0 }

/-- The lookup `ht64_find`, with `none` for the default value (callers pass `0UL`, i.e. NULL). -/
def ht64_find {V : Type} (ht : ht64_t V) (key : Nat) : Option V := alist_find ht.nodes key

/-- The insertion `ht64_insert`: no insertion if the key exists; the `Bool` is the C return
value (1 = a node was created). -/
def ht64_insert {V : Type} (ht : ht64_t V) (key : Nat) (value : V) : ht64_t V × Bool :=
  match alist_find ht.nodes key with
  | some _ => (ht, false)
  | none => ({ nodes := (key, value) :: ht.nodes, item_count := ht.item_count + 1 }, true)

/-- The removal `ht64_remove`: returns the removed value, `none` (the default) if the key is
absent. -/
def ht64_remove {V : Type} (ht : ht64_t V) (key : Nat) : ht64_t V × Option V :=
  match alist_find ht.nodes key with
  | none => (ht, none)
  | some v => ({ nodes := alist_erase ht.nodes key, item_count := ht.item_count - 1 }, some v)

/-- Write through a pointer obtained from `ht64_find`: the object filed under `key` becomes
`value` (the table itself is not touched by such a write in C). -/
def ht64_store {V : Type} (ht : ht64_t V) (key : Nat) (value : V) : ht64_t V :=
  { ht with nodes := alist_set ht.nodes key value }

/-! ## overlay_t and omt_t -/

/-- Overlay page `overlay_page_t`. -/
structure overlay_page_t where
  bitmap : bitmap64_t
  ref_count : Nat
  deriving DecidableEq

/-- Overlay epoch `overlay_epoch_t`; `mtable` maps page addresses to pages. -/
structure overlay_epoch_t where
  epoch : Nat
  mtable : mtable_t overlay_page_t
  overlay_page_count : Nat
  size : Nat
  merged : Bool

/-- Overlay `overlay_t`; `epochs` maps epoch numbers to overlay epochs. -/
structure overlay_t where
  epochs : ht64_t overlay_epoch_t
  size : Nat
  epoch_count : Nat
  epoch_init_count : Nat
  epoch_gc_count : Nat

/-- Mapping table `omt_t`: the terminal slots hold the handle (epoch number) of the overlay epoch
that owns the line. -/
structure omt_t where
  mtable : mtable_t Nat
  write_count : Nat

/-- Index levels given to the OMT by `omt_init`. -/
def omt_idx : List mtable_idx_t := [⟨39, 9⟩, ⟨30, 9⟩, ⟨21, 9⟩, ⟨12, 9⟩, ⟨6, 6⟩]

/-- Index levels given to an overlay epoch by `overlay_epoch_init`. -/
def overlay_epoch_idx : List mtable_idx_t := [⟨39, 9⟩, ⟨30, 9⟩, ⟨21, 9⟩, ⟨12, 9⟩]

/-- The table built by `omt_init`. -/
def omt_init : omt_t := { mtable := mtable_init omt_idx, write_count := 0 }

/-- The function `omt_merge_line`: returns the previous content of the slot. -/
def omt_merge_line (omt : omt_t) (overlay_epoch : Nat) (line_addr : Nat) : omt_t × Option Nat :=
  let before_pages := omt.mtable.page_count
  let m1 := mtable_insert omt.mtable line_addr
  let after_pages := m1.page_count
  let old_overlay_epoch := mtable_find m1 line_addr
  ({ mtable := mtable_slot_write m1 line_addr overlay_epoch,
     write_count := omt.write_count + (after_pages - before_pages + 1) }, old_overlay_epoch)

/-- The page built by `overlay_page_init`. -/
def overlay_page_init : overlay_page_t := { bitmap := bitmap64_clear, ref_count := 0 }

/-- The epoch built by `overlay_epoch_init` (the caller sets `epoch`). -/
def overlay_epoch_init : overlay_epoch_t :=
  { epoch := 0, mtable := mtable_init overlay_epoch_idx, overlay_page_count := 0, size := 0,
    merged := false }

/-- The function `overlay_page_size_class`. -/
def overlay_page_size_class (line_count : Nat) : Except Abort Nat := do
  c_assert (decide (line_count < UTIL_PAGE_SIZE / UTIL_CACHE_LINE_SIZE)) 1432
  if line_count ≤ 3 then pure 256
  else if line_count ≤ 7 then pure 512
  else if line_count ≤ 15 then pure 1024
  else if line_count ≤ 31 then pure 2048
  else pure 4096

/-- The function `overlay_epoch_insert`: the new epoch and the bytes to add to the overlay. -/
def overlay_epoch_insert (overlay_epoch : overlay_epoch_t) (addr : Nat) :
    Except Abort (overlay_epoch_t × Nat) := do
  let m1 := mtable_insert overlay_epoch.mtable addr
  let created := (mtable_find m1 addr).isNone
  let page0 := (mtable_find m1 addr).getD overlay_page_init
  let count1 := if created then overlay_epoch.overlay_page_count + 1
                else overlay_epoch.overlay_page_count
  let offset := page_line_offset addr
  c_assert (decide (offset < 64)) 1466
  let before_num := bitmap64_popcount page0.bitmap
  let page1 : overlay_page_t :=
    { bitmap := bitmap64_add page0.bitmap offset, ref_count := page0.ref_count + 1 }
  let after_num := bitmap64_popcount page1.bitmap
  let e1 : overlay_epoch_t :=
    { overlay_epoch with mtable := mtable_slot_write m1 addr page1, overlay_page_count := count1 }
  if before_num = after_num then pure (e1, 0)
  else do
    c_assert (decide (after_num = before_num + 1)) 1474
    let ret : Nat :=
      if before_num = 0 then 256
      else if before_num = 3 then 256
      else if before_num = 7 then 512
      else if before_num = 15 then 1024
      else if before_num = 31 then 2048
      else 0
    pure ({ e1 with size := e1.size + ret }, ret)

/-- The function `overlay_epoch_find` without its `error_exit` (the caller aborts on `none`). -/
def overlay_epoch_find (overlay_epoch : overlay_epoch_t) (addr : Nat) : Option overlay_page_t :=
  mtable_find overlay_epoch.mtable addr

/-- The overlay built by `overlay_init`. -/
def overlay_init : overlay_t :=
  { epochs := ht64_init, size := 0, epoch_count := 0, epoch_init_count := 0, epoch_gc_count := 0 }

/-- Modelled from the spec: the header's `overlay_find`, the lookup of an epoch number in
`overlay->epochs`, NULL (`none`) when the overlay holds no such epoch (its callers test the
result against NULL). -/
def overlay_find (overlay : overlay_t) (epoch : Nat) : Option overlay_epoch_t :=
  ht64_find overlay.epochs epoch

/-- The function `overlay_insert`. -/
def overlay_insert (overlay : overlay_t) (addr : Nat) (epoch : Nat) : Except Abort overlay_t := do
  c_assert (cache_aligned addr) 1533
  let (ov1, overlay_epoch) ←
    (match ht64_find overlay.epochs epoch with
     | some e => pure (overlay, e)
     | none => do
       let e : overlay_epoch_t := { overlay_epoch_init with epoch := epoch }
       let (ht, ret) := ht64_insert overlay.epochs epoch e
       c_assert ret 1541
       pure ({ overlay with epoch_init_count := overlay.epoch_init_count + 1,
                            epoch_count := overlay.epoch_count + 1, epochs := ht }, e)
     : Except Abort (overlay_t × overlay_epoch_t))
  c_assert (decide (overlay_epoch.epoch = epoch)) 1543
  if overlay_epoch.merged then .error (.error_exit 1545)
  else do
    let (e1, ret) ← overlay_epoch_insert overlay_epoch addr
    pure { ov1 with epochs := ht64_store ov1.epochs epoch e1, size := ov1.size + ret }

/-- The function `overlay_remove`. -/
def overlay_remove (overlay : overlay_t) (epoch : Nat) : Except Abort overlay_t := do
  let (ht, removed) := ht64_remove overlay.epochs epoch
  match removed with
  | none => .error (.error_exit 1555)
  | some overlay_epoch => do
    c_assert (decide (overlay.epoch_count ≠ 0)) 1558
    c_assert (decide (overlay.size ≥ overlay_epoch.size)) 1560
    pure { overlay with epochs := ht, epoch_count := overlay.epoch_count - 1,
                        size := overlay.size - overlay_epoch.size }

/-- The function `overlay_gc_epoch`; `overlay_epoch` is the object the handle points at. -/
def overlay_gc_epoch (overlay : overlay_t) (overlay_epoch : overlay_epoch_t) :
    Except Abort overlay_t := do
  let ov1 := { overlay with epoch_gc_count := overlay.epoch_gc_count + 1 }
  c_assert (decide (overlay_epoch.overlay_page_count = 0)) 1642
  c_assert (decide (overlay_epoch.size = 0)) 1643
  overlay_remove ov1 overlay_epoch.epoch

/-- The function `overlay_line_unlink`; `handle` names the overlay epoch the C pointer points at. -/
def overlay_line_unlink (overlay : overlay_t) (handle : Nat) (addr : Nat) :
    Except Abort overlay_t := do
  c_assert (page_aligned addr) 1617
  match ht64_find overlay.epochs handle with
  | none => .error (.dangling 1618)
  | some overlay_epoch =>
    match overlay_epoch_find overlay_epoch addr with
    | none => .error (.error_exit 1493)
    | some old_overlay_page => do
      c_assert (decide (old_overlay_page.ref_count > 0)) 1620
      let page1 := { old_overlay_page with ref_count := old_overlay_page.ref_count - 1 }
      let e1 := { overlay_epoch with mtable := mtable_slot_write overlay_epoch.mtable addr page1 }
      if page1.ref_count = 0 then do
        c_assert (decide (e1.overlay_page_count ≠ 0)) 1624
        let e2 := { e1 with overlay_page_count := e1.overlay_page_count - 1 }
        let page_size ← overlay_page_size_class (bitmap64_popcount page1.bitmap)
        c_assert (decide (e2.size ≥ page_size)) 1628
        c_assert (decide (overlay.size ≥ page_size)) 1629
        let e3 := { e2 with size := e2.size - page_size }
        let ov1 := { overlay with epochs := ht64_store overlay.epochs handle e3,
                                  size := overlay.size - page_size }
        if e3.overlay_page_count = 0 then overlay_gc_epoch ov1 e3
        else pure ov1
      else
        pure { overlay with epochs := ht64_store overlay.epochs handle e1 }

/-- Inner loop of `overlay_merge_epoch_cb`: one iteration per set bit `line_offset` of the page. -/
def overlay_merge_lines (overlay_epoch : Nat) (page_addr : Nat) :
    List Nat → overlay_t × omt_t → Except Abort (overlay_t × omt_t)
  | [], st => pure st
  | line_offset :: rest, (overlay, omt) => do
    let line_addr := page_addr ||| (line_offset <<< UTIL_CACHE_LINE_BITS)
    let (omt1, old_overlay_epoch) := omt_merge_line omt overlay_epoch line_addr
    let ov1 ← (match old_overlay_epoch with
               | some old => overlay_line_unlink overlay old page_addr
               | none => pure overlay : Except Abort overlay_t)
    overlay_merge_lines overlay_epoch page_addr rest (ov1, omt1)

/-- The callback `overlay_merge_epoch_cb` for the page `node` met at key `page_addr`. -/
def overlay_merge_epoch_cb (overlay_epoch : Nat) (page_addr : Nat) (node : overlay_page_t)
    (st : overlay_t × omt_t) : Except Abort (overlay_t × omt_t) :=
  overlay_merge_lines overlay_epoch page_addr (bitmap64_members node.bitmap) st

/-- The traversal started by `overlay_epoch_merge` over the pages of the merged epoch. -/
def overlay_merge_pages (overlay_epoch : Nat) :
    List (Nat × overlay_page_t) → overlay_t × omt_t → Except Abort (overlay_t × omt_t)
  | [], st => pure st
  | (page_addr, node) :: rest, st => do
    let st1 ← overlay_merge_epoch_cb overlay_epoch page_addr node st
    overlay_merge_pages overlay_epoch rest st1

/-- The function `overlay_epoch_merge`.  The pages and bitmaps of the merged epoch are read
before the walk; the walk itself only changes reference counts and sizes. -/
def overlay_epoch_merge (overlay : overlay_t) (epoch : Nat) (omt : omt_t) :
    Except Abort (overlay_t × omt_t) :=
  match overlay_find overlay epoch with
  | none => .error (.assert_fail 1607)
  | some overlay_epoch => do
    c_assert (!overlay_epoch.merged) 1608
    let e1 := { overlay_epoch with merged := true }
    let ov1 := { overlay with epochs := ht64_store overlay.epochs epoch e1 }
    overlay_merge_pages epoch (mtable_traverse e1.mtable) (ov1, omt)

/-! ## Bit helpers of the absent header -/

/-- Modelled from the spec: the header's `popcount_int32`, the number of set bits of an `int`
(its callers test a value for being a power of two). -/
def popcount_int32 (num : Nat) : Nat := ((List.range 32).filter (fun i => num.testBit i)).length

/-- Modelled from the spec: the header's `popcount_uint64`, the number of set bits of a
`uint64_t`. -/
def popcount_uint64 (num : Nat) : Nat := ((List.range 64).filter (fun i => num.testBit i)).length

/-- The compiler builtin `__builtin_ffs` on an `int`: one plus the index of the least set bit,
zero for zero. -/
def builtin_ffs (num : Nat) : Nat :=
  match (List.range 32).find? (fun i => num.testBit i) with
  | some i => i + 1
  | none => 0

/-! ## nvm_t -/

/-- NVM timing model `nvm_t`; `banks` is the array of busy-until cycles. -/
structure nvm_t where
  rlat : Nat
  wlat : Nat
  bank_count : Nat
  mask : Nat
  bank_bit : Nat
  banks : Nat → Nat
  read_count : Nat
  write_count : Nat
  uncontended_read_count : Nat
  uncontended_write_count : Nat

/-- The device built by `nvm_init` (the power-of-two test is made by the caller below). -/
def nvm_init (bank_count rlat wlat : Nat) : nvm_t :=
  { rlat := rlat, wlat := wlat, bank_count := bank_count, mask := bank_count - 1,
    bank_bit := popcount_uint64 (bank_count - 1), banks := fun _ => 0, read_count := 0, write_count := 0,
    uncontended_read_count := 0, uncontended_write_count := 0 }

/-- The function `nvm_access`: the new bank array, the finish cycle and whether the access was
uncontended (the C code then increments the counter it was handed).  `finish_cycle` is a
`uint64_t`. -/
def nvm_access (nvm : nvm_t) (addr cycle lat : Nat) : Except Abort ((Nat → Nat) × Nat × Bool) := do
  let index := (addr >>> UTIL_CACHE_LINE_BITS) &&& nvm.mask
  c_assert (decide (index < nvm.bank_count)) 1691
  let uncontended := decide (cycle ≥ nvm.banks index)
  let finish_cycle :=
    if uncontended then (cycle + lat) % 2 ^ 64 else (nvm.banks index + lat) % 2 ^ 64
  pure (Function.update nvm.banks index finish_cycle, finish_cycle, uncontended)

/-- Modelled from the spec: the header's `nvm_write`, an `nvm_access` with the write latency that
counts the write and, when uncontended, the uncontended write (NvmTiming, §4.3). -/
def nvm_write (nvm : nvm_t) (addr cycle : Nat) : Except Abort nvm_t := do
  let (banks, _, uncontended) ← nvm_access nvm addr cycle nvm.wlat
  pure { nvm with banks := banks, write_count := nvm.write_count + 1,
                  uncontended_write_count :=
                    nvm.uncontended_write_count + (if uncontended then 1 else 0) }

/-! ## omcbuf_t -/

/-- Entry `omcbuf_entry_t` of the OMC buffer. -/
structure omcbuf_entry_t where
  tag : Nat
  epoch : Nat
  lru : Nat
  deriving DecidableEq

/-- The value `-1UL`. -/
def UINT64_MAX : Nat := 2 ^ 64 - 1

/-- OMC buffer `omcbuf_t`; `array` has `sets * ways` entries, set after set. -/
structure omcbuf_t where
  sets : Nat
  ways : Nat
  set_idx_bits : Nat
  set_mask : Nat
  array : Nat → omcbuf_entry_t
  lru_counter : Nat
  access_count : Nat
  hit_count : Nat
  miss_count : Nat
  evict_count : Nat

/-- The function `util_log2_int32` of `util.cpp`; the line is that of the caller. -/
def util_log2_int32 (num : Nat) (line : Nat) : Except Abort Nat :=
  if popcount_int32 num ≠ 1 then .error (.error_exit line) else pure (builtin_ffs num - 1)

/-- The buffer built by `omcbuf_init`. -/
def omcbuf_init (sets ways : Nat) : Except Abort omcbuf_t := do
  let set_idx_bits ← util_log2_int32 sets 1317
  pure { sets := sets, ways := ways, set_idx_bits := set_idx_bits,
         set_mask := (1 <<< set_idx_bits) - 1,
         array := fun _ => { tag := 0, epoch := UINT64_MAX, lru := 0 },
         lru_counter := 0, access_count := 0, hit_count := 0, miss_count := 0, evict_count := 0 }

/-- Result of the first loop of `omcbuf_insert`. -/
inductive omcbuf_scan_t where
  | hit
  | fill (index : Nat)
  | full

/-- First loop of `omcbuf_insert` over the ways `i` of the set starting at `start`. -/
def omcbuf_scan (array : Nat → omcbuf_entry_t) (start tag epoch : Nat) : List Nat → omcbuf_scan_t
  | [] => .full
  | i :: rest =>
    if (array (start + i)).tag = tag ∧ (array (start + i)).epoch = epoch then .hit
    else if (array (start + i)).epoch = UINT64_MAX then .fill (start + i)
    else omcbuf_scan array start tag epoch rest

/-- Second loop of `omcbuf_insert`: the running minimum `lru` and its way `lru_index`
(`-1` before any way is chosen). -/
def omcbuf_lru_scan (array : Nat → omcbuf_entry_t) (start : Nat) :
    List Nat → Nat × Int → Except Abort (Nat × Int)
  | [], acc => pure acc
  | i :: rest, (lru, lru_index) => do
    c_assert (decide ((array (start + i)).epoch ≠ UINT64_MAX)) 1365
    if (array (start + i)).lru < lru then
      omcbuf_lru_scan array start rest ((array (start + i)).lru, (i : Int))
    else omcbuf_lru_scan array start rest (lru, lru_index)

/-- The function `omcbuf_insert`.  The second component is the call of `evict_cb` the function
makes, if any: `(evict_addr, epoch, cycle)`; the callback does not touch the buffer, and the
caller below runs it.  `lru_counter` is a `uint64_t`. -/
def omcbuf_insert (omcbuf : omcbuf_t) (addr epoch cycle : Nat) :
    Except Abort (omcbuf_t × Option (Nat × Nat × Nat)) := do
  c_assert (decide (epoch ≠ UINT64_MAX)) 1337
  c_assert (cache_aligned addr) 1338
  let ob := { omcbuf with access_count := omcbuf.access_count + 1 }
  let set_index := (addr >>> UTIL_CACHE_LINE_BITS) &&& ob.set_mask
  let tag := addr >>> (UTIL_CACHE_LINE_BITS + ob.set_idx_bits)
  let start := set_index * ob.ways
  match omcbuf_scan ob.array start tag epoch (List.range ob.ways) with
  | .hit => pure ({ ob with hit_count := ob.hit_count + 1 }, none)
  | .fill index =>
    pure ({ ob with array := Function.update ob.array index
                               { tag := tag, epoch := epoch,
                                 lru := (ob.lru_counter + 1) % 2 ^ 64 },
                    lru_counter := (ob.lru_counter + 1) % 2 ^ 64,
                    miss_count := ob.miss_count + 1 }, none)
  | .full => do
    let ob1 := { ob with miss_count := ob.miss_count + 1 }
    let (_, lru_index) ← omcbuf_lru_scan ob1.array start (List.range ob1.ways) (UINT64_MAX, -1)
    let index := ((start : Int) + lru_index).toNat
    let curr := ob1.array index
    let evict_addr := (((curr.tag <<< ob1.set_idx_bits) ||| set_index) <<< UTIL_CACHE_LINE_BITS)
                        % 2 ^ 64
    pure ({ ob1 with array := Function.update ob1.array index
                                { tag := tag, epoch := epoch,
                                  lru := (ob1.lru_counter + 1) % 2 ^ 64 },
                     lru_counter := (ob1.lru_counter + 1) % 2 ^ 64,
                     evict_count := ob1.evict_count + 1 },
          some (evict_addr, curr.epoch, cycle))

/-! ## cpu_t -/

/-- Per-core state `core_t`. -/
structure core_t where
  epoch : Nat
  epoch_store_count : Nat
  total_store_count : Nat
  last_walk_epoch : Nat
  tag_walk_evict_count : Nat
  deriving DecidableEq

/-- Tag array `cpu_tag_t` of one cache level.  `tags` is the array of `ver_t` pointers, indexed
core, set, way; a pointer is the line address of its record, `none` is NULL. -/
structure cpu_tag_t where
  tags : Nat → Option Nat
  sets : Nat
  ways : Nat
  mask : Nat
  core_ver_count : Nat
  set_bits : Nat

/-- Modelled from the spec: the header constant `CPU_TAG_L1` (level index of the L1 array). -/
def CPU_TAG_L1 : Nat := 0

/-- Modelled from the spec: the header constant `CPU_TAG_L2` (level index of the L2 array). -/
def CPU_TAG_L2 : Nat := 1

/-- Modelled from the spec: the header constant `CPU_TAG_MAX`, the number of tag arrays (one per
level L1, L2; spec §4.8). -/
def CPU_TAG_MAX : Nat := 2

/-- Modelled from the spec: the header constant `CORE_COUNT_MAX`; a sharer set has 64 elements
(spec §3). -/
def CORE_COUNT_MAX : Nat := 64

/-- Processor `cpu_t`. -/
structure cpu_t where
  core_count : Nat
  cores : Nat → core_t
  tag_arrays : Nat → cpu_tag_t
  total_advance_count : Nat
  coherence_advance_count : Nat
  skip_epoch_count : Nat

/-- The processor built by `cpu_init` (all fields zeroed, tag arrays not yet allocated). -/
def cpu_init (core_count : Nat) : cpu_t :=
  { core_count := core_count,
    cores := fun _ => { epoch := 0, epoch_store_count := 0, total_store_count := 0,
                        last_walk_epoch := 0, tag_walk_evict_count := 0 },
    tag_arrays := fun _ => { tags := fun _ => none, sets := 0, ways := 0, mask := 0,
                             core_ver_count := 0, set_bits := 0 },
    total_advance_count := 0, coherence_advance_count := 0, skip_epoch_count := 0 }

/-- Modelled from the spec: the header's `cpu_get_core`; a core id out of range is a usage error
(spec §7).  The line is that of the caller. -/
def cpu_get_core (cpu : cpu_t) (id : Nat) (line : Nat) : Except Abort core_t :=
  if id < cpu.core_count then pure (cpu.cores id) else .error (.assert_fail line)

/-- The function `cpu_core_recv`. -/
def cpu_core_recv (cpu : cpu_t) (id : Nat) (version : Nat) : Except Abort cpu_t := do
  c_assert (decide (id < cpu.core_count)) 693
  let core := cpu.cores id
  if version > core.epoch then
    pure { cpu with
      skip_epoch_count := cpu.skip_epoch_count + (if version = (core.epoch + 1) % 2 ^ 64 then 0 else 1),
      coherence_advance_count := cpu.coherence_advance_count + 1,
      total_advance_count := cpu.total_advance_count + 1,
      cores := Function.update cpu.cores id { core with epoch := version, epoch_store_count := 0 } }
  else pure cpu

/-- The function `cpu_advance_epoch`; `epoch` is a `uint64_t`. -/
def cpu_advance_epoch (cpu : cpu_t) (id : Nat) : Except Abort cpu_t := do
  c_assert (decide (id < cpu.core_count)) 710
  let core := cpu.cores id
  pure { cpu with
    cores := Function.update cpu.cores id
      { core with epoch := (core.epoch + 1) % 2 ^ 64, epoch_store_count := 0 },
    total_advance_count := cpu.total_advance_count + 1 }

/-- The function `cpu_tag_init`. -/
def cpu_tag_init (cpu : cpu_t) (level sets ways : Nat) : Except Abort cpu_t := do
  c_assert (popcount_int32 sets == 1) 730
  if level ≥ CPU_TAG_MAX then .error (.error_exit 732)
  else do
    let set_bits ← util_log2_int32 sets 743
    let tag_array : cpu_tag_t :=
      { tags := fun _ => none, sets := sets, ways := ways, mask := sets - 1,
        core_ver_count := sets * ways, set_bits := set_bits }
    pure { cpu with tag_arrays := Function.update cpu.tag_arrays level tag_array }

/-- Modelled from the spec: the header's `cpu_addr_tag_begin`, the index of the first way of the
set of `addr` in the tag array of core `id` (per-level, per-core, set-associative arrays, spec
§4.8; the array is laid out core, set, way as `cpu_tag_init` says). -/
def cpu_addr_tag_begin (cpu : cpu_t) (level id addr : Nat) : Nat :=
  let tag_array := cpu.tag_arrays level
  id * tag_array.core_ver_count
    + ((addr >>> UTIL_CACHE_LINE_BITS) &&& tag_array.mask) * tag_array.ways

/-- Modelled from the spec: the header's `cpu_core_tag_begin`, the index of the first tag slot
of core `id` (spec §4.8). -/
def cpu_core_tag_begin (cpu : cpu_t) (level id : Nat) : Nat :=
  id * (cpu.tag_arrays level).core_ver_count

/-- Loop of `cpu_tag_insert` over the ways `i` of the set starting at `start`. -/
def cpu_tag_insert_scan (tags : Nat → Option Nat) (ver_addr start : Nat) :
    List Nat → Except Abort (Nat → Option Nat)
  | [] => .error (.error_exit 762)
  | i :: rest =>
    if tags (start + i) = some ver_addr then .error (.error_exit 755)
    else if tags (start + i) = none then pure (Function.update tags (start + i) (some ver_addr))
    else cpu_tag_insert_scan tags ver_addr start rest

/-- The function `cpu_tag_insert`; `ver_addr` is the pointer to the record. -/
def cpu_tag_insert (cpu : cpu_t) (level id ver_addr : Nat) : Except Abort cpu_t := do
  let tag_array := cpu.tag_arrays level
  let start := cpu_addr_tag_begin cpu level id ver_addr
  c_assert (decide (0 < tag_array.ways)) 752
  let tags ← cpu_tag_insert_scan tag_array.tags ver_addr start (List.range tag_array.ways)
  pure { cpu with
    tag_arrays := Function.update cpu.tag_arrays level ({ tag_array with tags := tags }) }

/-- Loop of `cpu_tag_remove` over the ways `i` of the set starting at `start`. -/
def cpu_tag_remove_scan (tags : Nat → Option Nat) (ver_addr start : Nat) :
    List Nat → Except Abort (Nat → Option Nat)
  | [] => .error (.error_exit 779)
  | i :: rest =>
    if tags (start + i) = some ver_addr then pure (Function.update tags (start + i) none)
    else cpu_tag_remove_scan tags ver_addr start rest

/-- The function `cpu_tag_remove`. -/
def cpu_tag_remove (cpu : cpu_t) (level id ver_addr : Nat) : Except Abort cpu_t := do
  let tag_array := cpu.tag_arrays level
  let start := cpu_addr_tag_begin cpu level id ver_addr
  c_assert (decide (0 < tag_array.ways)) 770
  let tags ← cpu_tag_remove_scan tag_array.tags ver_addr start (List.range tag_array.ways)
  pure { cpu with
    tag_arrays := Function.update cpu.tag_arrays level ({ tag_array with tags := tags }) }

/-! ## ver_t and vtable_t -/

/-- Modelled from the spec: the header's owner codes, `owner ∈ {L1, L2, OTHER}` (spec §3). -/
inductive owner_t where
  | OWNER_OTHER
  | OWNER_L1
  | OWNER_L2
  deriving DecidableEq

/-- Modelled from the spec: the header's state codes (spec §3); `ver_print` names them
`I, S, E, M` in the order of their values, so a zeroed record is in state `I`. -/
inductive state_t where
  | STATE_I
  | STATE_S
  | STATE_E
  | STATE_M
  deriving DecidableEq

export owner_t (OWNER_OTHER OWNER_L1 OWNER_L2)
export state_t (STATE_I STATE_S STATE_E STATE_M)

/-- Version record `ver_t`. -/
structure ver_t where
  addr : Nat
  owner : owner_t
  l1_state : state_t
  l2_state : state_t
  l1_ver : Nat
  l2_ver : Nat
  other_ver : Nat
  l1_bitmap : bitmap64_t
  l2_bitmap : bitmap64_t
  deriving DecidableEq

/-- The record built by `ver_init` (zeroed, both sharer sets cleared). -/
def ver_init : ver_t :=
  { addr := 0, owner := OWNER_OTHER, l1_state := STATE_I, l2_state := STATE_I, l1_ver := 0,
    l2_ver := 0, other_ver := 0, l1_bitmap := bitmap64_clear, l2_bitmap := bitmap64_clear }

/-- Version table `vtable_t`: `vers` files the records under their line address. -/
structure vtable_t where
  vers : ht64_t ver_t

/-- The table built by `vtable_init`. -/
def vtable_init : vtable_t := { vers := ht64_init }

/-- The function `vtable_insert`: the record of `addr`, created if absent. -/
def vtable_insert (vtable : vtable_t) (addr : Nat) : Except Abort (vtable_t × ver_t) := do
  c_assert (cache_aligned addr) 949
  match ht64_find vtable.vers addr with
  | some ver => pure (vtable, ver)
  | none =>
    let ver := { ver_init with addr := addr, owner := OWNER_OTHER }
    pure ({ vtable with vers := (ht64_insert vtable.vers addr ver).1 }, ver)

/-- Modelled from the spec: the header's `vtable_l1_has_ver`, membership of core `id` in
`l1_sharers` (spec §3, §4.7.1). -/
def vtable_l1_has_ver (ver : ver_t) (id : Nat) : Bool := bitmap64_is_set ver.l1_bitmap id

/-- Modelled from the spec: the header's `vtable_l2_has_ver`, membership of core `id` in
`l2_sharers` (spec §3, §4.7.1). -/
def vtable_l2_has_ver (ver : ver_t) (id : Nat) : Bool := bitmap64_is_set ver.l2_bitmap id

/-- Modelled from the spec: the header's `vtable_l1_num_sharer`, the size of `l1_sharers`. -/
def vtable_l1_num_sharer (ver : ver_t) : Nat := bitmap64_popcount ver.l1_bitmap

/-- Modelled from the spec: the header's `vtable_l2_num_sharer`, the size of `l2_sharers`. -/
def vtable_l2_num_sharer (ver : ver_t) : Nat := bitmap64_popcount ver.l2_bitmap

/-- Modelled from the spec: the header's `bitmap64_iter` started at `-1`: the least member, `-1`
for the empty set (Bitmap64 `iter`, §4.2). -/
def bitmap64_first (b : bitmap64_t) : Int :=
  match bitmap64_members b with
  | [] => -1
  | i :: _ => (i : Int)

/-- Modelled from the spec: the header's `vtable_l1_sharer`, the core in `l1_sharers` when the
set is a singleton (spec §3); it is taken to be the least member, `-1` when there is none. -/
def vtable_l1_sharer (ver : ver_t) : Int := bitmap64_first ver.l1_bitmap

/-- Modelled from the spec: the header's `vtable_l2_sharer`, the core in `l2_sharers` when the
set is a singleton (spec §3); it is taken to be the least member, `-1` when there is none. -/
def vtable_l2_sharer (ver : ver_t) : Int := bitmap64_first ver.l2_bitmap

/-- Codes of the tag operations (`CPU_TAG_OP_*`); the `default:` branch of `cpu_tag_op`, an
`error_exit` on any other code, has no counterpart. -/
inductive cpu_tag_op_t where
  | CPU_TAG_OP_ADD
  | CPU_TAG_OP_REMOVE
  | CPU_TAG_OP_SET
  | CPU_TAG_OP_CLEAR
  deriving DecidableEq

export cpu_tag_op_t (CPU_TAG_OP_ADD CPU_TAG_OP_REMOVE CPU_TAG_OP_SET CPU_TAG_OP_CLEAR)

/-- The `while` loop of `cpu_tag_op` for SET and CLEAR: every core `pos` of the sharer set loses
the tag. -/
def cpu_tag_remove_all (level ver_addr : Nat) : List Nat → cpu_t → Except Abort cpu_t
  | [], cpu => pure cpu
  | pos :: rest, cpu => do
    let cpu1 ← cpu_tag_remove cpu level pos ver_addr
    cpu_tag_remove_all level ver_addr rest cpu1

/-- The function `cpu_tag_op`. -/
def cpu_tag_op (cpu : cpu_t) (op : cpu_tag_op_t) (level core : Nat) (ver : ver_t) :
    Except Abort cpu_t :=
  match op with
  | CPU_TAG_OP_ADD => cpu_tag_insert cpu level core ver.addr
  | CPU_TAG_OP_REMOVE => cpu_tag_remove cpu level core ver.addr
  | _ => do
    if level ≠ CPU_TAG_L1 then c_assert (decide (level = CPU_TAG_L2)) 799
    let bitmap := if level = CPU_TAG_L1 then ver.l1_bitmap else ver.l2_bitmap
    let cpu1 ← cpu_tag_remove_all level ver.addr (bitmap64_members bitmap) cpu
    if op = CPU_TAG_OP_SET then cpu_tag_insert cpu1 level core ver.addr else pure cpu1

/-- Kinds of eviction (`EVICT_OMC`, `EVICT_BOTH`). -/
inductive evict_type_t where
  | EVICT_OMC
  | EVICT_BOTH
  deriving DecidableEq

export evict_type_t (EVICT_OMC EVICT_BOTH)

/-! ## nvoverlay_t: the orchestrator and its callbacks -/

/-- Full-mode state `nvoverlay_t`; `stable_epochs` is the per-core array. -/
structure nvoverlay_t where
  nvm : nvm_t
  omcbuf : omcbuf_t
  overlay : overlay_t
  omt : omt_t
  vtable : vtable_t
  cpu : cpu_t
  epoch_size : Nat
  tag_walk_freq : Nat
  last_stable_epoch : Nat
  stable_epochs : Nat → Nat
  evict_omc_count : Nat
  evict_llc_count : Nat

/-- The callback `nvoverlay_omcbuf_evict_cb`. -/
def nvoverlay_omcbuf_evict_cb (nv : nvoverlay_t) (line_addr version cycle : Nat) :
    Except Abort nvoverlay_t := do
  let overlay ← overlay_insert nv.overlay line_addr version
  let nvm ← nvm_write nv.nvm line_addr cycle
  pure { nv with overlay := overlay, nvm := nvm }

/-- The call `omcbuf_insert(nvoverlay->omcbuf, addr, version, cycle)` as the orchestrator makes
it: the buffer is updated and the eviction callback it emits, if any, is run. -/
def nvoverlay_omcbuf_insert (nv : nvoverlay_t) (addr version cycle : Nat) :
    Except Abort nvoverlay_t := do
  let (omcbuf, evicted) ← omcbuf_insert nv.omcbuf addr version cycle
  let nv1 := { nv with omcbuf := omcbuf }
  match evicted with
  | none => pure nv1
  | some (evict_addr, epoch, c) => nvoverlay_omcbuf_evict_cb nv1 evict_addr epoch c

/-- The callback `nvoverlay_vtable_evict_cb`; `id` is not used. -/
def nvoverlay_vtable_evict_cb (nv : nvoverlay_t) (addr : Nat) (_id : Int) (version cycle : Nat)
    (evict_type : evict_type_t) : Except Abort nvoverlay_t :=
  match evict_type with
  | EVICT_BOTH =>
    nvoverlay_omcbuf_insert
      { nv with evict_omc_count := nv.evict_omc_count + 1,
                evict_llc_count := nv.evict_llc_count + 1 } addr version cycle
  | EVICT_OMC => pure { nv with evict_llc_count := nv.evict_llc_count + 1 }

/-- The callback `nvoverlay_vtable_core_recv_cb`. -/
def nvoverlay_vtable_core_recv_cb (nv : nvoverlay_t) (id version : Nat) :
    Except Abort nvoverlay_t := do
  let cpu ← cpu_core_recv nv.cpu id version
  pure { nv with cpu := cpu }

/-- The callback `nvoverlay_vtable_core_tag_cb`. -/
def nvoverlay_vtable_core_tag_cb (nv : nvoverlay_t) (op : cpu_tag_op_t) (level id : Nat)
    (ver : ver_t) : Except Abort nvoverlay_t := do
  let cpu ← cpu_tag_op nv.cpu op level id ver
  pure { nv with cpu := cpu }

/-- The callback `nvoverlay_cpu_tag_walk_cb`; `id` is not used. -/
def nvoverlay_cpu_tag_walk_cb (nv : nvoverlay_t) (line_addr : Nat) (_id : Nat)
    (version cycle : Nat) : Except Abort nvoverlay_t :=
  nvoverlay_omcbuf_insert nv line_addr version cycle

/-! ## The version table operations

The header's sharer-set helpers and the eviction wrapper are absent from the sources; each is
modelled from the spec.  A `ver_t` is handled locally during an operation and stored back into
the table at the end (`vtable_commit`); the callbacks receive the record as it stands at the time
of the call, as they do through the C pointer. -/

/-- Modelled from the spec: the header's `vtable_evict_wrapper`, which hands the eviction
`(line_addr, core, version, cycle, kind)` to the orchestrator through `evict_cb` (spec §4.7,
Eviction emit).  The statistics it may keep in the table are not modelled. -/
def vtable_evict_wrapper (nv : nvoverlay_t) (addr : Nat) (id : Int) (version cycle : Nat)
    (evict_type : evict_type_t) : Except Abort nvoverlay_t :=
  nvoverlay_vtable_evict_cb nv addr id version cycle evict_type

/-- Modelled from the spec: the header's `vtable_l1_add_ver`: tag operation ADD at L1, and core
`id` joins `l1_sharers` (spec §4.7, Tag-array mirror). -/
def vtable_l1_add_ver (nv : nvoverlay_t) (ver : ver_t) (id : Nat) :
    Except Abort (nvoverlay_t × ver_t) := do
  let nv1 ← nvoverlay_vtable_core_tag_cb nv CPU_TAG_OP_ADD CPU_TAG_L1 id ver
  pure (nv1, { ver with l1_bitmap := bitmap64_add ver.l1_bitmap id })

/-- Modelled from the spec: the header's `vtable_l2_add_ver`: tag operation ADD at L2, and core
`id` joins `l2_sharers` (spec §4.7, Tag-array mirror). -/
def vtable_l2_add_ver (nv : nvoverlay_t) (ver : ver_t) (id : Nat) :
    Except Abort (nvoverlay_t × ver_t) := do
  let nv1 ← nvoverlay_vtable_core_tag_cb nv CPU_TAG_OP_ADD CPU_TAG_L2 id ver
  pure (nv1, { ver with l2_bitmap := bitmap64_add ver.l2_bitmap id })

/-- Modelled from the spec: the header's `vtable_l1_rm_ver`: tag operation REMOVE at L1, and core
`id` leaves `l1_sharers` (spec §4.7, Tag-array mirror). -/
def vtable_l1_rm_ver (nv : nvoverlay_t) (ver : ver_t) (id : Nat) :
    Except Abort (nvoverlay_t × ver_t) := do
  let nv1 ← nvoverlay_vtable_core_tag_cb nv CPU_TAG_OP_REMOVE CPU_TAG_L1 id ver
  pure (nv1, { ver with l1_bitmap := bitmap64_remove ver.l1_bitmap id })

/-- Modelled from the spec: the header's `vtable_l2_rm_ver`: tag operation REMOVE at L2, and core
`id` leaves `l2_sharers` (spec §4.7, Tag-array mirror). -/
def vtable_l2_rm_ver (nv : nvoverlay_t) (ver : ver_t) (id : Nat) :
    Except Abort (nvoverlay_t × ver_t) := do
  let nv1 ← nvoverlay_vtable_core_tag_cb nv CPU_TAG_OP_REMOVE CPU_TAG_L2 id ver
  pure (nv1, { ver with l2_bitmap := bitmap64_remove ver.l2_bitmap id })

/-- Modelled from the spec: the header's `vtable_l1_set_ver`: tag operation SET at L1, issued
while the record still shows the old sharers (the comment above `cpu_tag_op`), and `l1_sharers`
becomes `{id}` (SET clears all existing sharers then adds one, spec §4.7). -/
def vtable_l1_set_ver (nv : nvoverlay_t) (ver : ver_t) (id : Nat) :
    Except Abort (nvoverlay_t × ver_t) := do
  let nv1 ← nvoverlay_vtable_core_tag_cb nv CPU_TAG_OP_SET CPU_TAG_L1 id ver
  pure (nv1, { ver with l1_bitmap := bitmap64_add bitmap64_clear id })

/-- Modelled from the spec: the header's `vtable_l2_set_ver`: tag operation SET at L2, issued
while the record still shows the old sharers, and `l2_sharers` becomes `{id}` (spec §4.7). -/
def vtable_l2_set_ver (nv : nvoverlay_t) (ver : ver_t) (id : Nat) :
    Except Abort (nvoverlay_t × ver_t) := do
  let nv1 ← nvoverlay_vtable_core_tag_cb nv CPU_TAG_OP_SET CPU_TAG_L2 id ver
  pure (nv1, { ver with l2_bitmap := bitmap64_add bitmap64_clear id })

/-- Modelled from the spec: the header's `vtable_l1_clear_sharer`: tag operation CLEAR at L1,
issued while the record still shows the old sharers, and `l1_sharers` becomes empty (CLEAR
removes all, spec §4.7). -/
def vtable_l1_clear_sharer (nv : nvoverlay_t) (ver : ver_t) (id : Nat) :
    Except Abort (nvoverlay_t × ver_t) := do
  let nv1 ← nvoverlay_vtable_core_tag_cb nv CPU_TAG_OP_CLEAR CPU_TAG_L1 id ver
  pure (nv1, { ver with l1_bitmap := bitmap64_clear })

/-- Modelled from the spec: the header's `vtable_l2_clear_sharer`: tag operation CLEAR at L2,
issued while the record still shows the old sharers, and `l2_sharers` becomes empty (spec
§4.7). -/
def vtable_l2_clear_sharer (nv : nvoverlay_t) (ver : ver_t) (id : Nat) :
    Except Abort (nvoverlay_t × ver_t) := do
  let nv1 ← nvoverlay_vtable_core_tag_cb nv CPU_TAG_OP_CLEAR CPU_TAG_L2 id ver
  pure (nv1, { ver with l2_bitmap := bitmap64_clear })

/-- Store the record handled by an operation back under its address (the C code has been
writing through the pointer all along). -/
def vtable_commit (nv : nvoverlay_t) (ver : ver_t) : nvoverlay_t :=
  { nv with vtable := { nv.vtable with vers := ht64_store nv.vtable.vers ver.addr ver } }

/-- The function `vtable_l1_load`. -/
def vtable_l1_load (nv : nvoverlay_t) (addr id _epoch cycle : Nat) : Except Abort nvoverlay_t := do
  let (vtable, ver) ← vtable_insert nv.vtable addr
  let nv := { nv with vtable := vtable }
  if vtable_l1_has_ver ver id then pure nv
  else if vtable_l2_has_ver ver id then do
    c_assert (ver.owner == OWNER_L2 || ver.owner == OWNER_OTHER) 1012
    if ver.owner = OWNER_L2 then
      c_assert (ver.l1_state == STATE_I && ver.l2_state != STATE_I) 1014
    let (nv, ver) ← vtable_l1_add_ver nv ver id
    let ver := { ver with l1_state := STATE_S, l1_ver := ver.l2_ver }
    pure (vtable_commit nv ver)
  else if ver.owner = OWNER_OTHER then do
    let ver := { ver with l1_ver := ver.other_ver, l2_ver := ver.other_ver,
                          l1_state := STATE_S, l2_state := STATE_S }
    let (nv, ver) ← vtable_l1_add_ver nv ver id
    let (nv, ver) ← vtable_l2_add_ver nv ver id
    let nv ← nvoverlay_vtable_core_recv_cb nv id ver.other_ver
    pure (vtable_commit nv ver)
  else do
    let (nv, ver) ←
      (if ver.owner = OWNER_L1 then do
        c_assert (vtable_l1_num_sharer ver == 1 && vtable_l2_num_sharer ver == 1) 1033
        c_assert (vtable_l1_sharer ver == vtable_l2_sharer ver) 1034
        c_assert (ver.l1_state == STATE_M) 1035
        let nv ←
          (if ver.l2_state = STATE_M ∧ ver.l2_ver ≠ ver.l1_ver then do
            c_assert (decide (ver.l2_ver < ver.l1_ver)) 1038
            vtable_evict_wrapper nv ver.addr (vtable_l2_sharer ver) ver.l2_ver cycle EVICT_OMC
          else pure nv : Except Abort nvoverlay_t)
        let nv ← vtable_evict_wrapper nv ver.addr (vtable_l1_sharer ver) ver.l1_ver cycle EVICT_BOTH
        pure (nv, { ver with other_ver := ver.l1_ver })
      else do
        c_assert (ver.owner == OWNER_L2) 1046
        c_assert (ver.l2_state == STATE_M) 1047
        c_assert (decide (vtable_l1_num_sharer ver ≤ 1) && vtable_l2_num_sharer ver == 1) 1048
        if vtable_l1_num_sharer ver = 1 then do
          c_assert (vtable_l1_sharer ver == vtable_l2_sharer ver) 1050
          c_assert (ver.l1_state == STATE_S) 1051
        else
          c_assert (ver.l1_state == STATE_I) 1053
        let nv ← vtable_evict_wrapper nv ver.addr (vtable_l2_sharer ver) ver.l2_ver cycle EVICT_BOTH
        pure (nv, { ver with other_ver := ver.l2_ver })
       : Except Abort (nvoverlay_t × ver_t))
    let ver := { ver with owner := OWNER_OTHER }
    let (nv, ver) ← vtable_l1_add_ver nv ver id
    let (nv, ver) ← vtable_l2_add_ver nv ver id
    let nv ← nvoverlay_vtable_core_recv_cb nv id ver.other_ver
    pure (vtable_commit nv ver)

/-- The function `vtable_l1_store`. -/
def vtable_l1_store (nv : nvoverlay_t) (addr id epoch cycle : Nat) : Except Abort nvoverlay_t := do
  let (vtable, ver) ← vtable_insert nv.vtable addr
  let nv := { nv with vtable := vtable }
  if ver.owner = OWNER_L1 ∧ vtable_l1_sharer ver = (id : Int) then do
    -- Case 1
    c_assert (vtable_l1_num_sharer ver == 1 && vtable_l2_num_sharer ver == 1) 1081
    c_assert (vtable_l2_sharer ver == (id : Int)) 1082
    c_assert (ver.l1_state == STATE_M && ver.l2_state != STATE_I) 1083
    if ver.l1_ver = epoch then pure nv
    else do
      let nv ←
        (if ver.l2_state = STATE_M ∧ ver.l2_ver ≠ ver.l1_ver then do
          c_assert (decide (ver.l2_ver < ver.l1_ver)) 1090
          vtable_evict_wrapper nv ver.addr id ver.l2_ver cycle EVICT_OMC
        else pure nv : Except Abort nvoverlay_t)
      let ver := { ver with l2_state := STATE_M, l2_ver := ver.l1_ver, l1_ver := epoch }
      pure (vtable_commit nv ver)
  else if ver.owner = OWNER_L2 ∧ vtable_l2_sharer ver = (id : Int) then do
    -- Case 2
    c_assert (decide (vtable_l1_num_sharer ver ≤ 1) && vtable_l2_num_sharer ver == 1) 1101
    c_assert (ver.l2_state == STATE_M) 1102
    if vtable_l1_num_sharer ver = 1 then do
      c_assert (vtable_l1_sharer ver == (id : Int)) 1104
      c_assert (ver.l1_state == STATE_S) 1105
    else
      c_assert (ver.l1_state == STATE_I) 1107
    let ver := { ver with owner := OWNER_L1, l1_state := STATE_M, l1_ver := epoch }
    let (nv, ver) ← vtable_l1_set_ver nv ver id
    pure (vtable_commit nv ver)
  else if ver.owner = OWNER_OTHER then do
    -- Case 3
    let ver := { ver with owner := OWNER_L1, l1_state := STATE_M, l1_ver := epoch,
                          l2_state := STATE_S, l2_ver := ver.other_ver }
    let (nv, ver) ← vtable_l1_set_ver nv ver id
    let (nv, ver) ← vtable_l2_set_ver nv ver id
    let nv ← nvoverlay_vtable_core_recv_cb nv id ver.other_ver
    pure (vtable_commit nv ver)
  else if ver.owner = OWNER_L1 then do
    -- Case 4
    c_assert (vtable_l1_sharer ver != (id : Int)) 1128
    c_assert (ver.l1_state == STATE_M && ver.l2_state != STATE_I) 1129
    c_assert (vtable_l1_num_sharer ver == 1 && vtable_l2_num_sharer ver == 1) 1130
    c_assert (vtable_l1_sharer ver == vtable_l2_sharer ver) 1131
    let nv ←
      (if ver.l2_state = STATE_M ∧ ver.l2_ver ≠ ver.l1_ver then do
        c_assert (decide (ver.l2_ver < ver.l1_ver)) 1134
        vtable_evict_wrapper nv ver.addr (vtable_l1_sharer ver) ver.l2_ver cycle EVICT_OMC
      else pure nv : Except Abort nvoverlay_t)
    let recv_version := ver.l1_ver
    let ver := { ver with l2_ver := ver.l1_ver, owner := OWNER_L1, l1_state := STATE_M,
                          l1_ver := epoch, l2_state := STATE_M }
    let (nv, ver) ← vtable_l1_set_ver nv ver id
    let (nv, ver) ← vtable_l2_set_ver nv ver id
    let nv ← nvoverlay_vtable_core_recv_cb nv id recv_version
    pure (vtable_commit nv ver)
  else do
    -- Case 5
    c_assert (ver.owner == OWNER_L2 && vtable_l1_sharer ver != (id : Int)) 1148
    c_assert (decide (vtable_l1_num_sharer ver ≤ 1) && vtable_l2_num_sharer ver == 1) 1149
    c_assert (ver.l2_state == STATE_M) 1150
    if vtable_l1_num_sharer ver = 1 then do
      c_assert (vtable_l1_sharer ver == vtable_l2_sharer ver) 1152
      c_assert (ver.l1_state == STATE_S) 1153
    else
      c_assert (ver.l1_state == STATE_I) 1155
    let recv_version := ver.l2_ver
    let ver := { ver with owner := OWNER_L1, l1_state := STATE_M, l1_ver := epoch }
    let (nv, ver) ← vtable_l1_set_ver nv ver id
    let (nv, ver) ← vtable_l2_set_ver nv ver id
    let nv ← nvoverlay_vtable_core_recv_cb nv id recv_version
    pure (vtable_commit nv ver)

/-- The function `vtable_l1_eviction`. -/
def vtable_l1_eviction (nv : nvoverlay_t) (addr id _epoch cycle : Nat) :
    Except Abort nvoverlay_t := do
  let (vtable, ver) ← vtable_insert nv.vtable addr
  let nv := { nv with vtable := vtable }
  c_assert (vtable_l1_has_ver ver id && vtable_l2_has_ver ver id) 1182
  if ver.owner = OWNER_L1 then do
    c_assert (ver.l1_state == STATE_M) 1185
    c_assert (vtable_l1_num_sharer ver == 1 && vtable_l2_num_sharer ver == 1) 1186
    c_assert (vtable_l1_sharer ver == (id : Int) && vtable_l2_sharer ver == (id : Int)) 1187
    let nv ←
      (if ver.l2_state = STATE_M ∧ ver.l2_ver ≠ ver.l1_ver then do
        c_assert (decide (ver.l2_ver < ver.l1_ver)) 1189
        vtable_evict_wrapper nv ver.addr id ver.l2_ver cycle EVICT_OMC
      else pure nv : Except Abort nvoverlay_t)
    let ver := { ver with owner := OWNER_L2, l1_state := STATE_I, l2_state := STATE_M,
                          l2_ver := ver.l1_ver }
    let (nv, ver) ← vtable_l1_rm_ver nv ver id
    pure (vtable_commit nv ver)
  else if ver.owner = OWNER_L2 then do
    c_assert (ver.l2_state == STATE_M) 1199
    c_assert (decide (vtable_l1_num_sharer ver ≤ 1) && vtable_l2_num_sharer ver == 1) 1200
    if vtable_l1_num_sharer ver = 1 then do
      c_assert (vtable_l1_sharer ver == (id : Int)) 1202
      c_assert (ver.l1_state == STATE_S) 1203
    else
      c_assert (ver.l1_state == STATE_I) 1205
    let ver := { ver with l1_state := STATE_I }
    let (nv, ver) ← vtable_l1_rm_ver nv ver id
    pure (vtable_commit nv ver)
  else do
    c_assert (ver.owner == OWNER_OTHER) 1211
    let (nv, ver) ← vtable_l1_rm_ver nv ver id
    pure (vtable_commit nv ver)

/-- The function `vtable_l2_eviction`. -/
def vtable_l2_eviction (nv : nvoverlay_t) (addr id _epoch cycle : Nat) :
    Except Abort nvoverlay_t := do
  let (vtable, ver) ← vtable_insert nv.vtable addr
  let nv := { nv with vtable := vtable }
  c_assert (vtable_l2_has_ver ver id) 1228
  if ver.owner = OWNER_L1 then do
    c_assert (ver.l1_state == STATE_M) 1231
    c_assert (vtable_l1_num_sharer ver == 1 && vtable_l2_num_sharer ver == 1) 1232
    c_assert (vtable_l1_sharer ver == (id : Int) && vtable_l2_sharer ver == (id : Int)) 1233
    let nv ←
      (if ver.l2_state = STATE_M ∧ ver.l2_ver ≠ ver.l1_ver then do
        c_assert (decide (ver.l2_ver < ver.l1_ver)) 1235
        vtable_evict_wrapper nv ver.addr id ver.l2_ver cycle EVICT_OMC
      else pure nv : Except Abort nvoverlay_t)
    let nv ← vtable_evict_wrapper nv ver.addr id ver.l1_ver cycle EVICT_BOTH
    let ver := { ver with owner := OWNER_OTHER, other_ver := ver.l1_ver }
    let (nv, ver) ← vtable_l1_rm_ver nv ver id
    let (nv, ver) ← vtable_l2_rm_ver nv ver id
    pure (vtable_commit nv ver)
  else if ver.owner = OWNER_L2 then do
    c_assert (ver.l2_state == STATE_M) 1245
    c_assert (decide (vtable_l1_num_sharer ver ≤ 1) && vtable_l2_num_sharer ver == 1) 1246
    let l1_rm := decide (vtable_l1_num_sharer ver = 1)
    if l1_rm then do
      c_assert (vtable_l1_sharer ver == (id : Int)) 1250
      c_assert (ver.l1_state == STATE_S) 1251
    else
      c_assert (ver.l1_state == STATE_I) 1253
    let nv ← vtable_evict_wrapper nv ver.addr id ver.l2_ver cycle EVICT_BOTH
    let ver := { ver with owner := OWNER_OTHER, other_ver := ver.l2_ver }
    let (nv, ver) ←
      (if l1_rm then vtable_l1_rm_ver nv ver id else pure (nv, ver)
        : Except Abort (nvoverlay_t × ver_t))
    let (nv, ver) ← vtable_l2_rm_ver nv ver id
    pure (vtable_commit nv ver)
  else do
    c_assert (ver.owner == OWNER_OTHER) 1262
    let (nv, ver) ←
      (if vtable_l1_has_ver ver id then vtable_l1_rm_ver nv ver id else pure (nv, ver)
        : Except Abort (nvoverlay_t × ver_t))
    let (nv, ver) ← vtable_l2_rm_ver nv ver id
    pure (vtable_commit nv ver)

/-- The function `vtable_l3_eviction`. -/
def vtable_l3_eviction (nv : nvoverlay_t) (addr id epoch cycle : Nat) :
    Except Abort nvoverlay_t := do
  let (vtable, ver) ← vtable_insert nv.vtable addr
  let nv := { nv with vtable := vtable }
  if ver.owner = OWNER_OTHER then do
    let (nv, ver) ← vtable_l1_clear_sharer nv ver id
    let (nv, ver) ← vtable_l2_clear_sharer nv ver id
    pure (vtable_commit nv ver)
  else do
    c_assert (vtable_l2_num_sharer ver == 1 && decide (vtable_l1_num_sharer ver ≤ 1)) 1285
    if vtable_l1_num_sharer ver = 1 then
      c_assert (vtable_l1_sharer ver == vtable_l2_sharer ver) 1287
    vtable_l2_eviction nv addr id epoch cycle

/-! ## The tag walk -/

/-- The statement `core->tag_walk_evict_count++` of `cpu_tag_walk`. -/
def cpu_tag_walk_count (nv : nvoverlay_t) (id : Nat) : nvoverlay_t :=
  let core := nv.cpu.cores id
  let core1 := { core with tag_walk_evict_count := core.tag_walk_evict_count + 1 }
  { nv with cpu := { nv.cpu with cores := Function.update nv.cpu.cores id core1 } }

/-- Body of the `while` loop of `cpu_tag_walk` for a slot that holds the record pointer
`ver_addr`. -/
def cpu_tag_walk_ver (nv : nvoverlay_t) (id cycle target_epoch ver_addr : Nat) :
    Except Abort nvoverlay_t :=
  match ht64_find nv.vtable.vers ver_addr with
  | none => .error (.dangling 824)
  | some ver =>
    let count (nv : nvoverlay_t) : nvoverlay_t := cpu_tag_walk_count nv id
    if ver.owner = OWNER_L1 then do
      c_assert (ver.l1_state == STATE_M) 832
      c_assert (vtable_l1_sharer ver == (id : Int)) 833
      if ver.l1_ver < target_epoch then do
        let ver := { ver with owner := OWNER_OTHER, other_ver := ver.l1_ver, l1_state := STATE_S }
        let nv ← nvoverlay_cpu_tag_walk_cb nv ver.addr id ver.l1_ver cycle
        let nv := count nv
        if ver.l2_state = STATE_M ∧ ver.l2_ver ≠ ver.l1_ver then do
          let ver := { ver with l2_state := STATE_S }
          let nv ← nvoverlay_cpu_tag_walk_cb nv ver.addr id ver.l2_ver cycle
          pure (vtable_commit (count nv) ver)
        else pure (vtable_commit nv ver)
      else if ver.l2_ver < target_epoch ∧ ver.l2_state = STATE_M then do
        c_assert (decide (ver.l2_ver < ver.l1_ver)) 851
        let ver := { ver with l2_state := STATE_S }
        let nv ← nvoverlay_cpu_tag_walk_cb nv ver.addr id ver.l2_ver cycle
        pure (vtable_commit (count nv) ver)
      else pure nv
    else if ver.owner = OWNER_L2 then do
      c_assert (ver.l2_state == STATE_M) 858
      c_assert (ver.l1_state != STATE_M) 859
      c_assert (vtable_l2_sharer ver == (id : Int)) 860
      if ver.l2_ver < target_epoch then do
        let ver := { ver with owner := OWNER_OTHER, other_ver := ver.l2_ver, l2_state := STATE_S }
        let nv ← nvoverlay_cpu_tag_walk_cb nv ver.addr id ver.l2_ver cycle
        pure (vtable_commit (count nv) ver)
      else pure nv
    else pure nv

/-- The `while` loop of `cpu_tag_walk` over the slots `begin + j` of the core. -/
def cpu_tag_walk_loop (id cycle target_epoch start : Nat) :
    List Nat → nvoverlay_t → Except Abort nvoverlay_t
  | [], nv => pure nv
  | j :: rest, nv =>
    match (nv.cpu.tag_arrays CPU_TAG_L2).tags (start + j) with
    | none => cpu_tag_walk_loop id cycle target_epoch start rest nv
    | some ver_addr => do
      let nv1 ← cpu_tag_walk_ver nv id cycle target_epoch ver_addr
      cpu_tag_walk_loop id cycle target_epoch start rest nv1

/-- The function `cpu_tag_walk`; the core is looked up with `cpu_get_core` before the loop. -/
def cpu_tag_walk (nv : nvoverlay_t) (id cycle target_epoch : Nat) :
    Except Abort nvoverlay_t := do
  let _ ← cpu_get_core nv.cpu id 821
  cpu_tag_walk_loop id cycle target_epoch (cpu_core_tag_begin nv.cpu CPU_TAG_L2 id)
    (List.range (nv.cpu.tag_arrays CPU_TAG_L2).core_ver_count) nv

/-! ## Full-mode event handlers -/

/-- The function `nvoverlay_full_load`. -/
def nvoverlay_full_load (nv : nvoverlay_t) (id line_addr cycle : Nat) :
    Except Abort nvoverlay_t := do
  let core ← cpu_get_core nv.cpu id 2205
  vtable_l1_load nv line_addr id core.epoch cycle

/-- The loop of `nvoverlay_full_store` that computes the minimum of `stable_epochs`. -/
def nvoverlay_min_stable (stable_epochs : Nat → Nat) : List Nat → Nat → Nat
  | [], min_epoch => min_epoch
  | i :: rest, min_epoch =>
    nvoverlay_min_stable stable_epochs rest
      (if stable_epochs i < min_epoch then stable_epochs i else min_epoch)

/-- The loop of `nvoverlay_full_store` that merges the epochs of `epochs` in turn. -/
def nvoverlay_merge_loop : List Nat → overlay_t × omt_t → Except Abort (overlay_t × omt_t)
  | [], st => pure st
  | epoch :: rest, (overlay, omt) => do
    let st1 ← overlay_epoch_merge overlay epoch omt
    nvoverlay_merge_loop rest st1

/-- The function `nvoverlay_full_store`. -/
def nvoverlay_full_store (nv : nvoverlay_t) (id line_addr cycle : Nat) :
    Except Abort nvoverlay_t := do
  let core ← cpu_get_core nv.cpu id 2212
  let nv ← vtable_l1_store nv line_addr id core.epoch cycle
  let core := nv.cpu.cores id
  let core := { core with epoch_store_count := core.epoch_store_count + 1,
                          total_store_count := core.total_store_count + 1 }
  let nv := { nv with cpu := { nv.cpu with cores := Function.update nv.cpu.cores id core } }
  let nv ←
    (if core.epoch_store_count > nv.epoch_size then do
      let cpu ← cpu_advance_epoch nv.cpu id
      c_assert (decide ((cpu.cores id).epoch_store_count = 0)) 2219
      pure { nv with cpu := cpu }
    else pure nv : Except Abort nvoverlay_t)
  let core := nv.cpu.cores id
  c_assert (decide (core.epoch ≥ core.last_walk_epoch)) 2221
  if core.epoch - core.last_walk_epoch ≥ nv.tag_walk_freq then do
    let nv ← cpu_tag_walk nv id cycle core.epoch
    let core := nv.cpu.cores id
    let core := { core with last_walk_epoch := core.epoch }
    let nv := { nv with cpu := { nv.cpu with cores := Function.update nv.cpu.cores id core },
                        stable_epochs := Function.update nv.stable_epochs id core.epoch }
    let min_epoch := nvoverlay_min_stable nv.stable_epochs (List.range nv.cpu.core_count) UINT64_MAX
    if min_epoch > nv.last_stable_epoch then do
      let (overlay, omt) ←
        nvoverlay_merge_loop
          (List.range' nv.last_stable_epoch (min_epoch - nv.last_stable_epoch))
          (nv.overlay, nv.omt)
      pure { nv with overlay := overlay, omt := omt }
    else pure nv
  else pure nv

/-- The function `nvoverlay_full_l1_evict`. -/
def nvoverlay_full_l1_evict (nv : nvoverlay_t) (id line_addr cycle : Nat) :
    Except Abort nvoverlay_t := do
  let core ← cpu_get_core nv.cpu id 2244
  vtable_l1_eviction nv line_addr id core.epoch cycle

/-- The function `nvoverlay_full_l2_evict`. -/
def nvoverlay_full_l2_evict (nv : nvoverlay_t) (id line_addr cycle : Nat) :
    Except Abort nvoverlay_t := do
  let core ← cpu_get_core nv.cpu id 2249
  vtable_l2_eviction nv line_addr id core.epoch cycle

/-- The function `nvoverlay_full_l3_evict`. -/
def nvoverlay_full_l3_evict (nv : nvoverlay_t) (id line_addr cycle : Nat) :
    Except Abort nvoverlay_t := do
  let core ← cpu_get_core nv.cpu id 2254
  vtable_l3_eviction nv line_addr id core.epoch cycle

/-! ## Configuration, initial state and event streams -/

/-- The configuration knobs read by `nvoverlay_init_full`, as the numbers the configuration
file gives them. -/
structure nvoverlay_conf_t where
  nvm_rlat : Nat
  nvm_wlat : Nat
  nvm_banks : Nat
  omcbuf_sets : Nat
  omcbuf_ways : Nat
  cpu_cores : Nat
  cpu_l1_ways : Nat
  cpu_l1_size : Nat
  cpu_l2_ways : Nat
  cpu_l2_size : Nat
  epoch_size : Nat
  tag_walk_freq : Nat

/-- The constant `CONF_INT32_MAX` of the configuration reader. -/
def CONF_INT32_MAX : Nat := 2 ^ 31 - 1

/-- The range and power-of-two tests of `conf_find_int32_range` (`util.cpp`); the line is that
of the call in `nvoverlay_init_full`. -/
def conf_check (num low high : Nat) (power2 : Bool) (line : Nat) : Except Abort Unit :=
  if num < low ∨ num > high then .error (.error_exit line)
  else if power2 ∧ popcount_int32 num ≠ 1 then .error (.error_exit line)
  else pure ()

/-- The function `nvoverlay_init_full`, from the configuration values to the initial state (the
trace-driven hook at its end is the event loop below). -/
def nvoverlay_init_full (conf : nvoverlay_conf_t) : Except Abort nvoverlay_t := do
  conf_check conf.nvm_rlat 0 CONF_INT32_MAX false 1957
  conf_check conf.nvm_wlat 0 CONF_INT32_MAX false 1958
  conf_check conf.nvm_banks 1 CONF_INT32_MAX true 1959
  let nvm := nvm_init conf.nvm_banks conf.nvm_rlat conf.nvm_wlat
  conf_check conf.omcbuf_sets 1 CONF_INT32_MAX true 1962
  conf_check conf.omcbuf_ways 1 CONF_INT32_MAX true 1963
  let omcbuf ← omcbuf_init conf.omcbuf_sets conf.omcbuf_ways
  conf_check conf.cpu_cores 1 CORE_COUNT_MAX false 1975
  let cpu := cpu_init conf.cpu_cores
  conf_check conf.cpu_l1_ways 1 CONF_INT32_MAX false 1979
  if conf.cpu_l1_size % UTIL_CACHE_LINE_SIZE ≠ 0 then .error (.error_exit 1982)
  else if (conf.cpu_l1_size / UTIL_CACHE_LINE_SIZE) % conf.cpu_l1_ways ≠ 0 then
    .error (.error_exit 1984)
  else do
    let l1_sets := (conf.cpu_l1_size / UTIL_CACHE_LINE_SIZE) / conf.cpu_l1_ways
    conf_check conf.cpu_l2_ways 1 CONF_INT32_MAX false 1987
    if conf.cpu_l2_size % UTIL_CACHE_LINE_SIZE ≠ 0 then .error (.error_exit 1990)
    else if (conf.cpu_l2_size / UTIL_CACHE_LINE_SIZE) % conf.cpu_l2_ways ≠ 0 then
      .error (.error_exit 1992)
    else do
      let l2_sets := (conf.cpu_l2_size / UTIL_CACHE_LINE_SIZE) / conf.cpu_l2_ways
      let cpu ← cpu_tag_init cpu CPU_TAG_L1 l1_sets conf.cpu_l1_ways
      let cpu ← cpu_tag_init cpu CPU_TAG_L2 l2_sets conf.cpu_l2_ways
      conf_check conf.epoch_size 1 UINT64_MAX false 1998
      conf_check conf.tag_walk_freq 1 UINT64_MAX false 2000
      pure { nvm := nvm, omcbuf := omcbuf, overlay := overlay_init, omt := omt_init,
             vtable := vtable_init, cpu := cpu, epoch_size := conf.epoch_size,
             tag_walk_freq := conf.tag_walk_freq, last_stable_epoch := 0,
             stable_epochs := fun _ => 0, evict_omc_count := 0, evict_llc_count := 0 }

/-- An event of the input stream (the tracer record types LOAD, STORE, L1_EVICT, L2_EVICT,
L3_EVICT) with its core id, line address and cycle. -/
inductive event_t where
  | load (id line_addr cycle : Nat)
  | store (id line_addr cycle : Nat)
  | l1_evict (id line_addr cycle : Nat)
  | l2_evict (id line_addr cycle : Nat)
  | l3_evict (id line_addr cycle : Nat)
  deriving DecidableEq

/-- The dispatch of `nvoverlay_trace_driven_engine` for one record, in full mode. -/
def nvoverlay_event (nv : nvoverlay_t) : event_t → Except Abort nvoverlay_t
  | .load id line_addr cycle => nvoverlay_full_load nv id line_addr cycle
  | .store id line_addr cycle => nvoverlay_full_store nv id line_addr cycle
  | .l1_evict id line_addr cycle => nvoverlay_full_l1_evict nv id line_addr cycle
  | .l2_evict id line_addr cycle => nvoverlay_full_l2_evict nv id line_addr cycle
  | .l3_evict id line_addr cycle => nvoverlay_full_l3_evict nv id line_addr cycle

/-- The loop of `nvoverlay_trace_driven_engine`: the events are processed in order, each to
completion. -/
def nvoverlay_run : List event_t → nvoverlay_t → Except Abort nvoverlay_t
  | [], nv => pure nv
  | ev :: rest, nv => do
    let nv1 ← nvoverlay_event nv ev
    nvoverlay_run rest nv1

/-- The abort raised by a run, if any. -/
def abort_of {α : Type} : Except Abort α → Option Abort
  | .ok _ => none
  | .error e => some e

/-! ## Vocabulary of the specifications -/

/-- Page address of a line address: the low 12 bits are cleared (spec §3). -/
def page_addr_of (addr : Nat) : Nat := (addr >>> UTIL_PAGE_BITS) <<< UTIL_PAGE_BITS

/-- A slice path of an overlay epoch's radix tree: four slices of nine bits. -/
def valid4 (p : List Nat) : Prop :=
  ∃ s1 s2 s3 s4, p = [s1, s2, s3, s4] ∧ s1 < 512 ∧ s2 < 512 ∧ s3 < 512 ∧ s4 < 512

/-- Slot of the OMT for a line address (`none` is the NULL slot). -/
def omt_find (omt : omt_t) (line_addr : Nat) : Option Nat := mtable_find omt.mtable line_addr

/-- Number of non-NULL leaf slots of the OMT. -/
def omt_leaf_count (omt : omt_t) : Nat := omt.mtable.slots.length

/-- Sum of `ref_count` over the pages of one overlay epoch. -/
def overlay_epoch_ref_sum (overlay_epoch : overlay_epoch_t) : Nat :=
  (overlay_epoch.mtable.slots.map (fun s => s.2.ref_count)).sum

/-- Sum of `ref_count` over all pages of all overlay epochs held by the overlay. -/
def overlay_ref_sum (overlay : overlay_t) : Nat :=
  (overlay.epochs.nodes.map (fun n => overlay_epoch_ref_sum n.2)).sum

/-- States of the overlay and the OMT reachable from the initial ones by `overlay_insert` and
`overlay_epoch_merge` calls that return. -/
inductive overlay_reach : overlay_t → omt_t → Prop where
  | init : overlay_reach overlay_init omt_init
  | insert {overlay overlay1 : overlay_t} {omt : omt_t} (addr epoch : Nat) :
      overlay_reach overlay omt → overlay_insert overlay addr epoch = .ok overlay1 →
      overlay_reach overlay1 omt
  | merge {overlay overlay1 : overlay_t} {omt omt1 : omt_t} (epoch : Nat) :
      overlay_reach overlay omt → overlay_epoch_merge overlay epoch omt = .ok (overlay1, omt1) →
      overlay_reach overlay1 omt1

/-- Number of OMT leaf slots that hold the handle `e` for a line of the page at path `p`. -/
def slot_count (slots : List (List Nat × Nat)) (e : Nat) (p : List Nat) : Nat :=
  slots.countP (fun s => decide (s.2 = e ∧ s.1.dropLast = p))

/-- Lines of a page that have been inserted but are not yet published in the OMT, outside a
merge: all lines of the page while the epoch is unmerged. -/
def pending_steady (_e : Nat) (merged : Bool) (_p : List Nat) (bitmap : bitmap64_t) : Nat :=
  if merged then 0 else bitmap64_popcount bitmap

/-- Lines not yet published while epoch `e0` is being merged: `work` lists the page path of
every line of `e0` the traversal still has to visit. -/
def pending_merge (e0 : Nat) (work : List (List Nat)) (e : Nat) (merged : Bool) (p : List Nat)
    (bitmap : bitmap64_t) : Nat :=
  if e = e0 then work.count p else pending_steady e merged p bitmap

/-- Invariant linking the nodes `E` of `overlay->epochs` and the leaf slots `S` of the OMT;
`X e merged p bitmap` is the number of lines of page `p` of epoch `e` that await publication. -/
structure OvInv (X : Nat → Bool → List Nat → bitmap64_t → Nat)
    (E : List (Nat × overlay_epoch_t)) (S : List (List Nat × Nat)) : Prop where
  nodup_slots : (S.map Prod.fst).Nodup
  nodup_epochs : (E.map Prod.fst).Nodup
  epoch_wf : ∀ e ep, alist_find E e = some ep →
    ep.epoch = e ∧ ep.mtable.idx = overlay_epoch_idx ∧ (ep.mtable.slots.map Prod.fst).Nodup ∧
    ep.mtable.slots.countP (fun s => decide (0 < s.2.ref_count)) ≤ ep.overlay_page_count
  page_wf : ∀ e ep p pg, alist_find E e = some ep →
    alist_find ep.mtable.slots p = some pg →
    valid4 p ∧ 1 ≤ bitmap64_popcount pg.bitmap ∧
    slot_count S e p + X e ep.merged p pg.bitmap ≤ pg.ref_count
  slot_ok : ∀ q h, alist_find S q = some h →
    ∃ p off ep pg, q = p ++ [off] ∧ off < 64 ∧ alist_find E h = some ep ∧
      ep.merged = true ∧ alist_find ep.mtable.slots p = some pg ∧ pg.bitmap.x.testBit off = true

/-- Line `off` of the page at path `p` is present in epoch `e0`, which is flagged merged. -/
def has_line (E : List (Nat × overlay_epoch_t)) (e0 : Nat) (p : List Nat) (off : Nat) : Prop :=
  ∃ ep pg, alist_find E e0 = some ep ∧ ep.merged = true ∧
    alist_find ep.mtable.slots p = some pg ∧ pg.bitmap.x.testBit off = true

/-- Epoch `e0`, if present in `E`, is still present in `E1` with the same merged flag and, page
by page, the same bitmaps. -/
def epoch_kept (E E1 : List (Nat × overlay_epoch_t)) (e0 : Nat) : Prop :=
  ∀ ep0, alist_find E e0 = some ep0 →
    ∃ ep2, alist_find E1 e0 = some ep2 ∧ ep2.merged = ep0.merged ∧
      ∀ p pg, alist_find ep0.mtable.slots p = some pg →
        ∃ pg2, alist_find ep2.mtable.slots p = some pg2 ∧ pg2.bitmap = pg.bitmap

/-- Page paths of the lines the traversal of `pages` visits, one entry per line. -/
def merge_work (pages : List (List Nat × overlay_page_t)) : List (List Nat) :=
  pages.flatMap (fun s => List.replicate (bitmap64_popcount s.2.bitmap) s.1)

/-- For every page of every epoch in `E`, the number of OMT leaf slots in `S` that refer to it,
summed up. -/
def slot_cover (S : List (List Nat × Nat)) (E : List (Nat × overlay_epoch_t)) : Nat :=
  (E.map (fun n => (n.2.mtable.slots.map (fun s => slot_count S n.1 s.1)).sum)).sum

/-- The overlay after `overlay_insert(0x1000, 0)` on the empty overlay. -/
def overlay_one_line : overlay_t :=
  match overlay_insert overlay_init 0x1000 0 with
  | .ok overlay => overlay
  | .error _ => overlay_init

/-- The overlay after `overlay_insert(0x1000, 0)` twice on the empty overlay. -/
def overlay_same_line_twice : overlay_t :=
  match overlay_insert overlay_one_line 0x1000 0 with
  | .ok overlay => overlay
  | .error _ => overlay_init

/-- The overlay and the OMT after `overlay_insert(0x1000, 0)` and `overlay_epoch_merge(0, omt)`
on the empty overlay and OMT. -/
def overlay_one_line_merged : overlay_t × omt_t :=
  match overlay_epoch_merge overlay_one_line 0 omt_init with
  | .ok st => st
  | .error _ => (overlay_init, omt_init)

/-- Partial-correctness triple for a run that may abort: if `m` returns `a`, then `Q a`. -/
def Post {α : Type} (m : Except Abort α) (Q : α → Prop) : Prop := ∀ a, m = .ok a → Q a

/-- A property `I` of the orchestrator state that every callback of the version table keeps,
whatever the table itself holds; `V` is what `I` asks of a version received by a core. -/
structure PrimInv (I : nvoverlay_t → Prop) (V : Nat → Prop) : Prop where
  tag : ∀ nv op level id ver, I nv → Post (nvoverlay_vtable_core_tag_cb nv op level id ver) I
  evict : ∀ nv addr id version cycle evict_type, I nv →
    Post (nvoverlay_vtable_evict_cb nv addr id version cycle evict_type) I
  recv : ∀ nv id version, I nv → V version → Post (nvoverlay_vtable_core_recv_cb nv id version) I
  walk : ∀ nv line_addr id version cycle, I nv →
    Post (nvoverlay_cpu_tag_walk_cb nv line_addr id version cycle) I
  count : ∀ nv id, I nv → I (cpu_tag_walk_count nv id)
  vtable : ∀ nv vtable, I nv → I { nv with vtable := vtable }

/-- The function `nvoverlay_trace_driven_engine` in full mode: the state is built from the
configuration and the events of the stream are processed in order. -/
def nvoverlay_trace_driven_engine (conf : nvoverlay_conf_t) (events : List event_t) :
    Except Abort nvoverlay_t := do
  let nv ← nvoverlay_init_full conf
  nvoverlay_run events nv

/-- A valid configuration: one core, an OMC buffer of one set and one way, a 1 KiB 4-way L1, a
4 KiB 4-way L2, an epoch of one store, a tag walk at every epoch. -/
def conf_one_core : nvoverlay_conf_t :=
  { nvm_rlat := 0, nvm_wlat := 10, nvm_banks := 1, omcbuf_sets := 1, omcbuf_ways := 1,
    cpu_cores := 1, cpu_l1_ways := 4, cpu_l1_size := 1024, cpu_l2_ways := 4,
    cpu_l2_size := 4096, epoch_size := 1, tag_walk_freq := 1 }

/-- The configuration `conf_one_core` with an OMC buffer of two sets. -/
def conf_two_sets : nvoverlay_conf_t := { conf_one_core with omcbuf_sets := 2 }

/-- The configuration `conf_one_core` with two cores and a tag walk every hundred epochs. -/
def conf_two_cores : nvoverlay_conf_t :=
  { conf_one_core with cpu_cores := 2, tag_walk_freq := 100 }

/-- What a state shows of the line `addr` and the epoch `epoch`: whether the overlay epoch is
merged, the epoch the OMT slot of the line refers to, and the `(tag, epoch)` pairs (a tag is the
line address without its six offset bits) parked in the entries of the OMC buffer. -/
def persist_view (nv : nvoverlay_t) (addr epoch : Nat) :
    Option Bool × Option Nat × List (Nat × Nat) :=
  ((overlay_find nv.overlay epoch).map (fun ep => ep.merged), omt_find nv.omt addr,
   (List.range (nv.omcbuf.sets * nv.omcbuf.ways)).map (fun i => ((nv.omcbuf.array i).tag, (nv.omcbuf.array i).epoch)))

/-- What a state shows of the record of `addr`: its states and its versions at L1 and at L2. -/
def ver_view (nv : nvoverlay_t) (addr : Nat) : Option (state_t × state_t × Nat × Nat) :=
  (ht64_find nv.vtable.vers addr).map (fun ver => (ver.l1_state, ver.l2_state, ver.l1_ver, ver.l2_ver))

/-- What a callback that only writes to the OMC buffer, the overlay and the NVM model leaves
alone: the processor, the version table and the epoch bookkeeping of the orchestrator. -/
def same_front (nv nv1 : nvoverlay_t) : Prop :=
  nv1.cpu = nv.cpu ∧ nv1.vtable = nv.vtable ∧ nv1.last_stable_epoch = nv.last_stable_epoch ∧
  nv1.stable_epochs = nv.stable_epochs ∧ nv1.epoch_size = nv.epoch_size ∧
  nv1.tag_walk_freq = nv.tag_walk_freq

/-- Epoch order between a state `nv` and a later state `nv1`: no core's epoch has gone back, none
is above `M`, and `last_stable_epoch` has not gone back. -/
def epoch_le (M : Nat) (nv nv1 : nvoverlay_t) : Prop :=
  (∀ i, (nv.cpu.cores i).epoch ≤ (nv1.cpu.cores i).epoch ∧ (nv1.cpu.cores i).epoch ≤ M) ∧
  nv.last_stable_epoch ≤ nv1.last_stable_epoch

/-- No epoch counter is about to wrap: every core's epoch and every version filed in the version
table is below the largest 64-bit value. -/
def epoch_bounded (nv : nvoverlay_t) : Prop :=
  (∀ i, (nv.cpu.cores i).epoch < UINT64_MAX) ∧
  ∀ k ver, ht64_find nv.vtable.vers k = some ver →
    ver.l1_ver < UINT64_MAX ∧ ver.l2_ver < UINT64_MAX ∧ ver.other_ver < UINT64_MAX

/-- What the store counting of `nvoverlay_full_store` does to the processor: the counters of core
`id` change and its epoch stays or, when the epoch is full, is advanced by `cpu_advance_epoch`;
the other cores and the tag arrays are as they were. -/
def store_advance (cpu : cpu_t) (id : Nat) (cpu2 : cpu_t) : Prop :=
  (∀ i, i ≠ id → cpu2.cores i = cpu.cores i) ∧ cpu2.core_count = cpu.core_count ∧
  cpu2.tag_arrays = cpu.tag_arrays ∧
  ((cpu2.cores id).epoch = (cpu.cores id).epoch ∨
   (cpu2.cores id).epoch = ((cpu.cores id).epoch + 1) % 2 ^ 64)

/-- The state `nvoverlay_full_store` leaves after a tag walk of core `id` that returned `nv`: the
walk epoch and the stable epoch of the core are recorded, and `overlay`, `omt` are what the merge
loop made of the overlay and the OMT (those of `nv` when nothing is merged). -/
def walk_done (nv : nvoverlay_t) (id : Nat) (overlay : overlay_t) (omt : omt_t) : nvoverlay_t :=
  let core := nv.cpu.cores id
  let core := { core with last_walk_epoch := core.epoch }
  { nv with cpu := { nv.cpu with cores := Function.update nv.cpu.cores id core },
            stable_epochs := Function.update nv.stable_epochs id core.epoch,
            overlay := overlay, omt := omt }

/-- Geometry of a tag array as `cpu_tag_init` lays it out: `sets * ways` slots per core, the set
of a line given by the mask `sets - 1`, at least one set. -/
def tag_geom (tag_array : cpu_tag_t) : Prop :=
  tag_array.core_ver_count = tag_array.sets * tag_array.ways ∧
  tag_array.mask = tag_array.sets - 1 ∧ 1 ≤ tag_array.sets

/-- A state with nothing in it, the value of the definitions below where the engine stops. -/
def nv_none : nvoverlay_t :=
  let entry : omcbuf_entry_t := { tag := 0, epoch := 0, lru := 0 }
  let omcbuf : omcbuf_t :=
    { sets := 0, ways := 0, set_idx_bits := 0, set_mask := 0, array := fun _ => entry,
      lru_counter := 0, access_count := 0, hit_count := 0, miss_count := 0, evict_count := 0 }
  { nvm := nvm_init 1 0 0, omcbuf := omcbuf, overlay := overlay_init, omt := omt_init,
    vtable := vtable_init, cpu := cpu_init 0, epoch_size := 0, tag_walk_freq := 0,
    last_stable_epoch := 0, stable_epochs := fun _ => 0, evict_omc_count := 0,
    evict_llc_count := 0 }

/-- The state built by `nvoverlay_init_full` for `conf_one_core`. -/
def nv_one_core : nvoverlay_t :=
  match nvoverlay_init_full conf_one_core with
  | .ok nv => nv
  | .error _ => nv_none

/-- The state of the engine after `store(core 0, 0x1000, cycle 0)` on `nv_one_core`. -/
def nv_one_store : nvoverlay_t :=
  match nvoverlay_event nv_one_core (.store 0 0x1000 0) with
  | .ok nv => nv
  | .error _ => nv_one_core

/-- The sharer set held by `b` is the singleton of core `c`. -/
def sharers_single (b : bitmap64_t) (c : Nat) : Prop := ∀ i, bitmap64_is_set b i = true ↔ i = c

/-- The sharer set held by `b` is empty. -/
def sharers_empty (b : bitmap64_t) : Prop := ∀ i, bitmap64_is_set b i = false

/-- The ownership/sharer invariant (I1) of one version record (spec §3). -/
def ver_ownership (ver : ver_t) : Prop :=
  (ver.owner = OWNER_L1 →
    ver.l1_state = STATE_M ∧
    (∃ c, sharers_single ver.l1_bitmap c ∧ sharers_single ver.l2_bitmap c) ∧
    (ver.l2_state = STATE_S ∨ ver.l2_state = STATE_M)) ∧
  (ver.owner = OWNER_L2 →
    ver.l2_state = STATE_M ∧
    ∃ c, sharers_single ver.l2_bitmap c ∧
      (sharers_empty ver.l1_bitmap ∨ (sharers_single ver.l1_bitmap c ∧ ver.l1_state = STATE_S)))

/-- States reachable from the initial state of the engine (empty version table) by the
operations of the version table, with any arguments, by tag walks and by whole engine events,
none of which aborts. -/
inductive vtable_reach : nvoverlay_t → Prop
  | init (conf : nvoverlay_conf_t) (nv : nvoverlay_t) :
      nvoverlay_init_full conf = .ok nv → vtable_reach nv
  | load (nv nv1 : nvoverlay_t) (addr id epoch cycle : Nat) :
      vtable_reach nv → vtable_l1_load nv addr id epoch cycle = .ok nv1 → vtable_reach nv1
  | store (nv nv1 : nvoverlay_t) (addr id epoch cycle : Nat) :
      vtable_reach nv → vtable_l1_store nv addr id epoch cycle = .ok nv1 → vtable_reach nv1
  | l1_eviction (nv nv1 : nvoverlay_t) (addr id epoch cycle : Nat) :
      vtable_reach nv → vtable_l1_eviction nv addr id epoch cycle = .ok nv1 → vtable_reach nv1
  | l2_eviction (nv nv1 : nvoverlay_t) (addr id epoch cycle : Nat) :
      vtable_reach nv → vtable_l2_eviction nv addr id epoch cycle = .ok nv1 → vtable_reach nv1
  | l3_eviction (nv nv1 : nvoverlay_t) (addr id epoch cycle : Nat) :
      vtable_reach nv → vtable_l3_eviction nv addr id epoch cycle = .ok nv1 → vtable_reach nv1
  | tag_walk (nv nv1 : nvoverlay_t) (id cycle target_epoch : Nat) :
      vtable_reach nv → cpu_tag_walk nv id cycle target_epoch = .ok nv1 → vtable_reach nv1
  | event (nv nv1 : nvoverlay_t) (ev : event_t) :
      vtable_reach nv → nvoverlay_event nv ev = .ok nv1 → vtable_reach nv1

/-- The bitmap fits the 64 bits of a `uint64_t`. -/
def bitmap64_wf (b : bitmap64_t) : Prop := b.x < 2 ^ 64

/-- A record whose sharer sets fit 64 bits and that satisfies (I1). -/
def rec_ok (ver : ver_t) : Prop :=
  bitmap64_wf ver.l1_bitmap ∧ bitmap64_wf ver.l2_bitmap ∧ ver_ownership ver

/-- The invariant behind (I1): at most 64 cores, and every filed record is `rec_ok`. -/
def vtable_ok (nv : nvoverlay_t) : Prop :=
  nv.cpu.core_count ≤ CORE_COUNT_MAX ∧
  ∀ k ver, ht64_find nv.vtable.vers k = some ver → rec_ok ver

/-- During an operation: the table is `vtable` and the processor has `n` cores. -/
def op_keeps (vtable : vtable_t) (n : Nat) (nv : nvoverlay_t) : Prop :=
  nv.vtable = vtable ∧ nv.cpu.core_count = n

/-- The record of `0x1000` after core 0 has stored to it once in epoch 0: core 0 owns it in its
L1, and is the only sharer at both levels. -/
def ver_one_store : ver_t :=
  { addr := 0x1000, owner := OWNER_L1, l1_state := STATE_M, l2_state := STATE_S, l1_ver := 0,
    l2_ver := 0, other_ver := 0, l1_bitmap := bitmap64_add bitmap64_clear 0,
    l2_bitmap := bitmap64_add bitmap64_clear 0 }

/-- The pointer to the record of line `a` is held by one of the `core_ver_count` slots of core
`c` in the tag array. -/
def ta_present (tag_array : cpu_tag_t) (c a : Nat) : Prop :=
  ∃ j, j < tag_array.core_ver_count ∧
    tag_array.tags (c * tag_array.core_ver_count + j) = some a

/-- The record of line `a` is stored in some slot of the tag array of core `c` at `level`: one of
the slots `cpu_core_tag_begin cpu level c + j`, `j < core_ver_count`, which `cpu_tag_walk`
scans. -/
def tag_present (cpu : cpu_t) (level c a : Nat) : Prop :=
  ∃ j, j < (cpu.tag_arrays level).core_ver_count ∧
    (cpu.tag_arrays level).tags (cpu_core_tag_begin cpu level c + j) = some a

/-- No core holds the pointer to a record in two slots of the tag array. -/
def ta_unique (tag_array : cpu_tag_t) : Prop :=
  ∀ c j1 j2 a, j1 < tag_array.core_ver_count → j2 < tag_array.core_ver_count →
    tag_array.tags (c * tag_array.core_ver_count + j1) = some a →
    tag_array.tags (c * tag_array.core_ver_count + j2) = some a → j1 = j2

/-- Both tag arrays are laid out as by `cpu_tag_init` and hold no pointer twice for a core. -/
def tags_ok (cpu : cpu_t) : Prop :=
  ∀ level, level < CPU_TAG_MAX →
    tag_geom (cpu.tag_arrays level) ∧ ta_unique (cpu.tag_arrays level)

/-- The sharer set of a record at a level: `l1_bitmap` for `CPU_TAG_L1`, `l2_bitmap` for
`CPU_TAG_L2`, as `cpu_tag_op` selects it. -/
def ver_sharers (ver : ver_t) (level : Nat) : bitmap64_t :=
  if level = CPU_TAG_L1 then ver.l1_bitmap else ver.l2_bitmap

/-- Core `c` is a member of the sharer set at `level` of the record filed for line `a`. -/
def is_sharer (vtable : vtable_t) (level c a : Nat) : Prop :=
  ∃ ver, ht64_find vtable.vers a = some ver ∧ bitmap64_is_set (ver_sharers ver level) c = true

/-- Every record is filed under its own line address and its sharer sets fit 64 bits. -/
def keys_ok (vtable : vtable_t) : Prop :=
  ∀ k ver, ht64_find vtable.vers k = some ver →
    ver.addr = k ∧ bitmap64_wf ver.l1_bitmap ∧ bitmap64_wf ver.l2_bitmap

/-- The invariant behind (I2): the tag arrays mirror the sharer sets of the filed records. -/
def mirror_ok (nv : nvoverlay_t) : Prop :=
  nv.cpu.core_count ≤ CORE_COUNT_MAX ∧ tags_ok nv.cpu ∧ keys_ok nv.vtable ∧
  ∀ level, level < CPU_TAG_MAX → ∀ c a,
    tag_present nv.cpu level c a ↔ is_sharer nv.vtable level c a

/-- The one of the two sharer sets `b1` (L1), `b2` (L2) that belongs to `level`. -/
def pick_level (level : Nat) (b1 b2 : bitmap64_t) : bitmap64_t :=
  if level = CPU_TAG_L1 then b1 else b2

/-- The mirror during an operation on the record of line `a`, whose sharer sets are `b1`, `b2`
as the operation has them in hand (it files the record when it is done): the tag arrays mirror
`b1` and `b2` for the line `a`, and the table `vtable` for every other line. -/
def op_mirror (nv : nvoverlay_t) (vtable : vtable_t) (n a : Nat) (b1 b2 : bitmap64_t) : Prop :=
  nv.vtable = vtable ∧ nv.cpu.core_count = n ∧ tags_ok nv.cpu ∧
  (∀ level, level < CPU_TAG_MAX → ∀ c,
    tag_present nv.cpu level c a ↔ bitmap64_is_set (pick_level level b1 b2) c = true) ∧
  ∀ level, level < CPU_TAG_MAX → ∀ c x, x ≠ a →
    (tag_present nv.cpu level c x ↔ is_sharer vtable level c x)

/-- What a tag operation at `level` leaves alone: the cores, the other tag array and the
geometry of the array it writes. -/
def tag_step (cpu cpu1 : cpu_t) (level : Nat) : Prop :=
  cpu1.cores = cpu.cores ∧ cpu1.core_count = cpu.core_count ∧
  (∀ l, l ≠ level → cpu1.tag_arrays l = cpu.tag_arrays l) ∧
  (tag_geom (cpu.tag_arrays level) → tag_geom (cpu1.tag_arrays level))

/-- The sharer set a tag operation stands for, from the set `b` before it: the header's
sharer-set helpers change the bitmap this way when they issue the operation. -/
def op_bitmap (op : cpu_tag_op_t) (b : bitmap64_t) (id : Nat) : bitmap64_t :=
  match op with
  | CPU_TAG_OP_ADD => bitmap64_add b id
  | CPU_TAG_OP_REMOVE => bitmap64_remove b id
  | CPU_TAG_OP_SET => bitmap64_add bitmap64_clear id
  | CPU_TAG_OP_CLEAR => bitmap64_clear

/-- The two sharer sets of a record after a tag operation at `level`. -/
def tag_bitmaps (op : cpu_tag_op_t) (level id : Nat) (b1 b2 : bitmap64_t) :
    bitmap64_t × bitmap64_t :=
  if level = CPU_TAG_L1 then (op_bitmap op b1 id, b2) else (b1, op_bitmap op b2 id)

/-- The overlay after `overlay_insert(0x1000, 0)`, `overlay_epoch_merge(0, omt)` and
`overlay_insert(0x1000, 1)`: line `0x1000` is published for epoch 0 and inserted in epoch 1. -/
def overlay_second_epoch : overlay_t :=
  match overlay_insert overlay_one_line_merged.1 0x1000 1 with
  | .ok overlay => overlay
  | .error _ => overlay_init

/-- The overlay `overlay_second_epoch` at the start of the traversal of
`overlay_epoch_merge(1, omt)`: epoch 1 is flagged merged. -/
def overlay_second_epoch_marked : overlay_t :=
  match overlay_find overlay_second_epoch 1 with
  | some overlay_epoch =>
    { overlay_second_epoch with
      epochs := ht64_store overlay_second_epoch.epochs 1 { overlay_epoch with merged := true } }
  | none => overlay_init

/-- The overlay and the OMT after the merge of epoch 1 has visited line `0x1000`. -/
def overlay_second_epoch_merged : overlay_t × omt_t :=
  match overlay_merge_lines 1 0x1000 [0] (overlay_second_epoch_marked, overlay_one_line_merged.2)
    with
  | .ok st => st
  | .error _ => (overlay_init, omt_init)

/-- Number of lines (popcount of the bitmap) of the page that `addr` resolves to in the overlay
epoch `epoch`; 0 when the epoch or the page does not exist. -/
def overlay_page_lines (overlay : overlay_t) (epoch addr : Nat) : Nat :=
  match overlay_find overlay epoch with
  | none => 0
  | some overlay_epoch =>
    match mtable_find overlay_epoch.mtable addr with
    | none => 0
    | some overlay_page => bitmap64_popcount overlay_page.bitmap

/-- The line of `addr` is present in the overlay epoch `epoch`: the page exists and has the
line's bit set. -/
def overlay_line_present (overlay : overlay_t) (epoch addr : Nat) : Bool :=
  match overlay_find overlay epoch with
  | none => false
  | some overlay_epoch =>
    match mtable_find overlay_epoch.mtable addr with
    | none => false
    | some overlay_page => bitmap64_is_set overlay_page.bitmap (page_line_offset addr)

/-- Size of the overlay epoch `epoch`; 0 when the overlay does not hold it. -/
def overlay_epoch_size (overlay : overlay_t) (epoch : Nat) : Nat :=
  match overlay_find overlay epoch with
  | none => 0
  | some overlay_epoch => overlay_epoch.size

/-- What a state shows of the evictions handed to the orchestrator: the two eviction counters
`evict_omc_count` and `evict_llc_count`, and the number of `omcbuf_insert` calls the OMC buffer
has seen (`access_count`). -/
def evict_view (nv : nvoverlay_t) : Nat × Nat × Nat :=
  (nv.evict_omc_count, nv.evict_llc_count, nv.omcbuf.access_count)

/-- The version-ordering invariant of a record (spec §3): when both levels hold the line
modified, the version at L2 is not newer than the version at L1. -/
def ver_order (ver : ver_t) : Prop :=
  ver.l1_state = STATE_M → ver.l2_state = STATE_M → ver.l2_ver ≤ ver.l1_ver

/-- The record is owned by a cache of a core and has a dirty version below `target_epoch`: the
version at L1 of an L1-owned record, the version at L2 of an L1-owned record whose L2 state is
`M`, or the version at L2 of an L2-owned record. -/
def walk_pending (ver : ver_t) (target_epoch : Nat) : Prop :=
  (ver.owner = OWNER_L1 ∧ ver.l1_ver < target_epoch) ∨
  (ver.owner = OWNER_L1 ∧ ver.l2_state = STATE_M ∧ ver.l2_ver < target_epoch) ∨
  (ver.owner = OWNER_L2 ∧ ver.l2_ver < target_epoch)

/-- The function `cpu_tag_walk_ver` with a log: next to the state it returns the
`(line address, version)` pair of every call of `tag_walk_cb` it makes, in the order of the
calls. -/
def cpu_tag_walk_ver_log (nv : nvoverlay_t) (id cycle target_epoch ver_addr : Nat) :
    Except Abort (nvoverlay_t × List (Nat × Nat)) :=
  match ht64_find nv.vtable.vers ver_addr with
  | none => .error (.dangling 824)
  | some ver =>
    let count (nv : nvoverlay_t) : nvoverlay_t := cpu_tag_walk_count nv id
    if ver.owner = OWNER_L1 then do
      c_assert (ver.l1_state == STATE_M) 832
      c_assert (vtable_l1_sharer ver == (id : Int)) 833
      if ver.l1_ver < target_epoch then do
        let ver := { ver with owner := OWNER_OTHER, other_ver := ver.l1_ver, l1_state := STATE_S }
        let nv ← nvoverlay_cpu_tag_walk_cb nv ver.addr id ver.l1_ver cycle
        let nv := count nv
        if ver.l2_state = STATE_M ∧ ver.l2_ver ≠ ver.l1_ver then do
          let ver := { ver with l2_state := STATE_S }
          let nv ← nvoverlay_cpu_tag_walk_cb nv ver.addr id ver.l2_ver cycle
          pure (vtable_commit (count nv) ver, [(ver.addr, ver.l1_ver), (ver.addr, ver.l2_ver)])
        else pure (vtable_commit nv ver, [(ver.addr, ver.l1_ver)])
      else if ver.l2_ver < target_epoch ∧ ver.l2_state = STATE_M then do
        c_assert (decide (ver.l2_ver < ver.l1_ver)) 851
        let ver := { ver with l2_state := STATE_S }
        let nv ← nvoverlay_cpu_tag_walk_cb nv ver.addr id ver.l2_ver cycle
        pure (vtable_commit (count nv) ver, [(ver.addr, ver.l2_ver)])
      else pure (nv, [])
    else if ver.owner = OWNER_L2 then do
      c_assert (ver.l2_state == STATE_M) 858
      c_assert (ver.l1_state != STATE_M) 859
      c_assert (vtable_l2_sharer ver == (id : Int)) 860
      if ver.l2_ver < target_epoch then do
        let ver := { ver with owner := OWNER_OTHER, other_ver := ver.l2_ver, l2_state := STATE_S }
        let nv ← nvoverlay_cpu_tag_walk_cb nv ver.addr id ver.l2_ver cycle
        pure (vtable_commit (count nv) ver, [(ver.addr, ver.l2_ver)])
      else pure (nv, [])
    else pure (nv, [])

/-- The loop `cpu_tag_walk_loop` with the log of the `tag_walk_cb` calls. -/
def cpu_tag_walk_loop_log (id cycle target_epoch start : Nat) :
    List Nat → nvoverlay_t → Except Abort (nvoverlay_t × List (Nat × Nat))
  | [], nv => pure (nv, [])
  | j :: rest, nv =>
    match (nv.cpu.tag_arrays CPU_TAG_L2).tags (start + j) with
    | none => cpu_tag_walk_loop_log id cycle target_epoch start rest nv
    | some ver_addr => do
      let (nv1, log1) ← cpu_tag_walk_ver_log nv id cycle target_epoch ver_addr
      let (nv2, log2) ← cpu_tag_walk_loop_log id cycle target_epoch start rest nv1
      pure (nv2, log1 ++ log2)

/-- The function `cpu_tag_walk` with the log of the `tag_walk_cb` calls: the writebacks the walk
emits, as `(line address, version)` pairs. -/
def cpu_tag_walk_log (nv : nvoverlay_t) (id cycle target_epoch : Nat) :
    Except Abort (nvoverlay_t × List (Nat × Nat)) := do
  let _ ← cpu_get_core nv.cpu id 821
  cpu_tag_walk_loop_log id cycle target_epoch (cpu_core_tag_begin nv.cpu CPU_TAG_L2 id)
    (List.range (nv.cpu.tag_arrays CPU_TAG_L2).core_ver_count) nv

/-- During a step of the walk: the table, the tag arrays and the number of cores are those of
`nv`. -/
def walk_keeps (nv nv1 : nvoverlay_t) : Prop :=
  nv1.vtable = nv.vtable ∧ nv1.cpu.tag_arrays = nv.cpu.tag_arrays ∧
  nv1.cpu.core_count = nv.cpu.core_count

/-- What a tag walk towards `target_epoch`, or a part of it, that starts in `nv` and returns the
state and log `r` has done: the tag arrays are untouched, every record is still filed under its
own address, a record with no pending version stays so and is in fact unchanged, and if the
records were version-ordered, they still are and every logged version is below
`target_epoch`. -/
def walk_rel (target_epoch : Nat) (nv : nvoverlay_t) (r : nvoverlay_t × List (Nat × Nat)) :
    Prop :=
  r.1.cpu.tag_arrays = nv.cpu.tag_arrays ∧ r.1.cpu.core_count = nv.cpu.core_count ∧
  keys_ok r.1.vtable ∧
  (∀ x, (∀ ver, ht64_find nv.vtable.vers x = some ver → ¬ walk_pending ver target_epoch) →
    ∀ ver, ht64_find r.1.vtable.vers x = some ver → ¬ walk_pending ver target_epoch) ∧
  (∀ x ver, ht64_find nv.vtable.vers x = some ver → ¬ walk_pending ver target_epoch →
    ht64_find r.1.vtable.vers x = some ver) ∧
  ((∀ k v, ht64_find nv.vtable.vers k = some v → ver_order v) →
    (∀ e ∈ r.2, e.2 < target_epoch) ∧
    ∀ k v, ht64_find r.1.vtable.vers k = some v → ver_order v)

/-- The state and the log of the tag walk of core 0 towards epoch 1 (at cycle 0) in the state
`nv_one_store`. -/
def nv_one_store_walked : nvoverlay_t × List (Nat × Nat) :=
  match cpu_tag_walk_log nv_one_store 0 0 1 with
  | .ok r => r
  | .error _ => (nv_one_store, [])

/-- The configuration `conf_one_core` with an epoch of two stores. -/
def conf_epoch_two : nvoverlay_conf_t := { conf_one_core with epoch_size := 2 }

/-- The whole record filed for the line `addr`, if any. -/
def ver_record (nv : nvoverlay_t) (addr : Nat) : Option ver_t := ht64_find nv.vtable.vers addr

/-- The states `nv` and `nv1` differ at most in the processor: the OMC buffer, the overlay, the
OMT, the NVM, the version table and the eviction counters are the same. -/
def cpu_only (nv nv1 : nvoverlay_t) : Prop :=
  nv1.omcbuf = nv.omcbuf ∧ nv1.overlay = nv.overlay ∧ nv1.omt = nv.omt ∧ nv1.nvm = nv.nvm ∧
  nv1.vtable = nv.vtable ∧ nv1.evict_omc_count = nv.evict_omc_count ∧
  nv1.evict_llc_count = nv.evict_llc_count

/-- The state of the engine with two cores after `store(core 0, 0x2000, cycle 0)`. -/
def nv_two_cores_store : nvoverlay_t :=
  match nvoverlay_trace_driven_engine conf_two_cores [.store 0 0x2000 0] with
  | .ok nv => nv
  | .error _ => nv_none

/-- The state of the engine after `load(core 0, 0x2000, cycle 1)` on `nv_one_store`. -/
def nv_store_load : nvoverlay_t :=
  match nvoverlay_event nv_one_store (.load 0 0x2000 1) with
  | .ok nv => nv
  | .error _ => nv_none

/-- The state after `vtable_l1_eviction(0x1000, core 0)` (at cycle 1) on `nv_one_store`. -/
def nv_one_store_l1_evicted : nvoverlay_t :=
  match vtable_l1_eviction nv_one_store 0x1000 0 0 1 with
  | .ok nv => nv
  | .error _ => nv_none

/-- The state after `vtable_l2_eviction(0x1000, core 0)` (at cycle 1) on `nv_one_store`. -/
def nv_one_store_l2_evicted : nvoverlay_t :=
  match vtable_l2_eviction nv_one_store 0x1000 0 0 1 with
  | .ok nv => nv
  | .error _ => nv_none

/-- The pair (epoch, epoch_store_count) of core `id`. -/
def core_epoch_view (nv : nvoverlay_t) (id : Nat) : Nat × Nat :=
  ((nv.cpu.cores id).epoch, (nv.cpu.cores id).epoch_store_count)

/-- An OMC buffer with one set of two ways (empty if `omcbuf_init` fails, which it does not). -/
def omcbuf_one_set : omcbuf_t :=
  match omcbuf_init 1 2 with
  | .ok ob => ob
  | .error _ =>
    { sets := 0, ways := 0, set_idx_bits := 0, set_mask := 0,
      array := fun _ => { tag := 0, epoch := UINT64_MAX, lru := 0 },
      lru_counter := 0, access_count := 0, hit_count := 0, miss_count := 0, evict_count := 0 }

/-- Runs a list of `omcbuf_insert(addr, epoch, cycle)` calls, dropping the callbacks. -/
def omcbuf_inserts : List (Nat × Nat × Nat) → omcbuf_t → Except Abort omcbuf_t
  | [], ob => pure ob
  | (addr, epoch, cycle) :: rest, ob => do
    let r ← omcbuf_insert ob addr epoch cycle
    omcbuf_inserts rest r.1

/-- The ways of set 0 of a two-way buffer, with the counters that matter. -/
def omcbuf_set_view (ob : omcbuf_t) : omcbuf_entry_t × omcbuf_entry_t × Nat :=
  (ob.array 0, ob.array 1, ob.lru_counter)

/-- The rule of the epoch controller for one store, on the pair (epoch, epoch_store_count) of
the storing core: the count goes up by one, and when it then exceeds `epoch_size` the epoch
(a `uint64_t`) goes up by one and the count is reset. -/
def store_count_rule (epoch_size : Nat) (s : Nat × Nat) : Nat × Nat :=
  if s.2 + 1 > epoch_size then ((s.1 + 1) % 2 ^ 64, 0) else (s.1, s.2 + 1)

/-- A store of core `c` that triggers no coherence-driven epoch advance: the version-table part
`vtable_l1_store` of `nvoverlay_full_store`, the only part that signals `core_recv`, returns
with `c` in the epoch it had, and the store returns `nv'`. -/
def quiet_store (c : Nat) (nv nv' : nvoverlay_t) : Prop :=
  ∃ line_addr cycle nv1,
    vtable_l1_store nv line_addr c (nv.cpu.cores c).epoch cycle = .ok nv1 ∧
    (nv1.cpu.cores c).epoch = (nv.cpu.cores c).epoch ∧
    nvoverlay_full_store nv c line_addr cycle = .ok nv'

/-- Runs of `k` stores of core `c`, none of which triggers a coherence-driven epoch advance. -/
inductive quiet_stores (c : Nat) : nvoverlay_t → Nat → nvoverlay_t → Prop
  | nil (nv : nvoverlay_t) : quiet_stores c nv 0 nv
  | cons (nv nv1 nv2 : nvoverlay_t) (k : Nat) :
      quiet_store c nv nv1 → quiet_stores c nv1 k nv2 → quiet_stores c nv (k + 1) nv2

/-- The state a computation returns (`nv_none` if it aborts). -/
def nv_result (m : Except Abort nvoverlay_t) : nvoverlay_t :=
  match m with
  | .ok nv => nv
  | .error _ => nv_none

/-- One core, `epoch_size = 2`, and a tag walk every hundred epochs. -/
def conf_epoch_two_late_walk : nvoverlay_conf_t := { conf_epoch_two with tag_walk_freq := 100 }

/-- The states of the engine for `conf_epoch_two_late_walk` after no store and after one, two
and three stores of core 0 to line `0x1000`. -/
def nv_stores : Nat → nvoverlay_t
  | 0 => nv_result (nvoverlay_init_full conf_epoch_two_late_walk)
  | k + 1 => nv_result (nvoverlay_full_store (nv_stores k) 0 0x1000 k)

/-- The set index `omcbuf_insert` computes for `addr`. -/
def omcbuf_set_index (ob : omcbuf_t) (addr : Nat) : Nat :=
  (addr >>> UTIL_CACHE_LINE_BITS) &&& ob.set_mask

/-- The tag `omcbuf_insert` computes for `addr`. -/
def omcbuf_tag (ob : omcbuf_t) (addr : Nat) : Nat :=
  addr >>> (UTIL_CACHE_LINE_BITS + ob.set_idx_bits)

/-- Index in `array` of way `w` of the set `omcbuf_insert` addresses for `addr`
(`start + w`). -/
def omcbuf_way (ob : omcbuf_t) (addr w : Nat) : Nat := omcbuf_set_index ob addr * ob.ways + w

/-- Entry `k` is in use: its epoch is not the marker `-1UL` of an empty way. -/
def omcbuf_occupied (ob : omcbuf_t) (k : Nat) : Prop := (ob.array k).epoch ≠ UINT64_MAX

/-- Entry `k` matches the tag of `addr` and `epoch` (the hit test of `omcbuf_insert`). -/
def omcbuf_match (ob : omcbuf_t) (addr epoch k : Nat) : Prop :=
  (ob.array k).tag = omcbuf_tag ob addr ∧ (ob.array k).epoch = epoch

/-- The address `omcbuf_insert` hands to the eviction callback for the victim entry `k` of the
set `set_index` (`evict_addr`, a `uint64_t`). -/
def omcbuf_evict_addr (ob : omcbuf_t) (set_index k : Nat) : Nat :=
  ((((ob.array k).tag <<< ob.set_idx_bits) ||| set_index) <<< UTIL_CACHE_LINE_BITS) % 2 ^ 64

/-- The OMC-buffer states reachable from `omcbuf_init` (with at least one way per set) by
`omcbuf_insert` calls on 64-bit addresses, made while the 64-bit LRU counter has not reached
its largest value.  The second component records, for every entry, the address of the insert
that last wrote it: an insert writes an entry exactly when it changes it, since it stamps it
with a fresh LRU counter. -/
inductive omcbuf_reach : omcbuf_t → (Nat → Nat) → Prop
  | init (sets ways : Nat) (ob : omcbuf_t) :
      0 < ways → omcbuf_init sets ways = .ok ob → omcbuf_reach ob (fun _ => 0)
  | insert (ob : omcbuf_t) (src : Nat → Nat) (addr epoch cycle : Nat) (ob' : omcbuf_t)
      (cb : Option (Nat × Nat × Nat)) :
      omcbuf_reach ob src → addr < 2 ^ 64 → ob.lru_counter < UINT64_MAX →
      omcbuf_insert ob addr epoch cycle = .ok (ob', cb) →
      omcbuf_reach ob' (fun k => if ob'.array k = ob.array k then src k else addr)

/-- What holds of every reachable OMC-buffer state. -/
structure omcbuf_inv (ob : omcbuf_t) (src : Nat → Nat) : Prop where
  ways_pos : 0 < ob.ways
  mask : ob.set_mask = 2 ^ ob.set_idx_bits - 1
  lru_le : ∀ k, (ob.array k).lru ≤ ob.lru_counter
  lru_inj : ∀ k k', omcbuf_occupied ob k → omcbuf_occupied ob k' →
    (ob.array k).lru = (ob.array k').lru → k = k'
  src_ok : ∀ k, omcbuf_occupied ob k →
    src k < 2 ^ 64 ∧ cache_aligned (src k) = true ∧ (ob.array k).tag = omcbuf_tag ob (src k) ∧
    ∃ w, w < ob.ways ∧ k = omcbuf_way ob (src k) w

/-- The buffer `omcbuf_insert` returns (`omcbuf_one_set` if it aborts). -/
def omcbuf_result (m : Except Abort (omcbuf_t × Option (Nat × Nat × Nat))) : omcbuf_t :=
  match m with
  | .ok r => r.1
  | .error _ => omcbuf_one_set

/-- The buffer `omcbuf_one_set` after `omcbuf_insert(0x0, 0, 0)`. -/
def omcbuf_one_line : omcbuf_t := omcbuf_result (omcbuf_insert omcbuf_one_set 0x0 0 0)

/-- The buffer `omcbuf_one_line` after `omcbuf_insert(0x40, 0, 1)`: its one set is full. -/
def omcbuf_two_lines : omcbuf_t := omcbuf_result (omcbuf_insert omcbuf_one_line 0x40 0 1)

/-- The addresses that wrote the entries of `omcbuf_two_lines`. -/
def omcbuf_two_lines_src : Nat → Nat :=
  fun k => if omcbuf_two_lines.array k = omcbuf_one_line.array k then
      (if omcbuf_one_line.array k = omcbuf_one_set.array k then 0 else 0x0)
    else 0x40

/-- Loop of `round_up_power2_uint64`: `while (n & (n - 1)) n = n & (n - 1)`, on a `uint64_t`;
`none` when the fuel runs out before the loop ends. -/
def round_up_power2_loop : Nat → Nat → Option Nat
  | 0, n => if n &&& ((n + (2 ^ 64 - 1)) % 2 ^ 64) = 0 then some n else none
  | fuel + 1, n =>
    if n &&& ((n + (2 ^ 64 - 1)) % 2 ^ 64) = 0 then some n
    else round_up_power2_loop fuel (n &&& ((n + (2 ^ 64 - 1)) % 2 ^ 64))

/-- The function `round_up_power2_uint64` of `util.cpp`: `n--`, the loop, `return n << 1`, all
on a `uint64_t`.  The loop clears one set bit per round, so 64 rounds are enough. -/
def round_up_power2_uint64 (n : Nat) : Option Nat :=
  (round_up_power2_loop 64 ((n + (2 ^ 64 - 1)) % 2 ^ 64)).map (fun m => (m <<< 1) % 2 ^ 64)

/-- Runs a list of `overlay_insert(addr, epoch)` calls. -/
def overlay_inserts : List (Nat × Nat) → overlay_t → Except Abort overlay_t
  | [], overlay => pure overlay
  | (addr, epoch) :: rest, overlay => do
    let ov1 ← overlay_insert overlay addr epoch
    overlay_inserts rest ov1

/-- The 64 line addresses of the page at `0x1000`, each paired with `epoch`. -/
def full_page_lines (epoch : Nat) : List (Nat × Nat) :=
  (List.range 64).map (fun i => (0x1000 + 64 * i, epoch))

/-- The overlay after all 64 lines of the page at `0x1000` were inserted in epoch 0 and then
in epoch 1 (`overlay_init` if an insert aborts, which none does). -/
def overlay_full_pages : overlay_t :=
  match overlay_inserts (full_page_lines 0 ++ full_page_lines 1) overlay_init with
  | .ok overlay => overlay
  | .error _ => overlay_init

/-- Within every set the ways in use form a prefix: no empty way precedes a way in use. -/
def omcbuf_prefix (ob : omcbuf_t) : Prop :=
  ∀ s w w', w < w' → w' < ob.ways → omcbuf_occupied ob (s * ob.ways + w') →
    omcbuf_occupied ob (s * ob.ways + w)

/-- No two ways in use of one set hold the same tag and epoch. -/
def omcbuf_unique (ob : omcbuf_t) : Prop :=
  ∀ s w w', w < ob.ways → w' < ob.ways → omcbuf_occupied ob (s * ob.ways + w) →
    omcbuf_occupied ob (s * ob.ways + w') →
    (ob.array (s * ob.ways + w)).tag = (ob.array (s * ob.ways + w')).tag →
    (ob.array (s * ob.ways + w)).epoch = (ob.array (s * ob.ways + w')).epoch → w = w'

/-- The hash table `ht64_t` with its bucket array: `buckets i` is the chain of bucket `i`, the
list of its nodes (key, value) from the head on.  (The structure `ht64_t` above keeps the
nodes only; this one is used where the buckets and the order in a chain matter.)  The hash
function `ht64_hash_func` of the absent header is a parameter of the functions below. -/
structure ht64_buckets_t (V : Type) where
  bucket_count : Nat
  bucket_mask : Nat
  buckets : Nat → List (Nat × V)
  item_count : Nat

/-- The `while(1)` loop of `_ht64_insert_node`, with `node` the current node and `next` the
chain after it; the result is the chain from `node` on. -/
def ht64_insert_node_walk {V : Type} (old_node : Nat × V) :
    Nat × V → List (Nat × V) → Except Abort (List (Nat × V))
  | node, [] => do
    c_assert (decide (node.1 ≠ old_node.1)) 68
    pure [node, old_node]
  | node, nxt :: rest => do
    c_assert (decide (nxt.1 > node.1)) 67
    c_assert (decide (node.1 ≠ old_node.1)) 68
    if nxt.1 > old_node.1 then pure (node :: old_node :: nxt :: rest)
    else do
      let chain ← ht64_insert_node_walk old_node nxt rest
      pure (node :: chain)

/-- The function `_ht64_insert_node`: links the node `old_node` into the chain of its bucket. -/
def ht64_insert_node {V : Type} (hash : Nat → Nat) (ht64 : ht64_buckets_t V)
    (old_node : Nat × V) : Except Abort (ht64_buckets_t V) := do
  let index := hash old_node.1 &&& ht64.bucket_mask
  c_assert (decide (index < ht64.bucket_count)) 58
  match ht64.buckets index with
  | [] => pure { ht64 with buckets := Function.update ht64.buckets index [old_node] }
  | node :: next => do
    let chain ← ht64_insert_node_walk old_node node next
    pure { ht64 with buckets := Function.update ht64.buckets index chain }

/-- The inner loop of `ht64_resize` over the nodes of one old chain. -/
def ht64_rehash_chain {V : Type} (hash : Nat → Nat) :
    List (Nat × V) → ht64_buckets_t V → Except Abort (ht64_buckets_t V)
  | [], ht64 => pure ht64
  | node :: next, ht64 => do
    let ht1 ← ht64_insert_node hash ht64 node
    ht64_rehash_chain hash next ht1

/-- The outer loop of `ht64_resize` over the old buckets `i`. -/
def ht64_rehash {V : Type} (hash : Nat → Nat) (old_buckets : Nat → List (Nat × V)) :
    List Nat → ht64_buckets_t V → Except Abort (ht64_buckets_t V)
  | [], ht64 => pure ht64
  | i :: rest, ht64 => do
    let ht1 ← ht64_rehash_chain hash (old_buckets i) ht64
    ht64_rehash hash old_buckets rest ht1

/-- The function `ht64_resize`; `bucket_count` and `bucket_mask` are `uint64_t`. -/
def ht64_resize {V : Type} (hash : Nat → Nat) (ht64 : ht64_buckets_t V) :
    Except Abort (ht64_buckets_t V) :=
  let old_bucket_count := ht64.bucket_count
  let bucket_count := (ht64.bucket_count <<< 1) % 2 ^ 64
  let ht1 : ht64_buckets_t V :=
    { bucket_count := bucket_count, bucket_mask := (bucket_count + (2 ^ 64 - 1)) % 2 ^ 64,
      buckets := fun _ => [], item_count := ht64.item_count }
  ht64_rehash hash ht64.buckets (List.range old_bucket_count) ht1

/-- The loop of `ht64_find` over a chain; `none` is the default value. -/
def ht64_find_walk {V : Type} (key : Nat) : List (Nat × V) → Except Abort (Option V)
  | [] => pure none
  | node :: next => do
    c_assert (match next with
              | [] => true
              | nxt :: _ => decide (nxt.1 > node.1)) 152
    if node.1 = key then pure (some node.2)
    else ht64_find_walk key next

/-- The function `ht64_find` on the bucket array. -/
def ht64_buckets_find {V : Type} (hash : Nat → Nat) (ht64 : ht64_buckets_t V) (key : Nat) :
    Except Abort (Option V) := do
  let index := hash key &&& ht64.bucket_mask
  c_assert (decide (index < ht64.bucket_count)) 148
  ht64_find_walk key (ht64.buckets index)

/-- A chain is strictly ascending by key. -/
def ht64_ascending {V : Type} (chain : List (Nat × V)) : Prop :=
  chain.Pairwise (fun a b => a.1 < b.1)

/-- A well-formed table: `2 ^ k` buckets, the mask `bucket_count - 1`, and every chain strictly
ascending by key with every node in the bucket selected by `hash(key) & bucket_mask`. -/
structure ht64_buckets_wf {V : Type} (hash : Nat → Nat) (ht64 : ht64_buckets_t V) (k : Nat) :
    Prop where
  count : ht64.bucket_count = 2 ^ k
  mask : ht64.bucket_mask = ht64.bucket_count - 1
  ascending : ∀ i, i < ht64.bucket_count → ht64_ascending (ht64.buckets i)
  placed : ∀ i, i < ht64.bucket_count → ∀ n ∈ ht64.buckets i,
    hash n.1 &&& ht64.bucket_mask = i

/-- A table of two buckets under the identity hash: keys 2 and 4 in bucket 0, keys 1, 3 and 7
in bucket 1. -/
def ht64_two_buckets : ht64_buckets_t Nat :=
  { bucket_count := 2, bucket_mask := 1,
    buckets := fun i => if i = 0 then [(2, 20), (4, 40)] else if i = 1 then [(1, 10), (3, 30), (7, 70)] else [],
    item_count := 5 }

/-- The nodes of the old buckets `l`, in the order in which `ht64_resize` rehashes them. -/
def ht64_chain_nodes {V : Type} (old_buckets : Nat → List (Nat × V)) : List Nat → List (Nat × V)
  | [] => []
  | i :: rest => old_buckets i ++ ht64_chain_nodes old_buckets rest

/-- The `switch(before_num)` of `overlay_epoch_insert`: the bytes added when a page goes from
`before_num` lines to one more. -/
def overlay_insert_bytes (before_num : Nat) : Nat :=
  if before_num = 0 then 256
  else if before_num = 3 then 256
  else if before_num = 7 then 512
  else if before_num = 15 then 1024
  else if before_num = 31 then 2048
  else 0

/-- The bytes the insert transitions 0 → 1, ..., `n - 1` → `n` have added for a page that has
`n` lines. -/
def overlay_page_added (n : Nat) : Nat := ((List.range n).map overlay_insert_bytes).sum

/-- For the pages of an epoch that still hold a reference: the bytes that the inserts added. -/
def overlay_epoch_live_bytes (overlay_epoch : overlay_epoch_t) : Nat :=
  (overlay_epoch.mtable.slots.map (fun s =>
    if 0 < s.2.ref_count then overlay_page_added (bitmap64_popcount s.2.bitmap) else 0)).sum

/-- The number of pages of an epoch that still hold a reference. -/
def overlay_epoch_live_pages (overlay_epoch : overlay_epoch_t) : Nat :=
  overlay_epoch.mtable.slots.countP (fun s => decide (0 < s.2.ref_count))

/-- The sum of `overlay_page_size_class(popcount)` over the pages of an epoch; it aborts where
the size class of some page does. -/
def overlay_epoch_class_sum (overlay_epoch : overlay_epoch_t) : Except Abort Nat :=
  overlay_epoch.mtable.slots.foldr (fun s acc => do
    let rest ← acc
    let page_size ← overlay_page_size_class (bitmap64_popcount s.2.bitmap)
    pure (page_size + rest)) (pure 0)

/-- The size accounting of the overlay: the aggregate size is the sum of the sizes of the
epochs, `epoch_count` is their number, the size and the page count of every epoch are those
of its pages that still hold a reference, and every page has a line. -/
structure SizeInv (overlay : overlay_t) : Prop where
  nodup_epochs : (overlay.epochs.nodes.map Prod.fst).Nodup
  total : overlay.size = (overlay.epochs.nodes.map (fun n => n.2.size)).sum
  count : overlay.epoch_count = overlay.epochs.nodes.length
  epoch_ok : ∀ e ep, alist_find overlay.epochs.nodes e = some ep →
    ep.epoch = e ∧ (ep.mtable.slots.map Prod.fst).Nodup ∧
    ep.size = overlay_epoch_live_bytes ep ∧
    ep.overlay_page_count = overlay_epoch_live_pages ep ∧
    ∀ p pg, alist_find ep.mtable.slots p = some pg → 1 ≤ bitmap64_popcount pg.bitmap

/-! ## mtable_t as a tree of pages -/

/-- The function `mtable_idx_init`: the level record for `start_bit` and `bits`, after the three
range checks; `1 << bits` is the exact power of two. -/
def mtable_idx_init (start_bit bits : Int) : Except Abort mtable_idx_t :=
  let start := start_bit
  let end_bit := start + bits - 1
  if start < 0 ∨ start > 63 then .error (.error_exit 310)
  else if end_bit < 0 ∨ end_bit > 63 then .error (.error_exit 311)
  else if bits ≤ 0 then .error (.error_exit 312)
  else .ok { rshift := start_bit.toNat, bits := bits.toNat }

/-- The function `mtable_idx_add`: the new level is appended after it has been compared with
every level present; `idx` is the list `mtable->idx`. -/
def mtable_idx_add (idx : List mtable_idx_t) (start_bit bits : Int) :
    Except Abort (List mtable_idx_t) := do
  let new ← mtable_idx_init start_bit bits
  let start := new.rshift
  let end_bit := start + new.bits - 1
  if idx.all (fun curr => decide (start > curr.rshift + curr.bits - 1 ∨ end_bit < curr.rshift))
  then pure (idx ++ [new])
  else .error (.error_exit 381)

/-- The level list after `mtable_init` and one `mtable_idx_add` call per entry of `levels`. -/
def mtable_idx_adds : List (Int × Int) → List mtable_idx_t → Except Abort (List mtable_idx_t)
  | [], idx => pure idx
  | (start_bit, bits) :: rest, idx => do
    let idx1 ← mtable_idx_add idx start_bit bits
    mtable_idx_adds rest idx1

/-- What a slot below the levels `idx` holds: a terminal slot holds NULL (`none`) or a value, a
slot above holds NULL or the page of the child slots, of which `1 << bits` exist. -/
def mtable_ptr (V : Type) : List mtable_idx_t → Type
  | [] => Option V
  | _ :: idx => Option (Nat → mtable_ptr V idx)

/-- The NULL pointer. -/
def mtable_null (V : Type) : (idx : List mtable_idx_t) → mtable_ptr V idx
  | [] => (none : Option V)
  | _ :: idx => (none : Option (Nat → mtable_ptr V idx))

/-- The table `mtable_t` with its pages: `root`, the level list and the two counters. -/
structure mtable_tree_t (V : Type) where
  idx : List mtable_idx_t
  root : mtable_ptr V idx
  page_count : Nat
  size : Nat

/-- What `mtable_init` followed by the `mtable_idx_add` calls that build `idx` leaves: no page. -/
def mtable_tree_init (V : Type) (idx : List mtable_idx_t) : mtable_tree_t V :=
  { idx := idx, root := mtable_null V idx, page_count := 0, size := 0 }

/-- The loop of `_mtable_insert` below the pointer `*prev`: the pointer afterwards, the pages
allocated and their bytes.  A page that is missing is allocated with all slots NULL. -/
def mtable_ptr_insert {V : Type} (key : Nat) :
    (idx : List mtable_idx_t) → mtable_ptr V idx → mtable_ptr V idx × Nat × Nat
  | [], prev => (prev, 0, 0)
  | i :: idx, prev =>
    let slice := mtable_slice i key
    match (prev : Option (Nat → mtable_ptr V idx)) with
    | some curr =>
      let r := mtable_ptr_insert key idx (curr slice)
      ((some (fun s => if s = slice then r.1 else curr s) : Option (Nat → mtable_ptr V idx)),
        r.2.1, r.2.2)
    | none =>
      let r := mtable_ptr_insert key idx (mtable_null V idx)
      ((some (fun s => if s = slice then r.1 else mtable_null V idx) :
          Option (Nat → mtable_ptr V idx)),
        r.2.1 + 1, r.2.2 + i.pg_size)

/-- The function `_mtable_insert` (and `mtable_insert`, which returns the same slot with or
without the JIT lookup): the pages on the path of `key` exist afterwards.  The slot pointer it
returns is the terminal slot on the path of `key`; `mtable_tree_write` writes through it. -/
def mtable_tree_insert {V : Type} (m : mtable_tree_t V) (key : Nat) : mtable_tree_t V :=
  let r := mtable_ptr_insert key m.idx m.root
  { m with root := r.1, page_count := m.page_count + r.2.1, size := m.size + r.2.2 }

/-- The store `*slot = v` below one pointer, for the slot of `key`; the pages on the path are
there after `_mtable_insert`. -/
def mtable_ptr_write {V : Type} (key : Nat) (v : Option V) :
    (idx : List mtable_idx_t) → mtable_ptr V idx → mtable_ptr V idx
  | [], _ => v
  | i :: idx, prev =>
    match (prev : Option (Nat → mtable_ptr V idx)) with
    | some curr =>
      (some (fun s => if s = mtable_slice i key then mtable_ptr_write key v idx (curr s)
                      else curr s) : Option (Nat → mtable_ptr V idx))
    | none => (none : Option (Nat → mtable_ptr V idx))

/-- The store `*slot = v` through the slot pointer that `mtable_insert(mtable, key)` returned. -/
def mtable_tree_write {V : Type} (m : mtable_tree_t V) (key : Nat) (v : Option V) :
    mtable_tree_t V :=
  { m with root := mtable_ptr_write key v m.idx m.root }

/-- The loop of `mtable_find` below the pointer `prev`. -/
def mtable_ptr_find {V : Type} (key : Nat) :
    (idx : List mtable_idx_t) → mtable_ptr V idx → Option V
  | [], prev => prev
  | i :: idx, prev =>
    match (prev : Option (Nat → mtable_ptr V idx)) with
    | none => none
    | some curr => mtable_ptr_find key idx (curr (mtable_slice i key))

/-- The function `mtable_find` on the tree: the value and the table it leaves, which it does not
write to. -/
def mtable_tree_find {V : Type} (m : mtable_tree_t V) (key : Nat) :
    Option V × mtable_tree_t V :=
  (mtable_ptr_find key m.idx m.root, m)

/-- The function `_mtable_traverse`: the calls `cb(key, value)` it makes, in order. -/
def mtable_ptr_traverse {V : Type} :
    (idx : List mtable_idx_t) → mtable_ptr V idx → Nat → List (Nat × V)
  | [], _, _ => []
  | [i], tree, key =>
    match (tree : Option (Nat → Option V)) with
    | none => []
    | some t =>
      (List.range (1 <<< i.bits)).filterMap (fun s =>
        (t s).map (fun v => (key ||| (s <<< i.rshift) % 2 ^ 64, v)))
  | i :: j :: idx, tree, key =>
    match (tree : Option (Nat → mtable_ptr V (j :: idx))) with
    | none => []
    | some t =>
      (List.range (1 <<< i.bits)).flatMap (fun s =>
        mtable_ptr_traverse (j :: idx) (t s) (key ||| (s <<< i.rshift) % 2 ^ 64))

/-- The function `mtable_traverse` on the tree.  With no level at all and a root that is not
NULL, `_mtable_traverse` reads `idx->bits` through the NULL `idx`. -/
def mtable_tree_traverse {V : Type} (m : mtable_tree_t V) : Except Abort (List (Nat × V)) :=
  match m with
  | { idx := [], root := some _, .. } => .error (.dangling 577)
  | { idx := idx, root := root, .. } => .ok (mtable_ptr_traverse idx root 0)

/-- The table after `mtable_insert(key)` and the store of `v` for every `(key, v)` of `ops`, the
first one first. -/
def mtable_tree_build {V : Type} : List (Nat × Option V) → mtable_tree_t V → mtable_tree_t V
  | [], m => m
  | (key, v) :: ops, m => mtable_tree_build ops (mtable_tree_write (mtable_tree_insert m key) key v)

/-- The bits of a key that the levels `idx` index. -/
def mtable_idx_bits : List mtable_idx_t → Nat
  | [] => 0
  | i :: idx => (i.mask <<< i.rshift) ||| mtable_idx_bits idx

/-- A valid level list: at least one level, built by `mtable_idx_add` calls that return. -/
def mtable_idx_valid (idx : List mtable_idx_t) : Prop :=
  idx ≠ [] ∧ ∃ levels, mtable_idx_adds levels [] = .ok idx

/-- All slice paths of the levels `idx`, in the order in which `_mtable_traverse` runs through
the slots: the loops count `i` upwards, the first level outermost. -/
def mtable_all_paths : List mtable_idx_t → List (List Nat)
  | [] => [[]]
  | i :: idx => (List.range (1 <<< i.bits)).flatMap (fun s => (mtable_all_paths idx).map (s :: ·))

/-- The content of the terminal slot at the slice path `path` below a pointer. -/
def mtable_ptr_slot {V : Type} : (idx : List mtable_idx_t) → mtable_ptr V idx → List Nat → Option V
  | [], prev, _ => prev
  | _ :: _, _, [] => none
  | _ :: idx, prev, s :: path =>
    match (prev : Option (Nat → mtable_ptr V idx)) with
    | none => none
    | some curr => mtable_ptr_slot idx (curr s) path

/-- The key that `_mtable_traverse` has accumulated for the slot at `path`, in 64 bits. -/
def mtable_ptr_key : List mtable_idx_t → List Nat → Nat
  | i :: idx, s :: path => (s <<< i.rshift) % 2 ^ 64 ||| mtable_ptr_key idx path
  | _, _ => 0

/-- A slice path of the levels `idx`: one slice below `1 << bits` per level. -/
def mtable_slices_ok : List mtable_idx_t → List Nat → Prop
  | [], [] => True
  | i :: idx, s :: path => s < 1 <<< i.bits ∧ mtable_slices_ok idx path
  | _, _ => False

/-- Every level indexes bits below those of the level before it. -/
def mtable_idx_descending : List mtable_idx_t → Prop
  | [] => True
  | i :: idx => (∀ j ∈ idx, j.rshift + j.bits ≤ i.rshift) ∧ mtable_idx_descending idx

/-- Strict order of slice paths: ascending slice, first level first. -/
def mtable_path_lt : List Nat → List Nat → Prop
  | a :: p, b :: q => a < b ∨ (a = b ∧ mtable_path_lt p q)
  | _, _ => False

/-- A table of two one-bit levels, the first of which indexes bit 0 and the second bit 1, after
the inserts of the keys 1 and 2 with the values 10 and 20. -/
def mtable_low_first : mtable_tree_t Nat :=
  mtable_tree_build [(1, some 10), (2, some 20)] (mtable_tree_init Nat [⟨0, 1⟩, ⟨1, 1⟩])

/-- A table of two one-bit levels, the first of which indexes bit 1 and the second bit 0, after
the inserts of the keys 1 and 2 with the values 10 and 20. -/
def mtable_high_first : mtable_tree_t Nat :=
  mtable_tree_build [(1, some 10), (2, some 20)] (mtable_tree_init Nat [⟨1, 1⟩, ⟨0, 1⟩])

/-- A table with the five levels of the OMT after the insert of the line `0x1000` with the
value 0. -/
def mtable_omt_one_line : mtable_tree_t Nat :=
  mtable_tree_build [(0x1000, some 0)] (mtable_tree_init Nat omt_idx)

/-- What the checks of `mtable_idx_init` and `mtable_idx_add` leave: every level lies within the
64 bits of a key and no two levels share a bit. -/
def mtable_levels_ok (idx : List mtable_idx_t) : Prop :=
  (∀ i ∈ idx, i.rshift + i.bits ≤ 64) ∧
  idx.Pairwise (fun a b => a.rshift + a.bits ≤ b.rshift ∨ b.rshift + b.bits ≤ a.rshift)

/-- The pages on the path of `key` below the page named `pre`, each named by the slices that
lead to it: the pages that the loop of `_mtable_insert` passes through. -/
def mtable_path_pages (key : Nat) : List mtable_idx_t → List Nat → List (List Nat)
  | [], _ => []
  | i :: rest, pre => pre :: mtable_path_pages key rest (pre ++ [mtable_slice i key])

/-- The pages on the path of `key` that the table does not have yet. -/
def mtable_new_pages {V : Type} (m : mtable_t V) (key : Nat) : List (List Nat) :=
  (mtable_path_pages key m.idx []).filter (fun p => decide (p ∉ m.nodes))

/-- Whether the tree has the page named by the slices `pre` that lead to it. -/
def mtable_ptr_has_page {V : Type} :
    (idx : List mtable_idx_t) → mtable_ptr V idx → List Nat → Bool
  | [], _, _ => false
  | _ :: idx, prev, [] => (prev : Option (Nat → mtable_ptr V idx)).isSome
  | _ :: idx, prev, s :: pre =>
    match (prev : Option (Nat → mtable_ptr V idx)) with
    | none => false
    | some curr => mtable_ptr_has_page idx (curr s) pre

/-- The pages and the bytes that the loop of `_mtable_insert` allocates below the page named
`pre`, when `has` tells which pages exist. -/
def mtable_new_count (key : Nat) : List mtable_idx_t → List Nat → (List Nat → Bool) → Nat × Nat
  | [], _, _ => (0, 0)
  | i :: rest, pre, has =>
    let r := mtable_new_count key rest (pre ++ [mtable_slice i key]) has
    if has pre then r else (r.1 + 1, r.2 + i.pg_size)

/-- The flattened table after `mtable_insert(key)` and the store of `v` for every `(key, v)` of
`ops`, the first one first. -/
def mtable_flat_build {V : Type} : List (Nat × V) → mtable_t V → mtable_t V
  | [], m => m
  | (key, v) :: ops, m =>
    mtable_flat_build ops (mtable_slot_write (mtable_insert m key) key v)

/-! # Theorems -/

/-! ## Association lists -/

theorem alist_find_erase {K V : Type} [DecidableEq K] (l : List (K × V)) (k k' : K) :
    alist_find (alist_erase l k) k' = if k' = k then none else alist_find l k' := by
  induction l with
  | nil => simp [alist_erase, alist_find]
  | cons a t ih =>
    obtain ⟨a1, a2⟩ := a
    unfold alist_erase at ih ⊢
    by_cases h : a1 = k
    · subst h
      simp only [List.filter, ne_eq, not_true_eq_false, decide_False, ih, alist_find]
      by_cases h2 : k' = a1
      · simp [h2]
      · have : ¬ a1 = k' := fun h3 => h2 h3.symm
        simp [h2, this]
    · simp only [List.filter, ne_eq, h, not_false_eq_true, decide_True, alist_find, ih]
      by_cases h2 : a1 = k'
      · subst h2; simp [h]
      · simp [h2]

theorem alist_find_set {K V : Type} [DecidableEq K] (l : List (K × V)) (k k' : K) (v : V) :
    alist_find (alist_set l k v) k' = if k' = k then some v else alist_find l k' := by
  unfold alist_set
  simp only [alist_find, alist_find_erase]
  by_cases h : k' = k
  · subst h; simp
  · have : ¬ k = k' := fun h3 => h h3.symm
    simp [h, this]

theorem alist_find_mem {K V : Type} [DecidableEq K] {l : List (K × V)} {k : K} {v : V}
    (h : alist_find l k = some v) : (k, v) ∈ l := by
  induction l with
  | nil => simp [alist_find] at h
  | cons a t ih =>
    obtain ⟨a1, a2⟩ := a
    simp only [alist_find] at h
    by_cases h1 : a1 = k
    · simp only [h1, if_true, Option.some.injEq] at h
      simp [h1, h]
    · simp only [h1, if_false] at h
      exact List.mem_cons_of_mem _ (ih h)

theorem alist_find_none_iff {K V : Type} [DecidableEq K] {l : List (K × V)} {k : K} :
    alist_find l k = none ↔ k ∉ l.map Prod.fst := by
  induction l with
  | nil => simp [alist_find]
  | cons a t ih =>
    obtain ⟨a1, a2⟩ := a
    simp only [alist_find, List.map_cons, List.mem_cons, not_or]
    by_cases h1 : a1 = k
    · simp [h1]
    · have : ¬ k = a1 := fun h3 => h1 h3.symm
      simp [h1, this, ih]

theorem alist_mem_find {K V : Type} [DecidableEq K] {l : List (K × V)} {k : K} {v : V}
    (hnd : (l.map Prod.fst).Nodup) (h : (k, v) ∈ l) : alist_find l k = some v := by
  induction l with
  | nil => simp at h
  | cons a t ih =>
    obtain ⟨a1, a2⟩ := a
    simp only [List.map_cons, List.nodup_cons] at hnd
    simp only [alist_find]
    rcases List.mem_cons.mp h with h1 | h1
    · simp only [Prod.mk.injEq] at h1
      simp [h1.1, h1.2]
    · have hk : k ∈ t.map Prod.fst := List.mem_map_of_mem Prod.fst h1
      have : ¬ a1 = k := fun h3 => hnd.1 (h3 ▸ hk)
      simp [this, ih hnd.2 h1]

theorem alist_erase_keys {K V : Type} [DecidableEq K] (l : List (K × V)) (k : K) :
    (alist_erase l k).map Prod.fst = (l.map Prod.fst).filter (fun x => decide (x ≠ k)) := by
  induction l with
  | nil => rfl
  | cons a t ih =>
    unfold alist_erase at ih ⊢
    by_cases h : a.1 = k
    · simp only [List.filter, h, List.map_cons, ne_eq, not_true_eq_false, decide_False]
      exact ih
    · simp only [List.filter, h, List.map_cons, ne_eq, not_false_eq_true, decide_True]
      rw [ih]

theorem alist_erase_nodup {K V : Type} [DecidableEq K] {l : List (K × V)} (k : K)
    (hnd : (l.map Prod.fst).Nodup) : ((alist_erase l k).map Prod.fst).Nodup := by
  rw [alist_erase_keys]; exact hnd.filter _

theorem alist_set_nodup {K V : Type} [DecidableEq K] {l : List (K × V)} (k : K) (v : V)
    (hnd : (l.map Prod.fst).Nodup) : ((alist_set l k v).map Prod.fst).Nodup := by
  unfold alist_set
  simp only [List.map_cons, List.nodup_cons]
  refine ⟨?_, alist_erase_nodup k hnd⟩
  rw [alist_erase_keys]
  simp

theorem alist_mem_set {K V : Type} [DecidableEq K] {l : List (K × V)} {k k' : K} {v v' : V} :
    (k', v') ∈ alist_set l k v ↔ (k' = k ∧ v' = v) ∨ (k' ≠ k ∧ (k', v') ∈ l) := by
  unfold alist_set alist_erase
  simp only [List.mem_cons, Prod.mk.injEq, List.mem_filter, decide_eq_true_eq]
  tauto

theorem alist_mem_erase {K V : Type} [DecidableEq K] {l : List (K × V)} {k k' : K} {v' : V} :
    (k', v') ∈ alist_erase l k ↔ (k' ≠ k ∧ (k', v') ∈ l) := by
  unfold alist_erase
  simp only [List.mem_filter, decide_eq_true_eq]
  tauto

/-- Counting over a list after `alist_set` of a fresh key. -/
theorem alist_countP_set_new {K V : Type} [DecidableEq K] {l : List (K × V)} {k : K} (v : V)
    (f : K × V → Bool) (h : alist_find l k = none) :
    (alist_set l k v).countP f = l.countP f + (if f (k, v) then 1 else 0) := by
  have he : alist_erase l k = l := by
    unfold alist_erase
    apply List.filter_eq_self.mpr
    intro a ha
    have := alist_find_none_iff.mp h
    simp only [ne_eq, decide_eq_true_eq]
    intro h2
    exact this (h2 ▸ List.mem_map_of_mem Prod.fst ha)
  unfold alist_set
  rw [List.countP_cons, he]

/-- Counting over a list after `alist_erase` of a key that was present. -/
theorem alist_countP_erase {K V : Type} [DecidableEq K] (f : K × V → Bool) (k : K) (v0 : V) :
    ∀ (l : List (K × V)), (l.map Prod.fst).Nodup → alist_find l k = some v0 →
      (alist_erase l k).countP f + (if f (k, v0) then 1 else 0) = l.countP f := by
  intro l
  induction l with
  | nil => intro _ h; simp [alist_find] at h
  | cons a t ih =>
    obtain ⟨a1, a2⟩ := a
    intro hnd h
    simp only [List.map_cons, List.nodup_cons] at hnd
    simp only [alist_find] at h
    by_cases h1 : a1 = k
    · simp only [h1, if_true, Option.some.injEq] at h
      subst h1
      subst h
      have he : alist_erase t a1 = t := by
        unfold alist_erase
        apply List.filter_eq_self.mpr
        intro a ha
        simp only [ne_eq, decide_eq_true_eq]
        intro h2
        exact hnd.1 (h2 ▸ List.mem_map_of_mem Prod.fst ha)
      have : alist_erase ((a1, a2) :: t) a1 = alist_erase t a1 := by
        unfold alist_erase; simp [List.filter]
      rw [this, he, List.countP_cons]
    · simp only [h1, if_false] at h
      have : alist_erase ((a1, a2) :: t) k = (a1, a2) :: alist_erase t k := by
        unfold alist_erase; simp [List.filter, h1]
      rw [this, List.countP_cons, List.countP_cons, ← ih hnd.2 h]
      omega

/-- Counting over a list after `alist_set` of a key that was present. -/
theorem alist_countP_set_old {K V : Type} [DecidableEq K] {l : List (K × V)} {k : K} {v0 : V}
    (v : V) (f : K × V → Bool) (hnd : (l.map Prod.fst).Nodup) (h : alist_find l k = some v0) :
    (alist_set l k v).countP f + (if f (k, v0) then 1 else 0)
      = l.countP f + (if f (k, v) then 1 else 0) := by
  unfold alist_set
  rw [List.countP_cons]
  have := alist_countP_erase f k v0 l hnd h
  omega

/-! ## Slices of addresses -/

theorem slice_eq (r b key : Nat) : mtable_slice ⟨r, b⟩ key = key / 2 ^ r % 2 ^ b := by
  unfold mtable_slice mtable_idx_t.mask
  simp only [Nat.shiftRight_eq_div_pow, Nat.one_shiftLeft, Nat.and_pow_two_sub_one_eq_mod]

theorem path4_eq (a : Nat) : mtable_path overlay_epoch_idx a
    = [a / 2 ^ 39 % 512, a / 2 ^ 30 % 512, a / 2 ^ 21 % 512, a / 2 ^ 12 % 512] := by
  simp [mtable_path, overlay_epoch_idx, slice_eq]

theorem path5_eq (a : Nat) : mtable_path omt_idx a
    = mtable_path overlay_epoch_idx a ++ [page_line_offset a] := by
  simp [mtable_path, overlay_epoch_idx, omt_idx, slice_eq, page_line_offset,
    UTIL_CACHE_LINE_BITS, UTIL_PAGE_SIZE, UTIL_CACHE_LINE_SIZE, Nat.shiftRight_eq_div_pow]
  exact (Nat.and_pow_two_sub_one_eq_mod _ 6).symm

theorem page_line_offset_eq (a : Nat) : page_line_offset a = a / 64 % 64 := by
  simp [page_line_offset, UTIL_CACHE_LINE_BITS, UTIL_PAGE_SIZE, UTIL_CACHE_LINE_SIZE, Nat.shiftRight_eq_div_pow]
  exact (Nat.and_pow_two_sub_one_eq_mod _ 6)

theorem page_line_offset_lt (a : Nat) : page_line_offset a < 64 := by
  rw [page_line_offset_eq]; omega

theorem valid4_path4 (a : Nat) : valid4 (mtable_path overlay_epoch_idx a) := by
  rw [path4_eq]
  exact ⟨_, _, _, _, rfl, by omega, by omega, by omega, by omega⟩

theorem path4_page_addr_of (a : Nat) :
    mtable_path overlay_epoch_idx (page_addr_of a) = mtable_path overlay_epoch_idx a := by
  rw [path4_eq, path4_eq]
  simp only [page_addr_of, UTIL_PAGE_BITS, Nat.shiftRight_eq_div_pow, Nat.shiftLeft_eq]
  simp only [List.cons.injEq, and_true]
  refine ⟨?_, ?_, ?_, ?_⟩ <;> omega

theorem traverse_key4 (s1 s2 s3 s4 : Nat) (_h1 : s1 < 512) (h2 : s2 < 512) (h3 : s3 < 512)
    (h4 : s4 < 512) :
    mtable_traverse_key overlay_epoch_idx [s1, s2, s3, s4]
      = s1 * 2 ^ 39 + s2 * 2 ^ 30 + s3 * 2 ^ 21 + s4 * 2 ^ 12 := by
  simp only [mtable_traverse_key, overlay_epoch_idx, Nat.shiftLeft_eq, Nat.or_zero]
  have e3 : s3 * 2 ^ 21 ||| s4 * 2 ^ 12 = s3 * 2 ^ 21 + s4 * 2 ^ 12 := by
    have := Nat.mul_add_lt_is_or (i := 21) (b := s4 * 2 ^ 12) (by omega) s3
    rw [Nat.mul_comm] at this; exact this.symm
  have e2 : s2 * 2 ^ 30 ||| (s3 * 2 ^ 21 + s4 * 2 ^ 12) = s2 * 2 ^ 30 + (s3 * 2 ^ 21 + s4 * 2 ^ 12) := by
    have := Nat.mul_add_lt_is_or (i := 30) (b := s3 * 2 ^ 21 + s4 * 2 ^ 12) (by omega) s2
    rw [Nat.mul_comm] at this; exact this.symm
  have e1 : s1 * 2 ^ 39 ||| (s2 * 2 ^ 30 + (s3 * 2 ^ 21 + s4 * 2 ^ 12))
      = s1 * 2 ^ 39 + (s2 * 2 ^ 30 + (s3 * 2 ^ 21 + s4 * 2 ^ 12)) := by
    have := Nat.mul_add_lt_is_or (i := 39) (b := s2 * 2 ^ 30 + (s3 * 2 ^ 21 + s4 * 2 ^ 12)) (by omega) s1
    rw [Nat.mul_comm] at this; exact this.symm
  rw [e3, e2, e1]; omega

theorem line_addr_eq (k off : Nat) (hk : k % 4096 = 0) (ho : off < 64) :
    k ||| (off <<< UTIL_CACHE_LINE_BITS) = k + off * 64 := by
  simp only [UTIL_CACHE_LINE_BITS, Nat.shiftLeft_eq]
  have := Nat.mul_add_lt_is_or (i := 12) (b := off * 2 ^ 6) (by omega) (k / 4096)
  have e : 2 ^ 12 * (k / 4096) = k := by omega
  rw [e] at this
  rw [← this]
  norm_num

/-- Facts about the key the traversal hands out for a page path, and about the line addresses
built on it. -/
theorem traverse_key_facts (p : List Nat) (hp : valid4 p) (off : Nat) (ho : off < 64) :
    mtable_path overlay_epoch_idx (mtable_traverse_key overlay_epoch_idx p) = p ∧
    page_aligned (mtable_traverse_key overlay_epoch_idx p) = true ∧
    mtable_path omt_idx
      (mtable_traverse_key overlay_epoch_idx p ||| (off <<< UTIL_CACHE_LINE_BITS)) = p ++ [off] := by
  obtain ⟨s1, s2, s3, s4, rfl, h1, h2, h3, h4⟩ := hp
  have hk := traverse_key4 s1 s2 s3 s4 h1 h2 h3 h4
  have hmod : mtable_traverse_key overlay_epoch_idx [s1, s2, s3, s4] % 4096 = 0 := by
    rw [hk]; omega
  refine ⟨?_, ?_, ?_⟩
  · rw [path4_eq, hk]
    simp only [List.cons.injEq, and_true]
    refine ⟨?_, ?_, ?_, ?_⟩ <;> omega
  · unfold page_aligned
    have : UTIL_PAGE_SIZE - 1 = 2 ^ 12 - 1 := rfl
    rw [this, Nat.and_pow_two_sub_one_eq_mod]
    simp [hmod]
  · rw [line_addr_eq _ _ hmod ho, path5_eq, path4_eq, page_line_offset_eq, hk]
    simp only [List.cons_append, List.nil_append, List.cons.injEq, and_true]
    refine ⟨?_, ?_, ?_, ?_, ?_⟩ <;> omega

/-! ## Radix tree frame lemmas -/

theorem mtable_insert_walk_frame {V : Type} (key : Nat) (idx : List mtable_idx_t) :
    ∀ (pre : List Nat) (m : mtable_t V),
      (mtable_insert_walk key idx pre m).slots = m.slots ∧
      (mtable_insert_walk key idx pre m).idx = m.idx := by
  induction idx with
  | nil => intro pre m; exact ⟨rfl, rfl⟩
  | cons i rest ih =>
    intro pre m
    simp only [mtable_insert_walk]
    split
    · exact ih _ _
    · have := ih (pre ++ [mtable_slice i key])
        { m with nodes := pre :: m.nodes, page_count := m.page_count + 1,
                 size := m.size + i.pg_size }
      exact this

@[simp] theorem mtable_insert_slots {V : Type} (m : mtable_t V) (key : Nat) :
    (mtable_insert m key).slots = m.slots := (mtable_insert_walk_frame key m.idx [] m).1

@[simp] theorem mtable_insert_idx {V : Type} (m : mtable_t V) (key : Nat) :
    (mtable_insert m key).idx = m.idx := (mtable_insert_walk_frame key m.idx [] m).2

@[simp] theorem mtable_find_insert {V : Type} (m : mtable_t V) (key key' : Nat) :
    mtable_find (mtable_insert m key) key' = mtable_find m key' := by
  simp [mtable_find]

/-! ## Bitmaps -/

theorem bitmap64_mem_members (b : bitmap64_t) (i : Nat) :
    i ∈ bitmap64_members b ↔ i < 64 ∧ b.x.testBit i = true := by
  simp [bitmap64_members]

theorem bitmap64_testBit_add (b : bitmap64_t) (i j : Nat) :
    (bitmap64_add b i).x.testBit j = (decide (j < 64) && (b.x.testBit j || decide (i = j))) := by
  simp only [bitmap64_add, Nat.testBit_mod_two_pow, Nat.testBit_or, Nat.one_shiftLeft,
    Nat.testBit_two_pow]

theorem bitmap64_popcount_add_pos (b : bitmap64_t) (i : Nat) (hi : i < 64) :
    1 ≤ bitmap64_popcount (bitmap64_add b i) := by
  unfold bitmap64_popcount
  apply List.length_pos_of_mem (a := i)
  rw [bitmap64_mem_members, bitmap64_testBit_add]
  simp [hi]

theorem countP_and_or_le {α : Type} (c p q : α → Bool) (l : List α) :
    l.countP (fun j => c j && (p j || q j)) ≤ l.countP p + l.countP q := by
  induction l with
  | nil => simp
  | cons a t ih =>
    simp only [List.countP_cons]
    cases c a <;> cases p a <;> cases q a <;> simp <;> omega

theorem bitmap64_popcount_add_le (b : bitmap64_t) (i : Nat) :
    bitmap64_popcount (bitmap64_add b i) ≤ bitmap64_popcount b + 1 := by
  unfold bitmap64_popcount bitmap64_members
  simp only [bitmap64_testBit_add]
  rw [← List.countP_eq_length_filter, ← List.countP_eq_length_filter]
  have h1 := countP_and_or_le (fun j => decide (j < 64)) (fun j => b.x.testBit j)
    (fun j => decide (i = j)) (List.range 64)
  have h2 : (List.range 64).countP (fun j => decide (i = j)) ≤ 1 := by
    have := List.nodup_iff_count_le_one.mp (List.nodup_range 64) i
    have e : (List.range 64).countP (fun j => decide (i = j)) = (List.range 64).count i := by
      unfold List.count
      congr 1
      funext j
      by_cases h : i = j
      · simp [h]
      · have : ¬ j = i := fun h' => h h'.symm
        simp [h, this]
    omega
  omega

theorem c_assert_ok {c : Bool} {line : Nat} {u : Unit} (h : c_assert c line = .ok u) : c = true := by
  unfold c_assert at h
  split at h
  · assumption
  · cases h

@[simp] theorem c_assert_true (line : Nat) : c_assert true line = .ok () := rfl

theorem overlay_epoch_insert_ok {ep : overlay_epoch_t} {addr : Nat} {ep' : overlay_epoch_t} {ret : Nat}
    (h : overlay_epoch_insert ep addr = .ok (ep', ret)) :
    ∃ sz, ep' = { ep with
      mtable := mtable_slot_write (mtable_insert ep.mtable addr) addr
        { bitmap := bitmap64_add ((mtable_find ep.mtable addr).getD overlay_page_init).bitmap (page_line_offset addr),
          ref_count := ((mtable_find ep.mtable addr).getD overlay_page_init).ref_count + 1 },
      overlay_page_count := if (mtable_find ep.mtable addr).isNone then ep.overlay_page_count + 1 else ep.overlay_page_count,
      size := sz } := by
  unfold overlay_epoch_insert at h
  simp only [bind, Except.bind, pure, Except.pure, mtable_find_insert] at h
  split at h
  · cases h
  · split at h
    · cases h; exact ⟨_, rfl⟩
    · split at h
      · cases h
      · cases h; exact ⟨_, rfl⟩

theorem overlay_insert_ok {ov ov' : overlay_t} {addr e : Nat}
    (h : overlay_insert ov addr e = .ok ov') :
    ∃ ep0 ep' ret E0,
      ((alist_find ov.epochs.nodes e = some ep0 ∧ E0 = ov.epochs.nodes) ∨
       (alist_find ov.epochs.nodes e = none ∧ ep0 = { overlay_epoch_init with epoch := e } ∧
         E0 = (e, ep0) :: ov.epochs.nodes)) ∧
      ep0.epoch = e ∧ ep0.merged = false ∧ overlay_epoch_insert ep0 addr = .ok (ep', ret) ∧
      ov'.epochs.nodes = alist_set E0 e ep' := by
  unfold overlay_insert at h
  simp only [bind, Except.bind, pure, Except.pure, ht64_find, ht64_insert, ht64_store] at h
  split at h
  · cases h
  · cases hf : alist_find ov.epochs.nodes e with
    | some ep0 =>
      simp only [hf] at h
      split at h
      · cases h
      · rename_i hep
        have hep' := c_assert_ok hep
        split at h
        · cases h
        · rename_i hm
          split at h
          · cases h
          · rename_i v heq
            obtain ⟨ep', ret⟩ := v
            cases h
            exact ⟨ep0, ep', ret, _, Or.inl ⟨rfl, rfl⟩, by simpa using hep', by simpa using hm, heq, rfl⟩
    | none =>
      simp only [hf, c_assert_true] at h
      split at h
      · cases h
      · split at h
        · cases h
        · rename_i hm
          split at h
          · cases h
          · rename_i v heq
            obtain ⟨ep', ret⟩ := v
            cases h
            exact ⟨_, ep', ret, _, Or.inr ⟨rfl, rfl, rfl⟩, rfl, by simpa using hm, heq, rfl⟩

theorem slot_count_eq_zero {S : List (List Nat × Nat)} {e : Nat} (p : List Nat)
    (h : ∀ q, alist_find S q ≠ some e) (hnd : (S.map Prod.fst).Nodup) : slot_count S e p = 0 := by
  unfold slot_count
  rw [List.countP_eq_zero]
  intro s hs
  simp only [decide_eq_true_eq, not_and]
  intro h2
  exfalso
  have : (s.1, s.2) ∈ S := hs
  have := alist_mem_find hnd this
  exact h s.1 (h2 ▸ this)

theorem slot_count_pos {S : List (List Nat × Nat)} {e : Nat} {p : List Nat} {off : Nat}
    (h : alist_find S (p ++ [off]) = some e) : 1 ≤ slot_count S e p := by
  unfold slot_count
  apply List.countP_pos_iff.mpr
  exact ⟨(p ++ [off], e), alist_find_mem h, by simp⟩

theorem overlay_insert_inv {ov ov' : overlay_t} {S : List (List Nat × Nat)} {addr e : Nat}
    (hI : OvInv pending_steady ov.epochs.nodes S) (h : overlay_insert ov addr e = .ok ov') :
    OvInv pending_steady ov'.epochs.nodes S := by
  obtain ⟨ep0, ep', ret, E0, hcase, hepoch, hmerged, hins, hE'⟩ := overlay_insert_ok h
  obtain ⟨sz, hep'⟩ := overlay_epoch_insert_ok hins
  have hoff := page_line_offset_lt addr
  -- facts shared by the two cases
  have A : ep0.mtable.idx = overlay_epoch_idx ∧ (ep0.mtable.slots.map Prod.fst).Nodup ∧
      ep0.mtable.slots.countP (fun s => decide (0 < s.2.ref_count)) ≤ ep0.overlay_page_count ∧
      (∀ p pg, alist_find ep0.mtable.slots p = some pg →
        valid4 p ∧ 1 ≤ bitmap64_popcount pg.bitmap ∧ bitmap64_popcount pg.bitmap ≤ pg.ref_count) ∧
      (∀ q, alist_find S q ≠ some e) ∧
      (E0.map Prod.fst).Nodup ∧
      (∀ e'', alist_find (alist_set E0 e ep') e'' =
        if e'' = e then some ep' else alist_find ov.epochs.nodes e'') := by
    rcases hcase with ⟨hf, rfl⟩ | ⟨hf, rfl, rfl⟩
    · have hw := hI.epoch_wf e ep0 hf
      refine ⟨hw.2.1, hw.2.2.1, hw.2.2.2, ?_, ?_, hI.nodup_epochs, ?_⟩
      · intro p pg hp
        have := hI.page_wf e ep0 p pg hf hp
        simp only [pending_steady, hmerged] at this
        exact ⟨this.1, this.2.1, by have := this.2.2; simp at this; omega⟩
      · intro q hq
        obtain ⟨p, off, ep, pg, -, -, h1, h2, -⟩ := hI.slot_ok q e hq
        rw [hf] at h1; cases h1
        rw [hmerged] at h2; cases h2
      · intro e''; rw [alist_find_set]
    · refine ⟨rfl, by simp [overlay_epoch_init, mtable_init], by simp [overlay_epoch_init, mtable_init], ?_, ?_, ?_, ?_⟩
      · intro p pg hp
        simp [overlay_epoch_init, mtable_init, alist_find] at hp
      · intro q hq
        obtain ⟨p, off, ep, pg, -, -, h1, -⟩ := hI.slot_ok q e hq
        rw [hf] at h1; cases h1
      · simp only [List.map_cons, List.nodup_cons]
        exact ⟨alist_find_none_iff.mp hf, hI.nodup_epochs⟩
      · intro e''
        rw [alist_find_set]
        by_cases h2 : e'' = e
        · simp [h2]
        · have : ¬ e = e'' := fun h3 => h2 h3.symm
          simp [h2, alist_find, this]
  obtain ⟨A1, A2, A3, A4, A5, A6, A7⟩ := A
  have hpath : mtable_path (mtable_insert ep0.mtable addr).idx addr = mtable_path overlay_epoch_idx addr := by
    rw [mtable_insert_idx, A1]
  have hslots' : ep'.mtable.slots = alist_set ep0.mtable.slots (mtable_path overlay_epoch_idx addr)
      { bitmap := bitmap64_add ((mtable_find ep0.mtable addr).getD overlay_page_init).bitmap (page_line_offset addr),
        ref_count := ((mtable_find ep0.mtable addr).getD overlay_page_init).ref_count + 1 } := by
    rw [hep']; simp only [mtable_slot_write, mtable_insert_slots, hpath]
  have hfind0 : mtable_find ep0.mtable addr = alist_find ep0.mtable.slots (mtable_path overlay_epoch_idx addr) := by
    simp [mtable_find, A1]
  refine ⟨hI.nodup_slots, ?_, ?_, ?_, ?_⟩
  · rw [hE']; exact alist_set_nodup _ _ A6
  · intro e'' ep'' hf
    rw [hE', A7] at hf
    by_cases h2 : e'' = e
    · simp only [h2, if_true, Option.some.injEq] at hf
      subst hf
      refine ⟨by rw [hep']; exact h2 ▸ hepoch, by rw [hep']; simp [mtable_slot_write, A1], ?_, ?_⟩
      · rw [hslots']; exact alist_set_nodup _ _ A2
      · rw [hslots']
        cases hp : alist_find ep0.mtable.slots (mtable_path overlay_epoch_idx addr) with
        | none =>
          rw [alist_countP_set_new _ _ hp]
          rw [hep']; simp only [hfind0, hp, Option.isNone_none, if_true]
          simp; omega
        | some pg0 =>
          have := alist_countP_set_old
            ({ bitmap := bitmap64_add ((mtable_find ep0.mtable addr).getD overlay_page_init).bitmap (page_line_offset addr),
               ref_count := ((mtable_find ep0.mtable addr).getD overlay_page_init).ref_count + 1 } : overlay_page_t)
            (fun s => decide (0 < s.2.ref_count)) A2 hp
          have hpos := (A4 _ _ hp).2
          rw [hep']; simp only [hfind0, hp, Option.isNone_some, Option.getD_some]
          simp only [hfind0, hp, Option.getD_some, decide_eq_true_eq, Nat.zero_lt_succ,
            if_true] at this
          have h0 : 0 < pg0.ref_count := by omega
          simp only [h0, if_true] at this
          simp; omega
    · simp only [h2, if_false] at hf
      exact hI.epoch_wf e'' ep'' hf
  · intro e'' ep'' p pg hf hp
    rw [hE', A7] at hf
    by_cases h2 : e'' = e
    · simp only [h2, if_true, Option.some.injEq] at hf
      subst hf
      have hm : ep'.merged = false := by rw [hep']; exact hmerged
      rw [hslots', alist_find_set] at hp
      rw [h2, slot_count_eq_zero p A5 hI.nodup_slots, hm]
      simp only [pending_steady, Bool.false_eq_true, if_false, Nat.zero_add]
      by_cases h3 : p = mtable_path overlay_epoch_idx addr
      · simp only [h3, if_true, Option.some.injEq] at hp
        subst hp
        refine ⟨h3 ▸ valid4_path4 addr, bitmap64_popcount_add_pos _ _ hoff, ?_⟩
        have hle := bitmap64_popcount_add_le ((mtable_find ep0.mtable addr).getD overlay_page_init).bitmap (page_line_offset addr)
        simp only
        cases hq : alist_find ep0.mtable.slots (mtable_path overlay_epoch_idx addr) with
        | none =>
          simp only [hfind0, hq, Option.getD_none] at hle ⊢
          have : bitmap64_popcount overlay_page_init.bitmap = 0 := by decide
          simp only [overlay_page_init] at this hle ⊢
          omega
        | some pg0 =>
          simp only [hfind0, hq, Option.getD_some] at hle ⊢
          have := (A4 _ _ hq).2.2
          omega
      · simp only [h3, if_false] at hp
        exact A4 p pg hp
    · simp only [h2, if_false] at hf
      exact hI.page_wf e'' ep'' p pg hf hp
  · intro q h' hq
    obtain ⟨p, off, ep, pg, h1, h2, h3, h4, h5, h6⟩ := hI.slot_ok q h' hq
    have hne : h' ≠ e := fun hh => A5 q (hh ▸ hq)
    refine ⟨p, off, ep, pg, h1, h2, ?_, h4, h5, h6⟩
    rw [hE', A7]; simp [hne, h3]

theorem overlay_gc_epoch_ok {ov ov' : overlay_t} {e3 : overlay_epoch_t}
    (hu : overlay_gc_epoch ov e3 = .ok ov') :
    e3.overlay_page_count = 0 ∧ ov'.epochs.nodes = alist_erase ov.epochs.nodes e3.epoch := by
  unfold overlay_gc_epoch overlay_remove at hu
  simp only [bind, Except.bind, pure, Except.pure, ht64_remove] at hu
  split at hu
  · cases hu
  · rename_i hz
    have hz' : e3.overlay_page_count = 0 := by simpa using c_assert_ok hz
    split at hu
    · cases hu
    · cases hfr : alist_find ov.epochs.nodes e3.epoch with
      | none => simp only [hfr] at hu; cases hu
      | some v =>
        simp only [hfr] at hu
        split at hu
        · cases hu
        · split at hu
          · cases hu
          · cases hu
            exact ⟨hz', rfl⟩

theorem overlay_line_unlink_ok {ov ov' : overlay_t} {h pa : Nat}
    (hu : overlay_line_unlink ov h pa = .ok ov') :
    page_aligned pa = true ∧ ∃ ep pg e3,
      alist_find ov.epochs.nodes h = some ep ∧ mtable_find ep.mtable pa = some pg ∧
      0 < pg.ref_count ∧ e3.epoch = ep.epoch ∧ e3.merged = ep.merged ∧
      e3.mtable = mtable_slot_write ep.mtable pa { pg with ref_count := pg.ref_count - 1 } ∧
      ((pg.ref_count - 1 ≠ 0 ∧ e3.overlay_page_count = ep.overlay_page_count ∧
          ov'.epochs.nodes = alist_set ov.epochs.nodes h e3) ∨
       (pg.ref_count - 1 = 0 ∧ ep.overlay_page_count ≠ 0 ∧
          e3.overlay_page_count = ep.overlay_page_count - 1 ∧
          (ov'.epochs.nodes = alist_set ov.epochs.nodes h e3 ∨
           (e3.overlay_page_count = 0 ∧
            ov'.epochs.nodes = alist_erase (alist_set ov.epochs.nodes h e3) e3.epoch)))) := by
  unfold overlay_line_unlink at hu
  simp only [bind, Except.bind, pure, Except.pure, ht64_find, ht64_store, overlay_epoch_find] at hu
  split at hu
  · cases hu
  · rename_i hal
    refine ⟨c_assert_ok hal, ?_⟩
    split at hu
    · cases hu
    · rename_i ep hep
      split at hu
      · cases hu
      · rename_i pg hpg
        split at hu
        · cases hu
        · rename_i hpos
          have hpos' : 0 < pg.ref_count := by simpa using c_assert_ok hpos
          split at hu
          · rename_i hz
            split at hu
            · cases hu
            · rename_i hcnt
              have hcnt' : ep.overlay_page_count ≠ 0 := by simpa using c_assert_ok hcnt
              split at hu
              · cases hu
              · rename_i psz hpsz
                split at hu
                · cases hu
                · split at hu
                  · cases hu
                  · split at hu
                    · have hg := overlay_gc_epoch_ok hu
                      exact ⟨ep, pg,
                        { epoch := ep.epoch,
                          mtable := mtable_slot_write ep.mtable pa
                            { bitmap := pg.bitmap, ref_count := pg.ref_count - 1 },
                          overlay_page_count := ep.overlay_page_count - 1,
                          size := ep.size - psz, merged := ep.merged },
                        hep, hpg, hpos', rfl, rfl, rfl,
                        Or.inr ⟨hz, hcnt', rfl, Or.inr ⟨hg.1, hg.2⟩⟩⟩
                    · cases hu
                      exact ⟨ep, pg,
                        { epoch := ep.epoch,
                          mtable := mtable_slot_write ep.mtable pa
                            { bitmap := pg.bitmap, ref_count := pg.ref_count - 1 },
                          overlay_page_count := ep.overlay_page_count - 1,
                          size := ep.size - psz, merged := ep.merged },
                        hep, hpg, hpos', rfl, rfl, rfl, Or.inr ⟨hz, hcnt', rfl, Or.inl rfl⟩⟩
          · rename_i hz
            cases hu
            exact ⟨ep, pg,
              { epoch := ep.epoch,
                mtable := mtable_slot_write ep.mtable pa
                  { bitmap := pg.bitmap, ref_count := pg.ref_count - 1 },
                overlay_page_count := ep.overlay_page_count,
                size := ep.size, merged := ep.merged },
              hep, hpg, hpos', rfl, rfl, rfl, Or.inl ⟨hz, rfl, rfl⟩⟩

theorem publish_arith (P Q : Prop) [Decidable P] [Decidable Q] (a b x x' r : Nat)
    (h2 : a + (if P then 1 else 0) = b + (if Q then 1 else 0))
    (h3 : x' + (if Q then 1 else 0) ≤ x) (h4 : b + x ≤ r) :
    a + x' ≤ r ∧ (P → a + x' + 1 ≤ r) := by
  by_cases hP : P <;> by_cases hQ : Q
  · rw [if_pos hP, if_pos hQ] at h2; rw [if_pos hQ] at h3
    exact ⟨by omega, fun _ => by omega⟩
  · rw [if_pos hP, if_neg hQ] at h2; rw [if_neg hQ] at h3
    exact ⟨by omega, fun _ => by omega⟩
  · rw [if_neg hP, if_pos hQ] at h2; rw [if_pos hQ] at h3
    exact ⟨by omega, fun h => absurd h hP⟩
  · rw [if_neg hP, if_neg hQ] at h2; rw [if_neg hQ] at h3
    exact ⟨by omega, fun h => absurd h hP⟩

theorem OvInv_publish {X X' : Nat → Bool → List Nat → bitmap64_t → Nat}
    {E : List (Nat × overlay_epoch_t)} {S : List (List Nat × Nat)} {e0 off : Nat} {p : List Nat}
    {ep0 : overlay_epoch_t} {pg0 : overlay_page_t}
    (hI : OvInv X E S) (hoff : off < 64)
    (he0 : alist_find E e0 = some ep0) (hm : ep0.merged = true)
    (hp0 : alist_find ep0.mtable.slots p = some pg0) (hbit : pg0.bitmap.x.testBit off = true)
    (hX : ∀ e m p' b, X' e m p' b + (if e = e0 ∧ p' = p then 1 else 0) ≤ X e m p' b) :
    OvInv X' E (alist_set S (p ++ [off]) e0) ∧
    ∀ h, alist_find S (p ++ [off]) = some h → ∀ ep pg, alist_find E h = some ep →
      alist_find ep.mtable.slots p = some pg →
      slot_count (alist_set S (p ++ [off]) e0) h p + X' h ep.merged p pg.bitmap + 1
        ≤ pg.ref_count := by
  -- how the counts move
  have hcount : ∀ e p', slot_count (alist_set S (p ++ [off]) e0) e p'
      + (if alist_find S (p ++ [off]) = some e ∧ p' = p then 1 else 0)
      = slot_count S e p' + (if e = e0 ∧ p' = p then 1 else 0) := by
    intro e p'
    unfold slot_count
    cases hq : alist_find S (p ++ [off]) with
    | none =>
      rw [alist_countP_set_new _ _ hq]
      simp only [List.dropLast_concat, decide_eq_true_eq, false_and, if_false, Nat.add_zero, reduceCtorEq]
      congr 1
      by_cases h1 : e0 = e <;> by_cases h2 : p = p' <;> simp [h1, h2, eq_comm]
    | some h =>
      have := alist_countP_set_old e0 (fun s => decide (s.2 = e ∧ s.1.dropLast = p')) hI.nodup_slots hq
      simp only [List.dropLast_concat, decide_eq_true_eq, Option.some.injEq] at this ⊢
      by_cases h1 : e0 = e <;> by_cases h2 : p = p' <;> by_cases h3 : h = e <;>
        simp [h1, h2, h3, eq_comm] at this ⊢ <;> omega
  have hnd' := alist_set_nodup (p ++ [off]) e0 hI.nodup_slots
  constructor
  · refine ⟨hnd', hI.nodup_epochs, hI.epoch_wf, ?_, ?_⟩
    · intro e ep p' pg hf hp
      have h1 := hI.page_wf e ep p' pg hf hp
      refine ⟨h1.1, h1.2.1, ?_⟩
      have h2 := hcount e p'
      have h3 := hX e ep.merged p' pg.bitmap
      have h4 := h1.2.2
      exact (publish_arith _ _ _ _ _ _ _ h2 h3 h4).1
    · intro q h hq
      rw [alist_find_set] at hq
      by_cases hqq : q = p ++ [off]
      · simp only [hqq, if_true, Option.some.injEq] at hq
        subst hq
        exact ⟨p, off, ep0, pg0, hqq, hoff, he0, hm, hp0, hbit⟩
      · simp only [hqq, if_false] at hq
        exact hI.slot_ok q h hq
  · intro h hq ep pg hf hp
    have h1 := hI.page_wf h ep p pg hf hp
    have h2 := hcount h p
    have h3 := hX h ep.merged p pg.bitmap
    have h4 := h1.2.2
    exact (publish_arith _ _ _ _ _ _ _ h2 h3 h4).2 ⟨hq, rfl⟩

theorem OvInv_replace {X : Nat → Bool → List Nat → bitmap64_t → Nat}
    {E : List (Nat × overlay_epoch_t)} {S : List (List Nat × Nat)} {h : Nat} {p : List Nat}
    {ep e3 : overlay_epoch_t} {pg : overlay_page_t}
    (hI : OvInv X E S) (hep : alist_find E h = some ep)
    (hpg : alist_find ep.mtable.slots p = some pg)
    (hslack : slot_count S h p + X h ep.merged p pg.bitmap + 1 ≤ pg.ref_count)
    (h1 : e3.epoch = ep.epoch) (h2 : e3.merged = ep.merged) (h3 : e3.mtable.idx = ep.mtable.idx)
    (h3' : e3.mtable.slots = alist_set ep.mtable.slots p { pg with ref_count := pg.ref_count - 1 })
    (h4 : (pg.ref_count - 1 ≠ 0 ∧ e3.overlay_page_count = ep.overlay_page_count) ∨
          (pg.ref_count - 1 = 0 ∧ ep.overlay_page_count ≠ 0 ∧
            e3.overlay_page_count = ep.overlay_page_count - 1)) :
    OvInv X (alist_set E h e3) S := by
  have hw := hI.epoch_wf h ep hep
  refine ⟨hI.nodup_slots, alist_set_nodup _ _ hI.nodup_epochs, ?_, ?_, ?_⟩
  · intro e ep' hf
    rw [alist_find_set] at hf
    by_cases he : e = h
    · simp only [he, if_true, Option.some.injEq] at hf
      subst hf
      refine ⟨by rw [h1, he]; exact hw.1, by rw [h3]; exact hw.2.1, ?_, ?_⟩
      · rw [h3']; exact alist_set_nodup _ _ hw.2.2.1
      · rw [h3']
        have hc := alist_countP_set_old ({ pg with ref_count := pg.ref_count - 1 } : overlay_page_t)
          (fun s => decide (0 < s.2.ref_count)) hw.2.2.1 hpg
        have hpos : 0 < pg.ref_count := by omega
        simp only [decide_eq_true_eq, hpos, if_true] at hc
        have hle := hw.2.2.2
        rcases h4 with ⟨hz, hcnt⟩ | ⟨hz, hne, hcnt⟩
        · have : 0 < pg.ref_count - 1 := by omega
          simp only [this, if_true] at hc
          omega
        · have : ¬ 0 < pg.ref_count - 1 := by omega
          simp only [this, if_false] at hc
          omega
    · simp only [he, if_false] at hf
      exact hI.epoch_wf e ep' hf
  · intro e ep' p' pg' hf hp
    rw [alist_find_set] at hf
    by_cases he : e = h
    · simp only [he, if_true, Option.some.injEq] at hf
      subst hf
      rw [h3', alist_find_set] at hp
      rw [h2, he]
      by_cases hpp : p' = p
      · simp only [hpp, if_true, Option.some.injEq] at hp
        subst hp
        have := hI.page_wf h ep p pg hep hpg
        refine ⟨hpp ▸ this.1, this.2.1, ?_⟩
        simp only [hpp]
        omega
      · simp only [hpp, if_false] at hp
        exact hI.page_wf h ep p' pg' hep hp
    · simp only [he, if_false] at hf
      exact hI.page_wf e ep' p' pg' hf hp
  · intro q h' hq
    obtain ⟨p', off, ep', pg', e1, e2, e3', e4, e5, e6⟩ := hI.slot_ok q h' hq
    by_cases he : h' = h
    · subst he
      rw [hep] at e3'; cases e3'
      by_cases hpp : p' = p
      · subst hpp
        rw [hpg] at e5; cases e5
        refine ⟨p', off, e3, { pg with ref_count := pg.ref_count - 1 }, e1, e2, ?_, by rw [h2]; exact e4, ?_, e6⟩
        · rw [alist_find_set]; simp
        · rw [h3', alist_find_set]; simp
      · refine ⟨p', off, e3, pg', e1, e2, ?_, by rw [h2]; exact e4, ?_, e6⟩
        · rw [alist_find_set]; simp
        · rw [h3', alist_find_set]; simp [hpp, e5]
    · refine ⟨p', off, ep', pg', e1, e2, ?_, e4, e5, e6⟩
      rw [alist_find_set]; simp [he, e3']

theorem OvInv_gc {X : Nat → Bool → List Nat → bitmap64_t → Nat}
    {E : List (Nat × overlay_epoch_t)} {S : List (List Nat × Nat)} {h : Nat}
    {e3 : overlay_epoch_t}
    (hI : OvInv X E S) (hep : alist_find E h = some e3) (hz : e3.overlay_page_count = 0) :
    OvInv X (alist_erase E h) S := by
  have hw := hI.epoch_wf h e3 hep
  have hnone : ∀ q, alist_find S q ≠ some h := by
    intro q hq
    obtain ⟨p, off, ep, pg, e1, -, e3', -, e5, -⟩ := hI.slot_ok q h hq
    rw [hep] at e3'; cases e3'
    have hc : e3.mtable.slots.countP (fun s => decide (0 < s.2.ref_count)) = 0 := by
      have := hw.2.2.2; omega
    rw [List.countP_eq_zero] at hc
    have hr := hc (p, pg) (alist_find_mem e5)
    simp only [decide_eq_true_eq, not_lt, Nat.le_zero] at hr
    have hp := (hI.page_wf h e3 p pg hep e5).2.2
    have hs : 1 ≤ slot_count S h p := slot_count_pos (e1 ▸ hq)
    omega
  refine ⟨hI.nodup_slots, alist_erase_nodup _ hI.nodup_epochs, ?_, ?_, ?_⟩
  · intro e ep hf
    rw [alist_find_erase] at hf
    by_cases he : e = h
    · simp [he] at hf
    · simp only [he, if_false] at hf
      exact hI.epoch_wf e ep hf
  · intro e ep p pg hf hp
    rw [alist_find_erase] at hf
    by_cases he : e = h
    · simp [he] at hf
    · simp only [he, if_false] at hf
      exact hI.page_wf e ep p pg hf hp
  · intro q h' hq
    obtain ⟨p', off, ep', pg', e1, e2, e3', e4, e5, e6⟩ := hI.slot_ok q h' hq
    have he : h' ≠ h := fun hh => hnone q (hh ▸ hq)
    refine ⟨p', off, ep', pg', e1, e2, ?_, e4, e5, e6⟩
    rw [alist_find_erase]; simp [he, e3']

theorem overlay_line_unlink_inv {X : Nat → Bool → List Nat → bitmap64_t → Nat}
    {ov ov' : overlay_t} {S : List (List Nat × Nat)} {h pa : Nat} {p : List Nat}
    {ep : overlay_epoch_t} {pg : overlay_page_t}
    (hI : OvInv X ov.epochs.nodes S) (hep : alist_find ov.epochs.nodes h = some ep)
    (hpg : alist_find ep.mtable.slots p = some pg)
    (hpath : mtable_path overlay_epoch_idx pa = p)
    (hslack : slot_count S h p + X h ep.merged p pg.bitmap + 1 ≤ pg.ref_count)
    (hu : overlay_line_unlink ov h pa = .ok ov') :
    OvInv X ov'.epochs.nodes S ∧
    (∀ e ep0, alist_find ov.epochs.nodes e = some ep0 → (e = h → 2 ≤ pg.ref_count) →
      ∃ ep2, alist_find ov'.epochs.nodes e = some ep2 ∧ ep2.merged = ep0.merged ∧
        ∀ p' pg', alist_find ep0.mtable.slots p' = some pg' →
          ∃ pg2, alist_find ep2.mtable.slots p' = some pg2 ∧ pg2.bitmap = pg'.bitmap) := by
  obtain ⟨-, ep_, pg_, e3, a1, a2, a3, a4, a5, a6, a7⟩ := overlay_line_unlink_ok hu
  rw [hep] at a1; cases a1
  have hw := hI.epoch_wf h ep hep
  have hfind : mtable_find ep.mtable pa = alist_find ep.mtable.slots p := by
    simp [mtable_find, hw.2.1, hpath]
  rw [hfind, hpg] at a2; cases a2
  have hidx : e3.mtable.idx = ep.mtable.idx := by rw [a6]; rfl
  have hslots : e3.mtable.slots = alist_set ep.mtable.slots p { pg with ref_count := pg.ref_count - 1 } := by
    rw [a6]; simp [mtable_slot_write, hw.2.1, hpath]
  have hrep : OvInv X (alist_set ov.epochs.nodes h e3) S := by
    apply OvInv_replace hI hep hpg hslack a4 a5 hidx hslots
    rcases a7 with ⟨b1, b2, -⟩ | ⟨b1, b2, b3, -⟩
    · exact Or.inl ⟨b1, b2⟩
    · exact Or.inr ⟨b1, b2, b3⟩
  -- frame for the replaced table
  have hframe : ∀ e ep0, alist_find ov.epochs.nodes e = some ep0 →
      ∃ ep2, alist_find (alist_set ov.epochs.nodes h e3) e = some ep2 ∧ ep2.merged = ep0.merged ∧
        ∀ p' pg', alist_find ep0.mtable.slots p' = some pg' →
          ∃ pg2, alist_find ep2.mtable.slots p' = some pg2 ∧ pg2.bitmap = pg'.bitmap := by
    intro e ep0 hf
    rw [alist_find_set]
    by_cases he : e = h
    · subst he
      rw [hep] at hf; cases hf
      refine ⟨e3, by simp, a5, ?_⟩
      intro p' pg' hp'
      rw [hslots, alist_find_set]
      by_cases hpp : p' = p
      · subst hpp
        rw [hpg] at hp'; cases hp'
        exact ⟨{ pg with ref_count := pg.ref_count - 1 }, by simp, rfl⟩
      · exact ⟨pg', by simp [hpp, hp'], rfl⟩
    · exact ⟨ep0, by simp [he, hf], rfl, fun p' pg' hp' => ⟨pg', hp', rfl⟩⟩
  have hE : ov'.epochs.nodes = alist_set ov.epochs.nodes h e3 ∨
      (pg.ref_count - 1 = 0 ∧ e3.overlay_page_count = 0 ∧
        ov'.epochs.nodes = alist_erase (alist_set ov.epochs.nodes h e3) h) := by
    rcases a7 with ⟨-, -, b3⟩ | ⟨b1, -, -, b4 | ⟨b4, b5⟩⟩
    · exact Or.inl b3
    · exact Or.inl b4
    · refine Or.inr ⟨b1, b4, ?_⟩
      rw [b5, a4, hw.1]
  rcases hE with hE | ⟨hz, hc, hE⟩
  · rw [hE]
    exact ⟨hrep, fun e ep0 hf _ => hframe e ep0 hf⟩
  · rw [hE]
    refine ⟨OvInv_gc hrep (by rw [alist_find_set]; simp) hc, ?_⟩
    intro e ep0 hf h2
    have hne : e ≠ h := by
      intro he
      have := h2 he
      omega
    obtain ⟨ep2, c1, c2, c3⟩ := hframe e ep0 hf
    exact ⟨ep2, by rw [alist_find_erase]; simp [hne, c1], c2, c3⟩

theorem epoch_kept_refl (E : List (Nat × overlay_epoch_t)) (e0 : Nat) : epoch_kept E E e0 :=
  fun ep0 h => ⟨ep0, h, rfl, fun _ pg hp => ⟨pg, hp, rfl⟩⟩

theorem epoch_kept_trans {E E1 E2 : List (Nat × overlay_epoch_t)} {e0 : Nat}
    (h1 : epoch_kept E E1 e0) (h2 : epoch_kept E1 E2 e0) : epoch_kept E E2 e0 := by
  intro ep0 h
  obtain ⟨ep1, a1, a2, a3⟩ := h1 ep0 h
  obtain ⟨ep2, b1, b2, b3⟩ := h2 ep1 a1
  refine ⟨ep2, b1, by rw [b2, a2], ?_⟩
  intro p pg hp
  obtain ⟨pg1, c1, c2⟩ := a3 p pg hp
  obtain ⟨pg2, d1, d2⟩ := b3 p pg1 c1
  exact ⟨pg2, d1, by rw [d2, c2]⟩

theorem has_line_of_kept {E E1 : List (Nat × overlay_epoch_t)} {e0 : Nat} {p : List Nat}
    {off : Nat} (hk : epoch_kept E E1 e0) (h : has_line E e0 p off) : has_line E1 e0 p off := by
  obtain ⟨epa, pga, d1, d2, d3, d4⟩ := h
  obtain ⟨ep2, g1, g2, g3⟩ := hk epa d1
  obtain ⟨pg2, g4, g5⟩ := g3 p pga d3
  exact ⟨ep2, pg2, g1, by rw [g2]; exact d2, g4, by rw [g5]; exact d4⟩

theorem pending_merge_step (e0 : Nat) (p : List Nat) (work : List (List Nat)) :
    ∀ e m p' b, pending_merge e0 work e m p' b + (if e = e0 ∧ p' = p then 1 else 0)
      ≤ pending_merge e0 (p :: work) e m p' b := by
  intro e m p' b
  unfold pending_merge
  by_cases he : e = e0
  · simp only [he, if_true, true_and, List.count_cons]
    by_cases hp : p' = p
    · simp [hp]
    · have : ¬ p = p' := fun h => hp h.symm
      simp [hp, this]
  · simp [he]

theorem overlay_merge_lines_inv (e0 pa : Nat) (p : List Nat) (work : List (List Nat))
    (hp : valid4 p) (hpa : pa = mtable_traverse_key overlay_epoch_idx p) :
    ∀ (offs : List Nat) (ov : overlay_t) (omt : omt_t) (ov' : overlay_t) (omt' : omt_t),
      omt.mtable.idx = omt_idx →
      (∀ off ∈ offs, off < 64 ∧ has_line ov.epochs.nodes e0 p off) →
      OvInv (pending_merge e0 (List.replicate offs.length p ++ work)) ov.epochs.nodes
        omt.mtable.slots →
      overlay_merge_lines e0 pa offs (ov, omt) = .ok (ov', omt') →
      OvInv (pending_merge e0 work) ov'.epochs.nodes omt'.mtable.slots ∧
      omt'.mtable.idx = omt_idx ∧
      epoch_kept ov.epochs.nodes ov'.epochs.nodes e0 := by
  intro offs
  induction offs with
  | nil =>
    intro ov omt ov' omt' hidx _ hI hm
    simp only [overlay_merge_lines, pure, Except.pure, Except.ok.injEq, Prod.mk.injEq] at hm
    obtain ⟨rfl, rfl⟩ := hm
    exact ⟨by simpa using hI, hidx, epoch_kept_refl _ _⟩
  | cons off rest ih =>
    intro ov omt ov' omt' hidx hl hI hm
    have hoff := (hl off (List.mem_cons_self _ _)).1
    obtain ⟨ep0, pg0, he0, hmg, hp0, hbit⟩ := (hl off (List.mem_cons_self _ _)).2
    obtain ⟨f1, f2, f3⟩ := traverse_key_facts p hp off hoff
    rw [← hpa] at f1 f2 f3
    have hq : mtable_path omt.mtable.idx (pa ||| off <<< UTIL_CACHE_LINE_BITS) = p ++ [off] := by
      rw [hidx]; exact f3
    simp only [overlay_merge_lines, omt_merge_line, bind, Except.bind, mtable_find_insert] at hm
    have hS1 : (mtable_slot_write (mtable_insert omt.mtable (pa ||| off <<< UTIL_CACHE_LINE_BITS))
        (pa ||| off <<< UTIL_CACHE_LINE_BITS) e0).slots = alist_set omt.mtable.slots (p ++ [off]) e0 := by
      simp [mtable_slot_write, hq]
    have hold : mtable_find omt.mtable (pa ||| off <<< UTIL_CACHE_LINE_BITS)
        = alist_find omt.mtable.slots (p ++ [off]) := by
      simp [mtable_find, hq]
    have hX := pending_merge_step e0 p (List.replicate rest.length p ++ work)
    have hI' : OvInv (pending_merge e0 (p :: (List.replicate rest.length p ++ work)))
        ov.epochs.nodes omt.mtable.slots := by
      simpa [List.replicate_succ] using hI
    obtain ⟨hpub, hslack⟩ := OvInv_publish hI' hoff he0 hmg hp0 hbit hX
    rw [hold] at hm
    cases hfo : alist_find omt.mtable.slots (p ++ [off]) with
    | none =>
      simp only [hfo, pure, Except.pure] at hm
      have := ih ov _ ov' omt' (by simp [mtable_slot_write, hidx])
        (fun o ho => hl o (List.mem_cons_of_mem _ ho)) (by rw [hS1]; exact hpub) hm
      exact this
    | some h =>
      simp only [hfo] at hm
      split at hm
      · cases hm
      · rename_i ov1 hu
        obtain ⟨p1, off1, ep, pg, c1, -, c3, -, c5, -⟩ := hI'.slot_ok _ h hfo
        have hp1 : p1 = p := by
          have := List.append_inj' c1 rfl
          exact this.1.symm
        subst hp1
        have hsl := hslack h hfo ep pg c3 c5
        obtain ⟨hinv, hfr⟩ := overlay_line_unlink_inv hpub c3 c5 f1 hsl hu
        have h2 : h = e0 → 2 ≤ pg.ref_count := by
          intro hh
          have : 1 ≤ slot_count (alist_set omt.mtable.slots (p1 ++ [off]) e0) h p1 := by
            apply @slot_count_pos _ _ _ off
            rw [alist_find_set, hh]; simp
          omega
        have hkept : epoch_kept ov.epochs.nodes ov1.epochs.nodes e0 :=
          fun epa d1 => hfr e0 epa d1 (fun hh => h2 hh.symm)
        have := ih ov1 _ ov' omt' (by simp [mtable_slot_write, hidx])
          (fun o ho => ⟨(hl o (List.mem_cons_of_mem _ ho)).1,
            has_line_of_kept hkept (hl o (List.mem_cons_of_mem _ ho)).2⟩)
          (by rw [hS1]; exact hinv) hm
        exact ⟨this.1, this.2.1, epoch_kept_trans hkept this.2.2⟩

theorem overlay_merge_pages_inv (e0 : Nat) :
    ∀ (ps : List (List Nat × overlay_page_t)) (ov : overlay_t) (omt : omt_t) (ov' : overlay_t)
      (omt' : omt_t),
      omt.mtable.idx = omt_idx →
      (∀ s ∈ ps, valid4 s.1 ∧ ∀ off ∈ bitmap64_members s.2.bitmap,
        has_line ov.epochs.nodes e0 s.1 off) →
      OvInv (pending_merge e0 (merge_work ps)) ov.epochs.nodes omt.mtable.slots →
      overlay_merge_pages e0
        (ps.map (fun s => (mtable_traverse_key overlay_epoch_idx s.1, s.2))) (ov, omt)
        = .ok (ov', omt') →
      OvInv (pending_merge e0 []) ov'.epochs.nodes omt'.mtable.slots ∧
      omt'.mtable.idx = omt_idx ∧ epoch_kept ov.epochs.nodes ov'.epochs.nodes e0 := by
  intro ps
  induction ps with
  | nil =>
    intro ov omt ov' omt' hidx _ hI hm
    simp only [List.map_nil, overlay_merge_pages, pure, Except.pure, Except.ok.injEq,
      Prod.mk.injEq] at hm
    obtain ⟨rfl, rfl⟩ := hm
    exact ⟨by simpa [merge_work] using hI, hidx, epoch_kept_refl _ _⟩
  | cons s rest ih =>
    intro ov omt ov' omt' hidx hl hI hm
    simp only [List.map_cons, overlay_merge_pages, overlay_merge_epoch_cb, bind, Except.bind] at hm
    split at hm
    · cases hm
    · rename_i st1 hst
      obtain ⟨ov1, omt1⟩ := st1
      have hs := hl s (List.mem_cons_self _ _)
      have hw : merge_work (s :: rest)
          = List.replicate (bitmap64_members s.2.bitmap).length s.1 ++ merge_work rest := by
        simp [merge_work, bitmap64_popcount]
      rw [hw] at hI
      obtain ⟨i1, i2, i3⟩ := overlay_merge_lines_inv e0 _ s.1 (merge_work rest) hs.1 rfl
        (bitmap64_members s.2.bitmap) ov omt ov1 omt1 hidx
        (fun off ho => ⟨((bitmap64_mem_members _ _).mp ho).1, hs.2 off ho⟩) hI hst
      obtain ⟨j1, j2, j3⟩ := ih ov1 omt1 ov' omt' i2
        (fun t ht => ⟨(hl t (List.mem_cons_of_mem _ ht)).1,
          fun off ho => has_line_of_kept i3 ((hl t (List.mem_cons_of_mem _ ht)).2 off ho)⟩) i1 hm
      exact ⟨j1, j2, epoch_kept_trans i3 j3⟩

theorem merge_work_count (p : List Nat) :
    ∀ (ps : List (List Nat × overlay_page_t)), (ps.map Prod.fst).Nodup →
      (merge_work ps).count p
        = match alist_find ps p with
          | some pg => bitmap64_popcount pg.bitmap
          | none => 0 := by
  intro ps
  induction ps with
  | nil => intro _; simp [merge_work, alist_find]
  | cons s t ih =>
    obtain ⟨k, v⟩ := s
    intro hnd
    simp only [List.map_cons, List.nodup_cons] at hnd
    have hw : merge_work ((k, v) :: t) = List.replicate (bitmap64_popcount v.bitmap) k ++ merge_work t := by
      simp [merge_work]
    rw [hw, List.count_append, ih hnd.2]
    simp only [alist_find]
    by_cases hk : k = p
    · subst hk
      have : alist_find t k = none := alist_find_none_iff.mpr hnd.1
      simp [this, List.count_replicate_self]
    · simp only [hk, if_false]
      rw [List.count_replicate]
      have : ¬ (k == p) = true := by simpa using hk
      simp [this]

theorem alist_find_perm {K V : Type} [DecidableEq K] {l l' : List (K × V)} (hp : l.Perm l')
    (hnd : (l.map Prod.fst).Nodup) (k : K) : alist_find l k = alist_find l' k := by
  have hnd' : (l'.map Prod.fst).Nodup := (hp.map Prod.fst).nodup_iff.mp hnd
  cases h : alist_find l' k with
  | none =>
    rw [alist_find_none_iff] at h ⊢
    intro hk
    exact h ((hp.map Prod.fst).mem_iff.mp hk)
  | some v =>
    exact alist_mem_find hnd (hp.mem_iff.mpr (alist_find_mem h))

theorem OvInv_mono {X X' : Nat → Bool → List Nat → bitmap64_t → Nat}
    {E : List (Nat × overlay_epoch_t)} {S : List (List Nat × Nat)} (hI : OvInv X E S)
    (hX : ∀ e ep p pg, alist_find E e = some ep → alist_find ep.mtable.slots p = some pg →
      X' e ep.merged p pg.bitmap ≤ X e ep.merged p pg.bitmap) : OvInv X' E S := by
  refine ⟨hI.nodup_slots, hI.nodup_epochs, hI.epoch_wf, ?_, hI.slot_ok⟩
  intro e ep p pg hf hp
  have := hI.page_wf e ep p pg hf hp
  have := hX e ep p pg hf hp
  exact ⟨by tauto, by tauto, by omega⟩

theorem overlay_epoch_merge_inv {ov ov' : overlay_t} {omt omt' : omt_t} {e : Nat}
    (hidx : omt.mtable.idx = omt_idx)
    (hI : OvInv pending_steady ov.epochs.nodes omt.mtable.slots)
    (hm : overlay_epoch_merge ov e omt = .ok (ov', omt')) :
    OvInv pending_steady ov'.epochs.nodes omt'.mtable.slots ∧ omt'.mtable.idx = omt_idx ∧
    ∃ ep, alist_find ov.epochs.nodes e = some ep ∧ ep.merged = false ∧
      epoch_kept (alist_set ov.epochs.nodes e { ep with merged := true }) ov'.epochs.nodes e := by
  unfold overlay_epoch_merge at hm
  simp only [overlay_find, ht64_find, bind, Except.bind, ht64_store, mtable_traverse] at hm
  cases hf : alist_find ov.epochs.nodes e with
  | none => simp only [hf] at hm; cases hm
  | some ep =>
    simp only [hf] at hm
    split at hm
    · cases hm
    · rename_i hnm
      have hmf : ep.merged = false := by simpa using c_assert_ok hnm
      have hw := hI.epoch_wf e ep hf
      rw [hw.2.1] at hm
      -- no OMT slot refers to the unmerged epoch
      have hnone : ∀ q, alist_find omt.mtable.slots q ≠ some e := by
        intro q hq
        obtain ⟨p, off, ep', pg, -, -, h1, h2, -⟩ := hI.slot_ok q e hq
        rw [hf] at h1; cases h1
        rw [hmf] at h2; cases h2
      have hperm := List.perm_insertionSort
        (fun (a b : List Nat × overlay_page_t) => mtable_path_le a.1 b.1 = true) ep.mtable.slots
      have hnds : ((List.insertionSort
          (fun (a b : List Nat × overlay_page_t) => mtable_path_le a.1 b.1 = true)
          ep.mtable.slots).map Prod.fst).Nodup := (hperm.map Prod.fst).nodup_iff.mpr hw.2.2.1
      have hset : ∀ e'', alist_find (alist_set ov.epochs.nodes e { ep with merged := true }) e''
          = if e'' = e then some { ep with merged := true } else alist_find ov.epochs.nodes e'' :=
        fun e'' => alist_find_set _ _ _ _
      -- the invariant at the start of the traversal
      have hstart : OvInv (pending_merge e (merge_work (List.insertionSort
          (fun (a b : List Nat × overlay_page_t) => mtable_path_le a.1 b.1 = true)
          ep.mtable.slots)))
          (alist_set ov.epochs.nodes e { ep with merged := true }) omt.mtable.slots := by
        refine ⟨hI.nodup_slots, alist_set_nodup _ _ hI.nodup_epochs, ?_, ?_, ?_⟩
        · intro e'' ep'' h1
          rw [hset] at h1
          by_cases he : e'' = e
          · simp only [he, if_true, Option.some.injEq] at h1
            subst h1
            exact ⟨he ▸ hw.1, hw.2.1, hw.2.2.1, hw.2.2.2⟩
          · simp only [he, if_false] at h1
            exact hI.epoch_wf e'' ep'' h1
        · intro e'' ep'' p pg h1 h2
          rw [hset] at h1
          by_cases he : e'' = e
          · simp only [he, if_true, Option.some.injEq] at h1
            subst h1
            have h3 := hI.page_wf e ep p pg hf h2
            refine ⟨h3.1, h3.2.1, ?_⟩
            rw [he, slot_count_eq_zero p hnone hI.nodup_slots]
            simp only [pending_merge, if_true, Nat.zero_add]
            rw [merge_work_count p _ hnds, ← alist_find_perm hperm.symm hw.2.2.1 p, h2]
            have := h3.2.2
            simp only [pending_steady, hmf, Bool.false_eq_true, if_false] at this
            simp only
            omega
          · simp only [he, if_false] at h1
            have h3 := hI.page_wf e'' ep'' p pg h1 h2
            simp only [pending_merge, he, if_false]
            exact h3
        · intro q h hq
          obtain ⟨p, off, ep', pg, c1, c2, c3, c4, c5, c6⟩ := hI.slot_ok q h hq
          have hne : h ≠ e := fun hh => hnone q (hh ▸ hq)
          exact ⟨p, off, ep', pg, c1, c2, by rw [hset]; simp [hne, c3], c4, c5, c6⟩
      have hlines : ∀ s ∈ List.insertionSort
          (fun (a b : List Nat × overlay_page_t) => mtable_path_le a.1 b.1 = true)
          ep.mtable.slots, valid4 s.1 ∧ ∀ off ∈ bitmap64_members s.2.bitmap,
            has_line (alist_set ov.epochs.nodes e { ep with merged := true }) e s.1 off := by
        intro s hs
        have hs' : (s.1, s.2) ∈ ep.mtable.slots := hperm.mem_iff.mp hs
        have hfs := alist_mem_find hw.2.2.1 hs'
        refine ⟨(hI.page_wf e ep s.1 s.2 hf hfs).1, ?_⟩
        intro off ho
        exact ⟨{ ep with merged := true }, s.2, by rw [hset]; simp, rfl, hfs,
          ((bitmap64_mem_members _ _).mp ho).2⟩
      obtain ⟨r1, r2, r3⟩ := overlay_merge_pages_inv e _
        { ov with epochs := { ov.epochs with
            nodes := alist_set ov.epochs.nodes e { ep with merged := true } } }
        omt ov' omt' hidx hlines hstart hm
      refine ⟨?_, r2, ep, rfl, hmf, r3⟩
      apply OvInv_mono r1
      intro e'' ep'' p pg h1 h2
      simp only [pending_merge, List.count_nil]
      by_cases he : e'' = e
      · simp only [he, if_true, Nat.le_zero]
        obtain ⟨ep2, k1, k2, -⟩ := r3 { ep with merged := true } (by simp [hset])
        rw [he] at h1
        rw [k1] at h1; cases h1
        simp [pending_steady, k2]
      · simp [he]

/-! ## The invariant holds in every reachable state -/

theorem overlay_reach_inv {ov : overlay_t} {omt : omt_t} (hr : overlay_reach ov omt) :
    OvInv pending_steady ov.epochs.nodes omt.mtable.slots ∧ omt.mtable.idx = omt_idx := by
  induction hr with
  | init =>
    refine ⟨⟨by simp [omt_init, mtable_init], by simp [overlay_init, ht64_init], ?_, ?_, ?_⟩, rfl⟩
    · intro e ep h; simp [overlay_init, ht64_init, alist_find] at h
    · intro e ep p pg h; simp [overlay_init, ht64_init, alist_find] at h
    · intro q h hq; simp [omt_init, mtable_init, alist_find] at hq
  | insert addr epoch _ hi ih => exact ⟨overlay_insert_inv ih.1 hi, ih.2⟩
  | merge epoch _ hm ih =>
    have := overlay_epoch_merge_inv ih.2 ih.1 hm
    exact ⟨this.1, this.2.1⟩

/-! ## Sums over lists -/

theorem sum_map_le_sum_map {α : Type} (l : List α) (f g : α → Nat)
    (h : ∀ x ∈ l, f x ≤ g x) : (l.map f).sum ≤ (l.map g).sum := by
  induction l with
  | nil => simp
  | cons a t ih =>
    simp only [List.map_cons, List.sum_cons]
    have h1 := h a (List.mem_cons_self _ _)
    have h2 := ih (fun x hx => h x (List.mem_cons_of_mem _ hx))
    omega

theorem sum_map_add_map {α : Type} (l : List α) (f g : α → Nat) :
    (l.map (fun x => f x + g x)).sum = (l.map f).sum + (l.map g).sum := by
  induction l with
  | nil => simp
  | cons a t ih => simp only [List.map_cons, List.sum_cons, ih]; omega

theorem le_sum_map_of_mem {α : Type} (l : List α) (f : α → Nat) {x : α} (hx : x ∈ l) :
    f x ≤ (l.map f).sum := by
  induction l with
  | nil => simp at hx
  | cons a t ih =>
    simp only [List.map_cons, List.sum_cons]
    rcases List.mem_cons.mp hx with h | h
    · subst h; omega
    · have := ih h; omega

/-- Every slot that refers to some page of some epoch of `E` is counted at least once. -/
theorem length_le_slot_cover (E : List (Nat × overlay_epoch_t)) :
    ∀ (S : List (List Nat × Nat)),
      (∀ s ∈ S, ∃ n ∈ E, ∃ t ∈ n.2.mtable.slots, s.2 = n.1 ∧ s.1.dropLast = t.1) →
      S.length ≤ slot_cover S E := by
  intro S
  induction S with
  | nil => intro _; simp
  | cons s t ih =>
    intro h
    have h1 := ih (fun x hx => h x (List.mem_cons_of_mem _ hx))
    obtain ⟨n, hn, u, hu, e1, e2⟩ := h s (List.mem_cons_self _ _)
    have hsplit : slot_cover (s :: t) E = slot_cover t E
        + (E.map (fun n => (n.2.mtable.slots.map
            (fun u => if s.2 = n.1 ∧ s.1.dropLast = u.1 then 1 else 0)).sum)).sum := by
      unfold slot_cover slot_count
      rw [← sum_map_add_map]
      congr 1
      apply List.map_congr_left
      intro n _
      rw [← sum_map_add_map]
      congr 1
      apply List.map_congr_left
      intro u _
      rw [List.countP_cons]
      simp
    have hone : 1 ≤ (E.map (fun n => (n.2.mtable.slots.map
        (fun u => if s.2 = n.1 ∧ s.1.dropLast = u.1 then 1 else 0)).sum)).sum := by
      have a1 : (if s.2 = n.1 ∧ s.1.dropLast = u.1 then 1 else 0)
          ≤ (n.2.mtable.slots.map
              (fun u => if s.2 = n.1 ∧ s.1.dropLast = u.1 then 1 else 0)).sum :=
        le_sum_map_of_mem n.2.mtable.slots
          (fun u => if s.2 = n.1 ∧ s.1.dropLast = u.1 then 1 else 0) hu
      have a2 : (n.2.mtable.slots.map
              (fun u => if s.2 = n.1 ∧ s.1.dropLast = u.1 then 1 else 0)).sum
          ≤ (E.map (fun n => (n.2.mtable.slots.map
              (fun u => if s.2 = n.1 ∧ s.1.dropLast = u.1 then 1 else 0)).sum)).sum :=
        le_sum_map_of_mem E (fun n => (n.2.mtable.slots.map
          (fun u => if s.2 = n.1 ∧ s.1.dropLast = u.1 then 1 else 0)).sum) hn
      rw [if_pos ⟨e1, e2⟩] at a1
      omega
    simp only [List.length_cons]
    omega

theorem OvInv_leaf_le_ref_sum {ov : overlay_t} {omt : omt_t}
    (hI : OvInv pending_steady ov.epochs.nodes omt.mtable.slots) :
    omt_leaf_count omt ≤ overlay_ref_sum ov := by
  have h1 : omt_leaf_count omt ≤ slot_cover omt.mtable.slots ov.epochs.nodes := by
    apply length_le_slot_cover
    intro s hs
    have hf := alist_mem_find hI.nodup_slots (show (s.1, s.2) ∈ omt.mtable.slots from hs)
    obtain ⟨p, off, ep, pg, c1, -, c3, -, c5, -⟩ := hI.slot_ok s.1 s.2 hf
    exact ⟨(s.2, ep), alist_find_mem c3, (p, pg), alist_find_mem c5, rfl, by rw [c1]; simp⟩
  have h2 : slot_cover omt.mtable.slots ov.epochs.nodes ≤ overlay_ref_sum ov := by
    unfold slot_cover overlay_ref_sum overlay_epoch_ref_sum
    apply sum_map_le_sum_map
    intro n hn
    have hfn := alist_mem_find hI.nodup_epochs (show (n.1, n.2) ∈ ov.epochs.nodes from hn)
    apply sum_map_le_sum_map
    intro u hu
    have hfu := alist_mem_find (hI.epoch_wf n.1 n.2 hfn).2.2.1
      (show (u.1, u.2) ∈ n.2.mtable.slots from hu)
    have := (hI.page_wf n.1 n.2 u.1 u.2 hfn hfu).2.2
    omega
  omega

/-! ## Claims about the overlay and the OMT -/

/-- C8 (OMT target validity, I3): in every state reachable by `overlay_insert` and
`overlay_epoch_merge` calls that return, a non-NULL OMT slot of a line address refers to an
overlay epoch that is still in the overlay, and that epoch's page for the line's page address
has the line's bit set and a reference count of at least one. -/
theorem omt_target_valid (ov : overlay_t) (omt : omt_t) (hr : overlay_reach ov omt)
    (line_addr e : Nat) (h : omt_find omt line_addr = some e) :
    ∃ ep pg, overlay_find ov e = some ep ∧
      overlay_epoch_find ep (page_addr_of line_addr) = some pg ∧
      bitmap64_is_set pg.bitmap (page_line_offset line_addr) = true ∧ 1 ≤ pg.ref_count := by
  obtain ⟨hI, hidx⟩ := overlay_reach_inv hr
  have hq : alist_find omt.mtable.slots
      (mtable_path overlay_epoch_idx line_addr ++ [page_line_offset line_addr]) = some e := by
    simpa [omt_find, mtable_find, hidx, path5_eq] using h
  obtain ⟨p, off, ep, pg, c1, -, c3, -, c5, c6⟩ := hI.slot_ok _ e hq
  obtain ⟨rfl, hoff⟩ := List.append_inj' c1 rfl
  simp only [List.cons.injEq, and_true] at hoff
  subst hoff
  have hw := hI.epoch_wf e ep c3
  refine ⟨ep, pg, c3, ?_, c6, ?_⟩
  · simp [overlay_epoch_find, mtable_find, hw.2.1, path4_page_addr_of, c5]
  · have := (hI.page_wf e ep _ pg c3 c5).2.2
    have := slot_count_pos hq
    omega

/-- Witness for C8: after `overlay_insert(0x1000, 0)` and `overlay_epoch_merge(0, omt)` the OMT
slot of line `0x1000` holds epoch 0, and the theorem applies. -/
theorem omt_target_valid_witness :
    overlay_reach overlay_one_line_merged.1 overlay_one_line_merged.2 ∧
    omt_find overlay_one_line_merged.2 0x1000 = some 0 ∧
    ∃ ep pg, overlay_find overlay_one_line_merged.1 0 = some ep ∧
      overlay_epoch_find ep (page_addr_of 0x1000) = some pg ∧
      bitmap64_is_set pg.bitmap (page_line_offset 0x1000) = true ∧ 1 ≤ pg.ref_count :=
  have hr : overlay_reach overlay_one_line_merged.1 overlay_one_line_merged.2 :=
    overlay_reach.merge 0 (overlay_reach.insert 0x1000 0 overlay_reach.init
      (show overlay_insert overlay_init 0x1000 0 = .ok overlay_one_line from rfl))
      (show overlay_epoch_merge overlay_one_line 0 omt_init
        = .ok (overlay_one_line_merged.1, overlay_one_line_merged.2) from rfl)
  ⟨hr, by decide, omt_target_valid _ _ hr 0x1000 0 (by decide)⟩

/-- C9, the claim as stated fails: after a single `overlay_insert(0x1000, 0)` the page of epoch 0
has `ref_count = 1` although the OMT has no leaf at all, so the sum of the reference counts does
not equal the number of non-NULL OMT leaves in that reachable state. -/
theorem ref_sum_ne_leaf_count_after_insert :
    overlay_reach overlay_one_line omt_init ∧
    overlay_ref_sum overlay_one_line = 1 ∧ omt_leaf_count omt_init = 0 :=
  ⟨overlay_reach.insert 0x1000 0 overlay_reach.init
      (show overlay_insert overlay_init 0x1000 0 = .ok overlay_one_line from rfl),
    by decide, by decide⟩

/-- C9 (amended): in every state reachable by `overlay_insert` and `overlay_epoch_merge` calls
that return, the number of non-NULL OMT leaf slots is at most the sum of `ref_count` over all
pages of all overlay epochs held by the overlay. -/
theorem omt_leaf_count_le_ref_sum (ov : overlay_t) (omt : omt_t) (hr : overlay_reach ov omt) :
    omt_leaf_count omt ≤ overlay_ref_sum ov :=
  OvInv_leaf_le_ref_sum (overlay_reach_inv hr).1

/-- Witness for C9 (amended): the state after `overlay_insert(0x1000, 0)` and
`overlay_epoch_merge(0, omt)`. -/
theorem omt_leaf_count_le_ref_sum_witness :
    overlay_reach overlay_one_line_merged.1 overlay_one_line_merged.2 ∧
    omt_leaf_count overlay_one_line_merged.2 ≤ overlay_ref_sum overlay_one_line_merged.1 :=
  have hr : overlay_reach overlay_one_line_merged.1 overlay_one_line_merged.2 :=
    overlay_reach.merge 0 (overlay_reach.insert 0x1000 0 overlay_reach.init
      (show overlay_insert overlay_init 0x1000 0 = .ok overlay_one_line from rfl))
      (show overlay_epoch_merge overlay_one_line 0 omt_init
        = .ok (overlay_one_line_merged.1, overlay_one_line_merged.2) from rfl)
  ⟨hr, omt_leaf_count_le_ref_sum _ _ hr⟩

/-- C10, the code at the failing input: two `overlay_insert(0x1000, 0)` calls into the unmerged
epoch 0 both return, and leave the page at `0x1000` with one bit set but `ref_count = 2`. -/
theorem overlay_insert_twice_ref_count :
    overlay_insert overlay_init 0x1000 0 = .ok overlay_one_line ∧
    overlay_insert overlay_one_line 0x1000 0 = .ok overlay_same_line_twice ∧
    ((overlay_find overlay_same_line_twice 0).bind
        (fun ep => overlay_epoch_find ep 0x1000)).map
      (fun pg => (bitmap64_popcount pg.bitmap, pg.ref_count)) = some (1, 2) :=
  ⟨rfl, rfl, by decide⟩

/-- C1, the code at the failing input: with a one-entry OMC buffer, the second store ends epoch 0;
the tag walk hands the lines `0x1000` and `0x1040`, both tagged 0, to the buffer, the store path
merges epoch 0, and the version of `0x1040` is still parked in the buffer: epoch 0 is merged and
the OMT slot of `0x1040` is null.  When the next walk pushes it out of the buffer, `overlay_insert`
stops at its own test of the merged flag. -/
theorem parked_line_not_addressable :
    (nvoverlay_trace_driven_engine conf_one_core
        [.store 0 0x1000 0, .store 0 0x1040 1]).map (fun nv => persist_view nv 0x1040 0)
      = .ok (some true, none, [(0x1040 >>> UTIL_CACHE_LINE_BITS, 0)]) ∧
    (nvoverlay_trace_driven_engine conf_one_core
        [.store 0 0x1000 0, .store 0 0x1040 1]).map (fun nv => omt_find nv.omt 0x1000)
      = .ok (some 0) ∧
    abort_of (nvoverlay_trace_driven_engine conf_one_core
        [.store 0 0x1000 0, .store 0 0x1040 1, .store 0 0x1080 2, .store 0 0x1080 3])
      = some (.error_exit 1545) := by
  refine ⟨?_, ?_, ?_⟩ <;> rfl

/-- C2, the code at three well-formed streams of stores by core 0: the store path merges epoch 0
although no overlay epoch 0 exists (assertion at line 1607), merges epoch 0 a second time
(assertion at line 1608), and an OMC-buffer eviction inserts into the merged epoch 0 (usage-error
exit at line 1545). -/
theorem well_formed_stream_aborts :
    abort_of (nvoverlay_trace_driven_engine conf_one_core
        [.store 0 0x1000 0, .store 0 0x1000 1]) = some (.assert_fail 1607) ∧
    abort_of (nvoverlay_trace_driven_engine conf_two_sets
        [.store 0 0x1000 0, .store 0 0x1080 1, .store 0 0x1040 2, .store 0 0x1040 3])
      = some (.assert_fail 1608) ∧
    abort_of (nvoverlay_trace_driven_engine conf_one_core
        [.store 0 0x1000 0, .store 0 0x1040 1, .store 0 0x1080 2, .store 0 0x1080 3])
      = some (.error_exit 1545) := by
  refine ⟨?_, ?_, ?_⟩ <;> rfl

/-- C4, the code at the failing input: core 0 stores to `0x2000` in its epoch 1, then core 1, still
in epoch 0, stores to the same line (store case 4).  The record is left with both states `M`,
`l1_ver = 0` and `l2_ver = 1`, and the next store of core 1 to the line fails the assertion
`l2_ver < l1_ver` at line 1090. -/
theorem store_case4_version_order :
    (nvoverlay_trace_driven_engine conf_two_cores
        [.store 0 0x1000 0, .store 0 0x1000 1, .store 0 0x2000 2, .store 1 0x2000 3]).map
      (fun nv => ver_view nv 0x2000) = .ok (some (STATE_M, STATE_M, 0, 1)) ∧
    abort_of (nvoverlay_trace_driven_engine conf_two_cores
        [.store 0 0x1000 0, .store 0 0x1000 1, .store 0 0x2000 2, .store 1 0x2000 3,
         .store 1 0x2000 4]) = some (.assert_fail 1090) := by
  refine ⟨?_, ?_⟩ <;> rfl

/-- C6, the code at the failing input: the second store merges epoch 0 and leaves
`last_stable_epoch` at 0 although the minimum of the stable epochs is 1; the fourth store raises
the minimum to 2 and the merge loop starts at epoch 0 again, where `overlay_epoch_merge` fails its
assertion `merged == 0` at line 1608. -/
theorem epoch_zero_merged_twice :
    (nvoverlay_trace_driven_engine conf_two_sets
        [.store 0 0x1000 0, .store 0 0x1080 1]).map
      (fun nv => ((persist_view nv 0x1000 0).1, nv.last_stable_epoch, nv.stable_epochs 0))
      = .ok (some true, 0, 1) ∧
    (nvoverlay_trace_driven_engine conf_two_sets
        [.store 0 0x1000 0, .store 0 0x1080 1, .store 0 0x1040 2]).map
      (fun nv => ((persist_view nv 0x1000 0).1, nv.last_stable_epoch, nv.stable_epochs 0))
      = .ok (some true, 0, 1) ∧
    abort_of (nvoverlay_trace_driven_engine conf_two_sets
        [.store 0 0x1000 0, .store 0 0x1080 1, .store 0 0x1040 2, .store 0 0x1040 3])
      = some (.assert_fail 1608) := by
  refine ⟨?_, ?_, ?_⟩ <;> rfl

theorem Post.bind {α β : Type} {m : Except Abort α} {f : α → Except Abort β} {Q1 : α → Prop}
    {Q : β → Prop} (h1 : Post m Q1) (h2 : ∀ a, Q1 a → Post (f a) Q) : Post (m >>= f) Q := by
  intro b hb
  cases hm : m with
  | error e => rw [hm] at hb; cases hb
  | ok a => rw [hm] at hb; exact h2 a (h1 a hm) b hb

theorem Post.pure {α : Type} {a : α} {Q : α → Prop} (h : Q a) :
    Post (Pure.pure a : Except Abort α) Q := by
  intro b hb; cases hb; exact h

theorem Post.ok {α : Type} {a : α} {Q : α → Prop} (h : Q a) :
    Post (Except.ok a : Except Abort α) Q := by
  intro b hb; cases hb; exact h

theorem Post.error {α : Type} {e : Abort} {Q : α → Prop} : Post (Except.error e : Except Abort α) Q := by
  intro b hb; cases hb

theorem Post.ite {α : Type} {c : Prop} [Decidable c] {a b : Except Abort α} {Q : α → Prop}
    (h1 : c → Post a Q) (h2 : ¬ c → Post b Q) : Post (if c then a else b) Q := by
  by_cases h : c
  · simp only [h, if_true]; exact h1 h
  · simp only [h, if_false]; exact h2 h

theorem Post.assert {β : Type} {c : Bool} {line : Nat} {f : Unit → Except Abort β} {Q : β → Prop}
    (h : c = true → Post (f ()) Q) : Post (c_assert c line >>= f) Q := by
  intro b hb
  cases c with
  | false => cases hb
  | true => exact h rfl b hb

theorem Post.assert_unit {c : Bool} {line : Nat} {Q : Unit → Prop} (h : c = true → Q ()) :
    Post (c_assert c line) Q := by
  intro b hb
  cases c with
  | false => cases hb
  | true => exact h rfl

theorem Post.trivial {α : Type} (m : Except Abort α) : Post m (fun _ => True) := fun _ _ => True.intro

theorem Post.mono {α : Type} {m : Except Abort α} {Q Q' : α → Prop} (h : Post m Q)
    (hq : ∀ a, Q a → Q' a) : Post m Q' := fun a ha => hq a (h a ha)

theorem except_ite_bind {α β : Type} (c : Prop) [Decidable c] (a b : Except Abort α)
    (f : α → Except Abort β) : (if c then a else b) >>= f = if c then a >>= f else b >>= f := by
  split <;> rfl

/-- The record handed out by `vtable_insert` is filed under `addr` in the table it returns, which
holds the records of the old table and, if `addr` was absent, a zeroed record for it. -/
theorem vtable_insert_post (vtable : vtable_t) (addr : Nat) :
    Post (vtable_insert vtable addr) (fun r =>
      ht64_find r.1.vers addr = some r.2 ∧
      (∀ k v, ht64_find r.1.vers k = some v →
        ht64_find vtable.vers k = some v ∨
          (k = addr ∧ v = { ver_init with addr := addr, owner := OWNER_OTHER })) ∧
      (∀ k v, ht64_find vtable.vers k = some v → ht64_find r.1.vers k = some v)) := by
  intro r hr
  unfold vtable_insert at hr
  simp only [bind, Except.bind, pure, Except.pure] at hr
  split at hr
  · cases hr
  · split at hr
    · rename_i ver hv; cases hr; exact ⟨hv, fun k v h => Or.inl h, fun k v h => h⟩
    · rename_i hv
      cases hr
      have hv' : alist_find vtable.vers.nodes addr = none := hv
      refine ⟨?_, ?_, ?_⟩
      · simp [ht64_find, ht64_insert, hv', alist_find]
      · intro k v h
        simp only [ht64_find, ht64_insert, hv', alist_find] at h
        split at h
        · rename_i hk; cases h; exact Or.inr ⟨hk.symm, rfl⟩
        · exact Or.inl h
      · intro k v h
        simp only [ht64_find, ht64_insert, hv', alist_find]
        split
        · rename_i hk; subst hk; rw [ht64_find, hv'] at h; cases h
        · exact h

theorem vtable_l1_store_prim {I : nvoverlay_t → Prop} {V : Nat → Prop} (hP : PrimInv I V)
    (nv : nvoverlay_t) (addr id epoch cycle : Nat) (hI : I nv) (hV0 : V 0)
    (hV : ∀ k ver, ht64_find nv.vtable.vers k = some ver →
      V ver.l1_ver ∧ V ver.l2_ver ∧ V ver.other_ver) :
    Post (vtable_l1_store nv addr id epoch cycle) I := by
  unfold vtable_l1_store
  simp only [vtable_l1_set_ver, vtable_l2_set_ver, vtable_evict_wrapper, vtable_commit,
    bind_assoc, pure_bind, except_ite_bind]
  refine Post.bind (vtable_insert_post _ _) ?_
  rintro ⟨vt, ver⟩ ⟨hf, hold, -⟩
  have hI0 := hP.vtable nv vt hI
  obtain ⟨v1, v2, v3⟩ : V ver.l1_ver ∧ V ver.l2_ver ∧ V ver.other_ver := by
    rcases hold _ _ hf with h | ⟨-, h⟩
    · exact hV _ _ h
    · subst h; exact ⟨hV0, hV0, hV0⟩
  dsimp only
  repeat' first
    | exact Post.error
    | exact Post.pure (hP.vtable _ _ (by assumption))
    | exact Post.pure (by assumption)
    | (refine Post.assert ?_; intro _)
    | (refine Post.ite ?_ ?_ <;> intro _)
    | (refine Post.bind (hP.tag _ _ _ _ _ (by assumption)) ?_; intro _ _)
    | (refine Post.bind (hP.evict _ _ _ _ _ _ (by assumption)) ?_; intro _ _)
    | (refine Post.bind (hP.recv _ _ _ (by assumption) (by assumption)) ?_; intro _ _)

theorem vtable_l1_load_prim {I : nvoverlay_t → Prop} {V : Nat → Prop} (hP : PrimInv I V)
    (nv : nvoverlay_t) (addr id epoch cycle : Nat) (hI : I nv) (hV0 : V 0)
    (hV : ∀ k ver, ht64_find nv.vtable.vers k = some ver →
      V ver.l1_ver ∧ V ver.l2_ver ∧ V ver.other_ver) :
    Post (vtable_l1_load nv addr id epoch cycle) I := by
  unfold vtable_l1_load
  simp only [vtable_l1_add_ver, vtable_l2_add_ver, vtable_evict_wrapper, vtable_commit,
    bind_assoc, pure_bind, except_ite_bind]
  refine Post.bind (vtable_insert_post _ _) ?_
  rintro ⟨vt, ver⟩ ⟨hf, hold, -⟩
  have hI0 := hP.vtable nv vt hI
  obtain ⟨v1, v2, v3⟩ : V ver.l1_ver ∧ V ver.l2_ver ∧ V ver.other_ver := by
    rcases hold _ _ hf with h | ⟨-, h⟩
    · exact hV _ _ h
    · subst h; exact ⟨hV0, hV0, hV0⟩
  dsimp only
  repeat' first
    | exact Post.error
    | exact Post.pure (hP.vtable _ _ (by assumption))
    | exact Post.pure (by assumption)
    | (refine Post.assert ?_; intro _)
    | (refine Post.ite ?_ ?_ <;> intro _)
    | (refine Post.bind (hP.tag _ _ _ _ _ (by assumption)) ?_; intro _ _)
    | (refine Post.bind (hP.evict _ _ _ _ _ _ (by assumption)) ?_; intro _ _)
    | (refine Post.bind (hP.recv _ _ _ (by assumption) (by assumption)) ?_; intro _ _)

theorem vtable_l1_eviction_prim {I : nvoverlay_t → Prop} {V : Nat → Prop} (hP : PrimInv I V)
    (nv : nvoverlay_t) (addr id epoch cycle : Nat) (hI : I nv) :
    Post (vtable_l1_eviction nv addr id epoch cycle) I := by
  unfold vtable_l1_eviction
  simp only [vtable_l1_rm_ver, vtable_evict_wrapper, vtable_commit,
    bind_assoc, pure_bind, except_ite_bind]
  refine Post.bind (vtable_insert_post _ _) ?_
  rintro ⟨vt, ver⟩ -
  have hI0 := hP.vtable nv vt hI
  dsimp only
  repeat' first
    | exact Post.error
    | exact Post.pure (hP.vtable _ _ (by assumption))
    | exact Post.pure (by assumption)
    | (refine Post.assert ?_; intro _)
    | (refine Post.ite ?_ ?_ <;> intro _)
    | (refine Post.bind (hP.tag _ _ _ _ _ (by assumption)) ?_; intro _ _)
    | (refine Post.bind (hP.evict _ _ _ _ _ _ (by assumption)) ?_; intro _ _)

theorem vtable_l2_eviction_prim {I : nvoverlay_t → Prop} {V : Nat → Prop} (hP : PrimInv I V)
    (nv : nvoverlay_t) (addr id epoch cycle : Nat) (hI : I nv) :
    Post (vtable_l2_eviction nv addr id epoch cycle) I := by
  unfold vtable_l2_eviction
  simp only [vtable_l1_rm_ver, vtable_l2_rm_ver, vtable_evict_wrapper, vtable_commit,
    bind_assoc, pure_bind, except_ite_bind]
  refine Post.bind (vtable_insert_post _ _) ?_
  rintro ⟨vt, ver⟩ -
  have hI0 := hP.vtable nv vt hI
  dsimp only
  repeat' first
    | exact Post.error
    | exact Post.pure (hP.vtable _ _ (by assumption))
    | exact Post.pure (by assumption)
    | (refine Post.assert ?_; intro _)
    | (refine Post.ite ?_ ?_ <;> intro _)
    | (refine Post.bind (hP.tag _ _ _ _ _ (by assumption)) ?_; intro _ _)
    | (refine Post.bind (hP.evict _ _ _ _ _ _ (by assumption)) ?_; intro _ _)

theorem vtable_l3_eviction_prim {I : nvoverlay_t → Prop} {V : Nat → Prop} (hP : PrimInv I V)
    (nv : nvoverlay_t) (addr id epoch cycle : Nat) (hI : I nv) :
    Post (vtable_l3_eviction nv addr id epoch cycle) I := by
  unfold vtable_l3_eviction
  simp only [vtable_l1_clear_sharer, vtable_l2_clear_sharer, vtable_commit,
    bind_assoc, pure_bind, except_ite_bind]
  refine Post.bind (vtable_insert_post _ _) ?_
  rintro ⟨vt, ver⟩ -
  have hI0 := hP.vtable nv vt hI
  dsimp only
  repeat' first
    | exact Post.error
    | exact vtable_l2_eviction_prim hP _ _ _ _ _ (by assumption)
    | exact Post.pure (hP.vtable _ _ (by assumption))
    | exact Post.pure (by assumption)
    | (refine Post.assert ?_; intro _)
    | (refine Post.ite ?_ ?_ <;> intro _)
    | (refine Post.bind (hP.tag _ _ _ _ _ (by assumption)) ?_; intro _ _)

theorem cpu_tag_walk_ver_prim {I : nvoverlay_t → Prop} {V : Nat → Prop} (hP : PrimInv I V)
    (nv : nvoverlay_t) (id cycle target_epoch ver_addr : Nat) (hI : I nv) :
    Post (cpu_tag_walk_ver nv id cycle target_epoch ver_addr) I := by
  unfold cpu_tag_walk_ver
  split
  · exact Post.error
  · simp only [vtable_commit, bind_assoc, pure_bind, except_ite_bind]
    repeat' first
      | exact Post.error
      | exact Post.pure (hP.vtable _ _ (hP.count _ _ (by assumption)))
      | exact Post.pure (hP.vtable _ _ (by assumption))
      | exact Post.pure (by assumption)
      | (refine Post.assert ?_; intro _)
      | (refine Post.ite ?_ ?_ <;> intro _)
      | (refine Post.bind (hP.walk _ _ _ _ _ (by assumption)) ?_; intro _ _)
      | (refine Post.bind (hP.walk _ _ _ _ _ (hP.count _ _ (by assumption))) ?_; intro _ _)

theorem cpu_tag_walk_loop_prim {I : nvoverlay_t → Prop} {V : Nat → Prop} (hP : PrimInv I V)
    (id cycle target_epoch start : Nat) (l : List Nat) (nv : nvoverlay_t) (hI : I nv) :
    Post (cpu_tag_walk_loop id cycle target_epoch start l nv) I := by
  induction l generalizing nv with
  | nil => exact Post.pure hI
  | cons j rest ih =>
    unfold cpu_tag_walk_loop
    split
    · exact ih nv hI
    · exact Post.bind (cpu_tag_walk_ver_prim hP _ _ _ _ _ hI) (fun a ha => ih a ha)

theorem cpu_tag_walk_prim {I : nvoverlay_t → Prop} {V : Nat → Prop} (hP : PrimInv I V)
    (nv : nvoverlay_t) (id cycle target_epoch : Nat) (hI : I nv) :
    Post (cpu_tag_walk nv id cycle target_epoch) I :=
  Post.bind (Post.trivial _) (fun _ _ => cpu_tag_walk_loop_prim hP _ _ _ _ _ _ hI)

theorem same_front_refl (nv : nvoverlay_t) : same_front nv nv := ⟨rfl, rfl, rfl, rfl, rfl, rfl⟩

theorem same_front_trans {a b c : nvoverlay_t} (h1 : same_front a b) (h2 : same_front b c) :
    same_front a c := by
  unfold same_front at *
  refine ⟨h2.1.trans h1.1, h2.2.1.trans h1.2.1, h2.2.2.1.trans h1.2.2.1, ?_, ?_, ?_⟩
  · exact h2.2.2.2.1.trans h1.2.2.2.1
  · exact h2.2.2.2.2.1.trans h1.2.2.2.2.1
  · exact h2.2.2.2.2.2.trans h1.2.2.2.2.2

theorem nvoverlay_omcbuf_evict_cb_frame (nv : nvoverlay_t) (line_addr version cycle : Nat) :
    Post (nvoverlay_omcbuf_evict_cb nv line_addr version cycle) (same_front nv) := by
  unfold nvoverlay_omcbuf_evict_cb
  refine Post.bind (Post.trivial _) (fun overlay _ => ?_)
  refine Post.bind (Post.trivial _) (fun nvm _ => ?_)
  exact Post.pure ⟨rfl, rfl, rfl, rfl, rfl, rfl⟩

theorem nvoverlay_omcbuf_insert_frame (nv : nvoverlay_t) (addr version cycle : Nat) :
    Post (nvoverlay_omcbuf_insert nv addr version cycle) (same_front nv) := by
  unfold nvoverlay_omcbuf_insert
  refine Post.bind (Post.trivial _) ?_
  rintro ⟨omcbuf, evicted⟩ -
  cases evicted with
  | none => exact Post.pure ⟨rfl, rfl, rfl, rfl, rfl, rfl⟩
  | some e =>
    obtain ⟨evict_addr, epoch, c⟩ := e
    exact Post.mono (nvoverlay_omcbuf_evict_cb_frame _ _ _ _) (fun a ha => ha)

theorem nvoverlay_vtable_evict_cb_frame (nv : nvoverlay_t) (addr : Nat) (id : Int)
    (version cycle : Nat) (evict_type : evict_type_t) :
    Post (nvoverlay_vtable_evict_cb nv addr id version cycle evict_type) (same_front nv) := by
  unfold nvoverlay_vtable_evict_cb
  cases evict_type with
  | EVICT_OMC => exact Post.pure ⟨rfl, rfl, rfl, rfl, rfl, rfl⟩
  | EVICT_BOTH => exact Post.mono (nvoverlay_omcbuf_insert_frame _ _ _ _) (fun a ha => ha)

theorem nvoverlay_cpu_tag_walk_cb_frame (nv : nvoverlay_t) (line_addr id version cycle : Nat) :
    Post (nvoverlay_cpu_tag_walk_cb nv line_addr id version cycle) (same_front nv) :=
  nvoverlay_omcbuf_insert_frame _ _ _ _

theorem nvoverlay_vtable_core_tag_cb_post (nv : nvoverlay_t) (op : cpu_tag_op_t)
    (level id : Nat) (ver : ver_t) :
    Post (nvoverlay_vtable_core_tag_cb nv op level id ver)
      (fun nv1 => ∃ cpu, cpu_tag_op nv.cpu op level id ver = .ok cpu ∧ nv1 = { nv with cpu := cpu }) := by
  unfold nvoverlay_vtable_core_tag_cb
  intro out h
  cases hc : cpu_tag_op nv.cpu op level id ver with
  | error e => rw [hc] at h; cases h
  | ok cpu => rw [hc] at h; cases h; exact ⟨cpu, rfl, rfl⟩

theorem nvoverlay_vtable_core_recv_cb_post (nv : nvoverlay_t) (id version : Nat) :
    Post (nvoverlay_vtable_core_recv_cb nv id version)
      (fun nv1 => ∃ cpu, cpu_core_recv nv.cpu id version = .ok cpu ∧ nv1 = { nv with cpu := cpu }) := by
  unfold nvoverlay_vtable_core_recv_cb
  intro out h
  cases hc : cpu_core_recv nv.cpu id version with
  | error e => rw [hc] at h; cases h
  | ok cpu => rw [hc] at h; cases h; exact ⟨cpu, rfl, rfl⟩

/-- A tag insertion writes one free slot of the set of the address and nothing else. -/
theorem cpu_tag_insert_scan_post (tags : Nat → Option Nat) (ver_addr start : Nat) (l : List Nat) :
    Post (cpu_tag_insert_scan tags ver_addr start l) (fun tags1 =>
      ∃ i ∈ l, tags (start + i) = none ∧ tags1 = Function.update tags (start + i) (some ver_addr) ∧
        ∀ j ∈ l, tags (start + j) ≠ some ver_addr ∨ ∃ l1 l2, l = l1 ++ i :: l2 ∧ j ∈ l2) := by
  induction l with
  | nil => exact Post.error
  | cons i rest ih =>
    unfold cpu_tag_insert_scan
    refine Post.ite (fun _ => Post.error) (fun h1 => ?_)
    refine Post.ite (fun h2 => ?_) (fun h2 => ?_)
    · refine Post.pure ⟨i, List.mem_cons_self _ _, h2, rfl, ?_⟩
      intro j hj
      rcases List.mem_cons.1 hj with rfl | hj
      · exact Or.inl h1
      · exact Or.inr ⟨[], rest, rfl, hj⟩
    · refine Post.mono ih ?_
      rintro tags1 ⟨i', hi', hn, ht, hrest⟩
      refine ⟨i', List.mem_cons_of_mem _ hi', hn, ht, ?_⟩
      intro j hj
      rcases List.mem_cons.1 hj with rfl | hj
      · exact Or.inl h1
      · rcases hrest j hj with h | ⟨l1, l2, e, hm⟩
        · exact Or.inl h
        · exact Or.inr ⟨i :: l1, l2, by rw [e]; rfl, hm⟩

theorem cpu_tag_insert_frame (cpu : cpu_t) (level id ver_addr : Nat) :
    Post (cpu_tag_insert cpu level id ver_addr) (fun cpu1 =>
      cpu1.cores = cpu.cores ∧ cpu1.core_count = cpu.core_count) := by
  unfold cpu_tag_insert
  refine Post.assert (fun _ => ?_)
  refine Post.bind (Post.trivial _) (fun tags _ => ?_)
  exact Post.pure ⟨rfl, rfl⟩

theorem cpu_tag_remove_frame (cpu : cpu_t) (level id ver_addr : Nat) :
    Post (cpu_tag_remove cpu level id ver_addr) (fun cpu1 =>
      cpu1.cores = cpu.cores ∧ cpu1.core_count = cpu.core_count) := by
  unfold cpu_tag_remove
  refine Post.assert (fun _ => ?_)
  refine Post.bind (Post.trivial _) (fun tags _ => ?_)
  exact Post.pure ⟨rfl, rfl⟩

theorem cpu_tag_remove_all_frame (level ver_addr : Nat) (l : List Nat) (cpu : cpu_t) :
    Post (cpu_tag_remove_all level ver_addr l cpu) (fun cpu1 =>
      cpu1.cores = cpu.cores ∧ cpu1.core_count = cpu.core_count) := by
  induction l generalizing cpu with
  | nil => exact Post.pure ⟨rfl, rfl⟩
  | cons pos rest ih =>
    unfold cpu_tag_remove_all
    refine Post.bind (cpu_tag_remove_frame _ _ _ _) ?_
    rintro cpu1 ⟨h1, h2⟩
    exact Post.mono (ih cpu1) (fun a ha => ⟨ha.1.trans h1, ha.2.trans h2⟩)

theorem cpu_tag_op_frame (cpu : cpu_t) (op : cpu_tag_op_t) (level core : Nat) (ver : ver_t) :
    Post (cpu_tag_op cpu op level core ver) (fun cpu1 =>
      cpu1.cores = cpu.cores ∧ cpu1.core_count = cpu.core_count) := by
  have hother : Post (do
      if level ≠ CPU_TAG_L1 then c_assert (decide (level = CPU_TAG_L2)) 799
      let bitmap := if level = CPU_TAG_L1 then ver.l1_bitmap else ver.l2_bitmap
      let cpu1 ← cpu_tag_remove_all level ver.addr (bitmap64_members bitmap) cpu
      if op = CPU_TAG_OP_SET then cpu_tag_insert cpu1 level core ver.addr else pure cpu1)
      (fun cpu1 => cpu1.cores = cpu.cores ∧ cpu1.core_count = cpu.core_count) := by
    have hrest : Post (do
        let cpu1 ← cpu_tag_remove_all level ver.addr
          (bitmap64_members (if level = CPU_TAG_L1 then ver.l1_bitmap else ver.l2_bitmap)) cpu
        if op = CPU_TAG_OP_SET then cpu_tag_insert cpu1 level core ver.addr else pure cpu1)
        (fun cpu1 => cpu1.cores = cpu.cores ∧ cpu1.core_count = cpu.core_count) := by
      refine Post.bind (cpu_tag_remove_all_frame _ _ _ _) ?_
      rintro cpu1 ⟨h1, h2⟩
      refine Post.ite (fun _ => ?_) (fun _ => Post.pure ⟨h1, h2⟩)
      exact Post.mono (cpu_tag_insert_frame _ _ _ _) (fun a ha => ⟨ha.1.trans h1, ha.2.trans h2⟩)
    dsimp only
    refine Post.ite (fun _ => ?_) (fun _ => ?_)
    · exact Post.assert (fun _ => hrest)
    · exact hrest
  cases op with
  | CPU_TAG_OP_ADD => exact cpu_tag_insert_frame _ _ _ _
  | CPU_TAG_OP_REMOVE => exact cpu_tag_remove_frame _ _ _ _
  | CPU_TAG_OP_SET => exact hother
  | CPU_TAG_OP_CLEAR => exact hother

theorem epoch_le_of_eq {M : Nat} {nv a b : nvoverlay_t} (h : epoch_le M nv a)
    (he : ∀ i, (b.cpu.cores i).epoch = (a.cpu.cores i).epoch)
    (hl : b.last_stable_epoch = a.last_stable_epoch) : epoch_le M nv b := by
  refine ⟨fun i => ?_, ?_⟩
  · rw [he i]; exact h.1 i
  · rw [hl]; exact h.2

theorem epoch_le_same_front {M : Nat} {nv a b : nvoverlay_t} (h : epoch_le M nv a)
    (hf : same_front a b) : epoch_le M nv b :=
  epoch_le_of_eq h (fun i => by rw [hf.1]) hf.2.2.1

theorem cpu_core_recv_post (cpu : cpu_t) (id version : Nat) :
    Post (cpu_core_recv cpu id version) (fun cpu1 =>
      id < cpu.core_count ∧ cpu1.core_count = cpu.core_count ∧
      cpu1.tag_arrays = cpu.tag_arrays ∧
      (∀ i, i ≠ id → cpu1.cores i = cpu.cores i) ∧
      (cpu1.cores id).epoch = max (cpu.cores id).epoch version) := by
  unfold cpu_core_recv
  refine Post.assert (fun hid => ?_)
  have hid' : id < cpu.core_count := of_decide_eq_true hid
  refine Post.ite (fun h => ?_) (fun h => ?_)
  · refine Post.pure ⟨hid', rfl, rfl, fun i hi => ?_, ?_⟩
    · simp only [Function.update_noteq hi]
    · simp only [Function.update_same]; omega
  · refine Post.pure ⟨hid', rfl, rfl, fun i _ => rfl, ?_⟩
    omega

theorem cpu_advance_epoch_post (cpu : cpu_t) (id : Nat) :
    Post (cpu_advance_epoch cpu id) (fun cpu1 =>
      id < cpu.core_count ∧ cpu1.core_count = cpu.core_count ∧
      cpu1.tag_arrays = cpu.tag_arrays ∧
      (∀ i, i ≠ id → cpu1.cores i = cpu.cores i) ∧
      (cpu1.cores id).epoch = ((cpu.cores id).epoch + 1) % 2 ^ 64) := by
  unfold cpu_advance_epoch
  refine Post.assert (fun hid => ?_)
  refine Post.pure ⟨of_decide_eq_true hid, rfl, rfl, fun i hi => ?_, ?_⟩
  · simp only [Function.update_noteq hi]
  · simp only [Function.update_same]

theorem epoch_le_prim (M : Nat) (nv : nvoverlay_t) :
    PrimInv (epoch_le M nv) (fun v => v ≤ M) where
  tag := by
    intro a op level id ver ha
    refine Post.mono (nvoverlay_vtable_core_tag_cb_post _ _ _ _ _) ?_
    rintro b ⟨cpu, hc, rfl⟩
    have hf := cpu_tag_op_frame _ _ _ _ _ _ hc
    exact epoch_le_of_eq ha (fun i => by simp only [hf.1]) rfl
  evict := by
    intro a addr id version cycle et ha
    exact Post.mono (nvoverlay_vtable_evict_cb_frame _ _ _ _ _ _)
      (fun b hb => epoch_le_same_front ha hb)
  recv := by
    intro a id version ha hv
    refine Post.mono (nvoverlay_vtable_core_recv_cb_post _ _ _) ?_
    rintro b ⟨cpu, hc, rfl⟩
    obtain ⟨-, -, -, hne, he⟩ := cpu_core_recv_post _ _ _ _ hc
    refine ⟨fun i => ?_, ha.2⟩
    by_cases hi : i = id
    · subst hi
      have := ha.1 i
      simp only [he]
      omega
    · simp only [hne i hi]; exact ha.1 i
  walk := by
    intro a line_addr id version cycle ha
    exact Post.mono (nvoverlay_cpu_tag_walk_cb_frame _ _ _ _ _)
      (fun b hb => epoch_le_same_front ha hb)
  count := by
    intro a id ha
    refine epoch_le_of_eq ha (fun i => ?_) rfl
    simp only [cpu_tag_walk_count]
    by_cases hi : i = id
    · subst hi; simp only [Function.update_same]
    · simp only [Function.update_noteq hi]
  vtable := fun a vt ha => epoch_le_of_eq ha (fun _ => rfl) rfl

theorem last_stable_prim (c : Nat) :
    PrimInv (fun nv => nv.last_stable_epoch = c) (fun _ => True) where
  tag := by
    intro a op level id ver ha
    refine Post.mono (nvoverlay_vtable_core_tag_cb_post _ _ _ _ _) ?_
    rintro b ⟨cpu, -, rfl⟩
    exact ha
  evict := by
    intro a addr id version cycle et ha
    exact Post.mono (nvoverlay_vtable_evict_cb_frame _ _ _ _ _ _)
      (fun b hb => hb.2.2.1.trans ha)
  recv := by
    intro a id version ha _
    refine Post.mono (nvoverlay_vtable_core_recv_cb_post _ _ _) ?_
    rintro b ⟨cpu, -, rfl⟩
    exact ha
  walk := by
    intro a line_addr id version cycle ha
    exact Post.mono (nvoverlay_cpu_tag_walk_cb_frame _ _ _ _ _)
      (fun b hb => hb.2.2.1.trans ha)
  count := fun a id ha => ha
  vtable := fun a vt ha => ha

theorem cpu_get_core_post (cpu : cpu_t) (id line : Nat) :
    Post (cpu_get_core cpu id line) (fun core => id < cpu.core_count ∧ core = cpu.cores id) := by
  unfold cpu_get_core
  exact Post.ite (fun h => Post.pure ⟨h, rfl⟩) (fun _ => Post.error)

/-- The phases of `nvoverlay_full_store`: the version-table store, the store counting with the
epoch advance, and the tag walk with the merge of the stable epochs. -/
theorem nvoverlay_full_store_steps {I J K : nvoverlay_t → Prop} (nv : nvoverlay_t)
    (id line_addr cycle : Nat)
    (h1 : id < nv.cpu.core_count →
      Post (vtable_l1_store nv line_addr id (nv.cpu.cores id).epoch cycle) I)
    (h2 : ∀ nv1 cpu2, I nv1 → store_advance nv1.cpu id cpu2 → J { nv1 with cpu := cpu2 })
    (h3 : ∀ nv2, J nv2 → K nv2)
    (h4 : ∀ nv2, J nv2 → Post (cpu_tag_walk nv2 id cycle (nv2.cpu.cores id).epoch)
      (fun nv3 => ∀ overlay omt, K (walk_done nv3 id overlay omt))) :
    Post (nvoverlay_full_store nv id line_addr cycle) K := by
  unfold nvoverlay_full_store
  refine Post.bind (cpu_get_core_post _ _ _) (fun core hcore => ?_)
  obtain ⟨hid, rfl⟩ := hcore
  refine Post.bind (h1 hid) (fun nv1 hI => ?_)
  dsimp only
  refine @Post.bind _ _ _ _ J _ ?_ ?_
  · refine Post.ite (fun _ => ?_) (fun _ => ?_)
    · refine Post.bind (cpu_advance_epoch_post _ _) (fun cpu hcpu => ?_)
      refine Post.assert (fun _ => ?_)
      refine Post.pure (h2 _ _ hI ?_)
      obtain ⟨-, c1, c2, c3, c4⟩ := hcpu
      refine ⟨fun i hi => ?_, c1, c2, Or.inr ?_⟩
      · rw [c3 i hi]; simp only [Function.update_noteq hi]
      · rw [c4]; simp only [Function.update_same]
    · refine Post.pure (h2 _ _ hI ⟨fun i hi => ?_, rfl, rfl, Or.inl ?_⟩)
      · simp only [Function.update_noteq hi]
      · simp only [Function.update_same]
  · intro nv2 hJ
    refine Post.assert (fun _ => ?_)
    refine Post.ite (fun _ => ?_) (fun _ => Post.pure (h3 _ hJ))
    refine Post.bind (h4 _ hJ) (fun nv3 hK => ?_)
    dsimp only
    refine Post.ite (fun _ => ?_) (fun _ => Post.pure (hK _ _))
    refine Post.bind (Post.trivial _) ?_
    rintro ⟨overlay, omt⟩ -
    exact Post.pure (hK overlay omt)

theorem nvoverlay_full_store_last_stable (nv : nvoverlay_t) (id line_addr cycle : Nat) :
    Post (nvoverlay_full_store nv id line_addr cycle)
      (fun nv1 => nv1.last_stable_epoch = nv.last_stable_epoch) := by
  refine @nvoverlay_full_store_steps (fun nv1 => nv1.last_stable_epoch = nv.last_stable_epoch)
    (fun nv1 => nv1.last_stable_epoch = nv.last_stable_epoch) _ nv id line_addr cycle
    (fun _ => ?_) (fun _ _ h _ => h) (fun _ h => h) (fun nv2 h => ?_)
  · exact vtable_l1_store_prim (last_stable_prim nv.last_stable_epoch) _ _ _ _ _ rfl
      True.intro (fun _ _ _ => ⟨True.intro, True.intro, True.intro⟩)
  · exact Post.mono (cpu_tag_walk_prim (last_stable_prim nv.last_stable_epoch) _ _ _ _ h)
      (fun nv3 h3 _ _ => h3)

theorem nvoverlay_event_last_stable (nv : nvoverlay_t) (ev : event_t) :
    Post (nvoverlay_event nv ev) (fun nv1 => nv1.last_stable_epoch = nv.last_stable_epoch) := by
  have hV : ∀ k ver, ht64_find nv.vtable.vers k = some ver → True ∧ True ∧ True :=
    fun _ _ _ => ⟨True.intro, True.intro, True.intro⟩
  cases ev with
  | load id line_addr cycle =>
    exact Post.bind (Post.trivial _) (fun core _ =>
      vtable_l1_load_prim (last_stable_prim nv.last_stable_epoch) _ _ _ _ _ rfl True.intro hV)
  | store id line_addr cycle => exact nvoverlay_full_store_last_stable _ _ _ _
  | l1_evict id line_addr cycle =>
    exact Post.bind (Post.trivial _) (fun core _ =>
      vtable_l1_eviction_prim (last_stable_prim nv.last_stable_epoch) _ _ _ _ _ rfl)
  | l2_evict id line_addr cycle =>
    exact Post.bind (Post.trivial _) (fun core _ =>
      vtable_l2_eviction_prim (last_stable_prim nv.last_stable_epoch) _ _ _ _ _ rfl)
  | l3_evict id line_addr cycle =>
    exact Post.bind (Post.trivial _) (fun core _ =>
      vtable_l3_eviction_prim (last_stable_prim nv.last_stable_epoch) _ _ _ _ _ rfl)

theorem nvoverlay_run_last_stable (evs : List event_t) (nv : nvoverlay_t) :
    Post (nvoverlay_run evs nv) (fun nv1 => nv1.last_stable_epoch = nv.last_stable_epoch) := by
  induction evs generalizing nv with
  | nil => exact Post.pure rfl
  | cons ev rest ih =>
    exact Post.bind (nvoverlay_event_last_stable nv ev)
      (fun nv1 h1 => Post.mono (ih nv1) (fun nv2 h2 => h2.trans h1))

theorem nvoverlay_full_store_epoch (nv : nvoverlay_t) (id line_addr cycle : Nat)
    (hb : epoch_bounded nv) :
    Post (nvoverlay_full_store nv id line_addr cycle) (epoch_le UINT64_MAX nv) := by
  have hM : UINT64_MAX = 2 ^ 64 - 1 := rfl
  refine @nvoverlay_full_store_steps (epoch_le (UINT64_MAX - 1) nv) (epoch_le UINT64_MAX nv) _
    nv id line_addr cycle (fun _ => ?_) ?_ (fun _ h => h) (fun nv2 h => ?_)
  · refine vtable_l1_store_prim (epoch_le_prim (UINT64_MAX - 1) nv) _ _ _ _ _ ?_ (Nat.zero_le _) ?_
    · exact ⟨fun i => ⟨le_refl _, Nat.le_sub_one_of_lt (hb.1 i)⟩, le_refl _⟩
    · intro k ver hk
      obtain ⟨a, b, c⟩ := hb.2 k ver hk
      exact ⟨Nat.le_sub_one_of_lt a, Nat.le_sub_one_of_lt b, Nat.le_sub_one_of_lt c⟩
  · rintro nv1 cpu2 ⟨he, hl⟩ ⟨hne, -, -, hid⟩
    refine ⟨fun i => ?_, hl⟩
    have hi := he i
    by_cases hi' : i = id
    · subst hi'
      show _ ≤ (cpu2.cores i).epoch ∧ (cpu2.cores i).epoch ≤ _
      rcases hid with h | h
      · rw [h]; omega
      · rw [h]; omega
    · show _ ≤ (cpu2.cores i).epoch ∧ (cpu2.cores i).epoch ≤ _
      rw [hne i hi']; omega
  · refine Post.mono (cpu_tag_walk_prim (epoch_le_prim UINT64_MAX nv) _ _ _ _ h) ?_
    intro nv3 h3 overlay omt
    refine epoch_le_of_eq h3 (fun i => ?_) rfl
    simp only [walk_done]
    by_cases hi : i = id
    · subst hi; simp only [Function.update_same]
    · simp only [Function.update_noteq hi]

theorem nvoverlay_event_epoch (nv : nvoverlay_t) (ev : event_t) (hb : epoch_bounded nv) :
    Post (nvoverlay_event nv ev) (epoch_le UINT64_MAX nv) := by
  have h0 : epoch_le UINT64_MAX nv nv :=
    ⟨fun i => ⟨le_refl _, Nat.le_of_lt (hb.1 i)⟩, le_refl _⟩
  have hV : ∀ k ver, ht64_find nv.vtable.vers k = some ver →
      ver.l1_ver ≤ UINT64_MAX ∧ ver.l2_ver ≤ UINT64_MAX ∧ ver.other_ver ≤ UINT64_MAX := by
    intro k ver hk
    obtain ⟨a, b, c⟩ := hb.2 k ver hk
    exact ⟨Nat.le_of_lt a, Nat.le_of_lt b, Nat.le_of_lt c⟩
  cases ev with
  | load id line_addr cycle =>
    exact Post.bind (Post.trivial _) (fun core _ =>
      vtable_l1_load_prim (epoch_le_prim UINT64_MAX nv) _ _ _ _ _ h0 (Nat.zero_le _) hV)
  | store id line_addr cycle => exact nvoverlay_full_store_epoch _ _ _ _ hb
  | l1_evict id line_addr cycle =>
    exact Post.bind (Post.trivial _) (fun core _ =>
      vtable_l1_eviction_prim (epoch_le_prim UINT64_MAX nv) _ _ _ _ _ h0)
  | l2_evict id line_addr cycle =>
    exact Post.bind (Post.trivial _) (fun core _ =>
      vtable_l2_eviction_prim (epoch_le_prim UINT64_MAX nv) _ _ _ _ _ h0)
  | l3_evict id line_addr cycle =>
    exact Post.bind (Post.trivial _) (fun core _ =>
      vtable_l3_eviction_prim (epoch_le_prim UINT64_MAX nv) _ _ _ _ _ h0)

theorem cpu_tag_init_post (cpu : cpu_t) (level sets ways : Nat) :
    Post (cpu_tag_init cpu level sets ways) (fun cpu1 =>
      cpu1.cores = cpu.cores ∧ cpu1.core_count = cpu.core_count ∧
      (∀ l, l ≠ level → cpu1.tag_arrays l = cpu.tag_arrays l) ∧
      tag_geom (cpu1.tag_arrays level) ∧ (cpu1.tag_arrays level).tags = fun _ => none) := by
  unfold cpu_tag_init
  refine Post.assert (fun hs => ?_)
  have h1 : 1 ≤ sets := by
    rcases Nat.eq_zero_or_pos sets with h | h
    · subst h; exact absurd hs (by decide)
    · exact h
  refine Post.ite (fun _ => Post.error) (fun _ => ?_)
  refine Post.bind (Post.trivial _) (fun set_bits _ => ?_)
  refine Post.pure ⟨rfl, rfl, fun l hl => ?_, ?_, ?_⟩
  · simp only [Function.update_noteq hl]
  · simp only [Function.update_same]; exact ⟨rfl, rfl, h1⟩
  · simp only [Function.update_same]

theorem conf_check_post (num low high : Nat) (power2 : Bool) (line : Nat) :
    Post (conf_check num low high power2 line) (fun _ => low ≤ num ∧ num ≤ high) := by
  unfold conf_check
  refine Post.ite (fun _ => Post.error) (fun h => ?_)
  refine Post.ite (fun _ => Post.error) (fun _ => Post.pure ?_)
  omega

/-- The state built by `nvoverlay_init_full`: nothing is stable, the version table is empty, no
core has left epoch 0, at most 64 cores, and both tag arrays are laid out and empty. -/
theorem nvoverlay_init_full_post (conf : nvoverlay_conf_t) :
    Post (nvoverlay_init_full conf) (fun nv =>
      nv.last_stable_epoch = 0 ∧ nv.vtable = vtable_init ∧
      nv.cpu.core_count ≤ CORE_COUNT_MAX ∧ (∀ i, (nv.cpu.cores i).epoch = 0) ∧
      ∀ level, level < CPU_TAG_MAX →
        tag_geom (nv.cpu.tag_arrays level) ∧ (nv.cpu.tag_arrays level).tags = fun _ => none) := by
  unfold nvoverlay_init_full
  refine Post.bind (Post.trivial _) (fun _ _ => ?_)
  refine Post.bind (Post.trivial _) (fun _ _ => ?_)
  refine Post.bind (Post.trivial _) (fun _ _ => ?_)
  refine Post.bind (Post.trivial _) (fun _ _ => ?_)
  refine Post.bind (Post.trivial _) (fun _ _ => ?_)
  refine Post.bind (Post.trivial _) (fun omcbuf _ => ?_)
  refine Post.bind (conf_check_post _ _ _ _ _) (fun _ hc => ?_)
  refine Post.bind (Post.trivial _) (fun _ _ => ?_)
  refine Post.ite (fun _ => Post.error) (fun _ => ?_)
  refine Post.ite (fun _ => Post.error) (fun _ => ?_)
  refine Post.bind (Post.trivial _) (fun _ _ => ?_)
  refine Post.ite (fun _ => Post.error) (fun _ => ?_)
  refine Post.ite (fun _ => Post.error) (fun _ => ?_)
  refine Post.bind (cpu_tag_init_post _ _ _ _) ?_
  rintro cpu1 ⟨a1, a2, -, a4, a5⟩
  refine Post.bind (cpu_tag_init_post _ _ _ _) ?_
  rintro cpu2 ⟨b1, b2, b3, b4, b5⟩
  refine Post.bind (Post.trivial _) (fun _ _ => ?_)
  refine Post.bind (Post.trivial _) (fun _ _ => ?_)
  refine Post.pure ⟨rfl, rfl, ?_, ?_, ?_⟩
  · show cpu2.core_count ≤ _
    rw [b2, a2]; exact hc.2
  · intro i
    show (cpu2.cores i).epoch = 0
    rw [b1, a1]; rfl
  · intro level hl
    show tag_geom (cpu2.tag_arrays level) ∧ (cpu2.tag_arrays level).tags = _
    have : level = CPU_TAG_L1 ∨ level = CPU_TAG_L2 := by
      simp only [CPU_TAG_MAX, CPU_TAG_L1, CPU_TAG_L2] at hl ⊢; omega
    rcases this with h | h
    · subst h
      rw [b3 CPU_TAG_L1 (by decide)]; exact ⟨a4, a5⟩
    · subst h; exact ⟨b4, b5⟩

/-- C7: at every event boundary the engine reaches, `last_stable_epoch` is at most the epoch of
every core, and across every event that returns, started with every epoch counter and filed
version below the largest 64-bit value (no overflow), no core's epoch decreases and
`last_stable_epoch` does not decrease. -/
theorem epoch_monotone (conf : nvoverlay_conf_t) (evs : List event_t) (ev : event_t)
    (nv0 nv nv1 : nvoverlay_t) (h0 : nvoverlay_init_full conf = .ok nv0)
    (h1 : nvoverlay_run evs nv0 = .ok nv) (hb : epoch_bounded nv)
    (h2 : nvoverlay_event nv ev = .ok nv1) :
    (∀ i, (nv.cpu.cores i).epoch ≤ (nv1.cpu.cores i).epoch) ∧
    nv.last_stable_epoch ≤ nv1.last_stable_epoch ∧
    (∀ i, nv.last_stable_epoch ≤ (nv.cpu.cores i).epoch) ∧
    (∀ i, nv1.last_stable_epoch ≤ (nv1.cpu.cores i).epoch) := by
  have e0 : nv0.last_stable_epoch = 0 := (nvoverlay_init_full_post conf nv0 h0).1
  have e1 : nv.last_stable_epoch = 0 := (nvoverlay_run_last_stable evs nv0 nv h1).trans e0
  have e2 : nv1.last_stable_epoch = 0 := (nvoverlay_event_last_stable nv ev nv1 h2).trans e1
  have hle := nvoverlay_event_epoch nv ev hb nv1 h2
  refine ⟨fun i => (hle.1 i).1, hle.2, fun i => ?_, fun i => ?_⟩
  · rw [e1]; exact Nat.zero_le _
  · rw [e2]; exact Nat.zero_le _

theorem epoch_monotone_witness :
    nvoverlay_init_full conf_one_core = .ok nv_one_core ∧
    nvoverlay_run [] nv_one_core = .ok nv_one_core ∧
    nvoverlay_event nv_one_core (.store 0 0x1000 0) = .ok nv_one_store ∧
    ((∀ i, (nv_one_core.cpu.cores i).epoch ≤ (nv_one_store.cpu.cores i).epoch) ∧
     nv_one_core.last_stable_epoch ≤ nv_one_store.last_stable_epoch ∧
     (∀ i, nv_one_core.last_stable_epoch ≤ (nv_one_core.cpu.cores i).epoch) ∧
     (∀ i, nv_one_store.last_stable_epoch ≤ (nv_one_store.cpu.cores i).epoch)) :=
  ⟨rfl, rfl, rfl,
   epoch_monotone conf_one_core [] (.store 0 0x1000 0) nv_one_core nv_one_core nv_one_store
     rfl rfl
     ⟨fun i => (by decide : (0 : Nat) < UINT64_MAX), fun k ver h => by cases h⟩ rfl⟩

theorem bitmap64_wf_clear : bitmap64_wf bitmap64_clear := by
  unfold bitmap64_wf bitmap64_clear; decide

theorem bitmap64_wf_add (b : bitmap64_t) (pos : Nat) : bitmap64_wf (bitmap64_add b pos) := by
  unfold bitmap64_wf bitmap64_add
  exact Nat.mod_lt _ (by decide)

theorem bitmap64_wf_remove (b : bitmap64_t) (pos : Nat) (h : bitmap64_wf b) :
    bitmap64_wf (bitmap64_remove b pos) := by
  unfold bitmap64_wf bitmap64_remove at *
  exact Nat.xor_lt_two_pow h (Nat.lt_of_le_of_lt Nat.and_le_left h)

theorem bitmap64_is_set_lt {b : bitmap64_t} {i : Nat} (hw : bitmap64_wf b)
    (h : bitmap64_is_set b i = true) : i < 64 := by
  by_contra hi
  have h64 : 64 ≤ i := Nat.le_of_not_lt hi
  have : b.x < 2 ^ i := Nat.lt_of_lt_of_le hw (Nat.pow_le_pow_right (by decide) h64)
  rw [bitmap64_is_set, Nat.testBit_lt_two_pow this] at h
  cases h

theorem bitmap64_is_set_clear (i : Nat) : bitmap64_is_set bitmap64_clear i = false := by
  simp [bitmap64_is_set, bitmap64_clear]

theorem bitmap64_is_set_add {b : bitmap64_t} {pos : Nat} (hw : bitmap64_wf b) (hp : pos < 64)
    (i : Nat) :
    bitmap64_is_set (bitmap64_add b pos) i = true ↔ i = pos ∨ bitmap64_is_set b i = true := by
  rw [bitmap64_is_set, bitmap64_testBit_add]
  simp only [Bool.and_eq_true, Bool.or_eq_true, decide_eq_true_eq]
  constructor
  · rintro ⟨-, h | h⟩
    · exact Or.inr h
    · exact Or.inl h.symm
  · rintro (h | h)
    · subst h; exact ⟨hp, Or.inr rfl⟩
    · exact ⟨bitmap64_is_set_lt hw h, Or.inl h⟩

theorem bitmap64_is_set_remove (b : bitmap64_t) (pos i : Nat) :
    bitmap64_is_set (bitmap64_remove b pos) i = true ↔ i ≠ pos ∧ bitmap64_is_set b i = true := by
  simp only [bitmap64_is_set, bitmap64_remove, Nat.testBit_xor, Nat.testBit_and,
    Nat.one_shiftLeft, Nat.testBit_two_pow]
  by_cases h : pos = i
  · subst h; cases b.x.testBit pos <;> simp
  · have h' : i ≠ pos := fun e => h e.symm
    cases b.x.testBit i <;> simp [h, h']

theorem sharers_single_add_clear {pos : Nat} (hp : pos < 64) :
    sharers_single (bitmap64_add bitmap64_clear pos) pos := by
  intro i
  rw [bitmap64_is_set_add bitmap64_wf_clear hp, bitmap64_is_set_clear]
  simp

theorem sharers_single_unique {b : bitmap64_t} {c d : Nat} (h1 : sharers_single b c)
    (h2 : sharers_single b d) : c = d := (h2 c).1 ((h1 c).2 rfl)

theorem sharers_single_first {b : bitmap64_t} {c : Nat} (hw : bitmap64_wf b)
    (h : sharers_single b c) : bitmap64_first b = (c : Int) := by
  have hc : c ∈ bitmap64_members b :=
    (bitmap64_mem_members b c).2 ⟨bitmap64_is_set_lt hw ((h c).2 rfl), (h c).2 rfl⟩
  unfold bitmap64_first
  cases hm : bitmap64_members b with
  | nil => rw [hm] at hc; cases hc
  | cons i rest =>
    have hi : i ∈ bitmap64_members b := by rw [hm]; exact List.mem_cons_self _ _
    have : i = c := (h i).1 ((bitmap64_mem_members b i).1 hi).2
    simp only [this]

theorem sharers_empty_remove {b : bitmap64_t} {c : Nat} (h : sharers_single b c) :
    sharers_empty (bitmap64_remove b c) := by
  intro i
  cases hv : bitmap64_is_set (bitmap64_remove b c) i with
  | false => rfl
  | true =>
    obtain ⟨h1, h2⟩ := (bitmap64_is_set_remove b c i).1 hv
    exact absurd ((h i).1 h2) h1

theorem sharers_single_add_empty {b : bitmap64_t} {pos : Nat} (h : sharers_empty b)
    (hw : bitmap64_wf b) (hp : pos < 64) : sharers_single (bitmap64_add b pos) pos := by
  intro i
  rw [bitmap64_is_set_add hw hp, h i]
  simp

theorem op_keeps_tag {vt : vtable_t} {n : Nat} {nv : nvoverlay_t} (h : op_keeps vt n nv)
    (op : cpu_tag_op_t) (level id : Nat) (ver : ver_t) :
    Post (nvoverlay_vtable_core_tag_cb nv op level id ver) (op_keeps vt n) := by
  refine Post.mono (nvoverlay_vtable_core_tag_cb_post _ _ _ _ _) ?_
  rintro nv1 ⟨cpu, hc, rfl⟩
  exact ⟨h.1, (cpu_tag_op_frame _ _ _ _ _ _ hc).2.trans h.2⟩

theorem op_keeps_same_front {vt : vtable_t} {n : Nat} {nv nv1 : nvoverlay_t}
    (h : op_keeps vt n nv) (hf : same_front nv nv1) : op_keeps vt n nv1 :=
  ⟨hf.2.1.trans h.1, by rw [hf.1]; exact h.2⟩

theorem op_keeps_evict {vt : vtable_t} {n : Nat} {nv : nvoverlay_t} (h : op_keeps vt n nv)
    (addr : Nat) (id : Int) (version cycle : Nat) (evict_type : evict_type_t) :
    Post (nvoverlay_vtable_evict_cb nv addr id version cycle evict_type) (op_keeps vt n) :=
  Post.mono (nvoverlay_vtable_evict_cb_frame _ _ _ _ _ _) (fun _ hf => op_keeps_same_front h hf)

theorem op_keeps_walk {vt : vtable_t} {n : Nat} {nv : nvoverlay_t} (h : op_keeps vt n nv)
    (line_addr id version cycle : Nat) :
    Post (nvoverlay_cpu_tag_walk_cb nv line_addr id version cycle) (op_keeps vt n) :=
  Post.mono (nvoverlay_cpu_tag_walk_cb_frame _ _ _ _ _) (fun _ hf => op_keeps_same_front h hf)

theorem op_keeps_recv {vt : vtable_t} {n : Nat} {nv : nvoverlay_t} (h : op_keeps vt n nv)
    (id version : Nat) :
    Post (nvoverlay_vtable_core_recv_cb nv id version) (fun nv1 => op_keeps vt n nv1 ∧ id < n) := by
  refine Post.mono (nvoverlay_vtable_core_recv_cb_post _ _ _) ?_
  rintro nv1 ⟨cpu, hc, rfl⟩
  obtain ⟨hid, hcc, -, -, -⟩ := cpu_core_recv_post _ _ _ _ hc
  exact ⟨⟨h.1, hcc.trans h.2⟩, by rw [← h.2]; exact hid⟩

theorem op_keeps_count {vt : vtable_t} {n : Nat} {nv : nvoverlay_t} (h : op_keeps vt n nv)
    (id : Nat) : op_keeps vt n (cpu_tag_walk_count nv id) := ⟨h.1, h.2⟩

theorem ht64_find_store {V : Type} (ht : ht64_t V) (k k' : Nat) (v : V) :
    ht64_find (ht64_store ht k v) k' = if k' = k then some v else ht64_find ht k' := by
  unfold ht64_find ht64_store
  simp only [alist_find_set]

theorem vtable_ok_commit {vt : vtable_t} {n : Nat} {nv : nvoverlay_t} (h : op_keeps vt n nv)
    (hn : n ≤ CORE_COUNT_MAX) (hvt : ∀ k v, ht64_find vt.vers k = some v → rec_ok v)
    {ver : ver_t} (hr : rec_ok ver) : vtable_ok (vtable_commit nv ver) := by
  refine ⟨by rw [← h.2] at hn; exact hn, fun k v hk => ?_⟩
  simp only [vtable_commit, ht64_find_store] at hk
  split at hk
  · cases hk; exact hr
  · rw [h.1] at hk; exact hvt k v hk

theorem vtable_ok_keep {vt : vtable_t} {n : Nat} {nv : nvoverlay_t} (h : op_keeps vt n nv)
    (hn : n ≤ CORE_COUNT_MAX) (hvt : ∀ k v, ht64_find vt.vers k = some v → rec_ok v) :
    vtable_ok nv :=
  ⟨by rw [← h.2] at hn; exact hn, fun k v hk => hvt k v (by rw [h.1] at hk; exact hk)⟩

theorem rec_ok_other (v : ver_t) (h : v.owner = OWNER_OTHER) (w1 : bitmap64_wf v.l1_bitmap)
    (w2 : bitmap64_wf v.l2_bitmap) : rec_ok v := by
  unfold rec_ok ver_ownership
  refine ⟨w1, w2, ?_⟩
  exact ⟨fun h1 => (by rw [h] at h1; cases h1), fun h2 => (by rw [h] at h2; cases h2)⟩

theorem rec_ok_neither (v : ver_t) (h1 : ¬ v.owner = OWNER_L1) (h2 : ¬ v.owner = OWNER_L2)
    (w1 : bitmap64_wf v.l1_bitmap) (w2 : bitmap64_wf v.l2_bitmap) : rec_ok v := by
  unfold rec_ok ver_ownership
  refine ⟨w1, w2, ?_⟩
  exact ⟨fun h => absurd h h1, fun h => absurd h h2⟩

theorem rec_ok_fresh (addr : Nat) : rec_ok { ver_init with addr := addr, owner := OWNER_OTHER } :=
  rec_ok_other _ rfl bitmap64_wf_clear bitmap64_wf_clear

theorem vtable_insert_rec_ok {nv : nvoverlay_t} (hok : vtable_ok nv) {addr : Nat} {vt : vtable_t}
    (hold : ∀ k v, ht64_find vt.vers k = some v →
      ht64_find nv.vtable.vers k = some v ∨
        (k = addr ∧ v = { ver_init with addr := addr, owner := OWNER_OTHER })) :
    ∀ k v, ht64_find vt.vers k = some v → rec_ok v := by
  intro k v hk
  rcases hold k v hk with h | ⟨-, h⟩
  · exact hok.2 k v h
  · rw [h]; exact rec_ok_fresh addr

theorem rec_ok_load_l2hit (ver : ver_t) (id : Nat) (hr : rec_ok ver)
    (hh : vtable_l2_has_ver ver id = true) (ho : ver.owner = OWNER_L2)
    (a2 : (ver.l1_state == STATE_I && ver.l2_state != STATE_I) = true) :
    rec_ok { ver with l1_bitmap := bitmap64_add ver.l1_bitmap id, l1_state := STATE_S,
                      l1_ver := ver.l2_ver } := by
  obtain ⟨w1, w2, -, h2⟩ := hr
  simp only [vtable_l2_has_ver] at hh
  obtain ⟨hs2, c, hc, hl1⟩ := h2 ho
  have hs1 : ver.l1_state = STATE_I := by
    simp only [Bool.and_eq_true, beq_iff_eq] at a2
    exact a2.1
  have hid : id = c := (hc id).1 hh
  have hlt : id < 64 := bitmap64_is_set_lt w2 hh
  have he : sharers_empty ver.l1_bitmap := by
    rcases hl1 with h | ⟨-, h⟩
    · exact h
    · rw [hs1] at h; cases h
  refine ⟨bitmap64_wf_add _ _, w2, ?_, ?_⟩
  · intro h
    have h' : ver.owner = OWNER_L1 := h
    rw [ho] at h'; cases h'
  · intro _
    refine ⟨hs2, c, hc, Or.inr ⟨?_, rfl⟩⟩
    rw [← hid]
    exact sharers_single_add_empty he w1 hlt

theorem rec_ok_load_l2hit_other (ver : ver_t) (id : Nat) (hr : rec_ok ver)
    (a1 : (ver.owner == OWNER_L2 || ver.owner == OWNER_OTHER) = true)
    (hno : ¬ ver.owner = OWNER_L2) :
    rec_ok { ver with l1_bitmap := bitmap64_add ver.l1_bitmap id, l1_state := STATE_S,
                      l1_ver := ver.l2_ver } := by
  have ho : ver.owner = OWNER_OTHER := by
    simp only [Bool.or_eq_true, beq_iff_eq] at a1
    exact a1.resolve_left hno
  exact rec_ok_other _ ho (bitmap64_wf_add _ _) hr.2.1

theorem rec_ok_store1 (ver : ver_t) (hr : rec_ok ver) (a b : Nat) :
    rec_ok { ver with l2_state := STATE_M, l2_ver := a, l1_ver := b } := by
  obtain ⟨w1, w2, h1, h2⟩ := hr
  refine ⟨w1, w2, ?_, ?_⟩
  · intro h
    obtain ⟨x, y, -⟩ := h1 h
    exact ⟨x, y, Or.inr rfl⟩
  · intro h
    obtain ⟨-, y⟩ := h2 h
    exact ⟨rfl, y⟩

theorem rec_ok_store2 (ver : ver_t) (id epoch : Nat) (hr : rec_ok ver)
    (hb : ver.owner = OWNER_L2 ∧ vtable_l2_sharer ver = (id : Int)) :
    rec_ok { ver with owner := OWNER_L1, l1_state := STATE_M, l1_ver := epoch,
                      l1_bitmap := bitmap64_add bitmap64_clear id } := by
  obtain ⟨w1, w2, -, h2⟩ := hr
  obtain ⟨hs2, c, hc, -⟩ := h2 hb.1
  have hf := sharers_single_first w2 hc
  have hid : c = id := by
    have := hb.2
    unfold vtable_l2_sharer at this
    rw [hf] at this
    exact Int.ofNat.inj this
  subst hid
  have hlt : c < 64 := bitmap64_is_set_lt w2 ((hc c).2 rfl)
  refine ⟨bitmap64_wf_add _ _, w2, ?_, ?_⟩
  · intro _
    exact ⟨rfl, ⟨c, sharers_single_add_clear hlt, hc⟩, Or.inr hs2⟩
  · intro h; cases h

theorem rec_ok_store_new (addr id a b c : Nat) (s2 : state_t)
    (hs : s2 = STATE_S ∨ s2 = STATE_M) (hid : id < 64) :
    rec_ok { addr := addr, owner := OWNER_L1, l1_state := STATE_M, l2_state := s2, l1_ver := a,
             l2_ver := b, other_ver := c, l1_bitmap := bitmap64_add bitmap64_clear id,
             l2_bitmap := bitmap64_add bitmap64_clear id } := by
  refine ⟨bitmap64_wf_add _ _, bitmap64_wf_add _ _, ?_, ?_⟩
  · intro _
    exact ⟨rfl, ⟨id, sharers_single_add_clear hid, sharers_single_add_clear hid⟩, hs⟩
  · intro h; cases h

theorem rec_ok_evict1_l1 (ver : ver_t) (id a : Nat) (hr : rec_ok ver)
    (ho : ver.owner = OWNER_L1)
    (hh : (vtable_l1_has_ver ver id && vtable_l2_has_ver ver id) = true) :
    rec_ok { ver with owner := OWNER_L2, l1_state := STATE_I, l2_state := STATE_M, l2_ver := a,
                      l1_bitmap := bitmap64_remove ver.l1_bitmap id } := by
  obtain ⟨w1, w2, h1, -⟩ := hr
  obtain ⟨-, ⟨c, hc1, hc2⟩, -⟩ := h1 ho
  simp only [Bool.and_eq_true, vtable_l1_has_ver, vtable_l2_has_ver] at hh
  have hid : id = c := (hc1 id).1 hh.1
  subst hid
  refine ⟨bitmap64_wf_remove _ _ w1, w2, ?_, ?_⟩
  · intro h; cases h
  · intro _
    exact ⟨rfl, id, hc2, Or.inl (sharers_empty_remove hc1)⟩

theorem rec_ok_evict1_l2 (ver : ver_t) (id : Nat) (hr : rec_ok ver)
    (ho : ver.owner = OWNER_L2)
    (hh : (vtable_l1_has_ver ver id && vtable_l2_has_ver ver id) = true) :
    rec_ok { ver with l1_state := STATE_I, l1_bitmap := bitmap64_remove ver.l1_bitmap id } := by
  obtain ⟨w1, w2, -, h2⟩ := hr
  obtain ⟨hs2, c, hc, hl1⟩ := h2 ho
  simp only [Bool.and_eq_true, vtable_l1_has_ver, vtable_l2_has_ver] at hh
  have he : sharers_empty (bitmap64_remove ver.l1_bitmap id) := by
    rcases hl1 with h | ⟨h, -⟩
    · rw [h id] at hh; exact absurd hh.1 (by decide)
    · have hid : id = c := (h id).1 hh.1
      subst hid
      exact sharers_empty_remove h
  refine ⟨bitmap64_wf_remove _ _ w1, w2, ?_, ?_⟩
  · intro h; rw [ho] at h; cases h
  · intro _
    exact ⟨hs2, c, hc, Or.inl he⟩

theorem rec_ok_walk (ver : ver_t) (hr : rec_ok ver) (ho : ver.owner = OWNER_L1) :
    rec_ok { ver with l2_state := STATE_S } := by
  obtain ⟨w1, w2, h1, -⟩ := hr
  obtain ⟨x, y, -⟩ := h1 ho
  refine ⟨w1, w2, ?_, ?_⟩
  · intro _
    exact ⟨x, y, Or.inl rfl⟩
  · intro h; rw [ho] at h; cases h

theorem vtable_l1_load_ok (nv : nvoverlay_t) (addr id epoch cycle : Nat) (hok : vtable_ok nv) :
    Post (vtable_l1_load nv addr id epoch cycle) vtable_ok := by
  unfold vtable_l1_load
  simp only [vtable_l1_add_ver, vtable_l2_add_ver, vtable_evict_wrapper,
    bind_assoc, pure_bind, except_ite_bind]
  refine Post.bind (vtable_insert_post _ _) ?_
  rintro ⟨vt, ver⟩ ⟨hf, hold, -⟩
  have hvt := vtable_insert_rec_ok hok hold
  have hn := hok.1
  have hrec : rec_ok ver := hvt _ _ hf
  have w1 := hrec.1
  have w2 := hrec.2.1
  have hk : op_keeps vt nv.cpu.core_count { nv with vtable := vt } := ⟨rfl, rfl⟩
  dsimp only
  repeat' first
    | exact Post.error
    | refine Post.pure (vtable_ok_commit (by assumption) hn hvt ?_)
    | exact Post.pure (vtable_ok_keep (by assumption) hn hvt)
    | (refine Post.assert ?_; intro _)
    | (refine Post.ite ?_ ?_ <;> intro _)
    | (refine Post.bind (op_keeps_tag (by assumption) _ _ _ _) ?_; intro _ _)
    | (refine Post.bind (op_keeps_evict (by assumption) _ _ _ _ _) ?_; intro _ _)
    | (refine Post.bind (op_keeps_recv (by assumption) _ _) ?_; rintro _ ⟨_, _⟩)
  all_goals first
    | (refine rec_ok_other _ (by first | rfl | assumption) ?_ ?_ <;>
        exact bitmap64_wf_add _ _)
    | exact rec_ok_load_l2hit _ _ hrec (by assumption) (by assumption) (by assumption)
    | exact rec_ok_load_l2hit_other _ _ hrec (by assumption) (by assumption)

theorem vtable_l1_store_ok (nv : nvoverlay_t) (addr id epoch cycle : Nat) (hok : vtable_ok nv) :
    Post (vtable_l1_store nv addr id epoch cycle) vtable_ok := by
  unfold vtable_l1_store
  simp only [vtable_l1_set_ver, vtable_l2_set_ver, vtable_evict_wrapper,
    bind_assoc, pure_bind, except_ite_bind]
  refine Post.bind (vtable_insert_post _ _) ?_
  rintro ⟨vt, ver⟩ ⟨hf, hold, -⟩
  have hvt := vtable_insert_rec_ok hok hold
  have hn := hok.1
  have hrec : rec_ok ver := hvt _ _ hf
  have w1 := hrec.1
  have w2 := hrec.2.1
  have hk : op_keeps vt nv.cpu.core_count { nv with vtable := vt } := ⟨rfl, rfl⟩
  dsimp only
  repeat' first
    | exact Post.error
    | refine Post.pure (vtable_ok_commit (by assumption) hn hvt ?_)
    | exact Post.pure (vtable_ok_keep (by assumption) hn hvt)
    | (refine Post.assert ?_; intro _)
    | (refine Post.ite ?_ ?_ <;> intro _)
    | (refine Post.bind (op_keeps_tag (by assumption) _ _ _ _) ?_; intro _ _)
    | (refine Post.bind (op_keeps_evict (by assumption) _ _ _ _ _) ?_; intro _ _)
    | (refine Post.bind (op_keeps_recv (by assumption) _ _) ?_; rintro _ ⟨_, _⟩)
  all_goals first
    | exact rec_ok_store1 _ hrec _ _
    | exact rec_ok_store2 _ _ _ hrec (by assumption)
    | exact rec_ok_store_new _ _ _ _ _ _ (Or.inl rfl) (Nat.lt_of_lt_of_le (by assumption) hn)
    | exact rec_ok_store_new _ _ _ _ _ _ (Or.inr rfl) (Nat.lt_of_lt_of_le (by assumption) hn)
    | exact rec_ok_store_new _ _ _ _ _ _ (Or.inr (eq_of_beq (by assumption)))
        (Nat.lt_of_lt_of_le (by assumption) hn)

theorem vtable_l1_eviction_ok (nv : nvoverlay_t) (addr id epoch cycle : Nat)
    (hok : vtable_ok nv) : Post (vtable_l1_eviction nv addr id epoch cycle) vtable_ok := by
  unfold vtable_l1_eviction
  simp only [vtable_l1_rm_ver, vtable_evict_wrapper, bind_assoc, pure_bind, except_ite_bind]
  refine Post.bind (vtable_insert_post _ _) ?_
  rintro ⟨vt, ver⟩ ⟨hf, hold, -⟩
  have hvt := vtable_insert_rec_ok hok hold
  have hn := hok.1
  have hrec : rec_ok ver := hvt _ _ hf
  have w1 := hrec.1
  have w2 := hrec.2.1
  have hk : op_keeps vt nv.cpu.core_count { nv with vtable := vt } := ⟨rfl, rfl⟩
  dsimp only
  repeat' first
    | exact Post.error
    | refine Post.pure (vtable_ok_commit (by assumption) hn hvt ?_)
    | exact Post.pure (vtable_ok_keep (by assumption) hn hvt)
    | (refine Post.assert ?_; intro _)
    | (refine Post.ite ?_ ?_ <;> intro _)
    | (refine Post.bind (op_keeps_tag (by assumption) _ _ _ _) ?_; intro _ _)
    | (refine Post.bind (op_keeps_evict (by assumption) _ _ _ _ _) ?_; intro _ _)
  all_goals first
    | exact rec_ok_evict1_l1 _ _ _ hrec (by assumption) (by assumption)
    | exact rec_ok_evict1_l2 _ _ hrec (by assumption) (by assumption)
    | exact rec_ok_neither _ (by assumption) (by assumption) (bitmap64_wf_remove _ _ w1) w2

theorem vtable_l2_eviction_ok (nv : nvoverlay_t) (addr id epoch cycle : Nat)
    (hok : vtable_ok nv) : Post (vtable_l2_eviction nv addr id epoch cycle) vtable_ok := by
  unfold vtable_l2_eviction
  simp only [vtable_l1_rm_ver, vtable_l2_rm_ver, vtable_evict_wrapper, bind_assoc, pure_bind,
    except_ite_bind]
  refine Post.bind (vtable_insert_post _ _) ?_
  rintro ⟨vt, ver⟩ ⟨hf, hold, -⟩
  have hvt := vtable_insert_rec_ok hok hold
  have hn := hok.1
  have hrec : rec_ok ver := hvt _ _ hf
  have w1 := hrec.1
  have w2 := hrec.2.1
  have hk : op_keeps vt nv.cpu.core_count { nv with vtable := vt } := ⟨rfl, rfl⟩
  dsimp only
  repeat' first
    | exact Post.error
    | refine Post.pure (vtable_ok_commit (by assumption) hn hvt ?_)
    | exact Post.pure (vtable_ok_keep (by assumption) hn hvt)
    | (refine Post.assert ?_; intro _)
    | (refine Post.ite ?_ ?_ <;> intro _)
    | (refine Post.bind (op_keeps_tag (by assumption) _ _ _ _) ?_; intro _ _)
    | (refine Post.bind (op_keeps_evict (by assumption) _ _ _ _ _) ?_; intro _ _)
  all_goals first
    | (refine rec_ok_other _ rfl ?_ ?_ <;>
        first | exact bitmap64_wf_remove _ _ (by assumption) | assumption)
    | (refine rec_ok_neither _ (by assumption) (by assumption) ?_ ?_ <;>
        first | exact bitmap64_wf_remove _ _ (by assumption) | assumption)

theorem vtable_l3_eviction_ok (nv : nvoverlay_t) (addr id epoch cycle : Nat)
    (hok : vtable_ok nv) : Post (vtable_l3_eviction nv addr id epoch cycle) vtable_ok := by
  unfold vtable_l3_eviction
  simp only [vtable_l1_clear_sharer, vtable_l2_clear_sharer, bind_assoc, pure_bind,
    except_ite_bind]
  refine Post.bind (vtable_insert_post _ _) ?_
  rintro ⟨vt, ver⟩ ⟨hf, hold, -⟩
  have hvt := vtable_insert_rec_ok hok hold
  have hn := hok.1
  have hk : op_keeps vt nv.cpu.core_count { nv with vtable := vt } := ⟨rfl, rfl⟩
  dsimp only
  repeat' first
    | exact Post.error
    | exact vtable_l2_eviction_ok _ _ _ _ _ (vtable_ok_keep hk hn hvt)
    | refine Post.pure (vtable_ok_commit (by assumption) hn hvt ?_)
    | (refine Post.assert ?_; intro _)
    | (refine Post.ite ?_ ?_ <;> intro _)
    | (refine Post.bind (op_keeps_tag (by assumption) _ _ _ _) ?_; intro _ _)
  all_goals exact rec_ok_other _ (by assumption) bitmap64_wf_clear bitmap64_wf_clear

theorem cpu_tag_walk_ver_ok (nv : nvoverlay_t) (id cycle target_epoch ver_addr : Nat)
    (hok : vtable_ok nv) : Post (cpu_tag_walk_ver nv id cycle target_epoch ver_addr) vtable_ok := by
  unfold cpu_tag_walk_ver
  split
  · exact Post.error
  · rename_i ver hfind
    have hn := hok.1
    have hvt := hok.2
    have hrec : rec_ok ver := hvt _ _ hfind
    have w1 := hrec.1
    have w2 := hrec.2.1
    have hk : op_keeps nv.vtable nv.cpu.core_count nv := ⟨rfl, rfl⟩
    simp only [bind_assoc, pure_bind, except_ite_bind]
    repeat' first
      | exact Post.error
      | refine Post.pure (vtable_ok_commit (op_keeps_count (by assumption) _) hn hvt ?_)
      | refine Post.pure (vtable_ok_commit (by assumption) hn hvt ?_)
      | exact Post.pure (vtable_ok_keep (by assumption) hn hvt)
      | (refine Post.assert ?_; intro _)
      | (refine Post.ite ?_ ?_ <;> intro _)
      | (refine Post.bind (op_keeps_walk (by assumption) _ _ _ _) ?_; intro _ _)
    all_goals first
      | exact rec_ok_other _ rfl w1 w2
      | exact rec_ok_walk _ hrec (by assumption)

theorem cpu_tag_walk_loop_ok (id cycle target_epoch start : Nat) (l : List Nat)
    (nv : nvoverlay_t) (hok : vtable_ok nv) :
    Post (cpu_tag_walk_loop id cycle target_epoch start l nv) vtable_ok := by
  induction l generalizing nv with
  | nil => exact Post.pure hok
  | cons j rest ih =>
    unfold cpu_tag_walk_loop
    split
    · exact ih nv hok
    · exact Post.bind (cpu_tag_walk_ver_ok _ _ _ _ _ hok) (fun a ha => ih a ha)

theorem cpu_tag_walk_ok (nv : nvoverlay_t) (id cycle target_epoch : Nat) (hok : vtable_ok nv) :
    Post (cpu_tag_walk nv id cycle target_epoch) vtable_ok :=
  Post.bind (Post.trivial _) (fun _ _ => cpu_tag_walk_loop_ok _ _ _ _ _ _ hok)

theorem nvoverlay_full_store_ok (nv : nvoverlay_t) (id line_addr cycle : Nat)
    (hok : vtable_ok nv) : Post (nvoverlay_full_store nv id line_addr cycle) vtable_ok := by
  refine @nvoverlay_full_store_steps vtable_ok vtable_ok _ nv id line_addr cycle
    (fun _ => vtable_l1_store_ok _ _ _ _ _ hok) ?_ (fun _ h => h) (fun nv2 h => ?_)
  · rintro nv1 cpu2 ⟨h1, h2⟩ ⟨-, hc, -, -⟩
    exact ⟨by show cpu2.core_count ≤ _; rw [hc]; exact h1, h2⟩
  · exact Post.mono (cpu_tag_walk_ok _ _ _ _ h) (fun nv3 h3 _ _ => ⟨h3.1, h3.2⟩)

theorem nvoverlay_event_ok (nv : nvoverlay_t) (ev : event_t) (hok : vtable_ok nv) :
    Post (nvoverlay_event nv ev) vtable_ok := by
  cases ev with
  | load id line_addr cycle =>
    exact Post.bind (Post.trivial _) (fun core _ => vtable_l1_load_ok _ _ _ _ _ hok)
  | store id line_addr cycle => exact nvoverlay_full_store_ok _ _ _ _ hok
  | l1_evict id line_addr cycle =>
    exact Post.bind (Post.trivial _) (fun core _ => vtable_l1_eviction_ok _ _ _ _ _ hok)
  | l2_evict id line_addr cycle =>
    exact Post.bind (Post.trivial _) (fun core _ => vtable_l2_eviction_ok _ _ _ _ _ hok)
  | l3_evict id line_addr cycle =>
    exact Post.bind (Post.trivial _) (fun core _ => vtable_l3_eviction_ok _ _ _ _ _ hok)

theorem nvoverlay_init_full_ok (conf : nvoverlay_conf_t) :
    Post (nvoverlay_init_full conf) vtable_ok := by
  refine Post.mono (nvoverlay_init_full_post conf) ?_
  rintro nv ⟨-, hv, hc, -, -⟩
  refine ⟨hc, fun k ver hk => ?_⟩
  rw [hv] at hk
  cases hk

theorem vtable_reach_ok {nv : nvoverlay_t} (h : vtable_reach nv) : vtable_ok nv := by
  induction h with
  | init conf nv h0 => exact nvoverlay_init_full_ok conf nv h0
  | load nv nv1 addr id epoch cycle _ h ih => exact vtable_l1_load_ok _ _ _ _ _ ih nv1 h
  | store nv nv1 addr id epoch cycle _ h ih => exact vtable_l1_store_ok _ _ _ _ _ ih nv1 h
  | l1_eviction nv nv1 addr id epoch cycle _ h ih =>
    exact vtable_l1_eviction_ok _ _ _ _ _ ih nv1 h
  | l2_eviction nv nv1 addr id epoch cycle _ h ih =>
    exact vtable_l2_eviction_ok _ _ _ _ _ ih nv1 h
  | l3_eviction nv nv1 addr id epoch cycle _ h ih =>
    exact vtable_l3_eviction_ok _ _ _ _ _ ih nv1 h
  | tag_walk nv nv1 id cycle target_epoch _ h ih => exact cpu_tag_walk_ok _ _ _ _ ih nv1 h
  | event nv nv1 ev _ h ih => exact nvoverlay_event_ok _ _ ih nv1 h

/-- C3, the ownership/sharer invariant (I1): in every state reachable from the initial state
(empty version table) by loads, stores, L1/L2/L3 evictions, tag walks and engine events that do
not abort, every filed version record satisfies `ver_ownership`: an `L1` owner has `l1_state = M`,
both sharer sets the singleton of one core and `l2_state` in `S`, `M`; an `L2` owner has
`l2_state = M`, a singleton L2 sharer set and an L1 sharer set that is empty or the same
singleton with `l1_state = S`. -/
theorem ownership_invariant (nv : nvoverlay_t) (h : vtable_reach nv) (addr : Nat) (ver : ver_t)
    (hv : ht64_find nv.vtable.vers addr = some ver) : ver_ownership ver :=
  ((vtable_reach_ok h).2 addr ver hv).2.2

theorem ownership_invariant_witness :
    vtable_reach nv_one_store ∧
    ht64_find nv_one_store.vtable.vers 0x1000 = some ver_one_store ∧
    ver_ownership ver_one_store :=
  ⟨vtable_reach.event nv_one_core nv_one_store (.store 0 0x1000 0)
      (vtable_reach.init conf_one_core nv_one_core rfl) rfl,
   rfl,
   ownership_invariant nv_one_store
     (vtable_reach.event nv_one_core nv_one_store (.store 0 0x1000 0)
       (vtable_reach.init conf_one_core nv_one_core rfl) rfl)
     0x1000 ver_one_store rfl⟩

theorem region_inj {n c c' j j' : Nat} (hj : j < n) (hj' : j' < n)
    (h : c * n + j = c' * n + j') : c = c' ∧ j = j' := by
  have hn : 0 < n := Nat.lt_of_le_of_lt (Nat.zero_le _) hj
  have h1 : (c * n + j) / n = c := by
    rw [Nat.mul_comm, Nat.mul_add_div hn, Nat.div_eq_of_lt hj, Nat.add_zero]
  have h2 : (c' * n + j') / n = c' := by
    rw [Nat.mul_comm, Nat.mul_add_div hn, Nat.div_eq_of_lt hj', Nat.add_zero]
  have hc : c = c' := by rw [← h1, ← h2, h]
  subst hc
  exact ⟨rfl, Nat.add_left_cancel h⟩

theorem tag_slot_lt {ta : cpu_tag_t} (hg : tag_geom ta) (x i : Nat) (hi : i < ta.ways) :
    (x &&& ta.mask) * ta.ways + i < ta.core_ver_count := by
  obtain ⟨h1, h2, h3⟩ := hg
  have hs : x &&& ta.mask ≤ ta.sets - 1 := by rw [h2]; exact Nat.and_le_right
  have hs' : (x &&& ta.mask) + 1 ≤ ta.sets := by omega
  have : ((x &&& ta.mask) + 1) * ta.ways ≤ ta.sets * ta.ways := Nat.mul_le_mul_right _ hs'
  rw [h1]
  rw [Nat.add_mul, Nat.one_mul] at this
  omega

theorem ta_present_update_some {ta : cpu_tag_t} {id j0 a : Nat} (hj : j0 < ta.core_ver_count)
    (hnone : ta.tags (id * ta.core_ver_count + j0) = none) (c x : Nat) :
    ta_present { ta with tags := Function.update ta.tags (id * ta.core_ver_count + j0) (some a) }
        c x ↔ ta_present ta c x ∨ (c = id ∧ x = a) := by
  unfold ta_present
  constructor
  · rintro ⟨j, hjn, hjt⟩
    simp only at hjn hjt
    by_cases he : c * ta.core_ver_count + j = id * ta.core_ver_count + j0
    · rw [he, Function.update_same] at hjt
      exact Or.inr ⟨(region_inj hjn hj he).1, (Option.some.inj hjt).symm⟩
    · rw [Function.update_noteq he] at hjt
      exact Or.inl ⟨j, hjn, hjt⟩
  · rintro (⟨j, hjn, hjt⟩ | ⟨rfl, rfl⟩)
    · refine ⟨j, hjn, ?_⟩
      have he : c * ta.core_ver_count + j ≠ id * ta.core_ver_count + j0 := by
        intro he; rw [he, hnone] at hjt; cases hjt
      simp only [Function.update_noteq he]; exact hjt
    · exact ⟨j0, hj, by simp only [Function.update_same]⟩

theorem ta_unique_update_some {ta : cpu_tag_t} {id j0 a : Nat} (hj : j0 < ta.core_ver_count)
    (hu : ta_unique ta) (hnp : ¬ ta_present ta id a) :
    ta_unique { ta with tags := Function.update ta.tags (id * ta.core_ver_count + j0) (some a) } := by
  intro c j1 j2 x h1 h2 t1 t2
  simp only at h1 h2 t1 t2
  by_cases e1 : c * ta.core_ver_count + j1 = id * ta.core_ver_count + j0
  · by_cases e2 : c * ta.core_ver_count + j2 = id * ta.core_ver_count + j0
    · exact Nat.add_left_cancel (e1.trans e2.symm)
    · rw [e1, Function.update_same] at t1
      rw [Function.update_noteq e2] at t2
      obtain ⟨hc, -⟩ := region_inj h1 hj e1
      subst hc
      cases t1
      exact absurd ⟨j2, h2, t2⟩ hnp
  · by_cases e2 : c * ta.core_ver_count + j2 = id * ta.core_ver_count + j0
    · rw [e2, Function.update_same] at t2
      rw [Function.update_noteq e1] at t1
      obtain ⟨hc, -⟩ := region_inj h2 hj e2
      subst hc
      cases t2
      exact absurd ⟨j1, h1, t1⟩ hnp
    · rw [Function.update_noteq e1] at t1
      rw [Function.update_noteq e2] at t2
      exact hu c j1 j2 x h1 h2 t1 t2

theorem ta_present_update_none {ta : cpu_tag_t} {id j0 a : Nat} (hj : j0 < ta.core_ver_count)
    (hsome : ta.tags (id * ta.core_ver_count + j0) = some a) (hu : ta_unique ta) (c x : Nat) :
    ta_present { ta with tags := Function.update ta.tags (id * ta.core_ver_count + j0) none }
        c x ↔ ta_present ta c x ∧ ¬ (c = id ∧ x = a) := by
  unfold ta_present
  constructor
  · rintro ⟨j, hjn, hjt⟩
    simp only at hjn hjt
    have he : c * ta.core_ver_count + j ≠ id * ta.core_ver_count + j0 := by
      intro he; rw [he, Function.update_same] at hjt; cases hjt
    rw [Function.update_noteq he] at hjt
    refine ⟨⟨j, hjn, hjt⟩, ?_⟩
    rintro ⟨rfl, rfl⟩
    exact he (by rw [hu c j j0 x hjn hj hjt hsome])
  · rintro ⟨⟨j, hjn, hjt⟩, hne⟩
    refine ⟨j, hjn, ?_⟩
    have he : c * ta.core_ver_count + j ≠ id * ta.core_ver_count + j0 := by
      intro he
      obtain ⟨hc, -⟩ := region_inj hjn hj he
      rw [he, hsome] at hjt
      exact hne ⟨hc, (Option.some.inj hjt).symm⟩
    simp only [Function.update_noteq he]; exact hjt

theorem ta_unique_update_none {ta : cpu_tag_t} {id j0 : Nat} (hu : ta_unique ta) :
    ta_unique { ta with tags := Function.update ta.tags (id * ta.core_ver_count + j0) none } := by
  intro c j1 j2 x h1 h2 t1 t2
  simp only at h1 h2 t1 t2
  have e1 : c * ta.core_ver_count + j1 ≠ id * ta.core_ver_count + j0 := by
    intro he; rw [he, Function.update_same] at t1; cases t1
  have e2 : c * ta.core_ver_count + j2 ≠ id * ta.core_ver_count + j0 := by
    intro he; rw [he, Function.update_same] at t2; cases t2
  rw [Function.update_noteq e1] at t1
  rw [Function.update_noteq e2] at t2
  exact hu c j1 j2 x h1 h2 t1 t2

theorem tag_present_iff (cpu : cpu_t) (level c a : Nat) :
    tag_present cpu level c a ↔ ta_present (cpu.tag_arrays level) c a := Iff.rfl

theorem cpu_tag_remove_scan_post (tags : Nat → Option Nat) (ver_addr start : Nat) (l : List Nat) :
    Post (cpu_tag_remove_scan tags ver_addr start l) (fun tags1 =>
      ∃ i ∈ l, tags (start + i) = some ver_addr ∧
        tags1 = Function.update tags (start + i) none) := by
  induction l with
  | nil => exact Post.error
  | cons i rest ih =>
    unfold cpu_tag_remove_scan
    refine Post.ite (fun h => ?_) (fun _ => ?_)
    · exact Post.pure ⟨i, List.mem_cons_self _ _, h, rfl⟩
    · refine Post.mono ih ?_
      rintro tags1 ⟨i', hi', hs, ht⟩
      exact ⟨i', List.mem_cons_of_mem _ hi', hs, ht⟩

theorem tag_step_refl (cpu : cpu_t) (level : Nat) : tag_step cpu cpu level :=
  ⟨rfl, rfl, fun _ _ => rfl, fun h => h⟩

theorem tag_step_trans {a b c : cpu_t} {level : Nat} (h1 : tag_step a b level)
    (h2 : tag_step b c level) : tag_step a c level :=
  ⟨h2.1.trans h1.1, h2.2.1.trans h1.2.1, fun l hl => (h2.2.2.1 l hl).trans (h1.2.2.1 l hl),
   fun h => h2.2.2.2 (h1.2.2.2 h)⟩

theorem cpu_tag_insert_spec (cpu : cpu_t) (level id a : Nat)
    (hg : tag_geom (cpu.tag_arrays level)) (hu : ta_unique (cpu.tag_arrays level)) :
    Post (cpu_tag_insert cpu level id a) (fun cpu1 =>
      tag_step cpu cpu1 level ∧
      (∀ c x, tag_present cpu1 level c x ↔ tag_present cpu level c x ∨ (c = id ∧ x = a)) ∧
      (¬ tag_present cpu level id a → ta_unique (cpu1.tag_arrays level))) := by
  unfold cpu_tag_insert
  refine Post.assert (fun _ => ?_)
  refine Post.bind (cpu_tag_insert_scan_post _ _ _ _) ?_
  rintro tags1 ⟨i, hi, hnone, rfl, -⟩
  have hi' : i < (cpu.tag_arrays level).ways := List.mem_range.1 hi
  have hj := tag_slot_lt hg (a >>> UTIL_CACHE_LINE_BITS) i hi'
  have hslot : cpu_addr_tag_begin cpu level id a + i
      = id * (cpu.tag_arrays level).core_ver_count
        + (((a >>> UTIL_CACHE_LINE_BITS) &&& (cpu.tag_arrays level).mask)
            * (cpu.tag_arrays level).ways + i) := by
    unfold cpu_addr_tag_begin
    exact Nat.add_assoc _ _ _
  rw [hslot] at hnone ⊢
  refine Post.pure ⟨⟨rfl, rfl, fun l hl => ?_, fun _ => ?_⟩, fun c x => ?_, fun hnp => ?_⟩
  · simp only [Function.update_noteq hl]
  · simp only [Function.update_same]; exact hg
  · rw [tag_present_iff, tag_present_iff]
    simp only [Function.update_same]
    exact ta_present_update_some hj hnone c x
  · simp only [Function.update_same]
    exact ta_unique_update_some hj hu hnp

theorem cpu_tag_remove_spec (cpu : cpu_t) (level id a : Nat)
    (hg : tag_geom (cpu.tag_arrays level)) (hu : ta_unique (cpu.tag_arrays level)) :
    Post (cpu_tag_remove cpu level id a) (fun cpu1 =>
      tag_step cpu cpu1 level ∧
      (∀ c x, tag_present cpu1 level c x ↔ tag_present cpu level c x ∧ ¬ (c = id ∧ x = a)) ∧
      ta_unique (cpu1.tag_arrays level)) := by
  unfold cpu_tag_remove
  refine Post.assert (fun _ => ?_)
  refine Post.bind (cpu_tag_remove_scan_post _ _ _ _) ?_
  rintro tags1 ⟨i, hi, hsome, rfl⟩
  have hi' : i < (cpu.tag_arrays level).ways := List.mem_range.1 hi
  have hj := tag_slot_lt hg (a >>> UTIL_CACHE_LINE_BITS) i hi'
  have hslot : cpu_addr_tag_begin cpu level id a + i
      = id * (cpu.tag_arrays level).core_ver_count
        + (((a >>> UTIL_CACHE_LINE_BITS) &&& (cpu.tag_arrays level).mask)
            * (cpu.tag_arrays level).ways + i) := by
    unfold cpu_addr_tag_begin
    exact Nat.add_assoc _ _ _
  rw [hslot] at hsome ⊢
  refine Post.pure ⟨⟨rfl, rfl, fun l hl => ?_, fun _ => ?_⟩, fun c x => ?_, ?_⟩
  · simp only [Function.update_noteq hl]
  · simp only [Function.update_same]; exact hg
  · rw [tag_present_iff, tag_present_iff]
    simp only [Function.update_same]
    exact ta_present_update_none hj hsome hu c x
  · simp only [Function.update_same]
    exact ta_unique_update_none hu

theorem cpu_tag_remove_all_spec (level a : Nat) (l : List Nat) (cpu : cpu_t)
    (hg : tag_geom (cpu.tag_arrays level)) (hu : ta_unique (cpu.tag_arrays level)) :
    Post (cpu_tag_remove_all level a l cpu) (fun cpu1 =>
      tag_step cpu cpu1 level ∧
      (∀ c x, tag_present cpu1 level c x ↔ tag_present cpu level c x ∧ ¬ (c ∈ l ∧ x = a)) ∧
      ta_unique (cpu1.tag_arrays level)) := by
  induction l generalizing cpu with
  | nil =>
    refine Post.pure ⟨tag_step_refl _ _, fun c x => ?_, hu⟩
    simp
  | cons pos rest ih =>
    unfold cpu_tag_remove_all
    refine Post.bind (cpu_tag_remove_spec cpu level pos a hg hu) ?_
    rintro cpu1 ⟨hs1, hp1, hu1⟩
    refine Post.mono (ih cpu1 (hs1.2.2.2 hg) hu1) ?_
    rintro cpu2 ⟨hs2, hp2, hu2⟩
    refine ⟨tag_step_trans hs1 hs2, fun c x => ?_, hu2⟩
    rw [hp2, hp1]
    simp only [List.mem_cons]
    tauto

theorem bitmap64_mem_members_iff {b : bitmap64_t} (hw : bitmap64_wf b) (c : Nat) :
    c ∈ bitmap64_members b ↔ bitmap64_is_set b c = true := by
  rw [bitmap64_mem_members]
  constructor
  · exact fun h => h.2
  · exact fun h => ⟨bitmap64_is_set_lt hw h, h⟩

/-- What `cpu_tag_op` does to the tag array of `level` when the array mirrors the sharer set `b`
of the record: it then mirrors `op_bitmap op b id`, and the tags of other records stay. -/
theorem cpu_tag_op_spec (cpu : cpu_t) (op : cpu_tag_op_t) (level id : Nat) (ver : ver_t)
    (b : bitmap64_t) (hg : tag_geom (cpu.tag_arrays level))
    (hu : ta_unique (cpu.tag_arrays level)) (hb : ver_sharers ver level = b)
    (hw : bitmap64_wf b) (hid : id < 64)
    (hm : ∀ c, tag_present cpu level c ver.addr ↔ bitmap64_is_set b c = true) :
    Post (cpu_tag_op cpu op level id ver) (fun cpu1 =>
      tag_step cpu cpu1 level ∧
      ((op = CPU_TAG_OP_ADD → ¬ bitmap64_is_set b id = true) → ta_unique (cpu1.tag_arrays level)) ∧
      (∀ c x, x ≠ ver.addr → (tag_present cpu1 level c x ↔ tag_present cpu level c x)) ∧
      (∀ c, tag_present cpu1 level c ver.addr ↔ bitmap64_is_set (op_bitmap op b id) c = true)) := by
  have hall : Post (cpu_tag_remove_all level ver.addr
        (bitmap64_members (if level = CPU_TAG_L1 then ver.l1_bitmap else ver.l2_bitmap)) cpu)
      (fun cpu1 => tag_step cpu cpu1 level ∧ ta_unique (cpu1.tag_arrays level) ∧
        (∀ c x, x ≠ ver.addr → (tag_present cpu1 level c x ↔ tag_present cpu level c x)) ∧
        (∀ c, ¬ tag_present cpu1 level c ver.addr)) := by
    refine Post.mono (cpu_tag_remove_all_spec level ver.addr _ cpu hg hu) ?_
    rintro cpu1 ⟨hs, hp, hu1⟩
    refine ⟨hs, hu1, fun c x hx => ?_, fun c hc => ?_⟩
    · rw [hp]; exact ⟨fun h => h.1, fun h => ⟨h, fun h' => hx h'.2⟩⟩
    · obtain ⟨h1, h2⟩ := (hp c ver.addr).1 hc
      have hb' : (if level = CPU_TAG_L1 then ver.l1_bitmap else ver.l2_bitmap) = b := hb
      rw [hb'] at h2
      exact h2 ⟨(bitmap64_mem_members_iff hw c).2 ((hm c).1 h1), rfl⟩
  have hset : Post (do
        let cpu1 ← cpu_tag_remove_all level ver.addr
          (bitmap64_members (if level = CPU_TAG_L1 then ver.l1_bitmap else ver.l2_bitmap)) cpu
        cpu_tag_insert cpu1 level id ver.addr)
      (fun cpu1 => tag_step cpu cpu1 level ∧ ta_unique (cpu1.tag_arrays level) ∧
        (∀ c x, x ≠ ver.addr → (tag_present cpu1 level c x ↔ tag_present cpu level c x)) ∧
        (∀ c, tag_present cpu1 level c ver.addr ↔
          bitmap64_is_set (bitmap64_add bitmap64_clear id) c = true)) := by
    refine Post.bind hall ?_
    rintro cpu1 ⟨hs, hu1, hx, hno⟩
    refine Post.mono (cpu_tag_insert_spec cpu1 level id ver.addr (hs.2.2.2 hg) hu1) ?_
    rintro cpu2 ⟨hs2, hp2, hu2⟩
    refine ⟨tag_step_trans hs hs2, hu2 (hno id), fun c x hne => ?_, fun c => ?_⟩
    · rw [hp2, hx c x hne]
      exact ⟨fun h => h.elim (fun h0 => h0) (fun h1 => absurd h1.2 hne), Or.inl⟩
    · rw [hp2, sharers_single_add_clear hid c]
      exact ⟨fun h => h.elim (fun h' => absurd h' (hno c)) (fun h' => h'.1), fun h => Or.inr ⟨h, rfl⟩⟩
  have hclear : Post (do
        let cpu1 ← cpu_tag_remove_all level ver.addr
          (bitmap64_members (if level = CPU_TAG_L1 then ver.l1_bitmap else ver.l2_bitmap)) cpu
        pure cpu1)
      (fun cpu1 => tag_step cpu cpu1 level ∧ ta_unique (cpu1.tag_arrays level) ∧
        (∀ c x, x ≠ ver.addr → (tag_present cpu1 level c x ↔ tag_present cpu level c x)) ∧
        (∀ c, tag_present cpu1 level c ver.addr ↔ bitmap64_is_set bitmap64_clear c = true)) := by
    refine Post.bind hall ?_
    rintro cpu1 ⟨hs, hu1, hx, hno⟩
    refine Post.pure ⟨hs, hu1, hx, fun c => ?_⟩
    rw [bitmap64_is_set_clear]
    exact ⟨fun h => absurd h (hno c), fun h => by cases h⟩
  cases op with
  | CPU_TAG_OP_ADD =>
    refine Post.mono (cpu_tag_insert_spec cpu level id ver.addr hg hu) ?_
    rintro cpu1 ⟨hs, hp, hu1⟩
    refine ⟨hs, fun hadd => hu1 (fun h => hadd rfl ((hm id).1 h)), fun c x hne => ?_,
      fun c => ?_⟩
    · rw [hp]
      exact ⟨fun h => h.elim (fun h0 => h0) (fun h1 => absurd h1.2 hne), Or.inl⟩
    · rw [hp, hm c]
      show _ ↔ bitmap64_is_set (bitmap64_add b id) c = true
      rw [bitmap64_is_set_add hw hid]
      exact ⟨fun h => h.elim Or.inr (fun h' => Or.inl h'.1),
        fun h => h.elim (fun h' => Or.inr ⟨h', rfl⟩) Or.inl⟩
  | CPU_TAG_OP_REMOVE =>
    refine Post.mono (cpu_tag_remove_spec cpu level id ver.addr hg hu) ?_
    rintro cpu1 ⟨hs, hp, hu1⟩
    refine ⟨hs, fun _ => hu1, fun c x hne => ?_, fun c => ?_⟩
    · rw [hp]
      exact ⟨fun h => h.1, fun h => ⟨h, fun h' => hne h'.2⟩⟩
    · rw [hp, hm c]
      show _ ↔ bitmap64_is_set (bitmap64_remove b id) c = true
      rw [bitmap64_is_set_remove]
      exact ⟨fun h => ⟨fun e => h.2 ⟨e, rfl⟩, h.1⟩, fun h => ⟨h.2, fun e => h.1 e.1⟩⟩
  | CPU_TAG_OP_SET =>
    unfold cpu_tag_op
    dsimp only
    refine Post.ite (fun _ => Post.assert (fun _ => ?_)) (fun _ => ?_)
    · simp only [if_true]
      exact Post.mono hset (fun _ h => ⟨h.1, fun _ => h.2.1, h.2.2⟩)
    · simp only [if_true]
      exact Post.mono hset (fun _ h => ⟨h.1, fun _ => h.2.1, h.2.2⟩)
  | CPU_TAG_OP_CLEAR =>
    unfold cpu_tag_op
    dsimp only
    refine Post.ite (fun _ => Post.assert (fun _ => ?_)) (fun _ => ?_)
    · simp only [reduceCtorEq, if_false]
      exact Post.mono hclear (fun _ h => ⟨h.1, fun _ => h.2.1, h.2.2⟩)
    · simp only [reduceCtorEq, if_false]
      exact Post.mono hclear (fun _ h => ⟨h.1, fun _ => h.2.1, h.2.2⟩)

theorem tag_present_congr {cpu cpu1 : cpu_t} {level : Nat}
    (h : cpu1.tag_arrays level = cpu.tag_arrays level) (c x : Nat) :
    tag_present cpu1 level c x ↔ tag_present cpu level c x := by
  unfold tag_present cpu_core_tag_begin
  rw [h]

theorem tags_ok_congr {cpu cpu1 : cpu_t} (h : cpu1.tag_arrays = cpu.tag_arrays)
    (hok : tags_ok cpu) : tags_ok cpu1 := by
  intro level hl
  rw [h]; exact hok level hl

theorem op_mirror_congr {nv nv1 : nvoverlay_t} {vt : vtable_t} {n a : Nat} {b1 b2 : bitmap64_t}
    (h : op_mirror nv vt n a b1 b2) (hv : nv1.vtable = nv.vtable)
    (hc : nv1.cpu.core_count = nv.cpu.core_count)
    (ht : nv1.cpu.tag_arrays = nv.cpu.tag_arrays) : op_mirror nv1 vt n a b1 b2 := by
  obtain ⟨h1, h2, h3, h4, h5⟩ := h
  refine ⟨hv.trans h1, hc.trans h2, tags_ok_congr ht h3, fun level hl c => ?_,
    fun level hl c x hx => ?_⟩
  · rw [tag_present_congr (congrFun ht level)]; exact h4 level hl c
  · rw [tag_present_congr (congrFun ht level)]; exact h5 level hl c x hx

theorem op_mirror_same_front {nv nv1 : nvoverlay_t} {vt : vtable_t} {n a : Nat}
    {b1 b2 : bitmap64_t} (h : op_mirror nv vt n a b1 b2) (hf : same_front nv nv1) :
    op_mirror nv1 vt n a b1 b2 :=
  op_mirror_congr h hf.2.1 (by rw [hf.1]) (by rw [hf.1])

theorem op_mirror_evict {nv : nvoverlay_t} {vt : vtable_t} {n a : Nat} {b1 b2 : bitmap64_t}
    (h : op_mirror nv vt n a b1 b2) (addr : Nat) (id : Int) (version cycle : Nat)
    (evict_type : evict_type_t) :
    Post (nvoverlay_vtable_evict_cb nv addr id version cycle evict_type)
      (fun nv1 => op_mirror nv1 vt n a b1 b2) :=
  Post.mono (nvoverlay_vtable_evict_cb_frame _ _ _ _ _ _)
    (fun _ hf => op_mirror_same_front h hf)

theorem op_mirror_walk {nv : nvoverlay_t} {vt : vtable_t} {n a : Nat} {b1 b2 : bitmap64_t}
    (h : op_mirror nv vt n a b1 b2) (line_addr id version cycle : Nat) :
    Post (nvoverlay_cpu_tag_walk_cb nv line_addr id version cycle)
      (fun nv1 => op_mirror nv1 vt n a b1 b2) :=
  Post.mono (nvoverlay_cpu_tag_walk_cb_frame _ _ _ _ _)
    (fun _ hf => op_mirror_same_front h hf)

theorem op_mirror_recv {nv : nvoverlay_t} {vt : vtable_t} {n a : Nat} {b1 b2 : bitmap64_t}
    (h : op_mirror nv vt n a b1 b2) (id version : Nat) :
    Post (nvoverlay_vtable_core_recv_cb nv id version)
      (fun nv1 => op_mirror nv1 vt n a b1 b2) := by
  refine Post.mono (nvoverlay_vtable_core_recv_cb_post _ _ _) ?_
  rintro nv1 ⟨cpu, hc, rfl⟩
  obtain ⟨-, hcc, hta, -, -⟩ := cpu_core_recv_post _ _ _ _ hc
  exact op_mirror_congr h rfl hcc hta

theorem op_mirror_count {nv : nvoverlay_t} {vt : vtable_t} {n a : Nat} {b1 b2 : bitmap64_t}
    (h : op_mirror nv vt n a b1 b2) (id : Nat) :
    op_mirror (cpu_tag_walk_count nv id) vt n a b1 b2 :=
  op_mirror_congr h rfl rfl rfl

theorem level_cases {level : Nat} (hl : level < CPU_TAG_MAX) :
    level = CPU_TAG_L1 ∨ level = CPU_TAG_L2 := by
  simp only [CPU_TAG_MAX, CPU_TAG_L1, CPU_TAG_L2] at hl ⊢; omega

/-- A tag operation on the record in hand keeps `op_mirror`, with the sharer set of its level
changed as the operation says. -/
theorem op_mirror_tag {nv : nvoverlay_t} {vt : vtable_t} {n a : Nat} {b1 b2 : bitmap64_t}
    (h : op_mirror nv vt n a b1 b2) (op : cpu_tag_op_t) (level id : Nat) (ver : ver_t)
    (hl : level < CPU_TAG_MAX) (ha : ver.addr = a)
    (hb : ver_sharers ver level = pick_level level b1 b2)
    (hw : bitmap64_wf (pick_level level b1 b2)) (hid : id < 64)
    (hadd : op = CPU_TAG_OP_ADD → ¬ bitmap64_is_set (pick_level level b1 b2) id = true) :
    Post (nvoverlay_vtable_core_tag_cb nv op level id ver) (fun nv1 =>
      op_mirror nv1 vt n a (if level = CPU_TAG_L1 then op_bitmap op b1 id else b1)
        (if level = CPU_TAG_L1 then b2 else op_bitmap op b2 id)) := by
  obtain ⟨h1, h2, h3, h4, h5⟩ := h
  subst ha
  refine Post.mono (nvoverlay_vtable_core_tag_cb_post _ _ _ _ _) ?_
  rintro nv1 ⟨cpu1, hc, rfl⟩
  obtain ⟨hs, hu1, hx, hm⟩ := cpu_tag_op_spec nv.cpu op level id ver _ (h3 level hl).1
    (h3 level hl).2 hb hw hid (h4 level hl) cpu1 hc
  have hpick : pick_level level (if level = CPU_TAG_L1 then op_bitmap op b1 id else b1)
      (if level = CPU_TAG_L1 then b2 else op_bitmap op b2 id)
      = op_bitmap op (pick_level level b1 b2) id := by
    unfold pick_level; split <;> rfl
  have hother : ∀ l, l < CPU_TAG_MAX → l ≠ level →
      pick_level l (if level = CPU_TAG_L1 then op_bitmap op b1 id else b1)
        (if level = CPU_TAG_L1 then b2 else op_bitmap op b2 id) = pick_level l b1 b2 := by
    intro l hl' hne
    unfold pick_level
    rcases level_cases hl with e | e <;> rcases level_cases hl' with e' | e'
    · exact absurd (e'.trans e.symm) hne
    · subst e; subst e'; rfl
    · subst e; subst e'; rfl
    · exact absurd (e'.trans e.symm) hne
  refine ⟨h1, hs.2.1.trans h2, fun l hl' => ?_, fun l hl' c => ?_, fun l hl' c x hne => ?_⟩
  · by_cases e : l = level
    · subst e; exact ⟨hs.2.2.2 (h3 l hl).1, hu1 hadd⟩
    · show tag_geom (cpu1.tag_arrays l) ∧ ta_unique (cpu1.tag_arrays l)
      rw [hs.2.2.1 l e]; exact h3 l hl'
  · by_cases e : l = level
    · subst e
      show tag_present cpu1 l c ver.addr ↔ _
      rw [hpick]; exact hm c
    · show tag_present cpu1 l c ver.addr ↔ _
      rw [hother l hl' e, tag_present_congr (hs.2.2.1 l e)]
      exact h4 l hl' c
  · by_cases e : l = level
    · subst e
      show tag_present cpu1 l c x ↔ _
      rw [hx c x hne]; exact h5 l hl' c x hne
    · show tag_present cpu1 l c x ↔ _
      rw [tag_present_congr (hs.2.2.1 l e)]
      exact h5 l hl' c x hne

theorem op_mirror_add_l1 {nv : nvoverlay_t} {vt : vtable_t} {n id : Nat} {ver : ver_t}
    (h : op_mirror nv vt n ver.addr ver.l1_bitmap ver.l2_bitmap)
    (hw : bitmap64_wf ver.l1_bitmap) (hid : id < 64) (hn : ¬ vtable_l1_has_ver ver id = true) :
    Post (nvoverlay_vtable_core_tag_cb nv CPU_TAG_OP_ADD CPU_TAG_L1 id ver) (fun nv1 =>
      op_mirror nv1 vt n ver.addr (bitmap64_add ver.l1_bitmap id) ver.l2_bitmap) :=
  op_mirror_tag h CPU_TAG_OP_ADD CPU_TAG_L1 id ver (by decide) rfl rfl hw hid (fun _ => hn)

theorem op_mirror_add_l2 {nv : nvoverlay_t} {vt : vtable_t} {n id : Nat} {ver : ver_t}
    (h : op_mirror nv vt n ver.addr ver.l1_bitmap ver.l2_bitmap)
    (hw : bitmap64_wf ver.l2_bitmap) (hid : id < 64) (hn : ¬ vtable_l2_has_ver ver id = true) :
    Post (nvoverlay_vtable_core_tag_cb nv CPU_TAG_OP_ADD CPU_TAG_L2 id ver) (fun nv1 =>
      op_mirror nv1 vt n ver.addr ver.l1_bitmap (bitmap64_add ver.l2_bitmap id)) :=
  op_mirror_tag h CPU_TAG_OP_ADD CPU_TAG_L2 id ver (by decide) rfl rfl hw hid (fun _ => hn)

theorem op_mirror_rm_l1 {nv : nvoverlay_t} {vt : vtable_t} {n id : Nat} {ver : ver_t}
    (h : op_mirror nv vt n ver.addr ver.l1_bitmap ver.l2_bitmap)
    (hw : bitmap64_wf ver.l1_bitmap) (hid : id < 64) :
    Post (nvoverlay_vtable_core_tag_cb nv CPU_TAG_OP_REMOVE CPU_TAG_L1 id ver) (fun nv1 =>
      op_mirror nv1 vt n ver.addr (bitmap64_remove ver.l1_bitmap id) ver.l2_bitmap) :=
  op_mirror_tag h CPU_TAG_OP_REMOVE CPU_TAG_L1 id ver (by decide) rfl rfl hw hid
    (fun e => by cases e)

theorem op_mirror_rm_l2 {nv : nvoverlay_t} {vt : vtable_t} {n id : Nat} {ver : ver_t}
    (h : op_mirror nv vt n ver.addr ver.l1_bitmap ver.l2_bitmap)
    (hw : bitmap64_wf ver.l2_bitmap) (hid : id < 64) :
    Post (nvoverlay_vtable_core_tag_cb nv CPU_TAG_OP_REMOVE CPU_TAG_L2 id ver) (fun nv1 =>
      op_mirror nv1 vt n ver.addr ver.l1_bitmap (bitmap64_remove ver.l2_bitmap id)) :=
  op_mirror_tag h CPU_TAG_OP_REMOVE CPU_TAG_L2 id ver (by decide) rfl rfl hw hid
    (fun e => by cases e)

theorem op_mirror_set_l1 {nv : nvoverlay_t} {vt : vtable_t} {n id : Nat} {ver : ver_t}
    (h : op_mirror nv vt n ver.addr ver.l1_bitmap ver.l2_bitmap)
    (hw : bitmap64_wf ver.l1_bitmap) (hid : id < 64) :
    Post (nvoverlay_vtable_core_tag_cb nv CPU_TAG_OP_SET CPU_TAG_L1 id ver) (fun nv1 =>
      op_mirror nv1 vt n ver.addr (bitmap64_add bitmap64_clear id) ver.l2_bitmap) :=
  op_mirror_tag h CPU_TAG_OP_SET CPU_TAG_L1 id ver (by decide) rfl rfl hw hid
    (fun e => by cases e)

theorem op_mirror_set_l2 {nv : nvoverlay_t} {vt : vtable_t} {n id : Nat} {ver : ver_t}
    (h : op_mirror nv vt n ver.addr ver.l1_bitmap ver.l2_bitmap)
    (hw : bitmap64_wf ver.l2_bitmap) (hid : id < 64) :
    Post (nvoverlay_vtable_core_tag_cb nv CPU_TAG_OP_SET CPU_TAG_L2 id ver) (fun nv1 =>
      op_mirror nv1 vt n ver.addr ver.l1_bitmap (bitmap64_add bitmap64_clear id)) :=
  op_mirror_tag h CPU_TAG_OP_SET CPU_TAG_L2 id ver (by decide) rfl rfl hw hid
    (fun e => by cases e)

theorem op_mirror_clear_l1 {nv : nvoverlay_t} {vt : vtable_t} {n id : Nat} {ver : ver_t}
    (h : op_mirror nv vt n ver.addr ver.l1_bitmap ver.l2_bitmap)
    (hw : bitmap64_wf ver.l1_bitmap) (hid : id < 64) :
    Post (nvoverlay_vtable_core_tag_cb nv CPU_TAG_OP_CLEAR CPU_TAG_L1 id ver) (fun nv1 =>
      op_mirror nv1 vt n ver.addr bitmap64_clear ver.l2_bitmap) :=
  op_mirror_tag h CPU_TAG_OP_CLEAR CPU_TAG_L1 id ver (by decide) rfl rfl hw hid
    (fun e => by cases e)

theorem op_mirror_clear_l2 {nv : nvoverlay_t} {vt : vtable_t} {n id : Nat} {ver : ver_t}
    (h : op_mirror nv vt n ver.addr ver.l1_bitmap ver.l2_bitmap)
    (hw : bitmap64_wf ver.l2_bitmap) (hid : id < 64) :
    Post (nvoverlay_vtable_core_tag_cb nv CPU_TAG_OP_CLEAR CPU_TAG_L2 id ver) (fun nv1 =>
      op_mirror nv1 vt n ver.addr ver.l1_bitmap bitmap64_clear) :=
  op_mirror_tag h CPU_TAG_OP_CLEAR CPU_TAG_L2 id ver (by decide) rfl rfl hw hid
    (fun e => by cases e)

theorem is_sharer_congr {vt vt1 : vtable_t} {x : Nat}
    (h : ht64_find vt1.vers x = ht64_find vt.vers x) (level c : Nat) :
    is_sharer vt1 level c x ↔ is_sharer vt level c x := by
  unfold is_sharer; rw [h]

theorem mirror_ok_commit {nv : nvoverlay_t} {vt : vtable_t} {n : Nat} {ver : ver_t}
    (h : op_mirror nv vt n ver.addr ver.l1_bitmap ver.l2_bitmap) (hn : n ≤ CORE_COUNT_MAX)
    (hk : keys_ok vt) (w1 : bitmap64_wf ver.l1_bitmap) (w2 : bitmap64_wf ver.l2_bitmap) :
    mirror_ok (vtable_commit nv ver) := by
  obtain ⟨h1, h2, h3, h4, h5⟩ := h
  have hfind : ∀ k, ht64_find (vtable_commit nv ver).vtable.vers k
      = if k = ver.addr then some ver else ht64_find vt.vers k := by
    intro k
    simp only [vtable_commit, ht64_find_store, h1]
  refine ⟨by rw [← h2] at hn; exact hn, h3, fun k v hv => ?_, fun level hl c a => ?_⟩
  · rw [hfind] at hv
    split at hv
    · rename_i e; cases hv; exact ⟨e.symm, w1, w2⟩
    · exact hk k v hv
  · show tag_present nv.cpu level c a ↔ _
    by_cases e : a = ver.addr
    · subst e
      rw [h4 level hl c]
      unfold is_sharer
      rw [hfind, if_pos rfl]
      exact ⟨fun h => ⟨ver, rfl, h⟩, fun ⟨v, hv, hs⟩ => by cases hv; exact hs⟩
    · rw [h5 level hl c a e]
      exact (is_sharer_congr (by rw [hfind, if_neg e]) level c).symm

theorem mirror_ok_keep {nv : nvoverlay_t} {vt : vtable_t} {n : Nat} {ver : ver_t}
    (h : op_mirror nv vt n ver.addr ver.l1_bitmap ver.l2_bitmap) (hn : n ≤ CORE_COUNT_MAX)
    (hk : keys_ok vt) (hf : ht64_find vt.vers ver.addr = some ver) : mirror_ok nv := by
  obtain ⟨h1, h2, h3, h4, h5⟩ := h
  refine ⟨by rw [← h2] at hn; exact hn, h3, by rw [h1]; exact hk, fun level hl c a => ?_⟩
  rw [h1]
  by_cases e : a = ver.addr
  · subst e
    rw [h4 level hl c]
    unfold is_sharer
    rw [hf]
    exact ⟨fun h => ⟨ver, rfl, h⟩, fun ⟨v, hv, hs⟩ => by cases hv; exact hs⟩
  · exact h5 level hl c a e

theorem op_mirror_start {nv : nvoverlay_t} (hok : mirror_ok nv) {vt : vtable_t} {addr : Nat}
    {ver : ver_t} (hf : ht64_find vt.vers addr = some ver)
    (hold : ∀ k v, ht64_find vt.vers k = some v →
      ht64_find nv.vtable.vers k = some v ∨
        (k = addr ∧ v = { ver_init with addr := addr, owner := OWNER_OTHER }))
    (hnew : ∀ k v, ht64_find nv.vtable.vers k = some v → ht64_find vt.vers k = some v) :
    op_mirror { nv with vtable := vt } vt nv.cpu.core_count ver.addr ver.l1_bitmap ver.l2_bitmap ∧
    keys_ok vt ∧ ver.addr = addr := by
  obtain ⟨h1, h2, h3, h4⟩ := hok
  have hk : keys_ok vt := by
    intro k v hv
    rcases hold k v hv with h | ⟨e, h⟩
    · exact h3 k v h
    · subst h; exact ⟨e.symm, bitmap64_wf_clear, bitmap64_wf_clear⟩
  have ha : ver.addr = addr := (hk addr ver hf).1
  have hrest : ∀ x, x ≠ addr → ht64_find vt.vers x = ht64_find nv.vtable.vers x := by
    intro x hx
    cases hv : ht64_find vt.vers x with
    | some v =>
      rcases hold x v hv with h | ⟨e, -⟩
      · exact h.symm
      · exact absurd e hx
    | none =>
      cases ho : ht64_find nv.vtable.vers x with
      | none => rfl
      | some v => rw [hnew x v ho] at hv; cases hv
  refine ⟨⟨rfl, rfl, h2, fun level hl c => ?_, fun level hl c x hx => ?_⟩, hk, ha⟩
  · show tag_present nv.cpu level c ver.addr ↔ _
    rw [ha, h4 level hl c addr]
    constructor
    · rintro ⟨v, hv, hs⟩
      have := hnew addr v hv
      rw [hf] at this
      cases this
      exact hs
    · intro hs
      rcases hold addr ver hf with h | ⟨-, h⟩
      · exact ⟨ver, h, hs⟩
      · subst h
        have : bitmap64_is_set bitmap64_clear c = true := by
          unfold pick_level at hs
          split at hs <;> exact hs
        rw [bitmap64_is_set_clear] at this
        cases this
  · show tag_present nv.cpu level c x ↔ _
    rw [ha] at hx
    rw [h4 level hl c x]
    exact (is_sharer_congr (hrest x hx) level c).symm

theorem op_mirror_tag_ver {nv : nvoverlay_t} {vt : vtable_t} {n : Nat} (op : cpu_tag_op_t)
    (level id : Nat) (ver : ver_t) {b1 b2 : bitmap64_t}
    (h : op_mirror nv vt n ver.addr ver.l1_bitmap ver.l2_bitmap) (hl : level < CPU_TAG_MAX)
    (e : (b1, b2) = tag_bitmaps op level id ver.l1_bitmap ver.l2_bitmap)
    (hw : bitmap64_wf (pick_level level ver.l1_bitmap ver.l2_bitmap)) (hid : id < 64)
    (hadd : op = CPU_TAG_OP_ADD →
      ¬ bitmap64_is_set (pick_level level ver.l1_bitmap ver.l2_bitmap) id = true) :
    Post (nvoverlay_vtable_core_tag_cb nv op level id ver)
      (fun nv1 => op_mirror nv1 vt n ver.addr b1 b2) := by
  refine Post.mono (op_mirror_tag h op level id ver hl rfl rfl hw hid hadd) ?_
  intro nv1 h1
  unfold tag_bitmaps at e
  split at e
  · rename_i hl1
    cases e
    simp only [hl1, if_true] at h1
    exact h1
  · rename_i hl1
    cases e
    simp only [hl1, if_false] at h1
    exact h1

theorem vtable_l1_load_mirror (nv : nvoverlay_t) (addr id epoch cycle : Nat)
    (hok : mirror_ok nv) (hid : id < nv.cpu.core_count) :
    Post (vtable_l1_load nv addr id epoch cycle) mirror_ok := by
  unfold vtable_l1_load
  simp only [vtable_l1_add_ver, vtable_l2_add_ver, vtable_evict_wrapper,
    bind_assoc, pure_bind, except_ite_bind]
  refine Post.bind (vtable_insert_post _ _) ?_
  rintro ⟨vt, ver⟩ ⟨hf, hold, hnew⟩
  obtain ⟨hm, hk, ha⟩ := op_mirror_start hok hf hold hnew
  have hn := hok.1
  have hid64 : id < 64 := Nat.lt_of_lt_of_le hid hn
  have hf1 : ht64_find vt.vers ver.addr = some ver := by rw [ha]; exact hf
  have w1 := (hk _ _ hf).2.1
  have w2 := (hk _ _ hf).2.2
  dsimp only
  repeat' first
    | exact Post.error
    | refine Post.pure (mirror_ok_commit (by assumption) hn hk ?_ ?_)
    | exact Post.pure (mirror_ok_keep (by assumption) hn hk hf1)
    | (refine Post.assert ?_; intro _)
    | (refine Post.ite ?_ ?_ <;> intro _)
    | refine Post.bind (op_mirror_tag_ver _ _ _ _ (by assumption) (by decide) rfl
        (by first | exact bitmap64_wf_add _ _ | exact bitmap64_wf_clear | exact bitmap64_wf_remove _ _ (by assumption) | assumption) hid64
        (by intro _; assumption)) (fun _ _ => ?_)
    | (refine Post.bind (op_mirror_evict (by assumption) _ _ _ _ _) ?_; intro _ _)
    | (refine Post.bind (op_mirror_recv (by assumption) _ _) ?_; intro _ _)
  all_goals first
    | exact bitmap64_wf_add _ _
    | assumption

theorem vtable_l1_store_mirror (nv : nvoverlay_t) (addr id epoch cycle : Nat)
    (hok : mirror_ok nv) (hid : id < nv.cpu.core_count) :
    Post (vtable_l1_store nv addr id epoch cycle) mirror_ok := by
  unfold vtable_l1_store
  simp only [vtable_l1_set_ver, vtable_l2_set_ver, vtable_evict_wrapper,
    bind_assoc, pure_bind, except_ite_bind]
  refine Post.bind (vtable_insert_post _ _) ?_
  rintro ⟨vt, ver⟩ ⟨hf, hold, hnew⟩
  obtain ⟨hm, hk, ha⟩ := op_mirror_start hok hf hold hnew
  have hn := hok.1
  have hid64 : id < 64 := Nat.lt_of_lt_of_le hid hn
  have hf1 : ht64_find vt.vers ver.addr = some ver := by rw [ha]; exact hf
  have w1 := (hk _ _ hf).2.1
  have w2 := (hk _ _ hf).2.2
  dsimp only
  repeat' first
    | exact Post.error
    | refine Post.pure (mirror_ok_commit (by assumption) hn hk ?_ ?_)
    | exact Post.pure (mirror_ok_keep (by assumption) hn hk hf1)
    | (refine Post.assert ?_; intro _)
    | (refine Post.ite ?_ ?_ <;> intro _)
    | refine Post.bind (op_mirror_tag_ver _ _ _ _ (by assumption) (by decide) rfl
        (by first | exact bitmap64_wf_add _ _ | exact bitmap64_wf_clear | exact bitmap64_wf_remove _ _ (by assumption) | assumption) hid64
        (by intro e; cases e)) (fun _ _ => ?_)
    | (refine Post.bind (op_mirror_evict (by assumption) _ _ _ _ _) ?_; intro _ _)
    | (refine Post.bind (op_mirror_recv (by assumption) _ _) ?_; intro _ _)
  all_goals first
    | exact bitmap64_wf_add _ _
    | assumption

theorem vtable_l1_eviction_mirror (nv : nvoverlay_t) (addr id epoch cycle : Nat)
    (hok : mirror_ok nv) (hid : id < nv.cpu.core_count) :
    Post (vtable_l1_eviction nv addr id epoch cycle) mirror_ok := by
  unfold vtable_l1_eviction
  simp only [vtable_l1_rm_ver, vtable_evict_wrapper, bind_assoc, pure_bind, except_ite_bind]
  refine Post.bind (vtable_insert_post _ _) ?_
  rintro ⟨vt, ver⟩ ⟨hf, hold, hnew⟩
  obtain ⟨hm, hk, ha⟩ := op_mirror_start hok hf hold hnew
  have hn := hok.1
  have hid64 : id < 64 := Nat.lt_of_lt_of_le hid hn
  have hf1 : ht64_find vt.vers ver.addr = some ver := by rw [ha]; exact hf
  have w1 := (hk _ _ hf).2.1
  have w2 := (hk _ _ hf).2.2
  dsimp only
  repeat' first
    | exact Post.error
    | refine Post.pure (mirror_ok_commit (by assumption) hn hk ?_ ?_)
    | exact Post.pure (mirror_ok_keep (by assumption) hn hk hf1)
    | (refine Post.assert ?_; intro _)
    | (refine Post.ite ?_ ?_ <;> intro _)
    | refine Post.bind (op_mirror_tag_ver _ _ _ _ (by assumption) (by decide) rfl
        (by first | exact bitmap64_wf_add _ _ | exact bitmap64_wf_clear | exact bitmap64_wf_remove _ _ (by assumption) | assumption) hid64
        (by intro e; cases e)) (fun _ _ => ?_)
    | (refine Post.bind (op_mirror_evict (by assumption) _ _ _ _ _) ?_; intro _ _)
  all_goals first
    | exact bitmap64_wf_remove _ _ (by assumption)
    | assumption

theorem vtable_l2_eviction_mirror (nv : nvoverlay_t) (addr id epoch cycle : Nat)
    (hok : mirror_ok nv) (hid : id < nv.cpu.core_count) :
    Post (vtable_l2_eviction nv addr id epoch cycle) mirror_ok := by
  unfold vtable_l2_eviction
  simp only [vtable_l1_rm_ver, vtable_l2_rm_ver, vtable_evict_wrapper, bind_assoc, pure_bind,
    except_ite_bind]
  refine Post.bind (vtable_insert_post _ _) ?_
  rintro ⟨vt, ver⟩ ⟨hf, hold, hnew⟩
  obtain ⟨hm, hk, ha⟩ := op_mirror_start hok hf hold hnew
  have hn := hok.1
  have hid64 : id < 64 := Nat.lt_of_lt_of_le hid hn
  have hf1 : ht64_find vt.vers ver.addr = some ver := by rw [ha]; exact hf
  have w1 := (hk _ _ hf).2.1
  have w2 := (hk _ _ hf).2.2
  dsimp only
  repeat' first
    | exact Post.error
    | refine Post.pure (mirror_ok_commit (by assumption) hn hk ?_ ?_)
    | exact Post.pure (mirror_ok_keep (by assumption) hn hk hf1)
    | (refine Post.assert ?_; intro _)
    | (refine Post.ite ?_ ?_ <;> intro _)
    | refine Post.bind (op_mirror_tag_ver _ _ _ _ (by assumption) (by decide) rfl
        (by first | exact bitmap64_wf_add _ _ | exact bitmap64_wf_clear | exact bitmap64_wf_remove _ _ (by assumption) | assumption) hid64
        (by intro e; cases e)) (fun _ _ => ?_)
    | (refine Post.bind (op_mirror_evict (by assumption) _ _ _ _ _) ?_; intro _ _)
  all_goals first
    | exact bitmap64_wf_remove _ _ (by assumption)
    | assumption

theorem vtable_l3_eviction_mirror (nv : nvoverlay_t) (addr id epoch cycle : Nat)
    (hok : mirror_ok nv) (hid : id < nv.cpu.core_count) :
    Post (vtable_l3_eviction nv addr id epoch cycle) mirror_ok := by
  unfold vtable_l3_eviction
  simp only [vtable_l1_clear_sharer, vtable_l2_clear_sharer, bind_assoc, pure_bind,
    except_ite_bind]
  refine Post.bind (vtable_insert_post _ _) ?_
  rintro ⟨vt, ver⟩ ⟨hf, hold, hnew⟩
  obtain ⟨hm, hk, ha⟩ := op_mirror_start hok hf hold hnew
  have hn := hok.1
  have hid64 : id < 64 := Nat.lt_of_lt_of_le hid hn
  have hf1 : ht64_find vt.vers ver.addr = some ver := by rw [ha]; exact hf
  have w1 := (hk _ _ hf).2.1
  have w2 := (hk _ _ hf).2.2
  dsimp only
  repeat' first
    | exact Post.error
    | exact vtable_l2_eviction_mirror _ _ _ _ _ (mirror_ok_keep hm hn hk hf1) hid
    | refine Post.pure (mirror_ok_commit (by assumption) hn hk ?_ ?_)
    | exact Post.pure (mirror_ok_keep (by assumption) hn hk hf1)
    | (refine Post.assert ?_; intro _)
    | (refine Post.ite ?_ ?_ <;> intro _)
    | refine Post.bind (op_mirror_tag_ver _ _ _ _ (by assumption) (by decide) rfl
        (by first | exact bitmap64_wf_add _ _ | exact bitmap64_wf_clear | exact bitmap64_wf_remove _ _ (by assumption) | assumption) hid64
        (by intro e; cases e)) (fun _ _ => ?_)
  all_goals exact bitmap64_wf_clear

theorem cpu_tag_walk_ver_mirror (nv : nvoverlay_t) (id cycle target_epoch ver_addr : Nat)
    (hok : mirror_ok nv) :
    Post (cpu_tag_walk_ver nv id cycle target_epoch ver_addr) mirror_ok := by
  unfold cpu_tag_walk_ver
  split
  · exact Post.error
  · rename_i ver hfind
    obtain ⟨hm0, hk, ha⟩ := op_mirror_start hok hfind (fun _ _ h => Or.inl h) (fun _ _ h => h)
    have hm : op_mirror nv nv.vtable nv.cpu.core_count ver.addr ver.l1_bitmap ver.l2_bitmap := hm0
    have hn := hok.1
    have hf1 : ht64_find nv.vtable.vers ver.addr = some ver := by rw [ha]; exact hfind
    have w1 := (hk _ _ hfind).2.1
    have w2 := (hk _ _ hfind).2.2
    simp only [bind_assoc, pure_bind, except_ite_bind]
    repeat' first
      | exact Post.error
      | refine Post.pure (mirror_ok_commit (by assumption) hn hk ?_ ?_)
      | refine Post.pure (mirror_ok_commit (op_mirror_count (by assumption) _) hn hk ?_ ?_)
      | exact Post.pure (mirror_ok_keep (by assumption) hn hk hf1)
      | (refine Post.assert ?_; intro _)
      | (refine Post.ite ?_ ?_ <;> intro _)
      | (refine Post.bind (op_mirror_walk (by assumption) _ _ _ _) ?_; intro _ _)
    all_goals assumption

theorem cpu_tag_walk_loop_mirror (id cycle target_epoch start : Nat) (l : List Nat)
    (nv : nvoverlay_t) (hok : mirror_ok nv) :
    Post (cpu_tag_walk_loop id cycle target_epoch start l nv) mirror_ok := by
  induction l generalizing nv with
  | nil => exact Post.pure hok
  | cons j rest ih =>
    unfold cpu_tag_walk_loop
    split
    · exact ih nv hok
    · exact Post.bind (cpu_tag_walk_ver_mirror _ _ _ _ _ hok) (fun a ha => ih a ha)

theorem cpu_tag_walk_mirror (nv : nvoverlay_t) (id cycle target_epoch : Nat)
    (hok : mirror_ok nv) : Post (cpu_tag_walk nv id cycle target_epoch) mirror_ok :=
  Post.bind (Post.trivial _) (fun _ _ => cpu_tag_walk_loop_mirror _ _ _ _ _ _ hok)

theorem mirror_ok_congr {nv nv1 : nvoverlay_t} (h : mirror_ok nv) (hv : nv1.vtable = nv.vtable)
    (hc : nv1.cpu.core_count = nv.cpu.core_count)
    (ht : nv1.cpu.tag_arrays = nv.cpu.tag_arrays) : mirror_ok nv1 := by
  obtain ⟨h1, h2, h3, h4⟩ := h
  refine ⟨by rw [hc]; exact h1, tags_ok_congr ht h2, by rw [hv]; exact h3,
    fun level hl c a => ?_⟩
  rw [tag_present_congr (congrFun ht level), hv]
  exact h4 level hl c a

theorem nvoverlay_full_store_mirror (nv : nvoverlay_t) (id line_addr cycle : Nat)
    (hok : mirror_ok nv) : Post (nvoverlay_full_store nv id line_addr cycle) mirror_ok := by
  refine @nvoverlay_full_store_steps mirror_ok mirror_ok _ nv id line_addr cycle
    (fun hid => vtable_l1_store_mirror _ _ _ _ _ hok hid) ?_ (fun _ h => h) (fun nv2 h => ?_)
  · rintro nv1 cpu2 h ⟨-, hc, ht, -⟩
    exact mirror_ok_congr h rfl hc ht
  · exact Post.mono (cpu_tag_walk_mirror _ _ _ _ h)
      (fun nv3 h3 _ _ => mirror_ok_congr h3 rfl rfl rfl)

theorem nvoverlay_event_mirror (nv : nvoverlay_t) (ev : event_t) (hok : mirror_ok nv) :
    Post (nvoverlay_event nv ev) mirror_ok := by
  cases ev with
  | load id line_addr cycle =>
    exact Post.bind (cpu_get_core_post _ _ _)
      (fun core hc => vtable_l1_load_mirror _ _ _ _ _ hok hc.1)
  | store id line_addr cycle => exact nvoverlay_full_store_mirror _ _ _ _ hok
  | l1_evict id line_addr cycle =>
    exact Post.bind (cpu_get_core_post _ _ _)
      (fun core hc => vtable_l1_eviction_mirror _ _ _ _ _ hok hc.1)
  | l2_evict id line_addr cycle =>
    exact Post.bind (cpu_get_core_post _ _ _)
      (fun core hc => vtable_l2_eviction_mirror _ _ _ _ _ hok hc.1)
  | l3_evict id line_addr cycle =>
    exact Post.bind (cpu_get_core_post _ _ _)
      (fun core hc => vtable_l3_eviction_mirror _ _ _ _ _ hok hc.1)

theorem nvoverlay_run_mirror (evs : List event_t) (nv : nvoverlay_t) (hok : mirror_ok nv) :
    Post (nvoverlay_run evs nv) mirror_ok := by
  induction evs generalizing nv with
  | nil => exact Post.pure hok
  | cons ev rest ih =>
    exact Post.bind (nvoverlay_event_mirror nv ev hok) (fun nv1 h1 => ih nv1 h1)

theorem nvoverlay_init_full_mirror (conf : nvoverlay_conf_t) :
    Post (nvoverlay_init_full conf) mirror_ok := by
  refine Post.mono (nvoverlay_init_full_post conf) ?_
  rintro nv ⟨-, hv, hc, -, ht⟩
  refine ⟨hc, fun level hl => ⟨(ht level hl).1, ?_⟩, ?_, fun level hl c a => ?_⟩
  · intro c j1 j2 a _ _ t1 _
    rw [(ht level hl).2] at t1
    cases t1
  · intro k ver hk
    rw [hv] at hk
    cases hk
  · constructor
    · rintro ⟨j, -, hj⟩
      rw [(ht level hl).2] at hj
      cases hj
    · rintro ⟨ver, hf, -⟩
      rw [hv] at hf
      cases hf

/-- C5, the tag-array mirror (I2): after every event the engine has processed, for each level
L1, L2, each core `c` and each filed version record, the record is stored in some slot of the
tag array of `c` at that level if and only if `c` is a member of the record's sharer set at that
level.  A tag operation ADD, REMOVE, SET or CLEAR for a core of the processor, issued on such a
state, leaves the tags of the record mirroring the set the operation stands for (`op_bitmap`: the
set with the core added or removed, the singleton of the core for SET, the empty set for CLEAR)
and leaves the tags of every other record as they are. -/
theorem tag_array_mirror (conf : nvoverlay_conf_t) (evs : List event_t) (nv0 nv : nvoverlay_t)
    (h0 : nvoverlay_init_full conf = .ok nv0) (h1 : nvoverlay_run evs nv0 = .ok nv)
    (level : Nat) (hl : level = CPU_TAG_L1 ∨ level = CPU_TAG_L2) (addr : Nat) (ver : ver_t)
    (hv : ht64_find nv.vtable.vers addr = some ver) :
    (∀ c, tag_present nv.cpu level c ver.addr ↔
      bitmap64_is_set (ver_sharers ver level) c = true) ∧
    (∀ op id cpu1, id < nv.cpu.core_count → cpu_tag_op nv.cpu op level id ver = .ok cpu1 →
      (∀ c, tag_present cpu1 level c ver.addr ↔
        bitmap64_is_set (op_bitmap op (ver_sharers ver level) id) c = true) ∧
      (∀ c x, x ≠ ver.addr → (tag_present cpu1 level c x ↔ tag_present nv.cpu level c x))) := by
  have hok : mirror_ok nv :=
    nvoverlay_run_mirror evs nv0 (nvoverlay_init_full_mirror conf nv0 h0) nv h1
  obtain ⟨hn, ht, hk, hm⟩ := hok
  have hlt : level < CPU_TAG_MAX := by
    rcases hl with e | e <;> subst e <;> decide
  obtain ⟨ha, w1, w2⟩ := hk addr ver hv
  have hmir : ∀ c, tag_present nv.cpu level c ver.addr ↔
      bitmap64_is_set (ver_sharers ver level) c = true := by
    intro c
    rw [hm level hlt c ver.addr, ha]
    unfold is_sharer
    rw [hv]
    exact ⟨fun ⟨v, e, hs⟩ => by cases e; exact hs, fun hs => ⟨ver, rfl, hs⟩⟩
  refine ⟨hmir, fun op id cpu1 hid hop => ?_⟩
  have hw : bitmap64_wf (ver_sharers ver level) := by
    unfold ver_sharers; split
    · exact w1
    · exact w2
  obtain ⟨-, -, hx, hnew⟩ := cpu_tag_op_spec nv.cpu op level id ver _ (ht level hlt).1
    (ht level hlt).2 rfl hw (Nat.lt_of_lt_of_le hid hn) hmir cpu1 hop
  exact ⟨hnew, hx⟩

theorem tag_array_mirror_witness :
    nvoverlay_init_full conf_one_core = .ok nv_one_core ∧
    nvoverlay_run [.store 0 0x1000 0] nv_one_core = .ok nv_one_store ∧
    ht64_find nv_one_store.vtable.vers 0x1000 = some ver_one_store ∧
    ((∀ c, tag_present nv_one_store.cpu CPU_TAG_L1 c ver_one_store.addr ↔
        bitmap64_is_set (ver_sharers ver_one_store CPU_TAG_L1) c = true) ∧
     (∀ op id cpu1, id < nv_one_store.cpu.core_count →
        cpu_tag_op nv_one_store.cpu op CPU_TAG_L1 id ver_one_store = .ok cpu1 →
        (∀ c, tag_present cpu1 CPU_TAG_L1 c ver_one_store.addr ↔
          bitmap64_is_set (op_bitmap op (ver_sharers ver_one_store CPU_TAG_L1) id) c = true) ∧
        (∀ c x, x ≠ ver_one_store.addr →
          (tag_present cpu1 CPU_TAG_L1 c x ↔ tag_present nv_one_store.cpu CPU_TAG_L1 c x)))) :=
  ⟨rfl, rfl, rfl,
   tag_array_mirror conf_one_core [.store 0 0x1000 0] nv_one_core nv_one_store rfl rfl
     CPU_TAG_L1 (Or.inl rfl) 0x1000 ver_one_store rfl⟩

/-! ## C11: what a merge writes into the OMT -/

/-- Slots of the OMT after the inner loop of the merge callback: the lines of the page are
published under `e0`, every other slot is kept. -/
theorem overlay_merge_lines_omt (e0 pa : Nat) (p : List Nat) (hp : valid4 p)
    (hpa : pa = mtable_traverse_key overlay_epoch_idx p) :
    ∀ (offs : List Nat) (ov : overlay_t) (omt : omt_t) (ov' : overlay_t) (omt' : omt_t),
      omt.mtable.idx = omt_idx → (∀ off ∈ offs, off < 64) →
      overlay_merge_lines e0 pa offs (ov, omt) = .ok (ov', omt') →
      omt'.mtable.idx = omt_idx ∧
      ∀ q, alist_find omt'.mtable.slots q =
        if q ∈ offs.map (fun off => p ++ [off]) then some e0
        else alist_find omt.mtable.slots q := by
  intro offs
  induction offs with
  | nil =>
    intro ov omt ov' omt' hidx _ hm
    simp only [overlay_merge_lines, pure, Except.pure, Except.ok.injEq, Prod.mk.injEq] at hm
    obtain ⟨-, rfl⟩ := hm
    exact ⟨hidx, fun q => by simp⟩
  | cons off rest ih =>
    intro ov omt ov' omt' hidx hl hm
    have hoff := hl off (List.mem_cons_self _ _)
    obtain ⟨-, -, f3⟩ := traverse_key_facts p hp off hoff
    rw [← hpa] at f3
    have hq : mtable_path omt.mtable.idx (pa ||| off <<< UTIL_CACHE_LINE_BITS) = p ++ [off] := by
      rw [hidx]; exact f3
    simp only [overlay_merge_lines, omt_merge_line, bind, Except.bind, mtable_find_insert] at hm
    have hS1 : (mtable_slot_write (mtable_insert omt.mtable (pa ||| off <<< UTIL_CACHE_LINE_BITS))
        (pa ||| off <<< UTIL_CACHE_LINE_BITS) e0).slots = alist_set omt.mtable.slots (p ++ [off]) e0 := by
      simp [mtable_slot_write, hq]
    split at hm
    · cases hm
    · obtain ⟨r1, r2⟩ := ih _ _ ov' omt' (by simp [mtable_slot_write, hidx])
        (fun o ho => hl o (List.mem_cons_of_mem _ ho)) hm
      refine ⟨r1, fun q => ?_⟩
      rw [r2 q, hS1, alist_find_set]
      by_cases h1 : q ∈ rest.map (fun off => p ++ [off])
      · simp [h1]
      · by_cases h2 : q = p ++ [off]
        · simp [h2]
        · have h3 : ¬ q ∈ (off :: rest).map (fun off => p ++ [off]) := by
            simp only [List.map_cons, List.mem_cons, not_or]
            exact ⟨h2, h1⟩
          simp only [h1, h3, if_false, h2]

/-- Slots of the OMT after the traversal of the pages `ps` of the merged epoch. -/
theorem overlay_merge_pages_omt (e0 : Nat) :
    ∀ (ps : List (List Nat × overlay_page_t)) (ov : overlay_t) (omt : omt_t) (ov' : overlay_t)
      (omt' : omt_t),
      omt.mtable.idx = omt_idx → (∀ s ∈ ps, valid4 s.1) →
      overlay_merge_pages e0
        (ps.map (fun s => (mtable_traverse_key overlay_epoch_idx s.1, s.2))) (ov, omt)
        = .ok (ov', omt') →
      omt'.mtable.idx = omt_idx ∧
      ∀ q, alist_find omt'.mtable.slots q =
        if (∃ s ∈ ps, ∃ off ∈ bitmap64_members s.2.bitmap, q = s.1 ++ [off]) then some e0
        else alist_find omt.mtable.slots q := by
  intro ps
  induction ps with
  | nil =>
    intro ov omt ov' omt' hidx _ hm
    simp only [List.map_nil, overlay_merge_pages, pure, Except.pure, Except.ok.injEq,
      Prod.mk.injEq] at hm
    obtain ⟨-, rfl⟩ := hm
    exact ⟨hidx, fun q => by simp⟩
  | cons s rest ih =>
    intro ov omt ov' omt' hidx hl hm
    simp only [List.map_cons, overlay_merge_pages, overlay_merge_epoch_cb, bind, Except.bind] at hm
    split at hm
    · cases hm
    · rename_i st1 h1
      obtain ⟨ov1, omt1⟩ := st1
      obtain ⟨a1, a2⟩ := overlay_merge_lines_omt e0 _ s.1 (hl s (List.mem_cons_self _ _)) rfl
        _ ov omt ov1 omt1 hidx (fun off ho => ((bitmap64_mem_members _ _).mp ho).1) h1
      obtain ⟨r1, r2⟩ := ih ov1 omt1 ov' omt' a1
        (fun t ht => hl t (List.mem_cons_of_mem _ ht)) hm
      refine ⟨r1, fun q => ?_⟩
      rw [r2 q, a2 q]
      by_cases h2 : ∃ t ∈ rest, ∃ off ∈ bitmap64_members t.2.bitmap, q = t.1 ++ [off]
      · have h3 : ∃ t ∈ s :: rest, ∃ off ∈ bitmap64_members t.2.bitmap, q = t.1 ++ [off] := by
          obtain ⟨t, ht, r⟩ := h2
          exact ⟨t, List.mem_cons_of_mem _ ht, r⟩
        simp only [h2, h3, if_true]
      · simp only [h2, if_false]
        by_cases h4 : q ∈ (bitmap64_members s.2.bitmap).map (fun off => s.1 ++ [off])
        · have h3 : ∃ t ∈ s :: rest, ∃ off ∈ bitmap64_members t.2.bitmap, q = t.1 ++ [off] := by
            obtain ⟨off, ho, r⟩ := List.mem_map.mp h4
            exact ⟨s, List.mem_cons_self _ _, off, ho, r.symm⟩
          simp only [h4, h3, if_true]
        · have h3 : ¬ ∃ t ∈ s :: rest, ∃ off ∈ bitmap64_members t.2.bitmap, q = t.1 ++ [off] := by
            rintro ⟨t, ht, off, ho, r⟩
            rcases List.mem_cons.mp ht with rfl | ht
            · exact h4 (List.mem_map.mpr ⟨off, ho, r.symm⟩)
            · exact h2 ⟨t, ht, off, ho, r⟩
          simp only [h4, h3, if_false]

/-- Slots of the OMT after `overlay_epoch_merge`: the slot at path `q` holds `e` when `q` names
a line of a page of the merged epoch, and is the old slot otherwise. -/
theorem overlay_epoch_merge_omt {ov ov' : overlay_t} {omt omt' : omt_t} {e : Nat}
    (hidx : omt.mtable.idx = omt_idx)
    (hI : OvInv pending_steady ov.epochs.nodes omt.mtable.slots)
    (hm : overlay_epoch_merge ov e omt = .ok (ov', omt')) :
    ∃ ep, alist_find ov.epochs.nodes e = some ep ∧
      (∀ p pg off, alist_find ep.mtable.slots p = some pg → off < 64 →
        pg.bitmap.x.testBit off = true → alist_find omt'.mtable.slots (p ++ [off]) = some e) ∧
      (∀ q, (∀ p pg off, alist_find ep.mtable.slots p = some pg → off < 64 →
        pg.bitmap.x.testBit off = true → q ≠ p ++ [off]) →
        alist_find omt'.mtable.slots q = alist_find omt.mtable.slots q) := by
  unfold overlay_epoch_merge at hm
  simp only [overlay_find, ht64_find, bind, Except.bind, ht64_store, mtable_traverse] at hm
  cases hf : alist_find ov.epochs.nodes e with
  | none => simp only [hf] at hm; cases hm
  | some ep =>
    simp only [hf] at hm
    split at hm
    · cases hm
    · have hw := hI.epoch_wf e ep hf
      rw [hw.2.1] at hm
      have hperm := List.perm_insertionSort
        (fun (a b : List Nat × overlay_page_t) => mtable_path_le a.1 b.1 = true) ep.mtable.slots
      have hv : ∀ s ∈ List.insertionSort
          (fun (a b : List Nat × overlay_page_t) => mtable_path_le a.1 b.1 = true)
          ep.mtable.slots, valid4 s.1 := by
        intro s hs
        have hs' : (s.1, s.2) ∈ ep.mtable.slots := hperm.mem_iff.mp hs
        exact (hI.page_wf e ep s.1 s.2 hf (alist_mem_find hw.2.2.1 hs')).1
      obtain ⟨-, r2⟩ := overlay_merge_pages_omt e _
        { ov with epochs := { ov.epochs with
            nodes := alist_set ov.epochs.nodes e { ep with merged := true } } }
        omt ov' omt' hidx hv hm
      refine ⟨ep, rfl, ?_, ?_⟩
      · intro p pg off h1 h2 h3
        rw [r2, if_pos]
        exact ⟨(p, pg), hperm.mem_iff.mpr (alist_find_mem h1), off,
          (bitmap64_mem_members _ _).mpr ⟨h2, h3⟩, rfl⟩
      · intro q hq
        rw [r2, if_neg]
        rintro ⟨s, hs, off, ho, r⟩
        have hs' : (s.1, s.2) ∈ ep.mtable.slots := hperm.mem_iff.mp hs
        have ho' := (bitmap64_mem_members _ _).mp ho
        exact hq s.1 s.2 off (alist_mem_find hw.2.2.1 hs') ho'.1 ho'.2 r

/-- C11 (merge publishes every line of the epoch): in a state reachable by `overlay_insert` and
`overlay_epoch_merge` calls, after a call of `overlay_epoch_merge(e, omt)` that returns (it
does so only on an existing, unmerged epoch `e`), the OMT slot of every line address whose bit
is set in a page of `e` holds the handle of `e`, the OMT slot of every other line address is
what it was before, and `e` is still in the overlay with its merged flag set. -/
theorem merge_publishes_epoch (ov : overlay_t) (omt : omt_t) (hr : overlay_reach ov omt)
    (e : Nat) (ep : overlay_epoch_t) (hf : overlay_find ov e = some ep)
    (ov' : overlay_t) (omt' : omt_t)
    (hm : overlay_epoch_merge ov e omt = .ok (ov', omt')) :
    (∀ line_addr pg, overlay_epoch_find ep (page_addr_of line_addr) = some pg →
      bitmap64_is_set pg.bitmap (page_line_offset line_addr) = true →
      omt_find omt' line_addr = some e) ∧
    (∀ line_addr, (∀ pg, overlay_epoch_find ep (page_addr_of line_addr) = some pg →
      bitmap64_is_set pg.bitmap (page_line_offset line_addr) = false) →
      omt_find omt' line_addr = omt_find omt line_addr) ∧
    (∃ ep', overlay_find ov' e = some ep' ∧ ep'.merged = true) := by
  obtain ⟨hI, hidx⟩ := overlay_reach_inv hr
  obtain ⟨-, hidx', ep0, k1, -, hk⟩ := overlay_epoch_merge_inv hidx hI hm
  obtain ⟨ep1, j1, j2, j3⟩ := overlay_epoch_merge_omt hidx hI hm
  have hf' : alist_find ov.epochs.nodes e = some ep := hf
  rw [hf'] at k1 j1
  cases k1; cases j1
  have hw := hI.epoch_wf e ep hf'
  have hpath : ∀ a, overlay_epoch_find ep (page_addr_of a)
      = alist_find ep.mtable.slots (mtable_path overlay_epoch_idx a) := by
    intro a
    simp [overlay_epoch_find, mtable_find, hw.2.1, path4_page_addr_of]
  have homt : ∀ (o : omt_t), o.mtable.idx = omt_idx → ∀ a, omt_find o a
      = alist_find o.mtable.slots (mtable_path overlay_epoch_idx a ++ [page_line_offset a]) := by
    intro o ho a
    simp [omt_find, mtable_find, ho, path5_eq]
  refine ⟨?_, ?_, ?_⟩
  · intro a pg h1 h2
    rw [homt omt' hidx', j2 _ pg _ ((hpath a).symm.trans h1) (page_line_offset_lt a) h2]
  · intro a h1
    rw [homt omt' hidx', homt omt hidx]
    apply j3
    intro p pg off h2 h3 h4 h5
    obtain ⟨rfl, h6⟩ := List.append_inj' h5 rfl
    simp only [List.cons.injEq, and_true] at h6
    subst h6
    have := h1 pg ((hpath a).trans h2)
    simp only [bitmap64_is_set] at this
    rw [h4] at this
    cases this
  · obtain ⟨ep2, m1, m2, -⟩ := hk { ep with merged := true } (by rw [alist_find_set]; simp)
    exact ⟨ep2, m1, m2⟩

/-- Witness for C11: after `overlay_insert(0x1000, 0)` the epoch 0 is present and unmerged;
`overlay_epoch_merge(0, omt)` then makes the OMT map line `0x1000` to epoch 0, and the page at
`0x1000` has `ref_count = 1`. -/
theorem merge_publishes_epoch_witness :
    overlay_reach overlay_one_line omt_init ∧
    omt_find overlay_one_line_merged.2 0x1000 = some 0 ∧
    ((overlay_find overlay_one_line_merged.1 0).bind
      (fun ep => overlay_epoch_find ep 0x1000)).map (fun pg => pg.ref_count) = some 1 ∧
    ∃ ep', overlay_find overlay_one_line_merged.1 0 = some ep' ∧ ep'.merged = true :=
  have hr : overlay_reach overlay_one_line omt_init :=
    overlay_reach.insert 0x1000 0 overlay_reach.init
      (show overlay_insert overlay_init 0x1000 0 = .ok overlay_one_line from rfl)
  have hep : ∃ ep, overlay_find overlay_one_line 0 = some ep ∧ ep.merged = false ∧
      ∃ pg, overlay_epoch_find ep (page_addr_of 0x1000) = some pg ∧
        bitmap64_is_set pg.bitmap (page_line_offset 0x1000) = true := by
    refine ⟨_, rfl, rfl, _, rfl, ?_⟩
    decide
  match hep with
  | ⟨ep, h1, _, pg, h3, h4⟩ =>
    have h := merge_publishes_epoch overlay_one_line omt_init hr 0 ep h1
      overlay_one_line_merged.1 overlay_one_line_merged.2 rfl
    ⟨hr, h.1 0x1000 pg h3 h4, by decide, h.2.2⟩

/-! ## C12: unlink and garbage collection -/

theorem overlay_gc_epoch_full {ov ov' : overlay_t} {e3 : overlay_epoch_t}
    (hu : overlay_gc_epoch ov e3 = .ok ov') :
    e3.overlay_page_count = 0 ∧ e3.size = 0 ∧ ov.epoch_count ≠ 0 ∧
    ∃ removed, alist_find ov.epochs.nodes e3.epoch = some removed ∧
      ov'.epochs.nodes = alist_erase ov.epochs.nodes e3.epoch ∧
      ov'.epoch_count = ov.epoch_count - 1 ∧ ov'.size = ov.size - removed.size := by
  unfold overlay_gc_epoch overlay_remove at hu
  simp only [bind, Except.bind, pure, Except.pure, ht64_remove] at hu
  split at hu
  · cases hu
  · rename_i hz
    have hz' : e3.overlay_page_count = 0 := by simpa using c_assert_ok hz
    split at hu
    · cases hu
    · rename_i hs
      have hs' : e3.size = 0 := by simpa using c_assert_ok hs
      cases hfind : alist_find ov.epochs.nodes e3.epoch with
      | none => simp only [hfind] at hu; cases hu
      | some removed =>
        simp only [hfind] at hu
        split at hu
        · cases hu
        · rename_i hc
          have hc' : ov.epoch_count ≠ 0 := by simpa using c_assert_ok hc
          split at hu
          · cases hu
          · cases hu
            exact ⟨hz', hs', hc', removed, rfl, rfl, rfl, rfl⟩

/-- What `overlay_line_unlink` does to the epoch behind `handle` and to the overlay's totals,
for the three outcomes: the page keeps references, the page is reclaimed, the epoch is
reclaimed as well. -/
theorem overlay_line_unlink_spec {ov ov' : overlay_t} {h pa : Nat} {ep : overlay_epoch_t}
    {pg : overlay_page_t} (hu : overlay_line_unlink ov h pa = .ok ov')
    (hep : overlay_find ov h = some ep) (hk : ep.epoch = h)
    (hpg : overlay_epoch_find ep pa = some pg) :
    1 ≤ pg.ref_count ∧
    (pg.ref_count ≠ 1 →
      overlay_find ov' h = some { ep with
        mtable := mtable_slot_write ep.mtable pa { pg with ref_count := pg.ref_count - 1 } } ∧
      ov'.size = ov.size ∧ ov'.epoch_count = ov.epoch_count) ∧
    (pg.ref_count = 1 →
      ∃ page_size, overlay_page_size_class (bitmap64_popcount pg.bitmap) = .ok page_size ∧
        page_size ≤ ep.size ∧ page_size ≤ ov.size ∧ 1 ≤ ep.overlay_page_count ∧
        ov'.size = ov.size - page_size ∧
        (ep.overlay_page_count ≠ 1 →
          overlay_find ov' h = some { ep with
            mtable := mtable_slot_write ep.mtable pa { pg with ref_count := 0 },
            overlay_page_count := ep.overlay_page_count - 1,
            size := ep.size - page_size } ∧
          ov'.epoch_count = ov.epoch_count) ∧
        (ep.overlay_page_count = 1 →
          overlay_find ov' h = none ∧ 1 ≤ ov.epoch_count ∧
          ov'.epoch_count = ov.epoch_count - 1)) := by
  unfold overlay_line_unlink at hu
  have hep' : ht64_find ov.epochs h = some ep := hep
  simp only [bind, Except.bind, pure, Except.pure, hep', hpg] at hu
  split at hu
  · cases hu
  · split at hu
    · cases hu
    · rename_i hpos
      have hpos' : 0 < pg.ref_count := by simpa using c_assert_ok hpos
      refine ⟨hpos', ?_, ?_⟩
      · intro hne
        have hz : ¬ pg.ref_count - 1 = 0 := by omega
        simp only [hz, if_false, Except.ok.injEq] at hu
        subst hu
        refine ⟨?_, rfl, rfl⟩
        simp [overlay_find, ht64_find, ht64_store, alist_find_set]
      · intro h1
        have hz : pg.ref_count - 1 = 0 := by omega
        simp only [hz, if_true] at hu
        split at hu
        · cases hu
        · rename_i hcnt
          have hcnt' : ep.overlay_page_count ≠ 0 := by simpa using c_assert_ok hcnt
          split at hu
          · cases hu
          · rename_i psz hpsz
            split at hu
            · cases hu
            · rename_i hs1
              have hs1' : psz ≤ ep.size := by simpa using c_assert_ok hs1
              split at hu
              · cases hu
              · rename_i hs2
                have hs2' : psz ≤ ov.size := by simpa using c_assert_ok hs2
                by_cases hc : ep.overlay_page_count = 1
                · have hz2 : ep.overlay_page_count - 1 = 0 := by omega
                  simp only [hz2, if_true] at hu
                  obtain ⟨-, g2, g3, removed, g4, g5, g6, g7⟩ := overlay_gc_epoch_full hu
                  simp only [ht64_store, hk, alist_find_set, if_true, Option.some.injEq] at g4
                  subst g4
                  simp only at g2 g7
                  refine ⟨psz, hpsz, hs1', hs2', by omega, ?_, fun hh => absurd hc hh, fun _ => ?_⟩
                  · rw [g7, g2]; simp
                  · refine ⟨?_, by simpa using Nat.pos_of_ne_zero g3, by simpa using g6⟩
                    simp only [overlay_find, ht64_find, g5, hk, ht64_store, alist_find_erase,
                      if_true]
                · have hz2 : ¬ ep.overlay_page_count - 1 = 0 := by omega
                  simp only [hz2, if_false, Except.ok.injEq] at hu
                  subst hu
                  refine ⟨psz, hpsz, hs1', hs2', by omega, rfl, fun _ => ⟨?_, rfl⟩,
                    fun hh => absurd hh hc⟩
                  simp [overlay_find, ht64_find, ht64_store, alist_find_set, hz]
/-- C12 (unlink and garbage collection): when one iteration of a merge (epoch `e`, line `off` of
the page at `page_addr`) that returns overwrites an OMT slot that pointed at the overlay epoch
`old`, the `ref_count` of that epoch's page for `page_addr` was at least one and is decremented
by exactly one.  If it stays above zero, the epoch's page count and size, the overlay's size
and the epoch count are unchanged.  If it reaches zero, the epoch's `overlay_page_count`
decreases by one and the epoch's size and the overlay's size decrease by the size class of the
popcount of the page's bitmap; if the page count stays above zero, the epoch stays in the epoch
map and `epoch_count` is unchanged, and if the page count reaches zero, the epoch is removed
from the epoch map and `epoch_count` decreases by one. -/
theorem merge_unlink_gc (e page_addr off : Nat) (ov : overlay_t) (omt : omt_t)
    (ov' : overlay_t) (omt' : omt_t) (old : Nat) (ep : overlay_epoch_t) (pg : overlay_page_t)
    (hm : overlay_merge_lines e page_addr [off] (ov, omt) = .ok (ov', omt'))
    (hold : omt_find omt (page_addr ||| (off <<< UTIL_CACHE_LINE_BITS)) = some old)
    (hep : overlay_find ov old = some ep) (hk : ep.epoch = old)
    (hpg : overlay_epoch_find ep page_addr = some pg) :
    1 ≤ pg.ref_count ∧
    (pg.ref_count ≠ 1 →
      overlay_find ov' old = some { ep with
        mtable := mtable_slot_write ep.mtable page_addr
          { pg with ref_count := pg.ref_count - 1 } } ∧
      ov'.size = ov.size ∧ ov'.epoch_count = ov.epoch_count) ∧
    (pg.ref_count = 1 →
      ∃ page_size, overlay_page_size_class (bitmap64_popcount pg.bitmap) = .ok page_size ∧
        page_size ≤ ep.size ∧ page_size ≤ ov.size ∧ 1 ≤ ep.overlay_page_count ∧
        ov'.size = ov.size - page_size ∧
        (ep.overlay_page_count ≠ 1 →
          overlay_find ov' old = some { ep with
            mtable := mtable_slot_write ep.mtable page_addr { pg with ref_count := 0 },
            overlay_page_count := ep.overlay_page_count - 1,
            size := ep.size - page_size } ∧
          ov'.epoch_count = ov.epoch_count) ∧
        (ep.overlay_page_count = 1 →
          overlay_find ov' old = none ∧ 1 ≤ ov.epoch_count ∧
          ov'.epoch_count = ov.epoch_count - 1)) := by
  have hold' : mtable_find omt.mtable (page_addr ||| (off <<< UTIL_CACHE_LINE_BITS)) = some old :=
    hold
  simp only [overlay_merge_lines, omt_merge_line, bind, Except.bind, mtable_find_insert, hold',
    pure, Except.pure] at hm
  split at hm
  · cases hm
  · rename_i ov1 hu
    simp only [Except.ok.injEq, Prod.mk.injEq] at hm
    obtain ⟨rfl, -⟩ := hm
    exact overlay_line_unlink_spec hu hep hk hpg

/-- Witness for C12: line `0x1000` is published for epoch 0 and inserted in epoch 1; when the
merge of epoch 1 visits the line, the only page of epoch 0 loses its last reference, so the
overlay's size drops from 512 to 256 and epoch 0 leaves the epoch map (`epoch_count` 2 to 1). -/
theorem merge_unlink_gc_witness :
    overlay_epoch_merge overlay_second_epoch 1 overlay_one_line_merged.2
      = .ok overlay_second_epoch_merged ∧
    overlay_second_epoch_marked.size = 512 ∧ overlay_second_epoch_marked.epoch_count = 2 ∧
    overlay_second_epoch_merged.1.size = 256 ∧ overlay_second_epoch_merged.1.epoch_count = 1 ∧
    overlay_find overlay_second_epoch_merged.1 0 = none :=
  have hep : ∃ ep pg, overlay_find overlay_second_epoch_marked 0 = some ep ∧ ep.epoch = 0 ∧
      overlay_epoch_find ep 0x1000 = some pg ∧ pg.ref_count = 1 ∧ ep.overlay_page_count = 1 ∧
      bitmap64_popcount pg.bitmap = 1 :=
    ⟨_, _, rfl, rfl, rfl, rfl, rfl, by decide⟩
  match hep with
  | ⟨ep, pg, h1, h2, h3, h4, h5, h6⟩ =>
    have h := merge_unlink_gc 1 0x1000 0 overlay_second_epoch_marked overlay_one_line_merged.2
      overlay_second_epoch_merged.1 overlay_second_epoch_merged.2 0 ep pg rfl (by decide)
      h1 h2 h3
    match h.2.2 h4 with
    | ⟨_, _, _, _, _, _, _, k⟩ =>
      ⟨rfl, by decide, by decide, by decide, by decide, (k h5).1⟩

/-! ## C13: size-class accounting on insert -/

theorem bitmap64_add_popcount_of_set (b : bitmap64_t) (i : Nat)
    (h : bitmap64_is_set b i = true) :
    bitmap64_popcount (bitmap64_add b i) = bitmap64_popcount b := by
  unfold bitmap64_popcount bitmap64_members
  congr 1
  apply List.filter_congr
  intro j hj
  have hj' : j < 64 := List.mem_range.mp hj
  rw [bitmap64_testBit_add]
  simp only [bitmap64_is_set] at h
  by_cases hij : i = j
  · subst hij; simp [hj', h]
  · simp [hj', hij]

theorem mtable_find_slot_write {V : Type} (m : mtable_t V) (key : Nat) (v : V) :
    mtable_find (mtable_slot_write m key v) key = some v := by
  simp [mtable_find, mtable_slot_write, alist_find_set]

/-- C13 (size-class accounting on insert): a call of `overlay_insert(addr, epoch)` that returns
(the epoch is unmerged, or is created by the call) leaves the popcount of the target page as it
was or raises it by one, and adds the same number of bytes `d` to the size of the epoch and to
the size of the overlay: 256 when the popcount goes from 0 to 1 or from 3 to 4, 512 from 7 to
8, 1024 from 15 to 16, 2048 from 31 to 32, and 0 for every other change of the popcount and
when the popcount does not change, which is the case when the line's bit was already set. -/
theorem overlay_insert_size_class (ov : overlay_t) (addr epoch : Nat) (ov' : overlay_t)
    (h : overlay_insert ov addr epoch = .ok ov') :
    ∃ d, overlay_epoch_size ov' epoch = overlay_epoch_size ov epoch + d ∧
      ov'.size = ov.size + d ∧
      (overlay_page_lines ov' epoch addr = overlay_page_lines ov epoch addr ∨
        overlay_page_lines ov' epoch addr = overlay_page_lines ov epoch addr + 1) ∧
      (overlay_line_present ov epoch addr = true →
        overlay_page_lines ov' epoch addr = overlay_page_lines ov epoch addr) ∧
      (overlay_page_lines ov' epoch addr = overlay_page_lines ov epoch addr → d = 0) ∧
      (overlay_page_lines ov' epoch addr = overlay_page_lines ov epoch addr + 1 →
        (overlay_page_lines ov epoch addr = 0 → d = 256) ∧
        (overlay_page_lines ov epoch addr = 3 → d = 256) ∧
        (overlay_page_lines ov epoch addr = 7 → d = 512) ∧
        (overlay_page_lines ov epoch addr = 15 → d = 1024) ∧
        (overlay_page_lines ov epoch addr = 31 → d = 2048) ∧
        (overlay_page_lines ov epoch addr ≠ 0 → overlay_page_lines ov epoch addr ≠ 3 →
          overlay_page_lines ov epoch addr ≠ 7 → overlay_page_lines ov epoch addr ≠ 15 →
          overlay_page_lines ov epoch addr ≠ 31 → d = 0)) := by
  -- the epoch the insertion works on, and what `overlay_epoch_insert` does with it
  have key : ∃ (ep0 : overlay_epoch_t) (ov1 : overlay_t) (e1 : overlay_epoch_t) (ret : Nat),
      overlay_epoch_insert ep0 addr = .ok (e1, ret) ∧
      ov' = { ov1 with epochs := ht64_store ov1.epochs epoch e1, size := ov1.size + ret } ∧
      ov1.size = ov.size ∧ overlay_epoch_size ov epoch = ep0.size ∧
      overlay_page_lines ov epoch addr
        = bitmap64_popcount ((mtable_find ep0.mtable addr).getD overlay_page_init).bitmap ∧
      (overlay_line_present ov epoch addr = true → bitmap64_is_set
        ((mtable_find ep0.mtable addr).getD overlay_page_init).bitmap (page_line_offset addr)
          = true) := by
    unfold overlay_insert at h
    simp only [bind, Except.bind, pure, Except.pure, ht64_insert] at h
    split at h
    · cases h
    · cases hf : ht64_find ov.epochs epoch with
      | some ep0 =>
        simp only [hf] at h
        split at h
        · cases h
        · split at h
          · cases h
          · split at h
            · cases h
            · rename_i r hr
              obtain ⟨e1, ret⟩ := r
              cases h
              refine ⟨ep0, ov, e1, ret, hr, rfl, rfl, ?_, ?_, ?_⟩
              · simp [overlay_epoch_size, overlay_find, hf]
              · simp only [overlay_page_lines, overlay_find, hf]
                cases mtable_find ep0.mtable addr <;> simp [overlay_page_init, bitmap64_popcount,
                  bitmap64_members, bitmap64_clear]
              · simp only [overlay_line_present, overlay_find, hf]
                cases mtable_find ep0.mtable addr <;> simp
      | none =>
        have hf' : alist_find ov.epochs.nodes epoch = none := hf
        simp only [hf, hf', c_assert_true] at h
        split at h
        · cases h
        · split at h
          · cases h
          · split at h
            · cases h
            · rename_i r hr
              obtain ⟨e1, ret⟩ := r
              cases h
              refine ⟨{ overlay_epoch_init with epoch := epoch },
                { ov with epoch_init_count := ov.epoch_init_count + 1,
                          epoch_count := ov.epoch_count + 1,
                          epochs := { nodes := (epoch, { overlay_epoch_init with epoch := epoch })
                                        :: ov.epochs.nodes,
                                      item_count := ov.epochs.item_count + 1 } },
                e1, ret, hr, rfl, rfl, ?_, ?_, ?_⟩
              · simp [overlay_epoch_size, overlay_find, hf, overlay_epoch_init]
              · simp [overlay_page_lines, overlay_find, hf, overlay_epoch_init, mtable_find,
                  mtable_init, alist_find, overlay_page_init, bitmap64_popcount,
                  bitmap64_members, bitmap64_clear]
              · simp [overlay_line_present, overlay_find, hf]
  obtain ⟨ep0, ov1, e1, ret, hins, rfl, hsz, hes, hpl, hpr⟩ := key
  have hfind : overlay_find
      { ov1 with epochs := ht64_store ov1.epochs epoch e1, size := ov1.size + ret } epoch
        = some e1 := by
    simp [overlay_find, ht64_find, ht64_store, alist_find_set]
  have hsize' : overlay_epoch_size
      { ov1 with epochs := ht64_store ov1.epochs epoch e1, size := ov1.size + ret } epoch
        = e1.size := by
    simp only [overlay_epoch_size, hfind]
  have hlines' : ∀ pg, mtable_find e1.mtable addr = some pg →
      overlay_page_lines
        { ov1 with epochs := ht64_store ov1.epochs epoch e1, size := ov1.size + ret } epoch addr
          = bitmap64_popcount pg.bitmap := by
    intro pg hp
    simp only [overlay_page_lines, hfind, hp]
  rw [hsize', hes, hpl]
  unfold overlay_epoch_insert at hins
  simp only [bind, Except.bind, pure, Except.pure, mtable_find_insert] at hins
  split at hins
  · cases hins
  · have hadd := bitmap64_popcount_add_le
      ((mtable_find ep0.mtable addr).getD overlay_page_init).bitmap (page_line_offset addr)
    split at hins
    · rename_i heq
      cases hins
      rw [hlines' _ (mtable_find_slot_write _ _ _)]
      refine ⟨0, rfl, by simp [hsz], Or.inl heq.symm, fun _ => heq.symm, fun _ => rfl, ?_⟩
      intro hh
      simp only at hh
      omega
    · rename_i hne
      split at hins
      · cases hins
      · rename_i hstep
        have hstep' := c_assert_ok hstep
        simp only [decide_eq_true_eq] at hstep'
        cases hins
        rw [hlines' _ (mtable_find_slot_write _ _ _)]
        refine ⟨_, rfl, by simp [hsz], Or.inr hstep', ?_, ?_, ?_⟩
        · intro hp
          exact absurd (bitmap64_add_popcount_of_set _ _ (hpr hp)).symm hne
        · intro hh
          exact absurd hh.symm hne
        · intro _
          refine ⟨?_, ?_, ?_, ?_, ?_, ?_⟩
          · intro h0; simp [h0]
          · intro h0; simp [h0]
          · intro h0; simp [h0]
          · intro h0; simp [h0]
          · intro h0; simp [h0]
          · intro h0 h3 h7 h15 h31; simp [h0, h3, h7, h15, h31]

/-- Witness for C13: `overlay_insert(0x1000, 0)` on the empty overlay returns, raises the
popcount of the page from 0 to 1 and adds 256 bytes to epoch 0 and to the overlay. -/
theorem overlay_insert_size_class_witness :
    overlay_insert overlay_init 0x1000 0 = .ok overlay_one_line ∧
    overlay_page_lines overlay_init 0 0x1000 = 0 ∧
    overlay_page_lines overlay_one_line 0 0x1000 = 1 ∧
    overlay_epoch_size overlay_one_line 0 = 256 ∧ overlay_one_line.size = 256 ∧
    ∃ d, overlay_epoch_size overlay_one_line 0 = overlay_epoch_size overlay_init 0 + d ∧
      overlay_one_line.size = overlay_init.size + d :=
  ⟨rfl, by decide, by decide, by decide, by decide,
    match overlay_insert_size_class overlay_init 0x1000 0 overlay_one_line rfl with
    | ⟨d, h1, h2, _⟩ => ⟨d, h1, h2⟩⟩

/-! ## C14: evictions and the OMC buffer -/

/-- C14, the code at the failing input: an eviction of kind `EVICT_OMC` handed to
`nvoverlay_vtable_evict_cb` only counts an LLC eviction and leaves the OMC buffer as it is.
Core 0 stores five times to line `0x1000` with `epoch_size = 1`: after the fourth store the
record has `l1_ver = 1` and the dirty `l2_ver = 0`, and the fifth store, in epoch 2, evicts
version 0 from the L2 with kind `EVICT_OMC`.  Afterwards `evict_llc_count` is 1,
`evict_omc_count` is 0, and the OMC buffer has seen no `omcbuf_insert` and holds no line. -/
theorem evict_omc_skips_omcbuf :
    (∀ nv addr id version cycle,
      nvoverlay_vtable_evict_cb nv addr id version cycle EVICT_OMC
        = .ok { nv with evict_llc_count := nv.evict_llc_count + 1 }) ∧
    (nvoverlay_trace_driven_engine conf_two_cores
        [.store 0 0x1000 0, .store 0 0x1000 1, .store 0 0x1000 2, .store 0 0x1000 3]).map
      (fun nv => (ver_view nv 0x1000, evict_view nv))
      = .ok (some (STATE_M, STATE_M, 1, 0), 0, 0, 0) ∧
    (nvoverlay_trace_driven_engine conf_two_cores
        [.store 0 0x1000 0, .store 0 0x1000 1, .store 0 0x1000 2, .store 0 0x1000 3,
         .store 0 0x1000 4]).map
      (fun nv => (ver_view nv 0x1000, evict_view nv, (persist_view nv 0x1000 0).2.2))
      = .ok (some (STATE_M, STATE_M, 2, 1), (0, 1, 0), [(0, UINT64_MAX)]) := by
  refine ⟨fun _ _ _ _ _ => rfl, ?_, ?_⟩ <;> rfl

/-! ## C15, C16: the tag walk -/

theorem except_map_bind {α β γ : Type} (m : Except Abort α) (f : α → Except Abort β)
    (g : β → γ) : Except.map g (m >>= f) = m >>= fun a => Except.map g (f a) := by
  cases m <;> rfl

theorem except_map_ite {α β : Type} (c : Prop) [Decidable c] (a b : Except Abort α)
    (g : α → β) : Except.map g (if c then a else b) = if c then Except.map g a
      else Except.map g b := by
  split <;> rfl

theorem except_map_pure {α β : Type} (a : α) (g : α → β) :
    Except.map g (pure a : Except Abort α) = pure (g a) := rfl

/-- Dropping the log of `cpu_tag_walk_ver_log` gives `cpu_tag_walk_ver`. -/
theorem cpu_tag_walk_ver_log_fst (nv : nvoverlay_t) (id cycle target_epoch ver_addr : Nat) :
    Except.map Prod.fst (cpu_tag_walk_ver_log nv id cycle target_epoch ver_addr)
      = cpu_tag_walk_ver nv id cycle target_epoch ver_addr := by
  cases hf : ht64_find nv.vtable.vers ver_addr with
  | none => simp only [cpu_tag_walk_ver_log, cpu_tag_walk_ver, hf]; rfl
  | some ver =>
    simp only [cpu_tag_walk_ver_log, cpu_tag_walk_ver, hf, except_map_bind, except_map_ite,
      except_map_pure]

theorem cpu_tag_walk_loop_log_fst (id cycle target_epoch start : Nat) (l : List Nat)
    (nv : nvoverlay_t) :
    Except.map Prod.fst (cpu_tag_walk_loop_log id cycle target_epoch start l nv)
      = cpu_tag_walk_loop id cycle target_epoch start l nv := by
  induction l generalizing nv with
  | nil => rfl
  | cons j rest ih =>
    cases ht : (nv.cpu.tag_arrays CPU_TAG_L2).tags (start + j) with
    | none =>
      simp only [cpu_tag_walk_loop_log, cpu_tag_walk_loop, ht]
      exact ih nv
    | some ver_addr =>
      simp only [cpu_tag_walk_loop_log, cpu_tag_walk_loop, ht]
      rw [← cpu_tag_walk_ver_log_fst]
      cases h1 : cpu_tag_walk_ver_log nv id cycle target_epoch ver_addr with
      | error e => rfl
      | ok r =>
        obtain ⟨nv1, log1⟩ := r
        simp only [bind, Except.bind, Except.map]
        rw [← ih nv1]
        cases cpu_tag_walk_loop_log id cycle target_epoch start rest nv1 <;> rfl

theorem cpu_tag_walk_log_fst (nv : nvoverlay_t) (id cycle target_epoch : Nat) :
    Except.map Prod.fst (cpu_tag_walk_log nv id cycle target_epoch)
      = cpu_tag_walk nv id cycle target_epoch := by
  unfold cpu_tag_walk_log cpu_tag_walk
  rw [except_map_bind]
  simp only [cpu_tag_walk_loop_log_fst]

/-- A property of the state that `cpu_tag_walk_log` returns holds of what `cpu_tag_walk`
returns. -/
theorem Post.of_log {m : Except Abort (nvoverlay_t × List (Nat × Nat))}
    {m' : Except Abort nvoverlay_t} (he : Except.map Prod.fst m = m') {Q : nvoverlay_t → Prop}
    (h : Post m (fun r => Q r.1)) : Post m' Q := by
  intro a ha
  subst he
  cases hm : m with
  | error e => rw [hm] at ha; cases ha
  | ok r =>
    rw [hm] at ha
    cases ha
    exact h r hm

theorem walk_keeps_cb {nv nv1 : nvoverlay_t} (h : walk_keeps nv nv1)
    (line_addr id version cycle : Nat) :
    Post (nvoverlay_cpu_tag_walk_cb nv1 line_addr id version cycle) (walk_keeps nv) := by
  refine Post.mono (nvoverlay_cpu_tag_walk_cb_frame _ _ _ _ _) ?_
  intro nv2 h2
  unfold same_front at h2
  unfold walk_keeps at *
  rw [h2.1, h2.2.1]
  exact h

theorem walk_keeps_count {nv nv1 : nvoverlay_t} (h : walk_keeps nv nv1) (id : Nat) :
    walk_keeps nv (cpu_tag_walk_count nv1 id) := h

theorem cpu_tag_walk_ver_log_post (nv : nvoverlay_t) (id cycle target_epoch ver_addr : Nat)
    (ver : ver_t) (hf : ht64_find nv.vtable.vers ver_addr = some ver) :
    Post (cpu_tag_walk_ver_log nv id cycle target_epoch ver_addr) (fun r =>
      r.1.cpu.tag_arrays = nv.cpu.tag_arrays ∧ r.1.cpu.core_count = nv.cpu.core_count ∧
      (∃ ver', ver'.addr = ver.addr ∧ ver'.l1_bitmap = ver.l1_bitmap ∧
        ver'.l2_bitmap = ver.l2_bitmap ∧ ¬ walk_pending ver' target_epoch ∧
        (ver_order ver → ver_order ver') ∧
        ((r.1.vtable = nv.vtable ∧ ver' = ver) ∨
          r.1.vtable.vers = ht64_store nv.vtable.vers ver.addr ver')) ∧
      (ver_order ver → ∀ e ∈ r.2, e.2 < target_epoch) ∧
      (¬ walk_pending ver target_epoch → r = (nv, []))) := by
  unfold cpu_tag_walk_ver_log
  simp only [hf, bind_assoc, pure_bind, except_ite_bind]
  have hk : walk_keeps nv nv := ⟨rfl, rfl, rfl⟩
  refine Post.ite (fun h1 => ?_) (fun h1 => ?_)
  · refine Post.assert (fun h2 => ?_)
    refine Post.assert (fun _ => ?_)
    have hM : ver.l1_state = STATE_M := by simpa using h2
    refine Post.ite (fun h3 => ?_) (fun h3 => ?_)
    · have hp : walk_pending ver target_epoch := Or.inl ⟨h1, h3⟩
      refine Post.bind (walk_keeps_cb hk _ _ _ _) (fun nv1 k1 => ?_)
      refine Post.ite (fun h4 => ?_) (fun h4 => ?_)
      · refine Post.bind (walk_keeps_cb (walk_keeps_count k1 _) _ _ _ _) (fun nv2 k2 => ?_)
        refine Post.pure ⟨k2.2.1, k2.2.2,
          ⟨{ ver with owner := OWNER_OTHER, other_ver := ver.l1_ver, l1_state := STATE_S,
                      l2_state := STATE_S }, rfl, rfl, rfl, ?_, ?_, Or.inr ?_⟩, ?_,
          fun hn => absurd hp hn⟩
        · rintro (⟨h, -⟩ | ⟨h, -⟩ | ⟨h, -⟩) <;> cases h
        · intro _; simp [ver_order]
        · show ht64_store nv2.vtable.vers _ _ = _
          rw [k2.1]
        · intro ho e he
          have := ho hM h4.1
          simp only [List.mem_cons, List.mem_singleton, List.not_mem_nil, or_false] at he
          rcases he with rfl | rfl
          · exact h3
          · exact Nat.lt_of_le_of_lt this h3
      · refine Post.pure ⟨k1.2.1, k1.2.2,
          ⟨{ ver with owner := OWNER_OTHER, other_ver := ver.l1_ver, l1_state := STATE_S },
            rfl, rfl, rfl, ?_, ?_, Or.inr ?_⟩, ?_,
          fun hn => absurd hp hn⟩
        · rintro (⟨h, -⟩ | ⟨h, -⟩ | ⟨h, -⟩) <;> cases h
        · intro _; simp [ver_order]
        · show ht64_store nv1.vtable.vers _ _ = _
          rw [k1.1]
        · intro _ e he
          simp only [List.mem_singleton] at he
          subst he
          exact h3
    · refine Post.ite (fun h4 => ?_) (fun h4 => ?_)
      · have hp : walk_pending ver target_epoch := Or.inr (Or.inl ⟨h1, h4.2, h4.1⟩)
        refine Post.assert (fun _ => ?_)
        refine Post.bind (walk_keeps_cb hk _ _ _ _) (fun nv1 k1 => ?_)
        refine Post.pure ⟨k1.2.1, k1.2.2,
          ⟨{ ver with l2_state := STATE_S }, rfl, rfl, rfl, ?_, ?_, Or.inr ?_⟩, ?_,
          fun hn => absurd hp hn⟩
        · rintro (⟨-, h⟩ | ⟨-, h, -⟩ | ⟨h, -⟩)
          · exact h3 h
          · cases h
          · rw [h1] at h; cases h
        · intro _; simp [ver_order]
        · show ht64_store nv1.vtable.vers _ _ = _
          rw [k1.1]
        · intro _ e he
          simp only [List.mem_singleton] at he
          subst he
          exact h4.1
      · have hnp : ¬ walk_pending ver target_epoch := by
          rintro (⟨-, h⟩ | ⟨-, h, h'⟩ | ⟨h, -⟩)
          · exact h3 h
          · exact h4 ⟨h', h⟩
          · rw [h1] at h; cases h
        exact Post.pure ⟨rfl, rfl, ⟨ver, rfl, rfl, rfl, hnp, fun h => h, Or.inl ⟨rfl, rfl⟩⟩,
          fun _ e he => (by cases he), fun _ => rfl⟩
  · refine Post.ite (fun h2 => ?_) (fun h2 => ?_)
    · refine Post.assert (fun _ => ?_)
      refine Post.assert (fun _ => ?_)
      refine Post.assert (fun _ => ?_)
      refine Post.ite (fun h3 => ?_) (fun h3 => ?_)
      · have hp : walk_pending ver target_epoch := Or.inr (Or.inr ⟨h2, h3⟩)
        refine Post.bind (walk_keeps_cb hk _ _ _ _) (fun nv1 k1 => ?_)
        refine Post.pure ⟨k1.2.1, k1.2.2,
          ⟨{ ver with owner := OWNER_OTHER, other_ver := ver.l2_ver, l2_state := STATE_S },
            rfl, rfl, rfl, ?_, ?_, Or.inr ?_⟩, ?_,
          fun hn => absurd hp hn⟩
        · rintro (⟨h, -⟩ | ⟨h, -⟩ | ⟨h, -⟩) <;> cases h
        · intro _; simp [ver_order]
        · show ht64_store nv1.vtable.vers _ _ = _
          rw [k1.1]
        · intro _ e he
          simp only [List.mem_singleton] at he
          subst he
          exact h3
      · have hnp : ¬ walk_pending ver target_epoch := by
          rintro (⟨h, -⟩ | ⟨h, -⟩ | ⟨-, h⟩)
          · exact h1 h
          · exact h1 h
          · exact h3 h
        exact Post.pure ⟨rfl, rfl, ⟨ver, rfl, rfl, rfl, hnp, fun h => h, Or.inl ⟨rfl, rfl⟩⟩,
          fun _ e he => (by cases he), fun _ => rfl⟩
    · have hnp : ¬ walk_pending ver target_epoch := by
        rintro (⟨h, -⟩ | ⟨h, -⟩ | ⟨h, -⟩)
        · exact h1 h
        · exact h1 h
        · exact h2 h
      exact Post.pure ⟨rfl, rfl, ⟨ver, rfl, rfl, rfl, hnp, fun h => h, Or.inl ⟨rfl, rfl⟩⟩,
        fun _ e he => (by cases he), fun _ => rfl⟩

theorem walk_rel_refl (target_epoch : Nat) (nv : nvoverlay_t) (hk : keys_ok nv.vtable) :
    walk_rel target_epoch nv (nv, []) :=
  ⟨rfl, rfl, hk, fun _ h => h, fun _ _ h _ => h, fun h => ⟨fun e he => (by cases he), h⟩⟩

theorem walk_rel_trans {target_epoch : Nat} {nv nv1 nv2 : nvoverlay_t}
    {log1 log2 : List (Nat × Nat)} (h1 : walk_rel target_epoch nv (nv1, log1))
    (h2 : walk_rel target_epoch nv1 (nv2, log2)) :
    walk_rel target_epoch nv (nv2, log1 ++ log2) := by
  obtain ⟨a1, a2, -, a4, a5, a6⟩ := h1
  obtain ⟨b1, b2, b3, b4, b5, b6⟩ := h2
  refine ⟨b1.trans a1, b2.trans a2, b3, fun x hx => b4 x (a4 x hx),
    fun x ver hx hp => b5 x ver (a5 x ver hx hp) hp, fun ho => ?_⟩
  obtain ⟨c1, c2⟩ := a6 ho
  obtain ⟨d1, d2⟩ := b6 c2
  refine ⟨fun e he => ?_, d2⟩
  rcases List.mem_append.mp he with h | h
  · exact c1 e h
  · exact d1 e h

/-- One step of the walk, on the slot that holds the pointer to the record of `ver_addr`. -/
theorem cpu_tag_walk_ver_log_rel (nv : nvoverlay_t) (id cycle target_epoch ver_addr : Nat)
    (hk : keys_ok nv.vtable) :
    Post (cpu_tag_walk_ver_log nv id cycle target_epoch ver_addr) (fun r =>
      walk_rel target_epoch nv r ∧
      ∀ ver, ht64_find r.1.vtable.vers ver_addr = some ver →
        ¬ walk_pending ver target_epoch) := by
  cases hf : ht64_find nv.vtable.vers ver_addr with
  | none =>
    unfold cpu_tag_walk_ver_log
    simp only [hf]
    exact Post.error
  | some ver =>
    refine Post.mono (cpu_tag_walk_ver_log_post nv id cycle target_epoch ver_addr ver hf) ?_
    rintro ⟨nv1, log1⟩ ⟨t1, t2, ⟨ver', e1, e2, e3, hnp, hord, hst⟩, hlog, hun⟩
    obtain ⟨ka, kw1, kw2⟩ := hk ver_addr ver hf
    have hfind : ∀ x, ht64_find nv1.vtable.vers x
        = if x = ver_addr then some ver' else ht64_find nv.vtable.vers x := by
      intro x
      rcases hst with ⟨s1, s2⟩ | s1
      · simp only at s1
        rw [s1, s2]
        by_cases hx : x = ver_addr
        · simp [hx, hf]
        · simp [hx]
      · simp only at s1
        rw [s1, ht64_find_store, ka]
    refine ⟨⟨t1, t2, ?_, ?_, ?_, ?_⟩, ?_⟩
    · intro k v hv
      rw [hfind] at hv
      by_cases hx : k = ver_addr
      · simp only [hx, if_true, Option.some.injEq] at hv
        subst hv
        rw [e1, e2, e3, hx]
        exact ⟨ka, kw1, kw2⟩
      · simp only [hx, if_false] at hv
        exact hk k v hv
    · intro x hx v hv
      rw [hfind] at hv
      by_cases hxa : x = ver_addr
      · simp only [hxa, if_true, Option.some.injEq] at hv
        subst hv
        exact hnp
      · simp only [hxa, if_false] at hv
        exact hx v hv
    · intro x v hv hp
      by_cases hxa : x = ver_addr
      · subst hxa
        rw [hf] at hv
        cases hv
        have := hun hp
        simp only [Prod.mk.injEq] at this
        rw [this.1]
        exact hf
      · rw [hfind]
        simp only [hxa, if_false]
        exact hv
    · intro ho
      refine ⟨hlog (ho _ _ hf), fun k v hv => ?_⟩
      rw [hfind] at hv
      by_cases hx : k = ver_addr
      · simp only [hx, if_true, Option.some.injEq] at hv
        subst hv
        exact hord (ho _ _ hf)
      · simp only [hx, if_false] at hv
        exact ho k v hv
    · intro v hv
      rw [hfind] at hv
      simp only [if_true, Option.some.injEq] at hv
      subst hv
      exact hnp

theorem cpu_tag_walk_loop_log_rel (id cycle target_epoch start : Nat) (l : List Nat)
    (nv : nvoverlay_t) (hk : keys_ok nv.vtable) :
    Post (cpu_tag_walk_loop_log id cycle target_epoch start l nv) (fun r =>
      walk_rel target_epoch nv r ∧
      ∀ j ∈ l, ∀ a, (nv.cpu.tag_arrays CPU_TAG_L2).tags (start + j) = some a →
        ∀ ver, ht64_find r.1.vtable.vers a = some ver → ¬ walk_pending ver target_epoch) := by
  induction l generalizing nv with
  | nil => exact Post.pure ⟨walk_rel_refl _ _ hk, fun j hj => by cases hj⟩
  | cons j rest ih =>
    cases ht : (nv.cpu.tag_arrays CPU_TAG_L2).tags (start + j) with
    | none =>
      simp only [cpu_tag_walk_loop_log, ht]
      refine Post.mono (ih nv hk) ?_
      rintro r ⟨r1, r2⟩
      refine ⟨r1, fun j' hj' a ha => ?_⟩
      rcases List.mem_cons.mp hj' with rfl | h
      · rw [ht] at ha; cases ha
      · exact r2 j' h a ha
    | some ver_addr =>
      simp only [cpu_tag_walk_loop_log, ht]
      refine Post.bind (cpu_tag_walk_ver_log_rel nv id cycle target_epoch ver_addr hk) ?_
      rintro ⟨nv1, log1⟩ ⟨s1, s2⟩
      refine Post.bind (ih nv1 s1.2.2.1) ?_
      rintro ⟨nv2, log2⟩ ⟨r1, r2⟩
      refine Post.pure ⟨walk_rel_trans s1 r1, fun j' hj' a ha => ?_⟩
      rcases List.mem_cons.mp hj' with rfl | h
      · rw [ht] at ha
        cases ha
        exact r1.2.2.2.1 _ s2
      · refine r2 j' h a ?_
        have : nv1.cpu.tag_arrays = nv.cpu.tag_arrays := s1.1
        rw [this]
        exact ha

theorem cpu_tag_walk_log_rel (nv : nvoverlay_t) (id cycle target_epoch : Nat)
    (hk : keys_ok nv.vtable) :
    Post (cpu_tag_walk_log nv id cycle target_epoch) (fun r =>
      walk_rel target_epoch nv r ∧
      ∀ a, tag_present nv.cpu CPU_TAG_L2 id a →
        ∀ ver, ht64_find r.1.vtable.vers a = some ver → ¬ walk_pending ver target_epoch) := by
  unfold cpu_tag_walk_log
  refine Post.bind (Post.trivial _) (fun _ _ => ?_)
  refine Post.mono (cpu_tag_walk_loop_log_rel _ _ _ _ _ nv hk) ?_
  rintro r ⟨r1, r2⟩
  refine ⟨r1, ?_⟩
  rintro a ⟨j, hj, hja⟩
  exact r2 j (List.mem_range.mpr hj) a hja

theorem cpu_tag_walk_loop_log_idle (id cycle target_epoch start : Nat) (l : List Nat)
    (nv : nvoverlay_t) (hz : ∀ ver, ¬ walk_pending ver target_epoch) :
    Post (cpu_tag_walk_loop_log id cycle target_epoch start l nv) (fun r => r = (nv, [])) := by
  induction l with
  | nil => exact Post.pure rfl
  | cons j rest ih =>
    cases ht : (nv.cpu.tag_arrays CPU_TAG_L2).tags (start + j) with
    | none =>
      simp only [cpu_tag_walk_loop_log, ht]
      exact ih
    | some ver_addr =>
      simp only [cpu_tag_walk_loop_log, ht]
      cases hf : ht64_find nv.vtable.vers ver_addr with
      | none =>
        have : cpu_tag_walk_ver_log nv id cycle target_epoch ver_addr
            = .error (.dangling 824) := by
          unfold cpu_tag_walk_ver_log
          simp only [hf]
        rw [this]
        exact Post.error
      | some ver =>
        refine Post.bind (cpu_tag_walk_ver_log_post nv id cycle target_epoch ver_addr ver hf) ?_
        rintro ⟨nv1, log1⟩ ⟨-, -, -, -, hun⟩
        have h1 := hun (hz ver)
        simp only [Prod.mk.injEq] at h1
        obtain ⟨rfl, rfl⟩ := h1
        refine Post.bind ih ?_
        rintro ⟨nv2, log2⟩ h2
        simp only [Prod.mk.injEq] at h2
        obtain ⟨rfl, rfl⟩ := h2
        exact Post.pure rfl

theorem except_map_fst_ok {m : Except Abort (nvoverlay_t × List (Nat × Nat))}
    {nv' : nvoverlay_t} (h : Except.map Prod.fst m = .ok nv') :
    ∃ log, m = .ok (nv', log) := by
  cases m with
  | error e => cases h
  | ok r =>
    obtain ⟨a, b⟩ := r
    cases h
    exact ⟨b, rfl⟩

theorem keys_ok_one_store : keys_ok nv_one_store.vtable ∧
    ∀ k v, ht64_find nv_one_store.vtable.vers k = some v → ver_order v := by
  have hn : nv_one_store.vtable.vers.nodes = [(0x1000, ver_one_store)] := rfl
  have hfind : ∀ k v, ht64_find nv_one_store.vtable.vers k = some v →
      k = 0x1000 ∧ v = ver_one_store := by
    intro k v h
    unfold ht64_find at h
    rw [hn] at h
    simp only [alist_find] at h
    split at h
    · rename_i hk
      cases h
      exact ⟨hk.symm, rfl⟩
    · cases h
  refine ⟨fun k v h => ?_, fun k v h => ?_⟩
  · obtain ⟨rfl, rfl⟩ := hfind k v h
    refine ⟨rfl, ?_, ?_⟩ <;> (unfold bitmap64_wf; decide)
  · obtain ⟨-, rfl⟩ := hfind k v h
    intro _ h2
    cases h2

/-- C15 (tag-walk postcondition): when every record is filed under its own line address, after
a call `cpu_tag_walk(core, target_epoch)` that returns, no record held in a slot of that core's
L2 tag array is still owned with a dirty version below `target_epoch`: none has `owner = L1`
with `l1_ver < target_epoch`, none has `owner = L1` with `l2_state = M` and
`l2_ver < target_epoch`, and none has `owner = L2` with `l2_ver < target_epoch`. -/
theorem tag_walk_postcondition (nv : nvoverlay_t) (id cycle target_epoch : Nat)
    (nv' : nvoverlay_t) (hk : keys_ok nv.vtable)
    (h : cpu_tag_walk nv id cycle target_epoch = .ok nv') :
    ∀ a ver, tag_present nv'.cpu CPU_TAG_L2 id a → ht64_find nv'.vtable.vers a = some ver →
      ¬ (ver.owner = OWNER_L1 ∧ ver.l1_ver < target_epoch) ∧
      ¬ (ver.owner = OWNER_L1 ∧ ver.l2_state = STATE_M ∧ ver.l2_ver < target_epoch) ∧
      ¬ (ver.owner = OWNER_L2 ∧ ver.l2_ver < target_epoch) := by
  obtain ⟨log, hl⟩ := except_map_fst_ok ((cpu_tag_walk_log_fst nv id cycle target_epoch).trans h)
  obtain ⟨r1, r2⟩ := cpu_tag_walk_log_rel nv id cycle target_epoch hk _ hl
  intro a ver hp hf
  have ht : nv'.cpu.tag_arrays = nv.cpu.tag_arrays := r1.1
  have hnp := r2 a ((tag_present_congr (congrFun ht CPU_TAG_L2) id a).mp hp) ver hf
  exact ⟨fun c => hnp (Or.inl c), fun c => hnp (Or.inr (Or.inl c)),
    fun c => hnp (Or.inr (Or.inr c))⟩

/-- Witness for C15: after `store(0, 0x1000, 0)` the record of `0x1000` is owned by the L1 of
core 0 with `l1_ver = 0`; the walk of core 0 towards epoch 1 returns, and the theorem applies
to its result. -/
theorem tag_walk_postcondition_witness :
    (ht64_find nv_one_store.vtable.vers 0x1000).map (fun ver => (ver.owner, ver.l1_ver))
      = some (OWNER_L1, 0) ∧
    cpu_tag_walk nv_one_store 0 0 1 = .ok nv_one_store_walked.1 ∧
    ∀ a ver, tag_present nv_one_store_walked.1.cpu CPU_TAG_L2 0 a →
      ht64_find nv_one_store_walked.1.vtable.vers a = some ver →
      ¬ (ver.owner = OWNER_L1 ∧ ver.l1_ver < 1) ∧
      ¬ (ver.owner = OWNER_L1 ∧ ver.l2_state = STATE_M ∧ ver.l2_ver < 1) ∧
      ¬ (ver.owner = OWNER_L2 ∧ ver.l2_ver < 1) :=
  ⟨rfl, rfl, tag_walk_postcondition nv_one_store 0 0 1 nv_one_store_walked.1
    keys_ok_one_store.1 rfl⟩

/-- C16 (the tag walk only flushes strictly older versions): when every record is filed under
its own line address and is version-ordered, a call `cpu_tag_walk(core, target_epoch)` that
returns has made `tag_walk_cb` calls (the log of `cpu_tag_walk_log`) that all carry a version
strictly below `target_epoch`, and a record none of whose dirty versions is below
`target_epoch` is left unchanged; with `target_epoch = 0` the walk makes no call and returns
the state it started in. -/
theorem tag_walk_flushes_older (nv : nvoverlay_t) (id cycle target_epoch : Nat)
    (nv' : nvoverlay_t) (hk : keys_ok nv.vtable)
    (ho : ∀ k v, ht64_find nv.vtable.vers k = some v → ver_order v)
    (h : cpu_tag_walk nv id cycle target_epoch = .ok nv') :
    ∃ log, cpu_tag_walk_log nv id cycle target_epoch = .ok (nv', log) ∧
      (∀ e ∈ log, e.2 < target_epoch) ∧
      (∀ a ver, ht64_find nv.vtable.vers a = some ver → ¬ walk_pending ver target_epoch →
        ht64_find nv'.vtable.vers a = some ver) ∧
      (target_epoch = 0 → log = [] ∧ nv' = nv) := by
  obtain ⟨log, hl⟩ := except_map_fst_ok ((cpu_tag_walk_log_fst nv id cycle target_epoch).trans h)
  obtain ⟨r1, -⟩ := cpu_tag_walk_log_rel nv id cycle target_epoch hk _ hl
  refine ⟨log, hl, (r1.2.2.2.2.2 ho).1, r1.2.2.2.2.1, fun hz => ?_⟩
  subst hz
  have hidle : Post (cpu_tag_walk_log nv id cycle 0) (fun r => r = (nv, [])) := by
    unfold cpu_tag_walk_log
    refine Post.bind (Post.trivial _) (fun _ _ => ?_)
    apply cpu_tag_walk_loop_log_idle
    rintro ver (⟨-, c⟩ | ⟨-, -, c⟩ | ⟨-, c⟩) <;> exact Nat.not_lt_zero _ c
  have := hidle _ hl
  simp only [Prod.mk.injEq] at this
  exact ⟨this.2, this.1⟩

/-- Witness for C16: in the state after `store(0, 0x1000, 0)` the walk of core 0 towards
epoch 1 returns; its log is the single writeback of version 0 of line `0x1000`. -/
theorem tag_walk_flushes_older_witness :
    cpu_tag_walk nv_one_store 0 0 1 = .ok nv_one_store_walked.1 ∧
    nv_one_store_walked.2 = [(0x1000, 0)] ∧
    ∃ log, cpu_tag_walk_log nv_one_store 0 0 1 = .ok (nv_one_store_walked.1, log) ∧
      (∀ e ∈ log, e.2 < 1) ∧
      (∀ a ver, ht64_find nv_one_store.vtable.vers a = some ver → ¬ walk_pending ver 1 →
        ht64_find nv_one_store_walked.1.vtable.vers a = some ver) ∧
      ((1 : Nat) = 0 → log = [] ∧ nv_one_store_walked.1 = nv_one_store) :=
  ⟨rfl, rfl, tag_walk_flushes_older nv_one_store 0 0 1 nv_one_store_walked.1
    keys_ok_one_store.1 keys_ok_one_store.2 rfl⟩

/-! ## C19, C20: stores to a line owned elsewhere -/

theorem except_ok_bind {α β : Type} (a : α) (f : α → Except Abort β) :
    (Except.ok a : Except Abort α) >>= f = f a := rfl

theorem store_case3_script (nv : nvoverlay_t) (addr c epoch cycle : Nat) (vtable : vtable_t)
    (ver : ver_t) (hi : vtable_insert nv.vtable addr = .ok (vtable, ver))
    (ho : ver.owner = OWNER_OTHER) :
    vtable_l1_store nv addr c epoch cycle = (do
      let nv1 ← nvoverlay_vtable_core_tag_cb { nv with vtable := vtable } CPU_TAG_OP_SET
        CPU_TAG_L1 c
        { ver with owner := OWNER_L1, l1_state := STATE_M, l1_ver := epoch,
                   l2_state := STATE_S, l2_ver := ver.other_ver }
      let nv2 ← nvoverlay_vtable_core_tag_cb nv1 CPU_TAG_OP_SET CPU_TAG_L2 c
        { ver with owner := OWNER_L1, l1_state := STATE_M, l1_ver := epoch,
                   l2_state := STATE_S, l2_ver := ver.other_ver,
                   l1_bitmap := bitmap64_add bitmap64_clear c }
      let nv3 ← nvoverlay_vtable_core_recv_cb nv2 c ver.other_ver
      pure (vtable_commit nv3
        { ver with owner := OWNER_L1, l1_state := STATE_M, l1_ver := epoch,
                   l2_state := STATE_S, l2_ver := ver.other_ver,
                   l1_bitmap := bitmap64_add bitmap64_clear c,
                   l2_bitmap := bitmap64_add bitmap64_clear c })) := by
  unfold vtable_l1_store
  rw [hi]
  have h1 : ¬ (ver.owner = OWNER_L1 ∧ vtable_l1_sharer ver = (c : Int)) := by
    rw [ho]; rintro ⟨h, -⟩; cases h
  have h2 : ¬ (ver.owner = OWNER_L2 ∧ vtable_l2_sharer ver = (c : Int)) := by
    rw [ho]; rintro ⟨h, -⟩; cases h
  simp only [except_ok_bind]
  rw [if_neg h1, if_neg h2, if_pos ho]
  simp only [vtable_l1_set_ver, vtable_l2_set_ver, bind_assoc, pure_bind]

/-- The tag callback and the receive callback only touch the processor; the tag callback
leaves the cores as they are. -/
theorem tag_cb_cores (nv : nvoverlay_t) (op : cpu_tag_op_t) (level id : Nat) (ver : ver_t) :
    Post (nvoverlay_vtable_core_tag_cb nv op level id ver) (fun nv1 =>
      nv1.cpu.cores = nv.cpu.cores ∧ cpu_only nv nv1) := by
  refine Post.mono (nvoverlay_vtable_core_tag_cb_post _ _ _ _ _) ?_
  rintro nv1 ⟨cpu, hc, rfl⟩
  exact ⟨(cpu_tag_op_frame _ _ _ _ _ _ hc).1, rfl, rfl, rfl, rfl, rfl, rfl, rfl⟩

theorem recv_cb_epoch (nv : nvoverlay_t) (id version : Nat) :
    Post (nvoverlay_vtable_core_recv_cb nv id version) (fun nv1 =>
      (nv1.cpu.cores id).epoch = max (nv.cpu.cores id).epoch version ∧ cpu_only nv nv1) := by
  refine Post.mono (nvoverlay_vtable_core_recv_cb_post _ _ _) ?_
  rintro nv1 ⟨cpu, hc, rfl⟩
  exact ⟨(cpu_core_recv_post _ _ _ _ hc).2.2.2.2, rfl, rfl, rfl, rfl, rfl, rfl, rfl⟩

theorem cpu_only_trans {nv nv1 nv2 : nvoverlay_t} (h1 : cpu_only nv nv1)
    (h2 : cpu_only nv1 nv2) : cpu_only nv nv2 := by
  unfold cpu_only at *
  refine ⟨h2.1.trans h1.1, h2.2.1.trans h1.2.1, h2.2.2.1.trans h1.2.2.1,
    h2.2.2.2.1.trans h1.2.2.2.1, h2.2.2.2.2.1.trans h1.2.2.2.2.1,
    h2.2.2.2.2.2.1.trans h1.2.2.2.2.2.1, h2.2.2.2.2.2.2.trans h1.2.2.2.2.2.2⟩

/-- C20 (store case 3): when the record that `vtable_insert` hands out for the line has
`owner = OTHER`, `vtable_l1_store(addr, c, epoch)` is the tag operation SET for core `c` at L1
and at L2, the signal `core_recv(c, other_ver)` and nothing else (no eviction); the record it
files has `owner = L1`, `l1_state = M`, `l1_ver = epoch`, `l2_state = S`,
`l2_ver = other_ver` and both sharer sets equal to `{c}`.  When the store returns, the record
is filed under its address, the OMC buffer, the overlay and both eviction counters are as
before, and the epoch of core `c` is the larger of its old epoch and `other_ver`. -/
theorem store_case3 (nv : nvoverlay_t) (addr c epoch cycle : Nat) (vtable : vtable_t)
    (ver : ver_t) (hi : vtable_insert nv.vtable addr = .ok (vtable, ver))
    (ho : ver.owner = OWNER_OTHER) (hc : c < CORE_COUNT_MAX) :
    ∃ ver', ver' = { ver with owner := OWNER_L1, l1_state := STATE_M, l1_ver := epoch,
                              l2_state := STATE_S, l2_ver := ver.other_ver,
                              l1_bitmap := bitmap64_add bitmap64_clear c,
                              l2_bitmap := bitmap64_add bitmap64_clear c } ∧
      sharers_single ver'.l1_bitmap c ∧ sharers_single ver'.l2_bitmap c ∧
      vtable_l1_store nv addr c epoch cycle = (do
        let nv1 ← nvoverlay_vtable_core_tag_cb { nv with vtable := vtable } CPU_TAG_OP_SET
          CPU_TAG_L1 c { ver' with l1_bitmap := ver.l1_bitmap, l2_bitmap := ver.l2_bitmap }
        let nv2 ← nvoverlay_vtable_core_tag_cb nv1 CPU_TAG_OP_SET CPU_TAG_L2 c
          { ver' with l2_bitmap := ver.l2_bitmap }
        let nv3 ← nvoverlay_vtable_core_recv_cb nv2 c ver.other_ver
        pure (vtable_commit nv3 ver')) ∧
      ∀ nv', vtable_l1_store nv addr c epoch cycle = .ok nv' →
        ht64_find nv'.vtable.vers ver.addr = some ver' ∧
        nv'.omcbuf = nv.omcbuf ∧ nv'.overlay = nv.overlay ∧
        nv'.evict_omc_count = nv.evict_omc_count ∧
        nv'.evict_llc_count = nv.evict_llc_count ∧
        (nv'.cpu.cores c).epoch = max (nv.cpu.cores c).epoch ver.other_ver := by
  refine ⟨_, rfl, sharers_single_add_clear hc, sharers_single_add_clear hc,
    store_case3_script nv addr c epoch cycle vtable ver hi ho, ?_⟩
  rw [store_case3_script nv addr c epoch cycle vtable ver hi ho]
  refine Post.bind (tag_cb_cores _ _ _ _ _) ?_
  rintro nv1 ⟨a1, a2⟩
  refine Post.bind (tag_cb_cores _ _ _ _ _) ?_
  rintro nv2 ⟨b1, b2⟩
  refine Post.bind (recv_cb_epoch _ _ _) ?_
  rintro nv3 ⟨c1, c2⟩
  refine Post.pure ?_
  obtain ⟨k1, k2, -, -, -, k6, k7⟩ := cpu_only_trans (cpu_only_trans a2 b2) c2
  refine ⟨?_, k1, k2, k6, k7, ?_⟩
  · simp [vtable_commit, ht64_find_store]
  · show (nv3.cpu.cores c).epoch = _
    rw [c1, b1, a1]

/-- Witness for C20: the first store of core 0 to line `0x1000` meets a fresh record, whose
owner is `OTHER`, so the theorem applies.  With `epoch_size = 2`, after `store(0, 0x1000, 0)`
and `store(0, 0x1000, 1)` the record has `owner = L1`, `l1_ver = 0`, `l2_state = S`,
`l2_ver = 0`, and the OMC buffer has seen no insertion. -/
theorem store_case3_witness :
    (nvoverlay_trace_driven_engine conf_epoch_two [.store 0 0x1000 0, .store 0 0x1000 1]).map
      (fun nv => (ver_record nv 0x1000, evict_view nv))
      = .ok (some { addr := 0x1000, owner := OWNER_L1, l1_state := STATE_M,
                    l2_state := STATE_S, l1_ver := 0, l2_ver := 0, other_ver := 0,
                    l1_bitmap := ⟨1⟩, l2_bitmap := ⟨1⟩ }, 0, 0, 0) ∧
    ∃ ver', sharers_single ver'.l1_bitmap 0 ∧ sharers_single ver'.l2_bitmap 0 ∧
      ∀ nv', vtable_l1_store nv_one_core 0x1000 0 0 0 = .ok nv' →
        ht64_find nv'.vtable.vers 0x1000 = some ver' ∧
        nv'.omcbuf = nv_one_core.omcbuf ∧ nv'.overlay = nv_one_core.overlay ∧
        nv'.evict_omc_count = nv_one_core.evict_omc_count ∧
        nv'.evict_llc_count = nv_one_core.evict_llc_count ∧
        (nv'.cpu.cores 0).epoch = max (nv_one_core.cpu.cores 0).epoch 0 :=
  ⟨rfl,
    match store_case3 nv_one_core 0x1000 0 0 0
      { vers := (ht64_insert nv_one_core.vtable.vers 0x1000
          { ver_init with addr := 0x1000, owner := OWNER_OTHER }).1 }
      { ver_init with addr := 0x1000, owner := OWNER_OTHER } rfl rfl (by decide) with
    | ⟨ver', _, h1, h2, _, h3⟩ => ⟨ver', h1, h2, h3⟩⟩

theorem bitmap64_popcount_single {b : bitmap64_t} {c : Nat} (hw : bitmap64_wf b)
    (h : sharers_single b c) : bitmap64_popcount b = 1 := by
  have hc : c < 64 := bitmap64_is_set_lt hw ((h c).2 rfl)
  unfold bitmap64_popcount bitmap64_members
  have e : (List.range 64).filter (fun i => b.x.testBit i)
      = (List.range 64).filter (fun i => decide (i = c)) := by
    apply List.filter_congr
    intro i _
    have := h i
    simp only [bitmap64_is_set] at this
    by_cases hi : i = c
    · subst hi
      simp [this.2 rfl]
    · have : b.x.testBit i = false := by
        cases ht : b.x.testBit i
        · rfl
        · exact absurd (this.1 ht) hi
      simp [hi, this]
  rw [e, ← List.countP_eq_length_filter]
  have : (List.range 64).countP (fun i => decide (i = c)) = (List.range 64).count c := by
    unfold List.count
    congr 1
  rw [this]
  exact List.count_eq_one_of_mem (List.nodup_range 64) (List.mem_range.mpr hc)

theorem store_case4_script (nv : nvoverlay_t) (addr c epoch cycle : Nat) (vtable : vtable_t)
    (ver : ver_t) (hi : vtable_insert nv.vtable addr = .ok (vtable, ver))
    (ho : ver.owner = OWNER_L1) (hs : vtable_l1_sharer ver ≠ (c : Int)) :
    vtable_l1_store nv addr c epoch cycle = (do
      c_assert (vtable_l1_sharer ver != (c : Int)) 1128
      c_assert (ver.l1_state == STATE_M && ver.l2_state != STATE_I) 1129
      c_assert (vtable_l1_num_sharer ver == 1 && vtable_l2_num_sharer ver == 1) 1130
      c_assert (vtable_l1_sharer ver == vtable_l2_sharer ver) 1131
      let nv1 ←
        (if ver.l2_state = STATE_M ∧ ver.l2_ver ≠ ver.l1_ver then do
          c_assert (decide (ver.l2_ver < ver.l1_ver)) 1134
          vtable_evict_wrapper { nv with vtable := vtable } ver.addr (vtable_l1_sharer ver)
            ver.l2_ver cycle EVICT_OMC
        else pure { nv with vtable := vtable } : Except Abort nvoverlay_t)
      let nv2 ← nvoverlay_vtable_core_tag_cb nv1 CPU_TAG_OP_SET CPU_TAG_L1 c
        { ver with l2_ver := ver.l1_ver, owner := OWNER_L1, l1_state := STATE_M,
                   l1_ver := epoch, l2_state := STATE_M }
      let nv3 ← nvoverlay_vtable_core_tag_cb nv2 CPU_TAG_OP_SET CPU_TAG_L2 c
        { ver with l2_ver := ver.l1_ver, owner := OWNER_L1, l1_state := STATE_M,
                   l1_ver := epoch, l2_state := STATE_M,
                   l1_bitmap := bitmap64_add bitmap64_clear c }
      let nv4 ← nvoverlay_vtable_core_recv_cb nv3 c ver.l1_ver
      pure (vtable_commit nv4
        { ver with l2_ver := ver.l1_ver, owner := OWNER_L1, l1_state := STATE_M,
                   l1_ver := epoch, l2_state := STATE_M,
                   l1_bitmap := bitmap64_add bitmap64_clear c,
                   l2_bitmap := bitmap64_add bitmap64_clear c })) := by
  unfold vtable_l1_store
  rw [hi]
  have h1 : ¬ (ver.owner = OWNER_L1 ∧ vtable_l1_sharer ver = (c : Int)) := fun h => hs h.2
  have h2 : ¬ (ver.owner = OWNER_L2 ∧ vtable_l2_sharer ver = (c : Int)) := by
    rw [ho]; rintro ⟨h, -⟩; cases h
  have h3 : ¬ ver.owner = OWNER_OTHER := by
    rw [ho]; intro h; cases h
  simp only [except_ok_bind]
  rw [if_neg h1, if_neg h2, if_neg h3, if_pos ho]
  simp only [vtable_l1_set_ver, vtable_l2_set_ver, bind_assoc, pure_bind]

theorem except_bind_ok {α β : Type} {m : Except Abort α} {f : α → Except Abort β} {b : β}
    (h : m >>= f = .ok b) : ∃ a, m = .ok a ∧ f a = .ok b := by
  cases m with
  | error e => cases h
  | ok a => exact ⟨a, rfl, h⟩

theorem c_assert_bind_ok {β : Type} {c : Bool} {line : Nat} {f : Unit → Except Abort β} {b : β}
    (h : c_assert c line >>= f = .ok b) : c = true ∧ f () = .ok b := by
  cases c with
  | false => cases h
  | true => exact ⟨rfl, h⟩

theorem evict_cb_cpu (nv : nvoverlay_t) (addr : Nat) (id : Int) (version cycle : Nat)
    (evict_type : evict_type_t) :
    Post (vtable_evict_wrapper nv addr id version cycle evict_type)
      (fun nv1 => nv1.cpu = nv.cpu) := by
  refine Post.mono (nvoverlay_vtable_evict_cb_frame nv addr id version cycle evict_type) ?_
  intro nv1 h
  exact h.1

/-- C19 (store case 4): when the record that `vtable_insert` hands out for the line has
`owner = L1` and is held by a core other than the storing core `c`, a call
`vtable_l1_store(addr, c, epoch)` that returns has made these calls in turn: the eviction of
the old `l2_ver` with kind `EVICT_OMC`, exactly when the old `l2_state` was `M` with
`l2_ver ≠ l1_ver`; the tag operation SET for core `c` at L1 and at L2; the signal
`core_recv(c, old l1_ver)`.  The record it files has `owner = L1`, `l1_state = M`,
`l1_ver = epoch`, `l2_state = M`, `l2_ver` = the old `l1_ver`, and both sharer sets equal to
`{c}`; the epoch of core `c` is the larger of its old epoch and the old `l1_ver`.  For a
record that satisfies (I1) and the version order, no assertion of the store fails: the store
is that sequence of calls. -/
theorem store_case4 (nv : nvoverlay_t) (addr c epoch cycle : Nat) (vtable : vtable_t)
    (ver : ver_t) (hi : vtable_insert nv.vtable addr = .ok (vtable, ver))
    (ho : ver.owner = OWNER_L1) (hs : vtable_l1_sharer ver ≠ (c : Int))
    (hc : c < CORE_COUNT_MAX) :
    ∃ ver', ver' = { ver with l2_ver := ver.l1_ver, owner := OWNER_L1, l1_state := STATE_M,
                              l1_ver := epoch, l2_state := STATE_M,
                              l1_bitmap := bitmap64_add bitmap64_clear c,
                              l2_bitmap := bitmap64_add bitmap64_clear c } ∧
      sharers_single ver'.l1_bitmap c ∧ sharers_single ver'.l2_bitmap c ∧
      (∀ nv', vtable_l1_store nv addr c epoch cycle = .ok nv' →
        ∃ nv1 nv2 nv3 nv4,
          (if ver.l2_state = STATE_M ∧ ver.l2_ver ≠ ver.l1_ver then
              vtable_evict_wrapper { nv with vtable := vtable } ver.addr (vtable_l1_sharer ver)
                ver.l2_ver cycle EVICT_OMC
            else pure { nv with vtable := vtable }) = .ok nv1 ∧
          nvoverlay_vtable_core_tag_cb nv1 CPU_TAG_OP_SET CPU_TAG_L1 c
            { ver' with l1_bitmap := ver.l1_bitmap, l2_bitmap := ver.l2_bitmap } = .ok nv2 ∧
          nvoverlay_vtable_core_tag_cb nv2 CPU_TAG_OP_SET CPU_TAG_L2 c
            { ver' with l2_bitmap := ver.l2_bitmap } = .ok nv3 ∧
          nvoverlay_vtable_core_recv_cb nv3 c ver.l1_ver = .ok nv4 ∧
          nv' = vtable_commit nv4 ver' ∧
          ht64_find nv'.vtable.vers ver.addr = some ver' ∧
          (nv'.cpu.cores c).epoch = max (nv.cpu.cores c).epoch ver.l1_ver) ∧
      (rec_ok ver → ver_order ver →
        vtable_l1_store nv addr c epoch cycle = (do
          let nv1 ←
            (if ver.l2_state = STATE_M ∧ ver.l2_ver ≠ ver.l1_ver then
              vtable_evict_wrapper { nv with vtable := vtable } ver.addr (vtable_l1_sharer ver)
                ver.l2_ver cycle EVICT_OMC
            else pure { nv with vtable := vtable } : Except Abort nvoverlay_t)
          let nv2 ← nvoverlay_vtable_core_tag_cb nv1 CPU_TAG_OP_SET CPU_TAG_L1 c
            { ver' with l1_bitmap := ver.l1_bitmap, l2_bitmap := ver.l2_bitmap }
          let nv3 ← nvoverlay_vtable_core_tag_cb nv2 CPU_TAG_OP_SET CPU_TAG_L2 c
            { ver' with l2_bitmap := ver.l2_bitmap }
          let nv4 ← nvoverlay_vtable_core_recv_cb nv3 c ver.l1_ver
          pure (vtable_commit nv4 ver'))) := by
  refine ⟨_, rfl, sharers_single_add_clear hc, sharers_single_add_clear hc, ?_, ?_⟩
  · intro nv' h
    rw [store_case4_script nv addr c epoch cycle vtable ver hi ho hs] at h
    obtain ⟨-, h⟩ := c_assert_bind_ok h
    obtain ⟨-, h⟩ := c_assert_bind_ok h
    obtain ⟨-, h⟩ := c_assert_bind_ok h
    obtain ⟨-, h⟩ := c_assert_bind_ok h
    obtain ⟨nv1, e1, h⟩ := except_bind_ok h
    obtain ⟨nv2, e2, h⟩ := except_bind_ok h
    obtain ⟨nv3, e3, h⟩ := except_bind_ok h
    obtain ⟨nv4, e4, h⟩ := except_bind_ok h
    cases h
    have e1' : (if ver.l2_state = STATE_M ∧ ver.l2_ver ≠ ver.l1_ver then
          vtable_evict_wrapper { nv with vtable := vtable } ver.addr (vtable_l1_sharer ver)
            ver.l2_ver cycle EVICT_OMC
        else pure { nv with vtable := vtable }) = .ok nv1 := by
      by_cases hcnd : ver.l2_state = STATE_M ∧ ver.l2_ver ≠ ver.l1_ver
      · rw [if_pos hcnd] at e1 ⊢
        exact (c_assert_bind_ok e1).2
      · rw [if_neg hcnd] at e1 ⊢
        exact e1
    have k1 : nv1.cpu = nv.cpu := by
      by_cases hcnd : ver.l2_state = STATE_M ∧ ver.l2_ver ≠ ver.l1_ver
      · rw [if_pos hcnd] at e1'
        exact evict_cb_cpu { nv with vtable := vtable } _ _ _ _ _ _ e1'
      · rw [if_neg hcnd] at e1'
        cases e1'
        rfl
    have k2 := (tag_cb_cores _ _ _ _ _ _ e2).1
    have k3 := (tag_cb_cores _ _ _ _ _ _ e3).1
    have k4 := (recv_cb_epoch _ _ _ _ e4).1
    refine ⟨nv1, nv2, nv3, nv4, e1', e2, e3, e4, rfl, ?_, ?_⟩
    · simp [vtable_commit, ht64_find_store]
    · show (nv4.cpu.cores c).epoch = _
      rw [k4, k3, k2, k1]
  · intro hr hord
    rw [store_case4_script nv addr c epoch cycle vtable ver hi ho hs]
    obtain ⟨w1, w2, hown⟩ := hr
    obtain ⟨hM, ⟨c', s1, s2⟩, hl2⟩ := hown.1 ho
    have a1 : (vtable_l1_sharer ver != (c : Int)) = true := by simpa using hs
    have a2 : (ver.l1_state == STATE_M && ver.l2_state != STATE_I) = true := by
      rw [hM]
      rcases hl2 with h | h <;> rw [h] <;> decide
    have a3 : (vtable_l1_num_sharer ver == 1 && vtable_l2_num_sharer ver == 1) = true := by
      unfold vtable_l1_num_sharer vtable_l2_num_sharer
      rw [bitmap64_popcount_single w1 s1, bitmap64_popcount_single w2 s2]
      decide
    have a4 : (vtable_l1_sharer ver == vtable_l2_sharer ver) = true := by
      unfold vtable_l1_sharer vtable_l2_sharer
      rw [sharers_single_first w1 s1, sharers_single_first w2 s2]
      simp
    rw [a1, a2, a3, a4]
    simp only [c_assert_true, except_ok_bind]
    by_cases hcnd : ver.l2_state = STATE_M ∧ ver.l2_ver ≠ ver.l1_ver
    · have a5 : decide (ver.l2_ver < ver.l1_ver) = true := by
        have := hord hM hcnd.1
        have := hcnd.2
        simp only [decide_eq_true_eq]
        omega
      rw [if_pos hcnd, if_pos hcnd, a5]
      simp only [c_assert_true, except_ok_bind]
    · rw [if_neg hcnd, if_neg hcnd]

/-- Witness for C19: with two cores, after `store(0, 0x2000, 0)` the record of `0x2000` is
owned by the L1 of core 0, so the theorem applies to the store of core 1.  After
`store(0, 0x2000, 0)` and `store(1, 0x2000, 1)` the record has `owner = L1`, `l1_ver = 0`,
both sharer sets `{1}`, and the epoch of core 1 is still 0. -/
theorem store_case4_witness :
    (nvoverlay_trace_driven_engine conf_two_cores [.store 0 0x2000 0, .store 1 0x2000 1]).map
      (fun nv => (ver_record nv 0x2000, (nv.cpu.cores 1).epoch, evict_view nv))
      = .ok (some { addr := 0x2000, owner := OWNER_L1, l1_state := STATE_M,
                    l2_state := STATE_M, l1_ver := 0, l2_ver := 0, other_ver := 0,
                    l1_bitmap := ⟨2⟩, l2_bitmap := ⟨2⟩ }, 0, 0, 0, 0) ∧
    ∃ ver', sharers_single ver'.l1_bitmap 1 ∧ sharers_single ver'.l2_bitmap 1 ∧
      ∀ nv', vtable_l1_store nv_two_cores_store 0x2000 1 0 1 = .ok nv' →
        ht64_find nv'.vtable.vers 0x2000 = some ver' ∧
        (nv'.cpu.cores 1).epoch = max (nv_two_cores_store.cpu.cores 1).epoch 0 :=
  ⟨rfl,
    match store_case4 nv_two_cores_store 0x2000 1 0 1 nv_two_cores_store.vtable
      { addr := 0x2000, owner := OWNER_L1, l1_state := STATE_M, l2_state := STATE_S,
        l1_ver := 0, l2_ver := 0, other_ver := 0, l1_bitmap := ⟨1⟩, l2_bitmap := ⟨1⟩ }
      rfl rfl (by decide) (by decide) with
    | ⟨ver', _, h1, h2, h3, _⟩ =>
      ⟨ver', h1, h2, fun nv' h =>
        match h3 nv' h with
        | ⟨_, _, _, _, _, _, _, _, _, k1, k2⟩ => ⟨k1, k2⟩⟩⟩

/-! ## C17, C18: operations that take the line away from its owner -/

/-- C17, the code at the failing input: core 0 stores to `0x1000` twice (its epoch becomes 1)
and then to `0x2000`, so the record of `0x2000` is owned by the L1 of core 0 with
`l1_ver = 1`, `l2_ver = 0`.  The load of core 1 (case 3.2) transfers the ownership and adds
core 1 to both sharer sets, but leaves states and versions of the record as they were:
`l1_state = M` and `l2_ver = 0`, where `other_ver = 1`. -/
theorem load_case32_keeps_states :
    (nvoverlay_trace_driven_engine conf_two_cores
        [.store 0 0x1000 0, .store 0 0x1000 1, .store 0 0x2000 2]).map
      (fun nv => ver_record nv 0x2000)
      = .ok (some { addr := 0x2000, owner := OWNER_L1, l1_state := STATE_M,
                    l2_state := STATE_S, l1_ver := 1, l2_ver := 0, other_ver := 0,
                    l1_bitmap := ⟨1⟩, l2_bitmap := ⟨1⟩ }) ∧
    (nvoverlay_trace_driven_engine conf_two_cores
        [.store 0 0x1000 0, .store 0 0x1000 1, .store 0 0x2000 2, .load 1 0x2000 3]).map
      (fun nv => (ver_record nv 0x2000, evict_view nv))
      = .ok (some { addr := 0x2000, owner := OWNER_OTHER, l1_state := STATE_M,
                    l2_state := STATE_S, l1_ver := 1, l2_ver := 0, other_ver := 1,
                    l1_bitmap := ⟨3⟩, l2_bitmap := ⟨3⟩ }, 1, 1, 1) := by
  refine ⟨?_, ?_⟩ <;> rfl

/-- C18, the code at the failing input: with two cores, after `store(0, 0x3000, 0)` the record
of `0x3000` is owned by the L1 of core 0.  The event `l3_evict(0, 0x3000, 1)` writes the line
back once, leaves `owner = OTHER` and empties both sharer sets; the event
`l3_evict(1, 0x3000, 1)`, which carries the other core, fails the assertion
`vtable_l2_has_ver(ver, id)` of `vtable_l2_eviction` at line 1228. -/
theorem l3_eviction_depends_on_id :
    (nvoverlay_trace_driven_engine conf_two_cores [.store 0 0x3000 0]).map
      (fun nv => ver_record nv 0x3000)
      = .ok (some { addr := 0x3000, owner := OWNER_L1, l1_state := STATE_M,
                    l2_state := STATE_S, l1_ver := 0, l2_ver := 0, other_ver := 0,
                    l1_bitmap := ⟨1⟩, l2_bitmap := ⟨1⟩ }) ∧
    (nvoverlay_trace_driven_engine conf_two_cores
        [.store 0 0x3000 0, .l3_evict 0 0x3000 1]).map
      (fun nv => (ver_record nv 0x3000, evict_view nv))
      = .ok (some { addr := 0x3000, owner := OWNER_OTHER, l1_state := STATE_M,
                    l2_state := STATE_S, l1_ver := 0, l2_ver := 0, other_ver := 0,
                    l1_bitmap := ⟨0⟩, l2_bitmap := ⟨0⟩ }, 1, 1, 1) ∧
    abort_of (nvoverlay_trace_driven_engine conf_two_cores
        [.store 0 0x3000 0, .l3_evict 1 0x3000 1]) = some (.assert_fail 1228) := by
  refine ⟨?_, ?_, ?_⟩ <;> rfl

/-! ## C21, C22: loads -/

theorem load_case31_script (nv : nvoverlay_t) (addr c epoch cycle : Nat) (vtable : vtable_t)
    (ver : ver_t) (hi : vtable_insert nv.vtable addr = .ok (vtable, ver))
    (ho : ver.owner = OWNER_OTHER) (h1 : vtable_l1_has_ver ver c = false)
    (h2 : vtable_l2_has_ver ver c = false) :
    vtable_l1_load nv addr c epoch cycle = (do
      let nv1 ← nvoverlay_vtable_core_tag_cb { nv with vtable := vtable } CPU_TAG_OP_ADD
        CPU_TAG_L1 c
        { ver with l1_ver := ver.other_ver, l2_ver := ver.other_ver,
                   l1_state := STATE_S, l2_state := STATE_S }
      let nv2 ← nvoverlay_vtable_core_tag_cb nv1 CPU_TAG_OP_ADD CPU_TAG_L2 c
        { ver with l1_ver := ver.other_ver, l2_ver := ver.other_ver,
                   l1_state := STATE_S, l2_state := STATE_S,
                   l1_bitmap := bitmap64_add ver.l1_bitmap c }
      let nv3 ← nvoverlay_vtable_core_recv_cb nv2 c ver.other_ver
      pure (vtable_commit nv3
        { ver with l1_ver := ver.other_ver, l2_ver := ver.other_ver,
                   l1_state := STATE_S, l2_state := STATE_S,
                   l1_bitmap := bitmap64_add ver.l1_bitmap c,
                   l2_bitmap := bitmap64_add ver.l2_bitmap c })) := by
  unfold vtable_l1_load
  rw [hi]
  simp only [except_ok_bind]
  have e1 : ¬ (vtable_l1_has_ver ver c = true) := by rw [h1]; decide
  have e2 : ¬ (vtable_l2_has_ver ver c = true) := by rw [h2]; decide
  rw [if_neg e1, if_neg e2, if_pos ho]
  simp only [vtable_l1_add_ver, vtable_l2_add_ver, bind_assoc, pure_bind]

/-- C21 (load miss on a clean line, first touch included): when the record that `vtable_insert`
hands out for the line has `owner = OTHER` and core `c` is in neither sharer set,
`vtable_l1_load(addr, c)` is the tag operation ADD for core `c` at L1 and at L2, the signal
`core_recv(c, other_ver)` and nothing else (no eviction).  The record it files has
`l1_ver = l2_ver = other_ver`, `l1_state = l2_state = S`, the owner `OTHER` it had, and sharer
sets that hold `c` and every core they held before.  When the load returns, the OMC buffer,
the overlay and both eviction counters are as before and the epoch of core `c` is the larger
of its old epoch and `other_ver`.  For an address the table does not hold, the record handed
out is the zeroed one with `owner = OTHER`: all versions 0 and no sharer. -/
theorem load_case31 (nv : nvoverlay_t) (addr c epoch cycle : Nat) (vtable : vtable_t)
    (ver : ver_t) (hi : vtable_insert nv.vtable addr = .ok (vtable, ver))
    (ho : ver.owner = OWNER_OTHER) (h1 : vtable_l1_has_ver ver c = false)
    (h2 : vtable_l2_has_ver ver c = false) (hc : c < CORE_COUNT_MAX)
    (hw1 : bitmap64_wf ver.l1_bitmap) (hw2 : bitmap64_wf ver.l2_bitmap) :
    ∃ ver', ver' = { ver with l1_ver := ver.other_ver, l2_ver := ver.other_ver,
                              l1_state := STATE_S, l2_state := STATE_S,
                              l1_bitmap := bitmap64_add ver.l1_bitmap c,
                              l2_bitmap := bitmap64_add ver.l2_bitmap c } ∧
      ver'.owner = OWNER_OTHER ∧
      (∀ i, bitmap64_is_set ver'.l1_bitmap i = true ↔
        i = c ∨ bitmap64_is_set ver.l1_bitmap i = true) ∧
      (∀ i, bitmap64_is_set ver'.l2_bitmap i = true ↔
        i = c ∨ bitmap64_is_set ver.l2_bitmap i = true) ∧
      vtable_l1_load nv addr c epoch cycle = (do
        let nv1 ← nvoverlay_vtable_core_tag_cb { nv with vtable := vtable } CPU_TAG_OP_ADD
          CPU_TAG_L1 c { ver' with l1_bitmap := ver.l1_bitmap, l2_bitmap := ver.l2_bitmap }
        let nv2 ← nvoverlay_vtable_core_tag_cb nv1 CPU_TAG_OP_ADD CPU_TAG_L2 c
          { ver' with l2_bitmap := ver.l2_bitmap }
        let nv3 ← nvoverlay_vtable_core_recv_cb nv2 c ver.other_ver
        pure (vtable_commit nv3 ver')) ∧
      (∀ nv', vtable_l1_load nv addr c epoch cycle = .ok nv' →
        ht64_find nv'.vtable.vers ver.addr = some ver' ∧
        nv'.omcbuf = nv.omcbuf ∧ nv'.overlay = nv.overlay ∧
        nv'.evict_omc_count = nv.evict_omc_count ∧
        nv'.evict_llc_count = nv.evict_llc_count ∧
        (nv'.cpu.cores c).epoch = max (nv.cpu.cores c).epoch ver.other_ver) ∧
      (ht64_find nv.vtable.vers addr = none →
        ver = { ver_init with addr := addr, owner := OWNER_OTHER }) := by
  refine ⟨_, rfl, ho, bitmap64_is_set_add hw1 hc, bitmap64_is_set_add hw2 hc,
    load_case31_script nv addr c epoch cycle vtable ver hi ho h1 h2, ?_, ?_⟩
  · rw [load_case31_script nv addr c epoch cycle vtable ver hi ho h1 h2]
    refine Post.bind (tag_cb_cores _ _ _ _ _) ?_
    rintro nv1 ⟨a1, a2⟩
    refine Post.bind (tag_cb_cores _ _ _ _ _) ?_
    rintro nv2 ⟨b1, b2⟩
    refine Post.bind (recv_cb_epoch _ _ _) ?_
    rintro nv3 ⟨c1, c2⟩
    refine Post.pure ?_
    obtain ⟨k1, k2, -, -, -, k6, k7⟩ := cpu_only_trans (cpu_only_trans a2 b2) c2
    refine ⟨?_, k1, k2, k6, k7, ?_⟩
    · simp [vtable_commit, ht64_find_store]
    · show (nv3.cpu.cores c).epoch = _
      rw [c1, b1, a1]
  · intro hnone
    unfold vtable_insert at hi
    obtain ⟨-, hi⟩ := c_assert_bind_ok hi
    simp only [hnone] at hi
    cases hi
    rfl

/-- Witness for C21: the first event `load(0, 0x1000, 0)` of a run meets an empty table, so
the theorem applies with the zeroed record; after the load the record has `owner = OTHER`,
all versions 0, both states `S`, core 0 in both sharer sets, and nothing was evicted. -/
theorem load_case31_witness :
    (nvoverlay_trace_driven_engine conf_one_core [.load 0 0x1000 0]).map
      (fun nv => (ver_record nv 0x1000, evict_view nv))
      = .ok (some { addr := 0x1000, owner := OWNER_OTHER, l1_state := STATE_S,
                    l2_state := STATE_S, l1_ver := 0, l2_ver := 0, other_ver := 0,
                    l1_bitmap := ⟨1⟩, l2_bitmap := ⟨1⟩ }, 0, 0, 0) ∧
    ∃ ver', ver'.owner = OWNER_OTHER ∧
      (∀ i, bitmap64_is_set ver'.l1_bitmap i = true ↔
        i = 0 ∨ bitmap64_is_set bitmap64_clear i = true) ∧
      ∀ nv', vtable_l1_load nv_one_core 0x1000 0 0 0 = .ok nv' →
        ht64_find nv'.vtable.vers 0x1000 = some ver' ∧
        nv'.omcbuf = nv_one_core.omcbuf ∧ nv'.overlay = nv_one_core.overlay ∧
        nv'.evict_omc_count = nv_one_core.evict_omc_count ∧
        nv'.evict_llc_count = nv_one_core.evict_llc_count ∧
        (nv'.cpu.cores 0).epoch = max (nv_one_core.cpu.cores 0).epoch 0 :=
  ⟨rfl,
    match load_case31 nv_one_core 0x1000 0 0 0
      { vers := (ht64_insert nv_one_core.vtable.vers 0x1000
          { ver_init with addr := 0x1000, owner := OWNER_OTHER }).1 }
      { ver_init with addr := 0x1000, owner := OWNER_OTHER } rfl rfl rfl rfl (by decide)
      bitmap64_wf_clear bitmap64_wf_clear with
    | ⟨ver', _, h1, h2, _, _, h3, _⟩ => ⟨ver', h1, h2, h3⟩⟩

theorem load_leaf_commit {vt : vtable_t} {n a c : Nat} {nv : nvoverlay_t}
    (h : op_keeps vt n nv) (ver' : ver_t) (ha : ver'.addr = a)
    (hs : vtable_l1_has_ver ver' c = true) :
    (vtable_commit nv ver').cpu.core_count = n ∧
    ∃ ver, ht64_find (vtable_commit nv ver').vtable.vers a = some ver ∧
      vtable_l1_has_ver ver c = true := by
  refine ⟨h.2, ver', ?_, hs⟩
  simp [vtable_commit, ht64_find_store, ha]

/-- After a load of core `c` that returns, the record of the line is filed, and `c` is in its
L1 sharer set. -/
theorem vtable_l1_load_present (nv : nvoverlay_t) (addr c epoch cycle : Nat)
    (hk : keys_ok nv.vtable) (hc : c < CORE_COUNT_MAX) :
    Post (vtable_l1_load nv addr c epoch cycle) (fun nv1 =>
      nv1.cpu.core_count = nv.cpu.core_count ∧
      ∃ ver, ht64_find nv1.vtable.vers addr = some ver ∧ vtable_l1_has_ver ver c = true) := by
  unfold vtable_l1_load
  simp only [vtable_l1_add_ver, vtable_l2_add_ver, vtable_evict_wrapper,
    bind_assoc, pure_bind, except_ite_bind]
  refine Post.bind (vtable_insert_post _ _) ?_
  rintro ⟨vt, ver⟩ ⟨hf, hold, -⟩
  have hfacts : ver.addr = addr ∧ bitmap64_wf ver.l1_bitmap := by
    rcases hold _ _ hf with h | ⟨-, h⟩
    · exact ⟨(hk _ _ h).1, (hk _ _ h).2.1⟩
    · subst h; exact ⟨rfl, bitmap64_wf_clear⟩
  obtain ⟨hva, hw⟩ := hfacts
  have hset : bitmap64_is_set (bitmap64_add ver.l1_bitmap c) c = true :=
    (bitmap64_is_set_add hw hc c).2 (Or.inl rfl)
  have hkeep : op_keeps vt nv.cpu.core_count { nv with vtable := vt } := ⟨rfl, rfl⟩
  dsimp only
  repeat' first
    | exact Post.error
    | exact Post.pure (load_leaf_commit (by assumption) _ hva hset)
    | exact Post.pure ⟨rfl, ver, hf, by assumption⟩
    | (refine Post.assert ?_; intro _)
    | (refine Post.ite ?_ ?_ <;> intro _)
    | (refine Post.bind (op_keeps_tag (by assumption) _ _ _ _) ?_; intro _ _)
    | (refine Post.bind (op_keeps_evict (by assumption) _ _ _ _ _) ?_; intro _ _)
    | (refine Post.bind (op_keeps_recv (by assumption) _ _) ?_; rintro _ ⟨_, _⟩)

/-- C22 (load idempotence, R1): in every state the engine reaches, when `load(c, a)` returns
the state `nv1`, the record of `a` in `nv1` has `c` in its L1 sharer set, so a second
`load(c, a)`, at any cycle, takes the L1-hit exit before any callback and returns `nv1`
itself: the version table, the tag arrays, the cores, the OMC buffer, the overlay, the OMT and
the NVM are all unchanged. -/
theorem load_idempotent (conf : nvoverlay_conf_t) (evs : List event_t) (nv0 nv : nvoverlay_t)
    (h0 : nvoverlay_init_full conf = .ok nv0) (hrun : nvoverlay_run evs nv0 = .ok nv)
    (c a cycle : Nat) (nv1 : nvoverlay_t)
    (hl : nvoverlay_event nv (.load c a cycle) = .ok nv1) :
    (∃ ver, ht64_find nv1.vtable.vers a = some ver ∧ vtable_l1_has_ver ver c = true) ∧
    ∀ cycle', nvoverlay_event nv1 (.load c a cycle') = .ok nv1 := by
  have hok : mirror_ok nv :=
    nvoverlay_run_mirror evs nv0 (nvoverlay_init_full_mirror conf nv0 h0) nv hrun
  obtain ⟨hn, -, hkeys, -⟩ := hok
  have hl' : nvoverlay_full_load nv c a cycle = .ok nv1 := hl
  unfold nvoverlay_full_load at hl'
  obtain ⟨core, hcore, hload⟩ := except_bind_ok hl'
  obtain ⟨hid, -⟩ := cpu_get_core_post _ _ _ _ hcore
  have hc : c < CORE_COUNT_MAX := Nat.lt_of_lt_of_le hid hn
  obtain ⟨hcc, ver, hfind, hhas⟩ := vtable_l1_load_present nv a c _ cycle hkeys hc _ hload
  refine ⟨⟨ver, hfind, hhas⟩, fun cycle' => ?_⟩
  have hal : cache_aligned a = true := by
    unfold vtable_l1_load at hload
    obtain ⟨r, hr, -⟩ := except_bind_ok hload
    unfold vtable_insert at hr
    exact (c_assert_bind_ok hr).1
  have hid1 : c < nv1.cpu.core_count := by rw [hcc]; exact hid
  show nvoverlay_full_load nv1 c a cycle' = .ok nv1
  unfold nvoverlay_full_load cpu_get_core
  rw [if_pos hid1]
  simp only [pure, Except.pure, except_ok_bind]
  unfold vtable_l1_load vtable_insert
  rw [hal]
  simp only [c_assert_true, except_ok_bind, hfind, pure, Except.pure, hhas, if_true]

/-- Witness for C22: after `store(0, 0x1000, 0)` the event `load(0, 0x2000, 1)` returns a
state in which core 0 is an L1 sharer of `0x2000`, and the same load at any later cycle
returns that state. -/
theorem load_idempotent_witness :
    nvoverlay_event nv_one_store (.load 0 0x2000 1) = .ok nv_store_load ∧
    (∃ ver, ht64_find nv_store_load.vtable.vers 0x2000 = some ver ∧
      vtable_l1_has_ver ver 0 = true) ∧
    ∀ cycle', nvoverlay_event nv_store_load (.load 0 0x2000 cycle') = .ok nv_store_load :=
  ⟨rfl, load_idempotent conf_one_core [.store 0 0x1000 0] nv_one_core nv_one_store rfl rfl
    0 0x2000 1 nv_store_load rfl⟩

/-! ## C23, C24: evictions from the caches of a core -/

theorem tag_cb_only (nv : nvoverlay_t) (op : cpu_tag_op_t) (level id : Nat) (ver : ver_t)
    (nv1 : nvoverlay_t) (h : nvoverlay_vtable_core_tag_cb nv op level id ver = .ok nv1) :
    cpu_only nv nv1 := (tag_cb_cores nv op level id ver nv1 h).2

/-- C23 (L1 eviction): a call `vtable_l1_eviction(addr, c)` that returns met a record that has
`c` in both sharer sets, and files it with `c` removed from the L1 sharer set and the L2
sharer set unchanged.  If the owner was `L1`, the record becomes `owner = L2` with
`l2_state = M`, `l2_ver` = the old `l1_ver`, `l1_state = I`, and the calls made are the
eviction of the old `l2_ver` with kind `EVICT_OMC`, exactly when the old `l2_state` was `M`
with `l2_ver ≠ l1_ver`, and the tag operation REMOVE at L1.  If the owner was `L2` or `OTHER`,
the owner and the three versions are unchanged and the only call is the tag operation REMOVE
at L1: the OMC buffer, the overlay and both eviction counters are as before. -/
theorem l1_eviction_result (nv : nvoverlay_t) (addr c epoch cycle : Nat) (vtable : vtable_t)
    (ver : ver_t) (hi : vtable_insert nv.vtable addr = .ok (vtable, ver)) (nv' : nvoverlay_t)
    (h : vtable_l1_eviction nv addr c epoch cycle = .ok nv') :
    vtable_l1_has_ver ver c = true ∧ vtable_l2_has_ver ver c = true ∧
    ∃ ver', ht64_find nv'.vtable.vers ver.addr = some ver' ∧
      ver'.l1_bitmap = bitmap64_remove ver.l1_bitmap c ∧ ver'.l2_bitmap = ver.l2_bitmap ∧
      (∀ i, bitmap64_is_set ver'.l1_bitmap i = true ↔
        i ≠ c ∧ bitmap64_is_set ver.l1_bitmap i = true) ∧
      (ver.owner = OWNER_L1 →
        ver' = { ver with owner := OWNER_L2, l1_state := STATE_I, l2_state := STATE_M,
                          l2_ver := ver.l1_ver,
                          l1_bitmap := bitmap64_remove ver.l1_bitmap c } ∧
        ∃ nv1 nv2,
          (if ver.l2_state = STATE_M ∧ ver.l2_ver ≠ ver.l1_ver then
              vtable_evict_wrapper { nv with vtable := vtable } ver.addr c ver.l2_ver cycle
                EVICT_OMC
            else pure { nv with vtable := vtable }) = .ok nv1 ∧
          nvoverlay_vtable_core_tag_cb nv1 CPU_TAG_OP_REMOVE CPU_TAG_L1 c
            { ver' with l1_bitmap := ver.l1_bitmap } = .ok nv2 ∧
          nv' = vtable_commit nv2 ver') ∧
      (ver.owner ≠ OWNER_L1 →
        ver'.owner = ver.owner ∧ ver'.l1_ver = ver.l1_ver ∧ ver'.l2_ver = ver.l2_ver ∧
        ver'.other_ver = ver.other_ver ∧
        (∃ nv2, nvoverlay_vtable_core_tag_cb { nv with vtable := vtable } CPU_TAG_OP_REMOVE
            CPU_TAG_L1 c { ver' with l1_bitmap := ver.l1_bitmap } = .ok nv2 ∧
          nv' = vtable_commit nv2 ver') ∧
        nv'.omcbuf = nv.omcbuf ∧ nv'.overlay = nv.overlay ∧
        nv'.evict_omc_count = nv.evict_omc_count ∧
        nv'.evict_llc_count = nv.evict_llc_count) := by
  unfold vtable_l1_eviction at h
  rw [hi] at h
  simp only [except_ok_bind] at h
  obtain ⟨hhas, h⟩ := c_assert_bind_ok h
  have hhas' : vtable_l1_has_ver ver c = true ∧ vtable_l2_has_ver ver c = true := by
    simpa using hhas
  refine ⟨hhas'.1, hhas'.2, ?_⟩
  by_cases ho1 : ver.owner = OWNER_L1
  · rw [if_pos ho1] at h
    obtain ⟨-, h⟩ := c_assert_bind_ok h
    obtain ⟨-, h⟩ := c_assert_bind_ok h
    obtain ⟨-, h⟩ := c_assert_bind_ok h
    obtain ⟨nv1, e1, h⟩ := except_bind_ok h
    simp only [vtable_l1_rm_ver, bind_assoc, pure_bind] at h
    obtain ⟨nv2, e2, h⟩ := except_bind_ok h
    cases h
    have e1' : (if ver.l2_state = STATE_M ∧ ver.l2_ver ≠ ver.l1_ver then
          vtable_evict_wrapper { nv with vtable := vtable } ver.addr c ver.l2_ver cycle
            EVICT_OMC
        else pure { nv with vtable := vtable }) = .ok nv1 := by
      by_cases hcnd : ver.l2_state = STATE_M ∧ ver.l2_ver ≠ ver.l1_ver
      · rw [if_pos hcnd] at e1 ⊢
        exact (c_assert_bind_ok e1).2
      · rw [if_neg hcnd] at e1 ⊢
        exact e1
    refine ⟨{ ver with owner := OWNER_L2, l1_state := STATE_I, l2_state := STATE_M,
                       l2_ver := ver.l1_ver,
                       l1_bitmap := bitmap64_remove ver.l1_bitmap c }, ?_, rfl, rfl,
      bitmap64_is_set_remove _ _, fun _ => ⟨rfl, nv1, nv2, e1', e2, rfl⟩,
      fun hne => absurd ho1 hne⟩
    simp [vtable_commit, ht64_find_store]
  · rw [if_neg ho1] at h
    by_cases ho2 : ver.owner = OWNER_L2
    · rw [if_pos ho2] at h
      obtain ⟨-, h⟩ := c_assert_bind_ok h
      obtain ⟨-, h⟩ := c_assert_bind_ok h
      have hrest : (vtable_l1_rm_ver { nv with vtable := vtable }
          { ver with l1_state := STATE_I } c >>= fun r => pure (vtable_commit r.1 r.2))
          = .ok nv' := by
        by_cases hn : vtable_l1_num_sharer ver = 1
        · rw [if_pos hn] at h
          exact (c_assert_bind_ok (c_assert_bind_ok h).2).2
        · rw [if_neg hn] at h
          exact (c_assert_bind_ok h).2
      simp only [vtable_l1_rm_ver, bind_assoc, pure_bind] at hrest
      obtain ⟨nv2, e2, h⟩ := except_bind_ok hrest
      cases h
      obtain ⟨k1, k2, -, -, -, k6, k7⟩ := tag_cb_only _ _ _ _ _ _ e2
      refine ⟨{ ver with l1_state := STATE_I,
                         l1_bitmap := bitmap64_remove ver.l1_bitmap c }, ?_, rfl, rfl,
        bitmap64_is_set_remove _ _, fun he => absurd he ho1,
        fun _ => ⟨rfl, rfl, rfl, rfl, ⟨nv2, e2, rfl⟩, k1, k2, k6, k7⟩⟩
      simp [vtable_commit, ht64_find_store]
    · rw [if_neg ho2] at h
      obtain ⟨-, h⟩ := c_assert_bind_ok h
      simp only [vtable_l1_rm_ver, bind_assoc, pure_bind] at h
      obtain ⟨nv2, e2, h⟩ := except_bind_ok h
      cases h
      obtain ⟨k1, k2, -, -, -, k6, k7⟩ := tag_cb_only _ _ _ _ _ _ e2
      refine ⟨{ ver with l1_bitmap := bitmap64_remove ver.l1_bitmap c }, ?_, rfl, rfl,
        bitmap64_is_set_remove _ _, fun he => absurd he ho1,
        fun _ => ⟨rfl, rfl, rfl, rfl, ⟨nv2, e2, rfl⟩, k1, k2, k6, k7⟩⟩
      simp [vtable_commit, ht64_find_store]
/-- Witness for C23: after `store(0, 0x1000, 0)` core 0 owns the line in its L1; the L1
eviction returns and leaves the record owned by the L2 with `l2_state = M`, `l2_ver = 0`,
`l1_state = I`, no L1 sharer and core 0 as L2 sharer. -/
theorem l1_eviction_result_witness :
    vtable_l1_eviction nv_one_store 0x1000 0 0 1 = .ok nv_one_store_l1_evicted ∧
    ver_record nv_one_store_l1_evicted 0x1000
      = some { addr := 0x1000, owner := OWNER_L2, l1_state := STATE_I, l2_state := STATE_M,
               l1_ver := 0, l2_ver := 0, other_ver := 0, l1_bitmap := ⟨0⟩, l2_bitmap := ⟨1⟩ } ∧
    vtable_l1_has_ver ver_one_store 0 = true ∧ vtable_l2_has_ver ver_one_store 0 = true ∧
    ∃ ver', ht64_find nv_one_store_l1_evicted.vtable.vers 0x1000 = some ver' ∧
      ver'.l1_bitmap = bitmap64_remove ver_one_store.l1_bitmap 0 ∧
      ver'.l2_bitmap = ver_one_store.l2_bitmap :=
  have h := l1_eviction_result nv_one_store 0x1000 0 0 1 nv_one_store.vtable ver_one_store rfl
    nv_one_store_l1_evicted rfl
  ⟨rfl, rfl, h.1, h.2.1,
    match h.2.2 with
    | ⟨ver', k1, k2, k3, _⟩ => ⟨ver', k1, k2, k3⟩⟩

theorem bitmap64_not_set_of_popcount_zero {b : bitmap64_t} {i : Nat}
    (h : bitmap64_popcount b = 0) (hi : i < 64) : bitmap64_is_set b i = false := by
  unfold bitmap64_popcount at h
  have hm : i ∉ bitmap64_members b := by
    rw [List.length_eq_zero.mp h]
    exact List.not_mem_nil i
  rw [bitmap64_mem_members] at hm
  cases ht : bitmap64_is_set b i
  · rfl
  · exact absurd ⟨hi, ht⟩ hm

theorem is_set_remove_absent {b : bitmap64_t} {c : Nat} (h : bitmap64_is_set b c = false)
    (i : Nat) : bitmap64_is_set b i = true ↔ i ≠ c ∧ bitmap64_is_set b i = true := by
  constructor
  · intro hi
    refine ⟨fun e => ?_, hi⟩
    rw [e, h] at hi
    cases hi
  · exact fun hi => hi.2

/-- C24 (L2 eviction): a call `vtable_l2_eviction(addr, c)` that returns met a record that has
`c` in its L2 sharer set, and files it with `c` in neither sharer set.  If the owner was `L1`
or `L2`, the record becomes `owner = OTHER` with `other_ver` = the old `l1_ver` (owner `L1`)
or the old `l2_ver` (owner `L2`), and the evictions made are one of kind `EVICT_BOTH` that
carries this version, preceded by one of kind `EVICT_OMC` for `l2_ver` exactly when the owner
was `L1` and `l2_state = M` with `l2_ver ≠ l1_ver`; after them only the processor changes.
If the owner was `OTHER`, the owner and the versions are unchanged and no eviction is made:
the OMC buffer, the overlay and both eviction counters are as before. -/
theorem l2_eviction_result (nv : nvoverlay_t) (addr c epoch cycle : Nat) (vtable : vtable_t)
    (ver : ver_t) (hi : vtable_insert nv.vtable addr = .ok (vtable, ver))
    (hc : c < CORE_COUNT_MAX) (nv' : nvoverlay_t)
    (h : vtable_l2_eviction nv addr c epoch cycle = .ok nv') :
    vtable_l2_has_ver ver c = true ∧
    ∃ ver', ht64_find nv'.vtable.vers ver.addr = some ver' ∧
      (∀ i, bitmap64_is_set ver'.l1_bitmap i = true ↔
        i ≠ c ∧ bitmap64_is_set ver.l1_bitmap i = true) ∧
      (∀ i, bitmap64_is_set ver'.l2_bitmap i = true ↔
        i ≠ c ∧ bitmap64_is_set ver.l2_bitmap i = true) ∧
      ver'.owner = OWNER_OTHER ∧ ver'.l1_ver = ver.l1_ver ∧ ver'.l2_ver = ver.l2_ver ∧
      (ver.owner = OWNER_L1 →
        ver'.other_ver = ver.l1_ver ∧
        ∃ nv1 nv2 nv4,
          (if ver.l2_state = STATE_M ∧ ver.l2_ver ≠ ver.l1_ver then
              vtable_evict_wrapper { nv with vtable := vtable } ver.addr c ver.l2_ver cycle
                EVICT_OMC
            else pure { nv with vtable := vtable }) = .ok nv1 ∧
          vtable_evict_wrapper nv1 ver.addr c ver.l1_ver cycle EVICT_BOTH = .ok nv2 ∧
          cpu_only nv2 nv4 ∧ nv' = vtable_commit nv4 ver') ∧
      (ver.owner = OWNER_L2 →
        ver'.other_ver = ver.l2_ver ∧
        ∃ nv2 nv4,
          vtable_evict_wrapper { nv with vtable := vtable } ver.addr c ver.l2_ver cycle
            EVICT_BOTH = .ok nv2 ∧
          cpu_only nv2 nv4 ∧ nv' = vtable_commit nv4 ver') ∧
      (ver.owner = OWNER_OTHER →
        ver'.other_ver = ver.other_ver ∧
        (∃ nv4, cpu_only { nv with vtable := vtable } nv4 ∧ nv' = vtable_commit nv4 ver') ∧
        nv'.omcbuf = nv.omcbuf ∧ nv'.overlay = nv.overlay ∧
        nv'.evict_omc_count = nv.evict_omc_count ∧
        nv'.evict_llc_count = nv.evict_llc_count) := by
  unfold vtable_l2_eviction at h
  rw [hi] at h
  simp only [except_ok_bind] at h
  obtain ⟨hhas, h⟩ := c_assert_bind_ok h
  refine ⟨hhas, ?_⟩
  by_cases ho1 : ver.owner = OWNER_L1
  · have ho2 : ver.owner ≠ OWNER_L2 := by rw [ho1]; intro e; cases e
    have ho3 : ver.owner ≠ OWNER_OTHER := by rw [ho1]; intro e; cases e
    rw [if_pos ho1] at h
    obtain ⟨-, h⟩ := c_assert_bind_ok h
    obtain ⟨-, h⟩ := c_assert_bind_ok h
    obtain ⟨-, h⟩ := c_assert_bind_ok h
    obtain ⟨nv1, e1, h⟩ := except_bind_ok h
    obtain ⟨nv2, e2, h⟩ := except_bind_ok h
    simp only [vtable_l1_rm_ver, vtable_l2_rm_ver, bind_assoc, pure_bind] at h
    obtain ⟨nv3, e3, h⟩ := except_bind_ok h
    obtain ⟨nv4, e4, h⟩ := except_bind_ok h
    cases h
    have e1' : (if ver.l2_state = STATE_M ∧ ver.l2_ver ≠ ver.l1_ver then
          vtable_evict_wrapper { nv with vtable := vtable } ver.addr c ver.l2_ver cycle
            EVICT_OMC
        else pure { nv with vtable := vtable }) = .ok nv1 := by
      by_cases hcnd : ver.l2_state = STATE_M ∧ ver.l2_ver ≠ ver.l1_ver
      · rw [if_pos hcnd] at e1 ⊢
        exact (c_assert_bind_ok e1).2
      · rw [if_neg hcnd] at e1 ⊢
        exact e1
    have hco := cpu_only_trans (tag_cb_only _ _ _ _ _ _ e3) (tag_cb_only _ _ _ _ _ _ e4)
    refine ⟨{ ver with owner := OWNER_OTHER, other_ver := ver.l1_ver,
                       l1_bitmap := bitmap64_remove ver.l1_bitmap c,
                       l2_bitmap := bitmap64_remove ver.l2_bitmap c }, ?_,
      bitmap64_is_set_remove _ _, bitmap64_is_set_remove _ _, rfl, rfl, rfl,
      fun _ => ⟨rfl, nv1, nv2, nv4, e1', e2, hco, rfl⟩, fun e => absurd e ho2,
      fun e => absurd e ho3⟩
    simp [vtable_commit, ht64_find_store]
  · rw [if_neg ho1] at h
    by_cases ho2 : ver.owner = OWNER_L2
    · have ho3 : ver.owner ≠ OWNER_OTHER := by rw [ho2]; intro e; cases e
      rw [if_pos ho2] at h
      obtain ⟨-, h⟩ := c_assert_bind_ok h
      obtain ⟨hnum, h⟩ := c_assert_bind_ok h
      by_cases hn : vtable_l1_num_sharer ver = 1
      · have hd : decide (vtable_l1_num_sharer ver = 1) = true := by simp [hn]
        simp only [hd, if_true] at h
        obtain ⟨-, h⟩ := c_assert_bind_ok h
        obtain ⟨-, h⟩ := c_assert_bind_ok h
        obtain ⟨nv2, e2, h⟩ := except_bind_ok h
        simp only [vtable_l1_rm_ver, vtable_l2_rm_ver, bind_assoc, pure_bind] at h
        obtain ⟨nv3, e3, h⟩ := except_bind_ok h
        obtain ⟨nv4, e4, h⟩ := except_bind_ok h
        cases h
        have hco := cpu_only_trans (tag_cb_only _ _ _ _ _ _ e3) (tag_cb_only _ _ _ _ _ _ e4)
        refine ⟨{ ver with owner := OWNER_OTHER, other_ver := ver.l2_ver,
                           l1_bitmap := bitmap64_remove ver.l1_bitmap c,
                           l2_bitmap := bitmap64_remove ver.l2_bitmap c }, ?_,
          bitmap64_is_set_remove _ _, bitmap64_is_set_remove _ _, rfl, rfl, rfl,
          fun e => absurd e ho1, fun _ => ⟨rfl, nv2, nv4, e2, hco, rfl⟩,
          fun e => absurd e ho3⟩
        simp [vtable_commit, ht64_find_store]
      · have hd : decide (vtable_l1_num_sharer ver = 1) = false := by simp [hn]
        simp only [hd, Bool.false_eq_true, if_false] at h
        obtain ⟨-, h⟩ := c_assert_bind_ok h
        obtain ⟨nv2, e2, h⟩ := except_bind_ok h
        simp only [vtable_l2_rm_ver, bind_assoc, pure_bind] at h
        obtain ⟨nv4, e4, h⟩ := except_bind_ok h
        cases h
        have hz : bitmap64_popcount ver.l1_bitmap = 0 := by
          have hn' : vtable_l1_num_sharer ver ≤ 1 := by
            simp only [Bool.and_eq_true, decide_eq_true_eq] at hnum
            exact hnum.1
          unfold vtable_l1_num_sharer at hn hn'
          omega
        refine ⟨{ ver with owner := OWNER_OTHER, other_ver := ver.l2_ver,
                           l2_bitmap := bitmap64_remove ver.l2_bitmap c }, ?_,
          is_set_remove_absent (bitmap64_not_set_of_popcount_zero hz hc),
          bitmap64_is_set_remove _ _, rfl, rfl, rfl,
          fun e => absurd e ho1, fun _ => ⟨rfl, nv2, nv4, e2, tag_cb_only _ _ _ _ _ _ e4, rfl⟩,
          fun e => absurd e ho3⟩
        simp [vtable_commit, ht64_find_store]
    · rw [if_neg ho2] at h
      obtain ⟨ho3', h⟩ := c_assert_bind_ok h
      have ho3 : ver.owner = OWNER_OTHER := by simpa using ho3'
      by_cases hl1 : vtable_l1_has_ver ver c = true
      · simp only [hl1, if_true, vtable_l1_rm_ver, vtable_l2_rm_ver, bind_assoc, pure_bind] at h
        obtain ⟨nv3, e3, h⟩ := except_bind_ok h
        obtain ⟨nv4, e4, h⟩ := except_bind_ok h
        cases h
        have hco := cpu_only_trans (tag_cb_only _ _ _ _ _ _ e3) (tag_cb_only _ _ _ _ _ _ e4)
        obtain ⟨k1, k2, -, -, -, k6, k7⟩ := id hco
        refine ⟨{ ver with l1_bitmap := bitmap64_remove ver.l1_bitmap c,
                           l2_bitmap := bitmap64_remove ver.l2_bitmap c }, ?_,
          bitmap64_is_set_remove _ _, bitmap64_is_set_remove _ _, ho3, rfl, rfl,
          fun e => absurd e ho1, fun e => absurd e ho2,
          fun _ => ⟨rfl, ⟨nv4, hco, rfl⟩, k1, k2, k6, k7⟩⟩
        simp [vtable_commit, ht64_find_store]
      · have hl1' : vtable_l1_has_ver ver c = false := by
          cases hb : vtable_l1_has_ver ver c
          · rfl
          · exact absurd hb hl1
        simp only [hl1', Bool.false_eq_true, if_false, vtable_l2_rm_ver, bind_assoc,
          pure_bind] at h
        obtain ⟨nv4, e4, h⟩ := except_bind_ok h
        cases h
        have hco := tag_cb_only _ _ _ _ _ _ e4
        obtain ⟨k1, k2, -, -, -, k6, k7⟩ := id hco
        refine ⟨{ ver with l2_bitmap := bitmap64_remove ver.l2_bitmap c }, ?_,
          is_set_remove_absent hl1', bitmap64_is_set_remove _ _, ho3, rfl, rfl,
          fun e => absurd e ho1, fun e => absurd e ho2,
          fun _ => ⟨rfl, ⟨nv4, hco, rfl⟩, k1, k2, k6, k7⟩⟩
        simp [vtable_commit, ht64_find_store]
/-- Witness for C24: after `store(0, 0x1000, 0)` core 0 owns the line in its L1; the L2
eviction returns, makes one eviction to the OMC and the LLC, and leaves the record
with `owner = OTHER`, `other_ver = 0` and no sharer. -/
theorem l2_eviction_result_witness :
    vtable_l2_eviction nv_one_store 0x1000 0 0 1 = .ok nv_one_store_l2_evicted ∧
    (ver_record nv_one_store_l2_evicted 0x1000).map
        (fun v => (v.owner, v.other_ver, v.l1_bitmap, v.l2_bitmap))
      = some (OWNER_OTHER, 0, ⟨0⟩, ⟨0⟩) ∧
    nv_one_store.evict_omc_count = 0 ∧ nv_one_store.evict_llc_count = 0 ∧
    nv_one_store_l2_evicted.evict_omc_count = 1 ∧
    nv_one_store_l2_evicted.evict_llc_count = 1 ∧
    vtable_l2_has_ver ver_one_store 0 = true ∧
    ∃ ver', ht64_find nv_one_store_l2_evicted.vtable.vers 0x1000 = some ver' ∧
      ver'.owner = OWNER_OTHER ∧ ver'.l1_ver = ver_one_store.l1_ver :=
  have h := l2_eviction_result nv_one_store 0x1000 0 0 1 nv_one_store.vtable ver_one_store rfl
    (by decide) nv_one_store_l2_evicted rfl
  ⟨rfl, rfl, rfl, rfl, rfl, rfl, h.1,
    match h.2 with
    | ⟨ver', k1, _, _, k4, k5, _⟩ => ⟨ver', k1, k4, k5⟩⟩

/-! ## C26, C27: the epoch of a core -/

/-- C26 (scenario 1, the epoch of core 0): with `epoch_size = 2`, `tag_walk_freq = 1` and one
core, the engine run on `store(0, 0x1000, 0); store(0, 0x1000, 1)` returns with core 0 in
epoch 0 with store count 2, not in epoch 1: `nvoverlay_full_store` advances the epoch when
the count is greater than `epoch_size`, which happens at the third store (shown with the tag
walk put off, `tag_walk_freq = 100`). -/
theorem scenario1_epoch_after_two_stores :
    conf_epoch_two.epoch_size = 2 ∧ conf_epoch_two.tag_walk_freq = 1 ∧
    conf_epoch_two.cpu_cores = 1 ∧
    (nvoverlay_trace_driven_engine conf_epoch_two
        [.store 0 0x1000 0, .store 0 0x1000 1]).map (fun nv => core_epoch_view nv 0)
      = .ok (0, 2) ∧
    (nvoverlay_trace_driven_engine { conf_epoch_two with tag_walk_freq := 100 }
        [.store 0 0x1000 0, .store 0 0x1000 1, .store 0 0x1000 2]).map
        (fun nv => core_epoch_view nv 0)
      = .ok (1, 0) := by
  refine ⟨?_, ?_, ?_, ?_, ?_⟩ <;> rfl

/-- C27, the claim as stated fails: after `store(0, 0x1000, 0)` core 0 is in epoch 0 with store
count 1, and `core_recv(0, 0)` leaves the count at 1. -/
theorem core_recv_keeps_store_count :
    core_epoch_view nv_one_store 0 = (0, 1) ∧
    (cpu_core_recv nv_one_store.cpu 0 0).map
        (fun cpu => ((cpu.cores 0).epoch, (cpu.cores 0).epoch_store_count)) = .ok (0, 1) ∧
    ¬ ∀ (cpu : cpu_t) (id v : Nat) (cpu1 : cpu_t), cpu_core_recv cpu id v = .ok cpu1 →
      (cpu1.cores id).epoch_store_count = 0 := by
  refine ⟨rfl, rfl, fun h => ?_⟩
  have h1 := h nv_one_store.cpu 0 0 nv_one_store.cpu rfl
  revert h1
  decide

/-- C27 (amended): for a core `id` of the processor, `cpu_core_recv(id, v)` returns; it leaves
the epoch of the core equal to `max(old epoch, v)`, its store count equal to zero when `v`
is greater than the old epoch and unchanged otherwise, and every other core unchanged. -/
theorem core_recv_epoch_max (cpu : cpu_t) (id v : Nat) (h : id < cpu.core_count) :
    ∃ cpu1, cpu_core_recv cpu id v = .ok cpu1 ∧
      (cpu1.cores id).epoch = max (cpu.cores id).epoch v ∧
      (cpu1.cores id).epoch_store_count
        = (if v > (cpu.cores id).epoch then 0 else (cpu.cores id).epoch_store_count) ∧
      ∀ i, i ≠ id → cpu1.cores i = cpu.cores i := by
  unfold cpu_core_recv
  have hd : decide (id < cpu.core_count) = true := decide_eq_true h
  simp only [hd, c_assert, if_true, pure_bind]
  by_cases hv : v > (cpu.cores id).epoch
  · rw [if_pos hv, if_pos hv]
    refine ⟨_, rfl, ?_, ?_, fun i hi => ?_⟩
    · simp only [Function.update_same]; omega
    · simp only [Function.update_same]
    · simp only [Function.update_noteq hi]
  · rw [if_neg hv, if_neg hv]
    exact ⟨_, rfl, by omega, rfl, fun _ _ => rfl⟩

/-- Witness for C27 (amended): on the state after `store(0, 0x1000, 0)`, `core_recv(0, 5)`
puts core 0 in epoch 5 with store count 0. -/
theorem core_recv_epoch_max_witness :
    0 < nv_one_store.cpu.core_count ∧
    ∃ cpu1, cpu_core_recv nv_one_store.cpu 0 5 = .ok cpu1 ∧
      (cpu1.cores 0).epoch = max (nv_one_store.cpu.cores 0).epoch 5 ∧
      (cpu1.cores 0).epoch_store_count
        = (if 5 > (nv_one_store.cpu.cores 0).epoch then 0
            else (nv_one_store.cpu.cores 0).epoch_store_count) ∧
      ∀ i, i ≠ 0 → cpu1.cores i = nv_one_store.cpu.cores i :=
  ⟨by decide, core_recv_epoch_max nv_one_store.cpu 0 5 (by decide)⟩

/-! ## C28: a hit in the OMC buffer -/

/-- C28 (a hit in the OMC buffer): in a buffer of one set with two ways, after the fills
`insert(0x0, 0)` and `insert(0x40, 0)` the entry of line `0x0` has LRU counter 1 and that of
`0x40` has 2; the hit `insert(0x0, 0)` returns with no callback and leaves both entries and
the counter as they are, so the entry just hit still has the smallest counter; the next
miss, `insert(0x80, 0)`, evicts it (the callback carries line `0x0`) and keeps `0x40`. -/
theorem omcbuf_hit_keeps_lru :
    (omcbuf_inserts [(0x0, 0, 0), (0x40, 0, 1)] omcbuf_one_set).map omcbuf_set_view
      = .ok (⟨0, 0, 1⟩, ⟨1, 0, 2⟩, 2) ∧
    ((omcbuf_inserts [(0x0, 0, 0), (0x40, 0, 1)] omcbuf_one_set) >>= fun ob =>
        (omcbuf_insert ob 0x0 0 2).map (fun r => (omcbuf_set_view r.1, r.1.hit_count, r.2)))
      = .ok ((⟨0, 0, 1⟩, ⟨1, 0, 2⟩, 2), 1, none) ∧
    ((omcbuf_inserts [(0x0, 0, 0), (0x40, 0, 1), (0x0, 0, 2)] omcbuf_one_set) >>= fun ob =>
        (omcbuf_insert ob 0x80 0 3).map (fun r => (omcbuf_set_view r.1, r.2)))
      = .ok ((⟨2, 0, 3⟩, ⟨1, 0, 2⟩, 3), some (0x0, 0, 3)) := by
  refine ⟨?_, ?_, ?_⟩ <;> rfl

/-! ## C25: the store count and the epoch of a core -/

theorem cpu_core_recv_count (cpu : cpu_t) (id version : Nat) :
    Post (cpu_core_recv cpu id version) (fun cpu1 =>
      (cpu1.cores id).epoch_store_count
        = if version > (cpu.cores id).epoch then 0 else (cpu.cores id).epoch_store_count) := by
  unfold cpu_core_recv
  refine Post.assert (fun _ => ?_)
  refine Post.ite (fun h => ?_) (fun h => ?_)
  · refine Post.pure ?_
    simp only [Function.update_same, if_pos h]
  · refine Post.pure ?_
    simp only [if_neg h]

/-- While the version table handles a store, the epoch of core `c` does not go back, and as
long as it is the one the core had, so is the store count; `epoch_size` stays. -/
theorem quiet_prim (c e n s : Nat) :
    PrimInv (fun nv => nv.epoch_size = s ∧ e ≤ (nv.cpu.cores c).epoch ∧
      ((nv.cpu.cores c).epoch = e → (nv.cpu.cores c).epoch_store_count = n))
      (fun _ => True) where
  tag := by
    intro a op level id ver ha
    refine Post.mono (nvoverlay_vtable_core_tag_cb_post _ _ _ _ _) ?_
    rintro b ⟨cpu, hc, rfl⟩
    have hf := cpu_tag_op_frame _ _ _ _ _ _ hc
    simp only [hf.1]
    exact ha
  evict := by
    intro a addr id version cycle et ha
    refine Post.mono (nvoverlay_vtable_evict_cb_frame _ _ _ _ _ _) (fun b hb => ?_)
    rw [hb.1, hb.2.2.2.2.1]
    exact ha
  recv := by
    intro a id version ha _
    refine Post.mono (nvoverlay_vtable_core_recv_cb_post _ _ _) ?_
    rintro b ⟨cpu, hc, rfl⟩
    obtain ⟨-, -, -, hne, he⟩ := cpu_core_recv_post _ _ _ _ hc
    have hn := cpu_core_recv_count _ _ _ _ hc
    by_cases hi : c = id
    · subst hi
      refine ⟨ha.1, ?_, fun h => ?_⟩
      · show e ≤ (cpu.cores c).epoch
        rw [he]
        exact le_trans ha.2.1 (le_max_left _ _)
      · have h' : (cpu.cores c).epoch = e := h
        show (cpu.cores c).epoch_store_count = n
        rw [hn]
        have h1 := ha.2.1
        have h2 := ha.2.2
        rw [he] at h'
        have hv : ¬ version > (a.cpu.cores c).epoch := by omega
        rw [if_neg hv]
        exact h2 (by omega)
    · show a.epoch_size = s ∧ e ≤ (cpu.cores c).epoch ∧
        ((cpu.cores c).epoch = e → (cpu.cores c).epoch_store_count = n)
      rw [hne c hi]
      exact ha
  walk := by
    intro a line_addr id version cycle ha
    refine Post.mono (nvoverlay_cpu_tag_walk_cb_frame _ _ _ _ _) (fun b hb => ?_)
    rw [hb.1, hb.2.2.2.2.1]
    exact ha
  count := by
    intro a id ha
    simp only [cpu_tag_walk_count]
    by_cases hi : c = id
    · subst hi; simp only [Function.update_same]; exact ha
    · simp only [Function.update_noteq hi]; exact ha
  vtable := fun a vt ha => ha

/-- The tag walk leaves the epoch and the store count of every core, and `epoch_size`. -/
theorem core_fixed_prim (c e n s : Nat) :
    PrimInv (fun nv => nv.epoch_size = s ∧ (nv.cpu.cores c).epoch = e ∧
      (nv.cpu.cores c).epoch_store_count = n) (fun _ => False) where
  tag := by
    intro a op level id ver ha
    refine Post.mono (nvoverlay_vtable_core_tag_cb_post _ _ _ _ _) ?_
    rintro b ⟨cpu, hc, rfl⟩
    have hf := cpu_tag_op_frame _ _ _ _ _ _ hc
    simp only [hf.1]
    exact ha
  evict := by
    intro a addr id version cycle et ha
    refine Post.mono (nvoverlay_vtable_evict_cb_frame _ _ _ _ _ _) (fun b hb => ?_)
    rw [hb.1, hb.2.2.2.2.1]
    exact ha
  recv := fun a id version _ hv => hv.elim
  walk := by
    intro a line_addr id version cycle ha
    refine Post.mono (nvoverlay_cpu_tag_walk_cb_frame _ _ _ _ _) (fun b hb => ?_)
    rw [hb.1, hb.2.2.2.2.1]
    exact ha
  count := by
    intro a id ha
    simp only [cpu_tag_walk_count]
    by_cases hi : c = id
    · subst hi; simp only [Function.update_same]; exact ha
    · simp only [Function.update_noteq hi]; exact ha
  vtable := fun a vt ha => ha

/-- One store of core `c` that triggers no coherence-driven advance follows the rule. -/
theorem full_store_quiet_step (nv : nvoverlay_t) (c line_addr cycle : Nat) (nv1 : nvoverlay_t)
    (h1 : vtable_l1_store nv line_addr c (nv.cpu.cores c).epoch cycle = .ok nv1)
    (hno : (nv1.cpu.cores c).epoch = (nv.cpu.cores c).epoch) :
    Post (nvoverlay_full_store nv c line_addr cycle) (fun nv' =>
      nv'.epoch_size = nv.epoch_size ∧
      core_epoch_view nv' c = store_count_rule nv.epoch_size (core_epoch_view nv c)) := by
  have hI := vtable_l1_store_prim
    (quiet_prim c (nv.cpu.cores c).epoch (nv.cpu.cores c).epoch_store_count nv.epoch_size)
    nv line_addr c (nv.cpu.cores c).epoch cycle ⟨rfl, le_refl _, fun _ => rfl⟩ True.intro
    (fun _ _ _ => ⟨True.intro, True.intro, True.intro⟩) nv1 h1
  obtain ⟨hs, -, hn⟩ := hI
  have hn1 := hn hno
  unfold nvoverlay_full_store
  refine Post.bind (cpu_get_core_post _ _ _) (fun core hcore => ?_)
  obtain ⟨-, rfl⟩ := hcore
  rw [h1]
  simp only [except_ok_bind]
  refine @Post.bind _ _ _ _ (fun nv2 => nv2.epoch_size = nv.epoch_size ∧
      core_epoch_view nv2 c = store_count_rule nv.epoch_size (core_epoch_view nv c)) _ ?_ ?_
  · refine Post.ite (fun hgt => ?_) (fun hgt => ?_)
    · refine Post.bind (cpu_advance_epoch_post _ _) (fun cpu hcpu => ?_)
      refine Post.assert (fun hz => ?_)
      refine Post.pure ⟨hs, ?_⟩
      obtain ⟨-, -, -, -, c4⟩ := hcpu
      simp only [Function.update_same, hn1, hs] at hgt c4
      have hz' : (cpu.cores c).epoch_store_count = 0 := of_decide_eq_true hz
      simp only [core_epoch_view, store_count_rule, if_pos hgt, c4, hz', hno]
    · refine Post.pure ⟨hs, ?_⟩
      simp only [Function.update_same, hn1, hs] at hgt
      simp only [core_epoch_view, store_count_rule, if_neg hgt, Function.update_same, hn1, hno]
  · rintro nv2 ⟨hs2, hv2⟩
    refine Post.assert (fun _ => ?_)
    refine Post.ite (fun _ => ?_) (fun _ => Post.pure ⟨hs2, hv2⟩)
    have hv2' : (nv2.cpu.cores c).epoch = (store_count_rule nv.epoch_size (core_epoch_view nv c)).1 ∧
        (nv2.cpu.cores c).epoch_store_count
          = (store_count_rule nv.epoch_size (core_epoch_view nv c)).2 := by
      rw [← hv2]; exact ⟨rfl, rfl⟩
    refine Post.bind (cpu_tag_walk_prim (core_fixed_prim c _ _ _) _ _ _ _
      ⟨hs2, hv2'.1, hv2'.2⟩) (fun nv3 h3 => ?_)
    obtain ⟨hs3, he3, hn3⟩ := h3
    have hfin : ∀ overlay omt, (walk_done nv3 c overlay omt).epoch_size = nv.epoch_size ∧
        core_epoch_view (walk_done nv3 c overlay omt) c
          = store_count_rule nv.epoch_size (core_epoch_view nv c) := by
      intro overlay omt
      refine ⟨hs3, ?_⟩
      simp only [walk_done, core_epoch_view, Function.update_same, he3, hn3]
    refine Post.ite (fun _ => ?_) (fun _ => Post.pure (hfin _ _))
    refine Post.bind (Post.trivial _) ?_
    rintro ⟨overlay, omt⟩ -
    exact Post.pure (hfin overlay omt)

theorem store_count_rule_iterate (s k : Nat) : ∀ e n : Nat, n ≤ s →
    e + (n + k) / (s + 1) < 2 ^ 64 →
    (store_count_rule s)^[k] (e, n) = (e + (n + k) / (s + 1), (n + k) % (s + 1)) := by
  induction k with
  | zero =>
    intro e n hn _
    have h1 : n / (s + 1) = 0 := Nat.div_eq_of_lt (by omega)
    have h2 : n % (s + 1) = n := Nat.mod_eq_of_lt (by omega)
    simp only [Function.iterate_zero, id_eq, Nat.add_zero, h1, h2]
  | succ k ih =>
    intro e n hn hb
    rw [Function.iterate_succ_apply]
    by_cases hgt : n + 1 > s
    · have hns : n = s := by omega
      subst hns
      have hd : (n + (k + 1)) / (n + 1) = k / (n + 1) + 1 := by
        have : n + (k + 1) = k + (n + 1) := by omega
        rw [this, Nat.add_div_right _ (by omega)]
      have hm : (n + (k + 1)) % (n + 1) = k % (n + 1) := by
        have : n + (k + 1) = k + (n + 1) := by omega
        rw [this, Nat.add_mod_right]
      rw [hd] at hb
      have hb' : e + 1 + k / (n + 1) < 2 ^ 64 := by
        have e3 : e + (k / (n + 1) + 1) = e + 1 + k / (n + 1) := by
          rw [Nat.add_assoc, Nat.add_comm 1]
        rw [← e3]; exact hb
      have hle : e + 1 ≤ e + 1 + k / (n + 1) := Nat.le_add_right _ _
      have he : (e + 1) % 2 ^ 64 = e + 1 := Nat.mod_eq_of_lt (lt_of_le_of_lt hle hb')
      have hstep : store_count_rule n (e, n) = (e + 1, 0) := by
        simp only [store_count_rule, if_pos hgt, he]
      rw [hstep, ih (e + 1) 0 (Nat.zero_le _) (by rw [Nat.zero_add]; exact hb'), hd, hm]
      simp only [Nat.zero_add]
      congr 1
      rw [Nat.add_assoc, Nat.add_comm 1]
    · have hstep : store_count_rule s (e, n) = (e, n + 1) := by
        simp only [store_count_rule, if_neg hgt]
      have hk : n + 1 + k = n + (k + 1) := by omega
      rw [hstep, ih e (n + 1) (by omega) (by rw [hk]; exact hb), hk]

theorem quiet_stores_iterate (c : Nat) (nv nv' : nvoverlay_t) (k : Nat)
    (h : quiet_stores c nv k nv') :
    nv'.epoch_size = nv.epoch_size ∧
    core_epoch_view nv' c = (store_count_rule nv.epoch_size)^[k] (core_epoch_view nv c) := by
  induction h with
  | nil nv => exact ⟨rfl, rfl⟩
  | cons nv nv1 nv2 k hq _ ih =>
    obtain ⟨line_addr, cycle, nvA, h1, hno, hst⟩ := hq
    obtain ⟨hs, hv⟩ := full_store_quiet_step nv c line_addr cycle nvA h1 hno nv1 hst
    rw [Function.iterate_succ_apply, ← hv]
    rw [hs] at ih
    exact ih

/-- C25 (store count and epoch advance): let core `c` make `k` stores in a row, none of which
triggers a coherence-driven advance of its epoch, and let `n` be its store count before.
For one store (`k = 1`): if `n + 1` exceeds `epoch_size`, the epoch of `c` goes up by one (as
a `uint64_t`) and the count is reset to zero; if not, the epoch is unchanged and the count is
`n + 1`.  For any `k`, with `n ≤ epoch_size` and no wrap of the epoch: the epoch has gone up
by `(n + k) / (epoch_size + 1)` and the count is `(n + k) % (epoch_size + 1)`, so the epoch
advances on every `(epoch_size + 1)`-th store. -/
theorem store_count_epoch_advance (c k : Nat) (nv nv' : nvoverlay_t)
    (h : quiet_stores c nv k nv') :
    (k = 1 →
      (nv.epoch_size < (nv.cpu.cores c).epoch_store_count + 1 →
        (nv'.cpu.cores c).epoch = ((nv.cpu.cores c).epoch + 1) % 2 ^ 64 ∧
        (nv'.cpu.cores c).epoch_store_count = 0) ∧
      (¬ nv.epoch_size < (nv.cpu.cores c).epoch_store_count + 1 →
        (nv'.cpu.cores c).epoch = (nv.cpu.cores c).epoch ∧
        (nv'.cpu.cores c).epoch_store_count = (nv.cpu.cores c).epoch_store_count + 1)) ∧
    ((nv.cpu.cores c).epoch_store_count ≤ nv.epoch_size →
      (nv.cpu.cores c).epoch + ((nv.cpu.cores c).epoch_store_count + k) / (nv.epoch_size + 1)
        < 2 ^ 64 →
      (nv'.cpu.cores c).epoch
        = (nv.cpu.cores c).epoch
          + ((nv.cpu.cores c).epoch_store_count + k) / (nv.epoch_size + 1) ∧
      (nv'.cpu.cores c).epoch_store_count
        = ((nv.cpu.cores c).epoch_store_count + k) % (nv.epoch_size + 1)) := by
  obtain ⟨-, hv⟩ := quiet_stores_iterate c nv nv' k h
  have hv1 : (nv'.cpu.cores c).epoch
      = ((store_count_rule nv.epoch_size)^[k] (core_epoch_view nv c)).1 := by
    rw [← hv]; rfl
  have hv2 : (nv'.cpu.cores c).epoch_store_count
      = ((store_count_rule nv.epoch_size)^[k] (core_epoch_view nv c)).2 := by
    rw [← hv]; rfl
  refine ⟨fun hk => ?_, fun hn hb => ?_⟩
  · subst hk
    rw [hv1, hv2]
    simp only [Function.iterate_one, store_count_rule, core_epoch_view]
    refine ⟨fun hgt => ?_, fun hgt => ?_⟩
    · have hgt' : (nv.cpu.cores c).epoch_store_count + 1 > nv.epoch_size := hgt
      rw [if_pos hgt']
      exact ⟨rfl, rfl⟩
    · have hgt' : ¬ (nv.cpu.cores c).epoch_store_count + 1 > nv.epoch_size := hgt
      rw [if_neg hgt']
      exact ⟨rfl, rfl⟩
  · rw [hv1, hv2]
    have := store_count_rule_iterate nv.epoch_size k (nv.cpu.cores c).epoch
      (nv.cpu.cores c).epoch_store_count hn hb
    simp only [core_epoch_view]
    rw [this]
    exact ⟨rfl, rfl⟩

theorem quiet_store_eval (c line_addr cycle : Nat) (nv : nvoverlay_t)
    (h1 : vtable_l1_store nv line_addr c (nv.cpu.cores c).epoch cycle
      = .ok (nv_result (vtable_l1_store nv line_addr c (nv.cpu.cores c).epoch cycle)))
    (h2 : ((nv_result (vtable_l1_store nv line_addr c (nv.cpu.cores c).epoch cycle)).cpu.cores
      c).epoch = (nv.cpu.cores c).epoch)
    (h3 : nvoverlay_full_store nv c line_addr cycle
      = .ok (nv_result (nvoverlay_full_store nv c line_addr cycle))) :
    quiet_store c nv (nv_result (nvoverlay_full_store nv c line_addr cycle)) :=
  ⟨line_addr, cycle, _, h1, h2, h3⟩

/-- The three stores of core 0 to line `0x1000` under `conf_epoch_two_late_walk` trigger no
coherence-driven advance. -/
theorem nv_stores_quiet : quiet_stores 0 (nv_stores 0) 3 (nv_stores 3) :=
  .cons _ _ _ _ (quiet_store_eval 0 0x1000 0 (nv_stores 0) rfl rfl rfl)
    (.cons _ _ _ _ (quiet_store_eval 0 0x1000 1 (nv_stores 1) rfl rfl rfl)
      (.cons _ _ _ _ (quiet_store_eval 0 0x1000 2 (nv_stores 2) rfl rfl rfl) (.nil _)))

/-- Witness for C25: with `epoch_size = 2`, three stores of core 0 in a row, starting in epoch
0 with store count 0, end in epoch `0 + 3 / 3 = 1` with store count `3 % 3 = 0`. -/
theorem store_count_epoch_advance_witness :
    quiet_stores 0 (nv_stores 0) 3 (nv_stores 3) ∧ (nv_stores 0).epoch_size = 2 ∧
    core_epoch_view (nv_stores 0) 0 = (0, 0) ∧ core_epoch_view (nv_stores 2) 0 = (0, 2) ∧
    (nv_stores 3).cpu.cores 0 = { (nv_stores 0).cpu.cores 0 with
      epoch := 1, epoch_store_count := 0, total_store_count := 3 } ∧
    ((nv_stores 3).cpu.cores 0).epoch = 0 + (0 + 3) / (2 + 1) :=
  ⟨nv_stores_quiet, rfl, rfl, rfl, by decide,
    ((store_count_epoch_advance 0 3 (nv_stores 0) (nv_stores 3) nv_stores_quiet).2
      (by decide) (by decide)).1⟩

/-! ## C29, C30: victims and callbacks of the OMC buffer -/

theorem omcbuf_scan_full_iff (array : Nat → omcbuf_entry_t) (start tag epoch : Nat)
    (l : List Nat) :
    omcbuf_scan array start tag epoch l = .full ↔
      ∀ i ∈ l, ¬ ((array (start + i)).tag = tag ∧ (array (start + i)).epoch = epoch) ∧
        (array (start + i)).epoch ≠ UINT64_MAX := by
  induction l with
  | nil => simp [omcbuf_scan]
  | cons i rest ih =>
    unfold omcbuf_scan
    by_cases hm : (array (start + i)).tag = tag ∧ (array (start + i)).epoch = epoch
    · rw [if_pos hm]
      constructor
      · intro h; cases h
      · intro h
        exact absurd hm (h i (List.mem_cons_self _ _)).1
    · rw [if_neg hm]
      by_cases he : (array (start + i)).epoch = UINT64_MAX
      · rw [if_pos he]
        constructor
        · intro h; cases h
        · intro h
          exact absurd he (h i (List.mem_cons_self _ _)).2
      · rw [if_neg he, ih]
        constructor
        · intro h j hj
          rcases List.mem_cons.mp hj with rfl | hj
          · exact ⟨hm, he⟩
          · exact h j hj
        · intro h j hj
          exact h j (List.mem_cons_of_mem _ hj)

theorem omcbuf_scan_fill (array : Nat → omcbuf_entry_t) (start tag epoch : Nat)
    (l : List Nat) (index : Nat) (h : omcbuf_scan array start tag epoch l = .fill index) :
    ∃ i ∈ l, index = start + i ∧ (array (start + i)).epoch = UINT64_MAX := by
  induction l with
  | nil => cases h
  | cons i rest ih =>
    unfold omcbuf_scan at h
    by_cases hm : (array (start + i)).tag = tag ∧ (array (start + i)).epoch = epoch
    · rw [if_pos hm] at h; cases h
    · rw [if_neg hm] at h
      by_cases he : (array (start + i)).epoch = UINT64_MAX
      · rw [if_pos he] at h
        cases h
        exact ⟨i, List.mem_cons_self _ _, rfl, he⟩
      · rw [if_neg he] at h
        obtain ⟨j, hj, h1, h2⟩ := ih h
        exact ⟨j, List.mem_cons_of_mem _ hj, h1, h2⟩

theorem omcbuf_scan_cold (array : Nat → omcbuf_entry_t) (start tag epoch i : Nat)
    (rest : List Nat) (hep : epoch ≠ UINT64_MAX)
    (he : (array (start + i)).epoch = UINT64_MAX) :
    omcbuf_scan array start tag epoch (i :: rest) = .fill (start + i) := by
  unfold omcbuf_scan
  have hm : ¬ ((array (start + i)).tag = tag ∧ (array (start + i)).epoch = epoch) := by
    rintro ⟨-, h⟩
    rw [he] at h
    exact hep h.symm
  rw [if_neg hm, if_pos he]

/-- The second loop of `omcbuf_insert` on ways that are all in use: it returns the smallest
LRU counter below the starting value, with the first way that holds it. -/
theorem omcbuf_lru_scan_spec (array : Nat → omcbuf_entry_t) (start : Nat) (l : List Nat) :
    ∀ (m : Nat) (j : Int), (∀ i ∈ l, (array (start + i)).epoch ≠ UINT64_MAX) →
      ∃ m' j', omcbuf_lru_scan array start l (m, j) = .ok (m', j') ∧ m' ≤ m ∧
        (∀ i ∈ l, m' ≤ (array (start + i)).lru) ∧
        ((m' = m ∧ j' = j) ∨
          (m' < m ∧ ∃ i ∈ l, j' = (i : Int) ∧ (array (start + i)).lru = m')) := by
  induction l with
  | nil =>
    intro m j _
    exact ⟨m, j, rfl, le_refl _, fun i hi => absurd hi (List.not_mem_nil i), Or.inl ⟨rfl, rfl⟩⟩
  | cons i rest ih =>
    intro m j hocc
    have hi : (array (start + i)).epoch ≠ UINT64_MAX := hocc i (List.mem_cons_self _ _)
    have hrest : ∀ k ∈ rest, (array (start + k)).epoch ≠ UINT64_MAX :=
      fun k hk => hocc k (List.mem_cons_of_mem _ hk)
    unfold omcbuf_lru_scan
    have hd : decide ((array (start + i)).epoch ≠ UINT64_MAX) = true := decide_eq_true hi
    simp only [hd, c_assert, if_true, pure_bind]
    by_cases hlt : (array (start + i)).lru < m
    · rw [if_pos hlt]
      obtain ⟨m', j', e, h1, h2, h3⟩ := ih (array (start + i)).lru (i : Int) hrest
      refine ⟨m', j', e, by omega, fun k hk => ?_, Or.inr ⟨by omega, ?_⟩⟩
      · rcases List.mem_cons.mp hk with rfl | hk
        · exact h1
        · exact h2 k hk
      · rcases h3 with ⟨a, b⟩ | ⟨_, k, hk, a, b⟩
        · exact ⟨i, List.mem_cons_self _ _, b, a.symm⟩
        · exact ⟨k, List.mem_cons_of_mem _ hk, a, b⟩
    · rw [if_neg hlt]
      obtain ⟨m', j', e, h1, h2, h3⟩ := ih m j hrest
      refine ⟨m', j', e, h1, fun k hk => ?_, ?_⟩
      · rcases List.mem_cons.mp hk with rfl | hk
        · omega
        · exact h2 k hk
      · rcases h3 with h3 | ⟨a, k, hk, b, c⟩
        · exact Or.inl h3
        · exact Or.inr ⟨a, k, List.mem_cons_of_mem _ hk, b, c⟩
theorem omcbuf_insert_full (ob : omcbuf_t) (addr epoch cycle : Nat) (hep : epoch ≠ UINT64_MAX)
    (hal : cache_aligned addr = true) (hw : 0 < ob.ways)
    (hfull : ∀ w, w < ob.ways → omcbuf_occupied ob (omcbuf_way ob addr w) ∧
      ¬ omcbuf_match ob addr epoch (omcbuf_way ob addr w))
    (hlru : ∀ w, w < ob.ways → (ob.array (omcbuf_way ob addr w)).lru < UINT64_MAX) :
    ∃ w, w < ob.ways ∧
      (∀ w', w' < ob.ways →
        (ob.array (omcbuf_way ob addr w)).lru ≤ (ob.array (omcbuf_way ob addr w')).lru) ∧
      omcbuf_insert ob addr epoch cycle
        = .ok ({ ob with
                  access_count := ob.access_count + 1,
                  miss_count := ob.miss_count + 1,
                  array := Function.update ob.array (omcbuf_way ob addr w)
                    { tag := omcbuf_tag ob addr, epoch := epoch,
                      lru := (ob.lru_counter + 1) % 2 ^ 64 },
                  lru_counter := (ob.lru_counter + 1) % 2 ^ 64,
                  evict_count := ob.evict_count + 1 },
                some (omcbuf_evict_addr ob (omcbuf_set_index ob addr) (omcbuf_way ob addr w),
                      (ob.array (omcbuf_way ob addr w)).epoch, cycle)) := by
  have hscan : omcbuf_scan ob.array (omcbuf_set_index ob addr * ob.ways) (omcbuf_tag ob addr)
      epoch (List.range ob.ways) = .full := by
    rw [omcbuf_scan_full_iff]
    intro i hi
    exact ⟨(hfull i (List.mem_range.mp hi)).2, (hfull i (List.mem_range.mp hi)).1⟩
  obtain ⟨m', j', e, h1, h2, h3⟩ := omcbuf_lru_scan_spec ob.array
    (omcbuf_set_index ob addr * ob.ways) (List.range ob.ways) UINT64_MAX (-1)
    (fun i hi => (hfull i (List.mem_range.mp hi)).1)
  have h0 := h2 0 (List.mem_range.mpr hw)
  have h0' := hlru 0 hw
  rcases h3 with ⟨a, -⟩ | ⟨-, w, hwm, rfl, hmin⟩
  · unfold omcbuf_way at h0'
    omega
  · refine ⟨w, List.mem_range.mp hwm, fun w' hw' => ?_, ?_⟩
    · unfold omcbuf_way
      rw [hmin]
      exact h2 w' (List.mem_range.mpr hw')
    · have hd : decide (epoch ≠ UINT64_MAX) = true := decide_eq_true hep
      have hidx : ((↑(omcbuf_set_index ob addr * ob.ways) : Int) + (w : Int)).toNat
          = omcbuf_set_index ob addr * ob.ways + w := by omega
      unfold omcbuf_insert
      simp only [hd, hal, c_assert, if_true, pure_bind]
      simp only [omcbuf_set_index, omcbuf_tag] at hscan e hidx
      simp only [hscan, e, except_ok_bind, hidx]
      rfl
theorem omcbuf_scan_hit (array : Nat → omcbuf_entry_t) (start tag epoch : Nat)
    (l : List Nat) (h : omcbuf_scan array start tag epoch l = .hit) :
    ∃ i ∈ l, (array (start + i)).tag = tag ∧ (array (start + i)).epoch = epoch := by
  induction l with
  | nil => cases h
  | cons i rest ih =>
    unfold omcbuf_scan at h
    by_cases hm : (array (start + i)).tag = tag ∧ (array (start + i)).epoch = epoch
    · exact ⟨i, List.mem_cons_self _ _, hm⟩
    · rw [if_neg hm] at h
      by_cases he : (array (start + i)).epoch = UINT64_MAX
      · rw [if_pos he] at h; cases h
      · rw [if_neg he] at h
        obtain ⟨j, hj, h1⟩ := ih h
        exact ⟨j, List.mem_cons_of_mem _ hj, h1⟩

theorem omcbuf_insert_asserts (ob : omcbuf_t) (addr epoch cycle : Nat)
    (r : omcbuf_t × Option (Nat × Nat × Nat)) (h : omcbuf_insert ob addr epoch cycle = .ok r) :
    epoch ≠ UINT64_MAX ∧ cache_aligned addr = true := by
  unfold omcbuf_insert at h
  obtain ⟨h1, h⟩ := c_assert_bind_ok h
  obtain ⟨h2, -⟩ := c_assert_bind_ok h
  exact ⟨of_decide_eq_true h1, h2⟩

/-- The three ways `omcbuf_insert` ends: a hit, the fill of an empty way, or the eviction of
the way with the smallest LRU counter of a full set. -/
theorem omcbuf_insert_total (ob : omcbuf_t) (addr epoch cycle : Nat)
    (hep : epoch ≠ UINT64_MAX) (hal : cache_aligned addr = true) (hw : 0 < ob.ways)
    (hlru : ∀ w, w < ob.ways → (ob.array (omcbuf_way ob addr w)).lru < UINT64_MAX) :
    ∃ ob' cb, omcbuf_insert ob addr epoch cycle = .ok (ob', cb) ∧
      ob'.ways = ob.ways ∧ ob'.set_idx_bits = ob.set_idx_bits ∧ ob'.set_mask = ob.set_mask ∧
      ((cb = none ∧ ob'.array = ob.array ∧ ob'.lru_counter = ob.lru_counter ∧
          ∃ w, w < ob.ways ∧ omcbuf_match ob addr epoch (omcbuf_way ob addr w)) ∨
       (cb = none ∧ ∃ w, w < ob.ways ∧ ¬ omcbuf_occupied ob (omcbuf_way ob addr w) ∧
          ob'.array = Function.update ob.array (omcbuf_way ob addr w)
            { tag := omcbuf_tag ob addr, epoch := epoch,
              lru := (ob.lru_counter + 1) % 2 ^ 64 } ∧
          ob'.lru_counter = (ob.lru_counter + 1) % 2 ^ 64) ∨
       ((∀ w, w < ob.ways → omcbuf_occupied ob (omcbuf_way ob addr w) ∧
            ¬ omcbuf_match ob addr epoch (omcbuf_way ob addr w)) ∧
          ∃ w, w < ob.ways ∧
            (∀ w', w' < ob.ways →
              (ob.array (omcbuf_way ob addr w)).lru ≤ (ob.array (omcbuf_way ob addr w')).lru) ∧
            cb = some (omcbuf_evict_addr ob (omcbuf_set_index ob addr) (omcbuf_way ob addr w),
                       (ob.array (omcbuf_way ob addr w)).epoch, cycle) ∧
            ob'.array = Function.update ob.array (omcbuf_way ob addr w)
              { tag := omcbuf_tag ob addr, epoch := epoch,
                lru := (ob.lru_counter + 1) % 2 ^ 64 } ∧
            ob'.lru_counter = (ob.lru_counter + 1) % 2 ^ 64)) := by
  have hd : decide (epoch ≠ UINT64_MAX) = true := decide_eq_true hep
  cases hscan : omcbuf_scan ob.array (omcbuf_set_index ob addr * ob.ways) (omcbuf_tag ob addr)
      epoch (List.range ob.ways) with
  | hit =>
    obtain ⟨i, hi, hm⟩ := omcbuf_scan_hit _ _ _ _ _ hscan
    refine ⟨{ ob with access_count := ob.access_count + 1, hit_count := ob.hit_count + 1 },
      none, ?_, rfl, rfl, rfl, Or.inl ⟨rfl, rfl, rfl, i, List.mem_range.mp hi, hm⟩⟩
    unfold omcbuf_insert
    simp only [hd, hal, c_assert, if_true, pure_bind]
    simp only [omcbuf_set_index, omcbuf_tag] at hscan
    simp only [hscan]
    rfl
  | fill index =>
    obtain ⟨i, hi, rfl, he⟩ := omcbuf_scan_fill _ _ _ _ _ _ hscan
    refine ⟨{ ob with
                access_count := ob.access_count + 1,
                array := Function.update ob.array (omcbuf_way ob addr i)
                  { tag := omcbuf_tag ob addr, epoch := epoch,
                    lru := (ob.lru_counter + 1) % 2 ^ 64 },
                lru_counter := (ob.lru_counter + 1) % 2 ^ 64,
                miss_count := ob.miss_count + 1 },
      none, ?_, rfl, rfl, rfl,
      Or.inr (Or.inl ⟨rfl, i, List.mem_range.mp hi, fun h => h he, rfl, rfl⟩)⟩
    unfold omcbuf_insert
    simp only [hd, hal, c_assert, if_true, pure_bind]
    simp only [omcbuf_set_index, omcbuf_tag] at hscan
    simp only [hscan]
    rfl
  | full =>
    have hfull : ∀ w, w < ob.ways → omcbuf_occupied ob (omcbuf_way ob addr w) ∧
        ¬ omcbuf_match ob addr epoch (omcbuf_way ob addr w) := by
      intro w hw'
      have := (omcbuf_scan_full_iff _ _ _ _ _).1 hscan w (List.mem_range.mpr hw')
      exact ⟨this.2, this.1⟩
    obtain ⟨w, hw1, hw2, e⟩ := omcbuf_insert_full ob addr epoch cycle hep hal hw hfull hlru
    exact ⟨_, _, e, rfl, rfl, rfl, Or.inr (Or.inr ⟨hfull, w, hw1, hw2, rfl, rfl, rfl⟩)⟩
theorem omcbuf_tag_congr {ob ob' : omcbuf_t} (h : ob'.set_idx_bits = ob.set_idx_bits)
    (a : Nat) : omcbuf_tag ob' a = omcbuf_tag ob a := by
  unfold omcbuf_tag; rw [h]

theorem omcbuf_way_congr {ob ob' : omcbuf_t} (h1 : ob'.set_mask = ob.set_mask)
    (h2 : ob'.ways = ob.ways) (a w : Nat) : omcbuf_way ob' a w = omcbuf_way ob a w := by
  unfold omcbuf_way omcbuf_set_index; rw [h1, h2]

theorem omcbuf_inv_init (sets ways : Nat) (ob : omcbuf_t) (hw : 0 < ways)
    (h : omcbuf_init sets ways = .ok ob) : omcbuf_inv ob (fun _ => 0) := by
  unfold omcbuf_init at h
  obtain ⟨bits, -, h⟩ := except_bind_ok h
  cases h
  have hempty : ∀ k, ¬ omcbuf_occupied
      { sets := sets, ways := ways, set_idx_bits := bits, set_mask := (1 <<< bits) - 1,
        array := fun _ => { tag := 0, epoch := UINT64_MAX, lru := 0 },
        lru_counter := 0, access_count := 0, hit_count := 0, miss_count := 0,
        evict_count := 0 } k := fun k hk => hk rfl
  exact { ways_pos := hw
          mask := by simp only [Nat.one_shiftLeft]
          lru_le := fun _ => le_refl _
          lru_inj := fun k _ hk => absurd hk (hempty k)
          src_ok := fun k hk => absurd hk (hempty k) }

/-- The invariant after `omcbuf_insert` has written way `w` of the set of `addr`. -/
theorem omcbuf_inv_write (ob ob' : omcbuf_t) (src : Nat → Nat) (addr epoch w : Nat)
    (hinv : omcbuf_inv ob src) (haddr : addr < 2 ^ 64) (hctr : ob.lru_counter < UINT64_MAX)
    (hal : cache_aligned addr = true) (hw : w < ob.ways)
    (h1 : ob'.ways = ob.ways) (h2 : ob'.set_idx_bits = ob.set_idx_bits)
    (h3 : ob'.set_mask = ob.set_mask)
    (h4 : ob'.array = Function.update ob.array (omcbuf_way ob addr w)
      { tag := omcbuf_tag ob addr, epoch := epoch, lru := (ob.lru_counter + 1) % 2 ^ 64 })
    (h5 : ob'.lru_counter = (ob.lru_counter + 1) % 2 ^ 64) :
    omcbuf_inv ob' (fun k => if ob'.array k = ob.array k then src k else addr) := by
  have hmod : (ob.lru_counter + 1) % 2 ^ 64 = ob.lru_counter + 1 := by
    apply Nat.mod_eq_of_lt
    unfold UINT64_MAX at hctr
    omega
  rw [hmod] at h4 h5
  have hsame : ∀ k, k ≠ omcbuf_way ob addr w → ob'.array k = ob.array k := by
    intro k hk; rw [h4, Function.update_noteq hk]
  have hnew : ob'.array (omcbuf_way ob addr w)
      = { tag := omcbuf_tag ob addr, epoch := epoch, lru := ob.lru_counter + 1 } := by
    rw [h4, Function.update_same]
  have hdiff : ob'.array (omcbuf_way ob addr w) ≠ ob.array (omcbuf_way ob addr w) := by
    intro e
    have h := hinv.lru_le (omcbuf_way ob addr w)
    rw [← e, hnew] at h
    simp only at h
    omega
  have hocc : ∀ k, k ≠ omcbuf_way ob addr w → omcbuf_occupied ob' k → omcbuf_occupied ob k := by
    intro k hk ho
    unfold omcbuf_occupied at ho ⊢
    rw [← hsame k hk]; exact ho
  refine { ways_pos := by rw [h1]; exact hinv.ways_pos
           mask := by rw [h3, h2]; exact hinv.mask
           lru_le := fun k => ?_
           lru_inj := fun k k' hk hk' he => ?_
           src_ok := fun k hk => ?_ }
  · rw [h5]
    by_cases hki : k = omcbuf_way ob addr w
    · rw [hki, hnew]
    · rw [hsame k hki]
      exact le_trans (hinv.lru_le k) (Nat.le_succ _)
  · by_cases hki : k = omcbuf_way ob addr w
    · by_cases hki' : k' = omcbuf_way ob addr w
      · rw [hki, hki']
      · rw [hki, hnew, hsame k' hki'] at he
        have := hinv.lru_le k'
        simp only at he
        omega
    · by_cases hki' : k' = omcbuf_way ob addr w
      · rw [hki', hnew, hsame k hki] at he
        have := hinv.lru_le k
        simp only at he
        omega
      · rw [hsame k hki, hsame k' hki'] at he
        exact hinv.lru_inj k k' (hocc k hki hk) (hocc k' hki' hk') he
  · by_cases hki : k = omcbuf_way ob addr w
    · subst hki
      simp only [if_neg hdiff]
      refine ⟨haddr, hal, ?_, w, by rw [h1]; exact hw, ?_⟩
      · rw [hnew, omcbuf_tag_congr h2]
      · rw [omcbuf_way_congr h3 h1]
    · simp only [if_pos (hsame k hki)]
      obtain ⟨a, b, c, w', d, e⟩ := hinv.src_ok k (hocc k hki hk)
      refine ⟨a, b, ?_, w', by rw [h1]; exact d, ?_⟩
      · rw [hsame k hki, omcbuf_tag_congr h2]; exact c
      · rw [omcbuf_way_congr h3 h1]; exact e

theorem omcbuf_inv_lru_lt (ob : omcbuf_t) (src : Nat → Nat) (hinv : omcbuf_inv ob src)
    (hctr : ob.lru_counter < UINT64_MAX) (k : Nat) : (ob.array k).lru < UINT64_MAX :=
  lt_of_le_of_lt (hinv.lru_le k) hctr

theorem omcbuf_inv_insert (ob : omcbuf_t) (src : Nat → Nat) (addr epoch cycle : Nat)
    (ob' : omcbuf_t) (cb : Option (Nat × Nat × Nat)) (hinv : omcbuf_inv ob src)
    (haddr : addr < 2 ^ 64) (hctr : ob.lru_counter < UINT64_MAX)
    (h : omcbuf_insert ob addr epoch cycle = .ok (ob', cb)) :
    omcbuf_inv ob' (fun k => if ob'.array k = ob.array k then src k else addr) := by
  obtain ⟨hep, hal⟩ := omcbuf_insert_asserts _ _ _ _ _ h
  obtain ⟨ob1, cb1, e, h1, h2, h3, hcase⟩ := omcbuf_insert_total ob addr epoch cycle hep hal
    hinv.ways_pos (fun w _ => omcbuf_inv_lru_lt ob src hinv hctr _)
  rw [h] at e
  cases e
  rcases hcase with ⟨-, h4, h5, -⟩ | ⟨-, w, hw, -, h4, h5⟩ | ⟨-, w, hw, -, -, h4, h5⟩
  · have hsrc : (fun k => if ob'.array k = ob.array k then src k else addr) = src := by
      funext k
      rw [h4, if_pos rfl]
    rw [hsrc]
    exact { ways_pos := by rw [h1]; exact hinv.ways_pos
            mask := by rw [h3, h2]; exact hinv.mask
            lru_le := fun k => by rw [h4, h5]; exact hinv.lru_le k
            lru_inj := fun k k' hk hk' he => by
              unfold omcbuf_occupied at hk hk'
              rw [h4] at hk hk' he
              exact hinv.lru_inj k k' hk hk' he
            src_ok := fun k hk => by
              unfold omcbuf_occupied at hk
              rw [h4] at hk
              obtain ⟨a, b, c, w', d, e⟩ := hinv.src_ok k hk
              refine ⟨a, b, ?_, w', by rw [h1]; exact d, ?_⟩
              · rw [h4, omcbuf_tag_congr h2]; exact c
              · rw [omcbuf_way_congr h3 h1]; exact e }
  · exact omcbuf_inv_write ob ob' src addr epoch w hinv haddr hctr hal hw h1 h2 h3 h4 h5
  · exact omcbuf_inv_write ob ob' src addr epoch w hinv haddr hctr hal hw h1 h2 h3 h4 h5

theorem omcbuf_reach_inv (ob : omcbuf_t) (src : Nat → Nat) (h : omcbuf_reach ob src) :
    omcbuf_inv ob src := by
  induction h with
  | init sets ways ob hw h => exact omcbuf_inv_init sets ways ob hw h
  | insert ob src addr epoch cycle ob' cb _ haddr hctr h ih =>
    exact omcbuf_inv_insert ob src addr epoch cycle ob' cb ih haddr hctr h
theorem cache_aligned_mod {a : Nat} (h : cache_aligned a = true) : a % 64 = 0 := by
  unfold cache_aligned UTIL_CACHE_LINE_SIZE at h
  have e : a &&& (64 - 1) = a % 2 ^ 6 := Nat.and_pow_two_sub_one_eq_mod a 6
  rw [e] at h
  simpa using h

/-- Tag and set index of a 64-bit line address recombine to the address. -/
theorem omcbuf_addr_roundtrip (ob : omcbuf_t) (a : Nat)
    (hmask : ob.set_mask = 2 ^ ob.set_idx_bits - 1) (ha : a < 2 ^ 64)
    (hal : cache_aligned a = true) :
    (((omcbuf_tag ob a <<< ob.set_idx_bits) ||| omcbuf_set_index ob a)
      <<< UTIL_CACHE_LINE_BITS) % 2 ^ 64 = a := by
  have hmod := cache_aligned_mod hal
  unfold omcbuf_tag omcbuf_set_index UTIL_CACHE_LINE_BITS
  rw [hmask, Nat.and_pow_two_sub_one_eq_mod, Nat.shiftRight_add, Nat.shiftLeft_eq,
    Nat.shiftLeft_eq, Nat.shiftRight_eq_div_pow, Nat.shiftRight_eq_div_pow]
  have hlt : a / 2 ^ 6 % 2 ^ ob.set_idx_bits < 2 ^ ob.set_idx_bits :=
    Nat.mod_lt _ (Nat.pow_pos (by decide))
  rw [Nat.mul_comm (a / 2 ^ 6 / 2 ^ ob.set_idx_bits), ← Nat.mul_add_lt_is_or hlt,
    Nat.div_add_mod]
  have e : a / 2 ^ 6 * 2 ^ 6 = a := by
    have := Nat.div_add_mod a 64
    omega
  rw [e]
  exact Nat.mod_eq_of_lt ha

theorem omcbuf_way_inj (ob : omcbuf_t) (a b w w' : Nat) (hw : w < ob.ways) (hw' : w' < ob.ways)
    (h : omcbuf_way ob a w = omcbuf_way ob b w') :
    omcbuf_set_index ob a = omcbuf_set_index ob b ∧ w = w' := by
  unfold omcbuf_way at h
  have hpos : 0 < ob.ways := by omega
  have h1 : (omcbuf_set_index ob a * ob.ways + w) / ob.ways = omcbuf_set_index ob a := by
    rw [Nat.mul_comm, Nat.mul_add_div hpos, Nat.div_eq_of_lt hw, Nat.add_zero]
  have h2 : (omcbuf_set_index ob b * ob.ways + w') / ob.ways = omcbuf_set_index ob b := by
    rw [Nat.mul_comm, Nat.mul_add_div hpos, Nat.div_eq_of_lt hw', Nat.add_zero]
  have hs : omcbuf_set_index ob a = omcbuf_set_index ob b := by
    rw [← h1, ← h2, h]
  rw [hs] at h
  exact ⟨hs, Nat.add_left_cancel h⟩
/-- C29 (OMC victim selection): in every reachable OMC-buffer state the LRU counters of the
entries in use are pairwise distinct (across the buffer, so within every set).  An
`omcbuf_insert` that finds every way of the addressed set in use and none matching returns,
and evicts the way `w` whose LRU counter is strictly smaller than that of every other way of
the set: the callback carries the address and the epoch of that entry, and the entry is
replaced by the new tag and epoch stamped with `lru_counter + 1`, which is larger than the
counter of every entry.  Every insert stamps the entry it writes with the new value of
`lru_counter`, one more than the value before, so counters are handed out in growing order. -/
theorem omcbuf_victim_smallest_lru (ob : omcbuf_t) (src : Nat → Nat)
    (hr : omcbuf_reach ob src) :
    (∀ k k', omcbuf_occupied ob k → omcbuf_occupied ob k' → k ≠ k' →
      (ob.array k).lru ≠ (ob.array k').lru) ∧
    (∀ addr epoch cycle, ob.lru_counter < UINT64_MAX →
      epoch ≠ UINT64_MAX → cache_aligned addr = true →
      (∀ w, w < ob.ways → omcbuf_occupied ob (omcbuf_way ob addr w) ∧
        ¬ omcbuf_match ob addr epoch (omcbuf_way ob addr w)) →
      ∃ w ob', w < ob.ways ∧
        (∀ w', w' < ob.ways → w' ≠ w →
          (ob.array (omcbuf_way ob addr w)).lru < (ob.array (omcbuf_way ob addr w')).lru) ∧
        omcbuf_insert ob addr epoch cycle
          = .ok (ob', some (omcbuf_evict_addr ob (omcbuf_set_index ob addr)
                              (omcbuf_way ob addr w),
                            (ob.array (omcbuf_way ob addr w)).epoch, cycle)) ∧
        ob'.array = Function.update ob.array (omcbuf_way ob addr w)
          { tag := omcbuf_tag ob addr, epoch := epoch, lru := ob.lru_counter + 1 } ∧
        ob'.lru_counter = ob.lru_counter + 1 ∧
        ∀ k, (ob.array k).lru < ob.lru_counter + 1) ∧
    (∀ addr epoch cycle ob' cb, ob.lru_counter < UINT64_MAX →
      omcbuf_insert ob addr epoch cycle = .ok (ob', cb) →
      ∀ k, ob'.array k ≠ ob.array k →
        ob'.lru_counter = ob.lru_counter + 1 ∧ (ob'.array k).lru = ob'.lru_counter) := by
  have hinv := omcbuf_reach_inv ob src hr
  refine ⟨fun k k' hk hk' hne he => hne (hinv.lru_inj k k' hk hk' he), ?_, ?_⟩
  · intro addr epoch cycle hctr hep hal hfull
    have hmod : (ob.lru_counter + 1) % 2 ^ 64 = ob.lru_counter + 1 := by
      apply Nat.mod_eq_of_lt
      unfold UINT64_MAX at hctr
      omega
    obtain ⟨w, hw, hmin, e⟩ := omcbuf_insert_full ob addr epoch cycle hep hal hinv.ways_pos
      hfull (fun w _ => omcbuf_inv_lru_lt ob src hinv hctr _)
    rw [hmod] at e
    refine ⟨w, _, hw, fun w' hw' hne => ?_, e, rfl, rfl, fun k => ?_⟩
    · rcases Nat.lt_or_ge (ob.array (omcbuf_way ob addr w)).lru
          (ob.array (omcbuf_way ob addr w')).lru with h | h
      · exact h
      · have heq := le_antisymm (hmin w' hw') h
        have hk := hinv.lru_inj _ _ (hfull w hw).1 (hfull w' hw').1 heq
        exact absurd (omcbuf_way_inj ob addr addr w w' hw hw' hk).2.symm hne
    · exact Nat.lt_succ_of_le (hinv.lru_le k)
  · intro addr epoch cycle ob' cb hctr h k hk
    have hmod : (ob.lru_counter + 1) % 2 ^ 64 = ob.lru_counter + 1 := by
      apply Nat.mod_eq_of_lt
      unfold UINT64_MAX at hctr
      omega
    obtain ⟨hep, hal⟩ := omcbuf_insert_asserts _ _ _ _ _ h
    obtain ⟨ob1, cb1, e, -, -, -, hcase⟩ := omcbuf_insert_total ob addr epoch cycle hep hal
      hinv.ways_pos (fun w _ => omcbuf_inv_lru_lt ob src hinv hctr _)
    rw [h] at e
    cases e
    have hwrite : ∀ w, ob'.array = Function.update ob.array (omcbuf_way ob addr w)
          { tag := omcbuf_tag ob addr, epoch := epoch,
            lru := (ob.lru_counter + 1) % 2 ^ 64 } →
        ob'.lru_counter = (ob.lru_counter + 1) % 2 ^ 64 →
        ob'.lru_counter = ob.lru_counter + 1 ∧ (ob'.array k).lru = ob'.lru_counter := by
      intro w h4 h5
      rw [hmod] at h4 h5
      refine ⟨h5, ?_⟩
      by_cases hki : k = omcbuf_way ob addr w
      · rw [h5, h4, hki, Function.update_same]
      · rw [h4, Function.update_noteq hki] at hk
        exact absurd rfl hk
    rcases hcase with ⟨-, h4, -, -⟩ | ⟨-, w, -, -, h4, h5⟩ | ⟨-, w, -, -, -, h4, h5⟩
    · rw [h4] at hk
      exact absurd rfl hk
    · exact hwrite w h4 h5
    · exact hwrite w h4 h5

theorem omcbuf_two_lines_reach : omcbuf_reach omcbuf_two_lines omcbuf_two_lines_src :=
  .insert omcbuf_one_line _ 0x40 0 1 omcbuf_two_lines none
    (.insert omcbuf_one_set _ 0x0 0 0 omcbuf_one_line none
      (.init 1 2 omcbuf_one_set (by decide) rfl) (by decide) (by decide) rfl)
    (by decide) (by decide) rfl

theorem omcbuf_two_lines_full (w : Nat) (hw : w < omcbuf_two_lines.ways) :
    omcbuf_occupied omcbuf_two_lines (omcbuf_way omcbuf_two_lines 0x80 w) ∧
    ¬ omcbuf_match omcbuf_two_lines 0x80 0 (omcbuf_way omcbuf_two_lines 0x80 w) := by
  have hw' : w < 2 := hw
  unfold omcbuf_occupied omcbuf_match
  interval_cases w
  · decide
  · decide

/-- Witness for C29: in the buffer of one set with two ways that holds line `0x0` (LRU counter
1) and line `0x40` (LRU counter 2), `insert(0x80, 0)` evicts way 0, the entry of line `0x0`,
and stamps the new entry with 3. -/
theorem omcbuf_victim_smallest_lru_witness :
    omcbuf_reach omcbuf_two_lines omcbuf_two_lines_src ∧
    omcbuf_set_view omcbuf_two_lines = (⟨0, 0, 1⟩, ⟨1, 0, 2⟩, 2) ∧
    (omcbuf_insert omcbuf_two_lines 0x80 0 2).map (fun r => (omcbuf_set_view r.1, r.2))
      = .ok ((⟨2, 0, 3⟩, ⟨1, 0, 2⟩, 3), some (0x0, 0, 2)) ∧
    ∃ w ob', w < omcbuf_two_lines.ways ∧
      (∀ w', w' < omcbuf_two_lines.ways → w' ≠ w →
        (omcbuf_two_lines.array (omcbuf_way omcbuf_two_lines 0x80 w)).lru
          < (omcbuf_two_lines.array (omcbuf_way omcbuf_two_lines 0x80 w')).lru) ∧
      omcbuf_insert omcbuf_two_lines 0x80 0 2
        = .ok (ob', some (omcbuf_evict_addr omcbuf_two_lines
                            (omcbuf_set_index omcbuf_two_lines 0x80)
                            (omcbuf_way omcbuf_two_lines 0x80 w),
                          (omcbuf_two_lines.array (omcbuf_way omcbuf_two_lines 0x80 w)).epoch,
                          2)) :=
  ⟨omcbuf_two_lines_reach, rfl, rfl,
    match (omcbuf_victim_smallest_lru omcbuf_two_lines omcbuf_two_lines_src
        omcbuf_two_lines_reach).2.1 0x80 0 2 (by decide) (by decide) rfl
        omcbuf_two_lines_full with
    | ⟨w, ob', h1, h2, h3, _⟩ => ⟨w, ob', h1, h2, h3⟩⟩
/-- C30 (OMC eviction callback): in a reachable OMC-buffer state, `omcbuf_insert` of a line
address returns, with at most one callback (the callback of the call is `none` or one
triple).  It makes the callback exactly when every way of the addressed set is in use and
none matches the tag and the epoch.  When every way of the set is empty it makes none and
fills a way of the set with the new tag and epoch.  A callback carries the cycle of the call,
the epoch of the victim, and the line address with which the victim entry was inserted,
which is 64-byte aligned and is the victim's tag and the set index recombined. -/
theorem omcbuf_evict_callback (ob : omcbuf_t) (src : Nat → Nat) (hr : omcbuf_reach ob src)
    (addr epoch cycle : Nat) (hctr : ob.lru_counter < UINT64_MAX)
    (hep : epoch ≠ UINT64_MAX) (hal : cache_aligned addr = true) :
    ∃ ob' cb, omcbuf_insert ob addr epoch cycle = .ok (ob', cb) ∧
      (cb.isSome = true ↔
        ∀ w, w < ob.ways → omcbuf_occupied ob (omcbuf_way ob addr w) ∧
          ¬ omcbuf_match ob addr epoch (omcbuf_way ob addr w)) ∧
      ((∀ w, w < ob.ways → ¬ omcbuf_occupied ob (omcbuf_way ob addr w)) →
        cb = none ∧ ∃ w, w < ob.ways ∧
          ob'.array = Function.update ob.array (omcbuf_way ob addr w)
            { tag := omcbuf_tag ob addr, epoch := epoch, lru := ob.lru_counter + 1 }) ∧
      (∀ a e c, cb = some (a, e, c) →
        ∃ w, w < ob.ways ∧ omcbuf_occupied ob (omcbuf_way ob addr w) ∧
          a = src (omcbuf_way ob addr w) ∧ cache_aligned a = true ∧
          a = omcbuf_evict_addr ob (omcbuf_set_index ob addr) (omcbuf_way ob addr w) ∧
          e = (ob.array (omcbuf_way ob addr w)).epoch ∧ c = cycle ∧
          ob'.array (omcbuf_way ob addr w)
            = { tag := omcbuf_tag ob addr, epoch := epoch, lru := ob.lru_counter + 1 }) := by
  have hinv := omcbuf_reach_inv ob src hr
  have hmod : (ob.lru_counter + 1) % 2 ^ 64 = ob.lru_counter + 1 := by
    apply Nat.mod_eq_of_lt
    unfold UINT64_MAX at hctr
    omega
  obtain ⟨ob', cb, e, -, -, -, hcase⟩ := omcbuf_insert_total ob addr epoch cycle hep hal
    hinv.ways_pos (fun w _ => omcbuf_inv_lru_lt ob src hinv hctr _)
  rw [hmod] at hcase
  refine ⟨ob', cb, e, ?_⟩
  rcases hcase with ⟨rfl, -, -, w, hw, hm⟩ | ⟨rfl, w, hw, hno, h4, -⟩ |
    ⟨hfull, w, hw, -, rfl, h4, -⟩
  · refine ⟨⟨fun h => (by cases h), fun h => absurd hm (h w hw).2⟩, fun hcold => ?_,
      fun a e c h => by cases h⟩
    have hocc : omcbuf_occupied ob (omcbuf_way ob addr w) := by
      unfold omcbuf_occupied
      rw [hm.2]
      exact hep
    exact absurd hocc (hcold w hw)
  · exact ⟨⟨fun h => (by cases h), fun h => absurd (h w hw).1 hno⟩, fun _ => ⟨rfl, w, hw, h4⟩,
      fun a e c h => by cases h⟩
  · refine ⟨⟨fun _ => hfull, fun _ => rfl⟩,
      fun hcold => absurd (hfull w hw).1 (hcold w hw), fun a e c h => ?_⟩
    cases h
    obtain ⟨s1, s2, s3, w', hw', s4⟩ := hinv.src_ok _ (hfull w hw).1
    have hset := (omcbuf_way_inj ob addr _ w w' hw hw' s4).1
    have hround := omcbuf_addr_roundtrip ob _ hinv.mask s1 s2
    have hev : omcbuf_evict_addr ob (omcbuf_set_index ob addr) (omcbuf_way ob addr w)
        = src (omcbuf_way ob addr w) := by
      unfold omcbuf_evict_addr
      rw [s3, hset]
      exact hround
    refine ⟨w, hw, (hfull w hw).1, hev, ?_, rfl, rfl, rfl, ?_⟩
    · rw [hev]; exact s2
    · rw [h4, Function.update_same]

/-- Witness for C30: in the full set of `omcbuf_two_lines`, `insert(0x80, 0)` at cycle 2 makes
the callback `(0x0, 0, 2)`, for the line `0x0` that filled way 0; in the empty buffer
`insert(0x0, 0)` makes none. -/
theorem omcbuf_evict_callback_witness :
    (omcbuf_insert omcbuf_two_lines 0x80 0 2).map (fun r => r.2) = .ok (some (0x0, 0, 2)) ∧
    omcbuf_two_lines_src 0 = 0x0 ∧ omcbuf_two_lines_src 1 = 0x40 ∧
    (omcbuf_insert omcbuf_one_set 0x0 0 0).map (fun r => r.2) = .ok none ∧
    ∃ ob' cb, omcbuf_insert omcbuf_two_lines 0x80 0 2 = .ok (ob', cb) ∧
      (cb.isSome = true ↔
        ∀ w, w < omcbuf_two_lines.ways →
          omcbuf_occupied omcbuf_two_lines (omcbuf_way omcbuf_two_lines 0x80 w) ∧
          ¬ omcbuf_match omcbuf_two_lines 0x80 0 (omcbuf_way omcbuf_two_lines 0x80 w)) :=
  ⟨rfl, by decide, by decide, rfl,
    match omcbuf_evict_callback omcbuf_two_lines omcbuf_two_lines_src omcbuf_two_lines_reach
        0x80 0 2 (by decide) (by decide) rfl with
    | ⟨ob', cb, h1, h2, _⟩ => ⟨ob', cb, h1, h2⟩⟩

/-! ## C34: the timing of an NVM bank -/

/-- C34 (NVM bank timing): for a device with `bank_count = 2 ^ k` and `mask = bank_count - 1`,
and with `b = (addr >> 6) & (bank_count - 1)`, an access whose finish cycle
`max(cycle, banks[b]) + lat` fits in 64 bits passes the assertion on the bank index and
returns that finish cycle; it stores it in `banks[b]`, leaves every other bank as it was, and
counts as uncontended exactly when `cycle ≥ banks[b]`. -/
theorem nvm_access_timing (nvm : nvm_t) (addr cycle lat k : Nat)
    (hb : nvm.bank_count = 2 ^ k) (hm : nvm.mask = nvm.bank_count - 1)
    (hov : max cycle (nvm.banks ((addr >>> 6) &&& (nvm.bank_count - 1))) + lat < 2 ^ 64) :
    (addr >>> 6) &&& (nvm.bank_count - 1) < nvm.bank_count ∧
    ∃ banks, nvm_access nvm addr cycle lat
        = .ok (banks, max cycle (nvm.banks ((addr >>> 6) &&& (nvm.bank_count - 1))) + lat,
               decide (cycle ≥ nvm.banks ((addr >>> 6) &&& (nvm.bank_count - 1)))) ∧
      banks ((addr >>> 6) &&& (nvm.bank_count - 1))
        = max cycle (nvm.banks ((addr >>> 6) &&& (nvm.bank_count - 1))) + lat ∧
      ∀ i, i ≠ (addr >>> 6) &&& (nvm.bank_count - 1) → banks i = nvm.banks i := by
  have hlt : (addr >>> 6) &&& (nvm.bank_count - 1) < nvm.bank_count := by
    rw [hb, Nat.and_pow_two_sub_one_eq_mod]
    exact Nat.mod_lt _ (Nat.pow_pos (by decide))
  refine ⟨hlt, Function.update nvm.banks ((addr >>> 6) &&& (nvm.bank_count - 1))
    (max cycle (nvm.banks ((addr >>> 6) &&& (nvm.bank_count - 1))) + lat), ?_, ?_, ?_⟩
  · unfold nvm_access UTIL_CACHE_LINE_BITS
    rw [hm]
    have hd : decide ((addr >>> 6) &&& (nvm.bank_count - 1) < nvm.bank_count) = true :=
      decide_eq_true hlt
    simp only [hd, c_assert, if_true, pure_bind]
    by_cases hc : cycle ≥ nvm.banks ((addr >>> 6) &&& (nvm.bank_count - 1))
    · have e : max cycle (nvm.banks ((addr >>> 6) &&& (nvm.bank_count - 1))) = cycle :=
        max_eq_left hc
      rw [e] at hov ⊢
      simp only [decide_eq_true hc, if_true, Nat.mod_eq_of_lt hov]
      rfl
    · have hc' : nvm.banks ((addr >>> 6) &&& (nvm.bank_count - 1)) ≥ cycle := by omega
      have e : max cycle (nvm.banks ((addr >>> 6) &&& (nvm.bank_count - 1)))
          = nvm.banks ((addr >>> 6) &&& (nvm.bank_count - 1)) := max_eq_right hc'
      rw [e] at hov ⊢
      simp only [decide_eq_false hc, Bool.false_eq_true, if_false, Nat.mod_eq_of_lt hov]
      rfl
  · simp only [Function.update_same]
  · intro i hi
    simp only [Function.update_noteq hi]

/-- Witness for C34: one bank, write latency 10; the first write, submitted at cycle 3 to a
bank that is free from cycle 0, is uncontended and finishes at cycle 13, and a second write
submitted at cycle 5 waits for the bank and finishes at cycle 23. -/
theorem nvm_access_timing_witness :
    (nvm_access (nvm_init 1 0 10) 0x1000 3 10).map (fun r => (r.2.1, r.2.2, r.1 0))
      = .ok (13, true, 13) ∧
    ((nvm_write (nvm_init 1 0 10) 0x1000 3) >>= fun nvm =>
        (nvm_access nvm 0x1040 5 10).map (fun r => (r.2.1, r.2.2, r.1 0)))
      = .ok (23, false, 23) ∧
    (0x1000 >>> 6) &&& ((nvm_init 1 0 10).bank_count - 1) < (nvm_init 1 0 10).bank_count ∧
    ∃ banks, nvm_access (nvm_init 1 0 10) 0x1000 3 10
        = .ok (banks,
               max 3 ((nvm_init 1 0 10).banks
                 ((0x1000 >>> 6) &&& ((nvm_init 1 0 10).bank_count - 1))) + 10,
               decide (3 ≥ (nvm_init 1 0 10).banks
                 ((0x1000 >>> 6) &&& ((nvm_init 1 0 10).bank_count - 1)))) :=
  ⟨rfl, rfl,
    (nvm_access_timing (nvm_init 1 0 10) 0x1000 3 10 0 rfl rfl (by decide)).1,
    match (nvm_access_timing (nvm_init 1 0 10) 0x1000 3 10 0 rfl rfl (by decide)).2 with
    | ⟨banks, h, _⟩ => ⟨banks, h⟩⟩

/-! ## C35, C36: merging an epoch the overlay does not hold; a page with all 64 lines -/

/-- C35 (merging an absent epoch): the empty overlay holds no overlay epoch with number 0, and
`overlay_epoch_merge(0, omt)` on it does not return: the assertion at line 1607 fails. -/
theorem merge_absent_epoch_aborts :
    overlay_find overlay_init 0 = none ∧
    overlay_epoch_merge overlay_init 0 omt_init = .error (.assert_fail 1607) :=
  ⟨rfl, rfl⟩

set_option maxRecDepth 100000 in
/-- C36 (size class of a full page): `overlay_page_size_class(64)` fails its assertion at line
1432, while the counts 0, 3, 4, 7, 8, 15, 16, 31, 32 and 63 give 256, 256, 512, 512, 1024,
1024, 2048, 2048, 4096 and 4096.  With all 64 lines of the page at `0x1000` inserted in epoch
0 and in epoch 1 (each epoch then has size 4096), the merge of epoch 0 returns and the merge
of epoch 1, which unlinks the 64 lines of the page of epoch 0, fails that assertion at the
last unlink. -/
theorem size_class_full_page_aborts :
    overlay_page_size_class 64 = .error (.assert_fail 1432) ∧
    [0, 3, 4, 7, 8, 15, 16, 31, 32, 63].map overlay_page_size_class
      = [.ok 256, .ok 256, .ok 512, .ok 512, .ok 1024, .ok 1024, .ok 2048, .ok 2048,
         .ok 4096, .ok 4096] ∧
    (overlay_inserts (full_page_lines 0 ++ full_page_lines 1) overlay_init).map
        (fun ov => (overlay_page_lines ov 0 0x1000, overlay_epoch_size ov 0,
                    overlay_epoch_size ov 1))
      = .ok (64, 4096, 4096) ∧
    abort_of (overlay_epoch_merge overlay_full_pages 0 omt_init) = none ∧
    abort_of ((overlay_epoch_merge overlay_full_pages 0 omt_init) >>= fun r =>
        overlay_epoch_merge r.1 1 r.2) = some (.assert_fail 1432) := by
  refine ⟨rfl, rfl, ?_, ?_, ?_⟩ <;> rfl

/-! ## C40: rounding up to a power of two -/

/-- C40 (`round_up_power2_uint64`): for `n = 1` the function returns 0, which is not a power of
two and is below `n`; for `n = 2, 3, 4, 5, 8, 9` and `2 ^ 63` it returns 2, 4, 4, 8, 8, 16 and
`2 ^ 63`. -/
theorem round_up_power2_of_one :
    round_up_power2_uint64 1 = some 0 ∧
    [2, 3, 4, 5, 8, 9, 2 ^ 63].map round_up_power2_uint64
      = [some 2, some 4, some 4, some 8, some 8, some 16, some (2 ^ 63)] := by
  refine ⟨?_, ?_⟩ <;> rfl

/-! ## C38: the OMC buffer holds a line of an epoch at most once -/

theorem set_way_inj (n s s' w w' : Nat) (hw : w < n) (hw' : w' < n)
    (h : s * n + w = s' * n + w') : s = s' ∧ w = w' := by
  have hpos : 0 < n := by omega
  have h1 : (s * n + w) / n = s := by
    rw [Nat.mul_comm, Nat.mul_add_div hpos, Nat.div_eq_of_lt hw, Nat.add_zero]
  have h2 : (s' * n + w') / n = s' := by
    rw [Nat.mul_comm, Nat.mul_add_div hpos, Nat.div_eq_of_lt hw', Nat.add_zero]
  have hs : s = s' := by rw [← h1, ← h2, h]
  rw [hs] at h
  exact ⟨hs, Nat.add_left_cancel h⟩

/-- The first loop of `omcbuf_insert` fills the first empty way: the ways before it are in use
and do not match. -/
theorem omcbuf_scan_fill_first (array : Nat → omcbuf_entry_t) (start tag epoch : Nat)
    (l : List Nat) (hl : l.Pairwise (fun a b => a < b)) (index : Nat)
    (h : omcbuf_scan array start tag epoch l = .fill index) :
    ∃ i ∈ l, index = start + i ∧ (array (start + i)).epoch = UINT64_MAX ∧
      ∀ j ∈ l, j < i → (array (start + j)).epoch ≠ UINT64_MAX ∧
        ¬ ((array (start + j)).tag = tag ∧ (array (start + j)).epoch = epoch) := by
  induction l with
  | nil => cases h
  | cons a rest ih =>
    unfold omcbuf_scan at h
    by_cases hm : (array (start + a)).tag = tag ∧ (array (start + a)).epoch = epoch
    · rw [if_pos hm] at h; cases h
    · rw [if_neg hm] at h
      by_cases he : (array (start + a)).epoch = UINT64_MAX
      · rw [if_pos he] at h
        cases h
        refine ⟨a, List.mem_cons_self _ _, rfl, he, fun j hj hlt => ?_⟩
        rcases List.mem_cons.mp hj with rfl | hj
        · exact absurd hlt (Nat.lt_irrefl _)
        · have := (List.pairwise_cons.mp hl).1 j hj
          omega
      · rw [if_neg he] at h
        obtain ⟨i, hi, h1, h2, h3⟩ := ih (List.pairwise_cons.mp hl).2 h
        refine ⟨i, List.mem_cons_of_mem _ hi, h1, h2, fun j hj hlt => ?_⟩
        rcases List.mem_cons.mp hj with rfl | hj
        · exact ⟨he, hm⟩
        · exact h3 j hj hlt

theorem omcbuf_insert_of_hit (ob : omcbuf_t) (addr epoch cycle : Nat)
    (hep : epoch ≠ UINT64_MAX) (hal : cache_aligned addr = true)
    (hscan : omcbuf_scan ob.array (omcbuf_set_index ob addr * ob.ways) (omcbuf_tag ob addr)
      epoch (List.range ob.ways) = .hit) :
    omcbuf_insert ob addr epoch cycle
      = .ok ({ ob with access_count := ob.access_count + 1, hit_count := ob.hit_count + 1 },
             none) := by
  have hd : decide (epoch ≠ UINT64_MAX) = true := decide_eq_true hep
  unfold omcbuf_insert
  simp only [hd, hal, c_assert, if_true, pure_bind]
  simp only [omcbuf_set_index, omcbuf_tag] at hscan
  simp only [hscan]
  rfl

theorem omcbuf_insert_of_fill (ob : omcbuf_t) (addr epoch cycle index : Nat)
    (hep : epoch ≠ UINT64_MAX) (hal : cache_aligned addr = true)
    (hscan : omcbuf_scan ob.array (omcbuf_set_index ob addr * ob.ways) (omcbuf_tag ob addr)
      epoch (List.range ob.ways) = .fill index) :
    omcbuf_insert ob addr epoch cycle
      = .ok ({ ob with
                access_count := ob.access_count + 1,
                array := Function.update ob.array index
                  { tag := omcbuf_tag ob addr, epoch := epoch,
                    lru := (ob.lru_counter + 1) % 2 ^ 64 },
                lru_counter := (ob.lru_counter + 1) % 2 ^ 64,
                miss_count := ob.miss_count + 1 }, none) := by
  have hd : decide (epoch ≠ UINT64_MAX) = true := decide_eq_true hep
  unfold omcbuf_insert
  simp only [hd, hal, c_assert, if_true, pure_bind]
  simp only [omcbuf_set_index, omcbuf_tag] at hscan
  simp only [hscan]
  rfl

/-- Writing a new tag and epoch into way `i` of set `s0` keeps the prefix and the uniqueness
property when the ways before `i` are in use, way `i` was empty or every way of the set is
in use, and no way in use of the set matches what is written. -/
theorem omcbuf_write_keeps (ob ob' : omcbuf_t) (s0 i tag epoch lru : Nat)
    (hp : omcbuf_prefix ob) (hu : omcbuf_unique ob) (hep : epoch ≠ UINT64_MAX)
    (hi : i < ob.ways) (hways : ob'.ways = ob.ways)
    (harr : ob'.array = Function.update ob.array (s0 * ob.ways + i)
      { tag := tag, epoch := epoch, lru := lru })
    (hbefore : ∀ w, w < i → omcbuf_occupied ob (s0 * ob.ways + w))
    (hnomatch : ∀ w, w < ob.ways → w ≠ i → omcbuf_occupied ob (s0 * ob.ways + w) →
      ¬ ((ob.array (s0 * ob.ways + w)).tag = tag ∧ (ob.array (s0 * ob.ways + w)).epoch = epoch)) :
    omcbuf_prefix ob' ∧ omcbuf_unique ob' := by
  have hsame : ∀ k, k ≠ s0 * ob.ways + i → ob'.array k = ob.array k := by
    intro k hk; rw [harr, Function.update_noteq hk]
  have hnew : ob'.array (s0 * ob.ways + i) = { tag := tag, epoch := epoch, lru := lru } := by
    rw [harr, Function.update_same]
  have hocc_new : omcbuf_occupied ob' (s0 * ob.ways + i) := by
    unfold omcbuf_occupied; rw [hnew]; exact hep
  have hocc : ∀ k, k ≠ s0 * ob.ways + i → (omcbuf_occupied ob' k ↔ omcbuf_occupied ob k) := by
    intro k hk
    unfold omcbuf_occupied
    rw [hsame k hk]
  constructor
  · intro s w w' hlt hw' ho
    rw [hways] at hw' ho ⊢
    by_cases hk : s * ob.ways + w = s0 * ob.ways + i
    · rw [hk]; exact hocc_new
    · rw [hocc _ hk]
      by_cases hk' : s * ob.ways + w' = s0 * ob.ways + i
      · obtain ⟨rfl, rfl⟩ := set_way_inj ob.ways s s0 w' i hw' hi hk'
        exact hbefore w hlt
      · exact hp s w w' hlt hw' ((hocc _ hk').1 ho)
  · intro s w w' hw hw' ho ho' ht he
    rw [hways] at hw hw' ho ho' ht he
    by_cases hk : s * ob.ways + w = s0 * ob.ways + i
    · by_cases hk' : s * ob.ways + w' = s0 * ob.ways + i
      · exact Nat.add_left_cancel (hk.trans hk'.symm)
      · obtain ⟨rfl, rfl⟩ := set_way_inj ob.ways s s0 w i hw hi hk
        rw [hnew, hsame _ hk'] at ht he
        have hne : w' ≠ w := fun e => hk' (by rw [e])
        exact absurd ⟨ht.symm, he.symm⟩ (hnomatch w' hw' hne ((hocc _ hk').1 ho'))
    · by_cases hk' : s * ob.ways + w' = s0 * ob.ways + i
      · obtain ⟨rfl, rfl⟩ := set_way_inj ob.ways s s0 w' i hw' hi hk'
        rw [hnew, hsame _ hk] at ht he
        have hne : w ≠ w' := fun e => hk (by rw [e])
        exact absurd ⟨ht, he⟩ (hnomatch w hw hne ((hocc _ hk).1 ho))
      · rw [hsame _ hk, hsame _ hk'] at ht he
        exact hu s w w' hw hw' ((hocc _ hk).1 ho) ((hocc _ hk').1 ho') ht he
theorem omcbuf_insert_keeps_sets (ob : omcbuf_t) (src : Nat → Nat) (hinv : omcbuf_inv ob src)
    (hp : omcbuf_prefix ob) (hu : omcbuf_unique ob) (addr epoch cycle : Nat) (ob' : omcbuf_t)
    (cb : Option (Nat × Nat × Nat)) (hctr : ob.lru_counter < UINT64_MAX)
    (h : omcbuf_insert ob addr epoch cycle = .ok (ob', cb)) :
    omcbuf_prefix ob' ∧ omcbuf_unique ob' := by
  obtain ⟨hep, hal⟩ := omcbuf_insert_asserts _ _ _ _ _ h
  cases hscan : omcbuf_scan ob.array (omcbuf_set_index ob addr * ob.ways) (omcbuf_tag ob addr)
      epoch (List.range ob.ways) with
  | hit =>
    rw [omcbuf_insert_of_hit ob addr epoch cycle hep hal hscan] at h
    cases h
    exact ⟨hp, hu⟩
  | fill index =>
    rw [omcbuf_insert_of_fill ob addr epoch cycle index hep hal hscan] at h
    cases h
    obtain ⟨i, hi, rfl, hempty, hfirst⟩ :=
      omcbuf_scan_fill_first _ _ _ _ _ (List.pairwise_lt_range ob.ways) _ hscan
    have hi' : i < ob.ways := List.mem_range.mp hi
    refine omcbuf_write_keeps ob _ (omcbuf_set_index ob addr) i (omcbuf_tag ob addr) epoch
      ((ob.lru_counter + 1) % 2 ^ 64) hp hu hep hi' rfl rfl
      (fun w hw => (hfirst w (List.mem_range.mpr (by omega)) hw).1) (fun w hw hne ho => ?_)
    rcases Nat.lt_or_ge w i with hlt | hge
    · exact (hfirst w (List.mem_range.mpr hw) hlt).2
    · have hgt : i < w := by omega
      exact absurd hempty (hp (omcbuf_set_index ob addr) i w hgt hw ho)
  | full =>
    have hfull : ∀ w, w < ob.ways → omcbuf_occupied ob (omcbuf_way ob addr w) ∧
        ¬ omcbuf_match ob addr epoch (omcbuf_way ob addr w) := by
      intro w hw'
      have := (omcbuf_scan_full_iff _ _ _ _ _).1 hscan w (List.mem_range.mpr hw')
      exact ⟨this.2, this.1⟩
    obtain ⟨w, hw, -, e⟩ := omcbuf_insert_full ob addr epoch cycle hep hal hinv.ways_pos
      hfull (fun w _ => omcbuf_inv_lru_lt ob src hinv hctr _)
    rw [h] at e
    cases e
    exact omcbuf_write_keeps ob _ (omcbuf_set_index ob addr) w (omcbuf_tag ob addr) epoch
      ((ob.lru_counter + 1) % 2 ^ 64) hp hu hep hw rfl rfl
      (fun w' hw' => (hfull w' (by omega)).1) (fun w' hw' _ _ => (hfull w' hw').2)

theorem omcbuf_reach_sets (ob : omcbuf_t) (src : Nat → Nat) (h : omcbuf_reach ob src) :
    omcbuf_prefix ob ∧ omcbuf_unique ob := by
  induction h with
  | init sets ways ob hw h =>
    unfold omcbuf_init at h
    obtain ⟨bits, -, h⟩ := except_bind_ok h
    cases h
    exact ⟨fun s w w' _ _ ho => absurd rfl ho, fun s w w' _ _ ho => absurd rfl ho⟩
  | insert ob src addr epoch cycle ob' cb hr _ hctr h ih =>
    exact omcbuf_insert_keeps_sets ob src (omcbuf_reach_inv ob src hr) ih.1 ih.2 addr epoch
      cycle ob' cb hctr h

/-- C38 (the OMC buffer holds a line of an epoch at most once): in every reachable OMC-buffer
state, within each set the ways in use form a prefix of the ways (no empty way precedes a
way in use) and no two ways in use hold the same tag and epoch.  An `omcbuf_insert` that
returns while some way of the addressed set matches the tag and the epoch is a hit: it
makes no callback and leaves every entry as it was, so it fills no empty way. -/
theorem omcbuf_holds_once (ob : omcbuf_t) (src : Nat → Nat) (hr : omcbuf_reach ob src) :
    (∀ s w w', w < w' → w' < ob.ways → omcbuf_occupied ob (s * ob.ways + w') →
      omcbuf_occupied ob (s * ob.ways + w)) ∧
    (∀ s w w', w < ob.ways → w' < ob.ways → omcbuf_occupied ob (s * ob.ways + w) →
      omcbuf_occupied ob (s * ob.ways + w') →
      (ob.array (s * ob.ways + w)).tag = (ob.array (s * ob.ways + w')).tag →
      (ob.array (s * ob.ways + w)).epoch = (ob.array (s * ob.ways + w')).epoch → w = w') ∧
    (∀ addr epoch cycle ob' cb, omcbuf_insert ob addr epoch cycle = .ok (ob', cb) →
      (∃ w, w < ob.ways ∧ omcbuf_match ob addr epoch (omcbuf_way ob addr w)) →
      cb = none ∧ ob'.array = ob.array) := by
  obtain ⟨hp, hu⟩ := omcbuf_reach_sets ob src hr
  refine ⟨hp, hu, ?_⟩
  rintro addr epoch cycle ob' cb h ⟨w, hw, hm⟩
  obtain ⟨hep, hal⟩ := omcbuf_insert_asserts _ _ _ _ _ h
  have hocc : omcbuf_occupied ob (omcbuf_way ob addr w) := by
    unfold omcbuf_occupied
    rw [hm.2]
    exact hep
  cases hscan : omcbuf_scan ob.array (omcbuf_set_index ob addr * ob.ways) (omcbuf_tag ob addr)
      epoch (List.range ob.ways) with
  | hit =>
    rw [omcbuf_insert_of_hit ob addr epoch cycle hep hal hscan] at h
    cases h
    exact ⟨rfl, rfl⟩
  | fill index =>
    obtain ⟨i, hi, rfl, hempty, hfirst⟩ :=
      omcbuf_scan_fill_first _ _ _ _ _ (List.pairwise_lt_range ob.ways) _ hscan
    rcases Nat.lt_trichotomy w i with hlt | heq | hgt
    · exact absurd hm (hfirst w (List.mem_range.mpr hw) hlt).2
    · subst heq
      exact absurd hempty hocc
    · exact absurd hempty (hp (omcbuf_set_index ob addr) i w hgt hw hocc)
  | full =>
    exact absurd hm ((omcbuf_scan_full_iff _ _ _ _ _).1 hscan w (List.mem_range.mpr hw)).1

/-- Witness for C38: the buffer of one set with two ways that holds lines `0x0` and `0x40` of
epoch 0 is reachable; its two ways hold different tags, and `insert(0x40, 0)`, which matches
way 1, returns without a callback. -/
theorem omcbuf_holds_once_witness :
    omcbuf_reach omcbuf_two_lines omcbuf_two_lines_src ∧
    omcbuf_set_view omcbuf_two_lines = (⟨0, 0, 1⟩, ⟨1, 0, 2⟩, 2) ∧
    (omcbuf_insert omcbuf_two_lines 0x40 0 2).map (fun r => (omcbuf_set_view r.1, r.2))
      = .ok ((⟨0, 0, 1⟩, ⟨1, 0, 2⟩, 2), none) ∧
    ∀ s w w', w < w' → w' < omcbuf_two_lines.ways →
      omcbuf_occupied omcbuf_two_lines (s * omcbuf_two_lines.ways + w') →
      omcbuf_occupied omcbuf_two_lines (s * omcbuf_two_lines.ways + w) :=
  ⟨omcbuf_two_lines_reach, rfl, rfl,
    (omcbuf_holds_once omcbuf_two_lines omcbuf_two_lines_src omcbuf_two_lines_reach).1⟩

/-! ## C39: resizing the hash table -/

theorem ht64_insert_node_walk_append {V : Type} (old_node : Nat × V) (next : List (Nat × V)) :
    ∀ node : Nat × V, ht64_ascending (node :: next) →
      (∀ n ∈ node :: next, n.1 < old_node.1) →
      ht64_insert_node_walk old_node node next = .ok (node :: next ++ [old_node]) := by
  induction next with
  | nil =>
    intro node _ hlt
    have h1 : node.1 ≠ old_node.1 := Nat.ne_of_lt (hlt node (List.mem_cons_self _ _))
    simp only [ht64_insert_node_walk, decide_eq_true h1, c_assert_true, except_ok_bind]
    rfl
  | cons nxt rest ih =>
    intro node hasc hlt
    have h1 : node.1 ≠ old_node.1 := Nat.ne_of_lt (hlt node (List.mem_cons_self _ _))
    have h2 : nxt.1 > node.1 :=
      (List.pairwise_cons.mp hasc).1 nxt (List.mem_cons_self _ _)
    have h3 : ¬ nxt.1 > old_node.1 := by
      have := hlt nxt (List.mem_cons_of_mem _ (List.mem_cons_self _ _))
      omega
    have hrec := ih nxt (List.pairwise_cons.mp hasc).2
      (fun n hn => hlt n (List.mem_cons_of_mem _ hn))
    simp only [ht64_insert_node_walk, decide_eq_true h1, decide_eq_true h2, c_assert_true,
      except_ok_bind, if_neg h3, hrec]
    rfl

theorem ht64_insert_node_append {V : Type} (hash : Nat → Nat) (ht64 : ht64_buckets_t V)
    (old_node : Nat × V)
    (hidx : hash old_node.1 &&& ht64.bucket_mask < ht64.bucket_count)
    (hasc : ht64_ascending (ht64.buckets (hash old_node.1 &&& ht64.bucket_mask)))
    (hlt : ∀ n ∈ ht64.buckets (hash old_node.1 &&& ht64.bucket_mask), n.1 < old_node.1) :
    ht64_insert_node hash ht64 old_node
      = .ok { ht64 with
              buckets := Function.update ht64.buckets (hash old_node.1 &&& ht64.bucket_mask)
                (ht64.buckets (hash old_node.1 &&& ht64.bucket_mask) ++ [old_node]) } := by
  unfold ht64_insert_node
  simp only [decide_eq_true hidx, c_assert_true, except_ok_bind]
  cases hc : ht64.buckets (hash old_node.1 &&& ht64.bucket_mask) with
  | nil => rfl
  | cons node next =>
    rw [hc] at hasc hlt
    simp only [ht64_insert_node_walk_append old_node next node hasc hlt, except_ok_bind]
    rfl
theorem ht64_rehash_chain_spec {V : Type} (hash : Nat → Nat) (chain : List (Nat × V)) :
    ∀ ht64 : ht64_buckets_t V,
      (∀ n ∈ chain, hash n.1 &&& ht64.bucket_mask < ht64.bucket_count) →
      (∀ j, ht64_ascending (ht64.buckets j ++
        chain.filter (fun n => decide (hash n.1 &&& ht64.bucket_mask = j)))) →
      ∃ ht', ht64_rehash_chain hash chain ht64 = .ok ht' ∧
        ht'.bucket_count = ht64.bucket_count ∧ ht'.bucket_mask = ht64.bucket_mask ∧
        ht'.item_count = ht64.item_count ∧
        ∀ j, ht'.buckets j = ht64.buckets j ++
          chain.filter (fun n => decide (hash n.1 &&& ht64.bucket_mask = j)) := by
  induction chain with
  | nil =>
    intro ht64 _ _
    exact ⟨ht64, rfl, rfl, rfl, rfl, fun j => by simp⟩
  | cons node next ih =>
    intro ht64 hidx hasc
    have hi := hidx node (List.mem_cons_self _ _)
    have ha := hasc (hash node.1 &&& ht64.bucket_mask)
    rw [List.filter_cons_of_pos (by simp)] at ha
    have ha' := List.pairwise_append.mp ha
    have hstep := ht64_insert_node_append hash ht64 node hi ha'.1
      (fun n hn => ha'.2.2 n hn node (List.mem_cons_self _ _))
    have hb : ∀ j, Function.update ht64.buckets (hash node.1 &&& ht64.bucket_mask)
          (ht64.buckets (hash node.1 &&& ht64.bucket_mask) ++ [node]) j ++
          next.filter (fun n => decide (hash n.1 &&& ht64.bucket_mask = j))
        = ht64.buckets j ++
          (node :: next).filter (fun n => decide (hash n.1 &&& ht64.bucket_mask = j)) := by
      intro j
      by_cases hj : j = hash node.1 &&& ht64.bucket_mask
      · subst hj
        rw [Function.update_same, List.filter_cons_of_pos (by simp), List.append_assoc]
        rfl
      · rw [Function.update_noteq hj, List.filter_cons_of_neg]
        simpa using fun e => hj e.symm
    obtain ⟨ht', e, c1, c2, c3, c4⟩ := ih
      { ht64 with
        buckets := Function.update ht64.buckets (hash node.1 &&& ht64.bucket_mask)
          (ht64.buckets (hash node.1 &&& ht64.bucket_mask) ++ [node]) }
      (fun n hn => hidx n (List.mem_cons_of_mem _ hn))
      (fun j => by
        show ht64_ascending (Function.update ht64.buckets _ _ j ++ _)
        rw [hb j]
        exact hasc j)
    refine ⟨ht', ?_, c1, c2, c3, fun j => ?_⟩
    · simp only [ht64_rehash_chain, hstep, except_ok_bind]
      exact e
    · rw [c4 j]
      exact hb j

theorem ht64_rehash_spec {V : Type} (hash : Nat → Nat) (old_buckets : Nat → List (Nat × V))
    (l : List Nat) :
    ∀ ht64 : ht64_buckets_t V,
      (∀ n ∈ ht64_chain_nodes old_buckets l,
        hash n.1 &&& ht64.bucket_mask < ht64.bucket_count) →
      (∀ j, ht64_ascending (ht64.buckets j ++
        (ht64_chain_nodes old_buckets l).filter
          (fun n => decide (hash n.1 &&& ht64.bucket_mask = j)))) →
      ∃ ht', ht64_rehash hash old_buckets l ht64 = .ok ht' ∧
        ht'.bucket_count = ht64.bucket_count ∧ ht'.bucket_mask = ht64.bucket_mask ∧
        ht'.item_count = ht64.item_count ∧
        ∀ j, ht'.buckets j = ht64.buckets j ++
          (ht64_chain_nodes old_buckets l).filter
            (fun n => decide (hash n.1 &&& ht64.bucket_mask = j)) := by
  induction l with
  | nil =>
    intro ht64 _ _
    exact ⟨ht64, rfl, rfl, rfl, rfl, fun j => by simp [ht64_chain_nodes]⟩
  | cons i rest ih =>
    intro ht64 hidx hasc
    simp only [ht64_chain_nodes, List.filter_append] at hidx hasc ⊢
    obtain ⟨ht1, e1, a1, a2, a3, a4⟩ := ht64_rehash_chain_spec hash (old_buckets i) ht64
      (fun n hn => hidx n (List.mem_append_left _ hn))
      (fun j => by
        have := hasc j
        rw [← List.append_assoc] at this
        exact (List.pairwise_append.mp this).1)
    obtain ⟨ht', e, c1, c2, c3, c4⟩ := ih ht1
      (fun n hn => by rw [a1, a2]; exact hidx n (List.mem_append_right _ hn))
      (fun j => by rw [a4 j, a2, List.append_assoc]; exact hasc j)
    refine ⟨ht', ?_, c1.trans a1, c2.trans a2, c3.trans a3, fun j => ?_⟩
    · simp only [ht64_rehash, e1, except_ok_bind]
      exact e
    · rw [c4 j, a4 j, a2, List.append_assoc]
theorem and_mask_mod (h k : Nat) :
    (h &&& (2 ^ (k + 1) - 1)) % 2 ^ k = h &&& (2 ^ k - 1) := by
  rw [Nat.and_pow_two_sub_one_eq_mod, Nat.and_pow_two_sub_one_eq_mod]
  exact Nat.mod_mod_of_dvd h (Dvd.intro 2 (by rw [Nat.pow_succ]))

/-- After the rehash, the new bucket `j` receives nodes of the old bucket `j % 2 ^ k` only. -/
theorem ht64_chain_nodes_filter {V : Type} (hash : Nat → Nat)
    (old_buckets : Nat → List (Nat × V)) (k j : Nat)
    (hplaced : ∀ i, i < 2 ^ k → ∀ n ∈ old_buckets i, hash n.1 &&& (2 ^ k - 1) = i)
    (l : List Nat) (hl : l.Nodup) (hlt : ∀ i ∈ l, i < 2 ^ k) :
    (ht64_chain_nodes old_buckets l).filter
        (fun n => decide (hash n.1 &&& (2 ^ (k + 1) - 1) = j))
      = if j % 2 ^ k ∈ l then
          (old_buckets (j % 2 ^ k)).filter
            (fun n => decide (hash n.1 &&& (2 ^ (k + 1) - 1) = j))
        else [] := by
  induction l with
  | nil => simp [ht64_chain_nodes]
  | cons i rest ih =>
    have hrest := ih (List.nodup_cons.mp hl).2 (fun x hx => hlt x (List.mem_cons_of_mem _ hx))
    simp only [ht64_chain_nodes, List.filter_append, hrest]
    by_cases hi : i = j % 2 ^ k
    · subst hi
      rw [if_neg (List.nodup_cons.mp hl).1, if_pos (List.mem_cons_self _ _),
        List.append_nil]
    · have hnone : (old_buckets i).filter
          (fun n => decide (hash n.1 &&& (2 ^ (k + 1) - 1) = j)) = [] := by
        rw [List.filter_eq_nil_iff]
        intro n hn hd
        have h1 := hplaced i (hlt i (List.mem_cons_self _ _)) n hn
        have h2 : hash n.1 &&& (2 ^ (k + 1) - 1) = j := of_decide_eq_true hd
        rw [← and_mask_mod, h2] at h1
        exact hi h1.symm
      rw [hnone, List.nil_append]
      by_cases hm : j % 2 ^ k ∈ rest
      · rw [if_pos hm, if_pos (List.mem_cons_of_mem _ hm)]
      · rw [if_neg hm, if_neg]
        intro hc
        rcases List.mem_cons.mp hc with h | h
        · exact hi h.symm
        · exact hm h

theorem ht64_chain_nodes_mem {V : Type} (old_buckets : Nat → List (Nat × V)) (l : List Nat)
    (n : Nat × V) (h : n ∈ ht64_chain_nodes old_buckets l) : ∃ i ∈ l, n ∈ old_buckets i := by
  induction l with
  | nil => cases h
  | cons i rest ih =>
    simp only [ht64_chain_nodes, List.mem_append] at h
    rcases h with h | h
    · exact ⟨i, List.mem_cons_self _ _, h⟩
    · obtain ⟨i', h1, h2⟩ := ih h
      exact ⟨i', List.mem_cons_of_mem _ h1, h2⟩

/-- On a strictly ascending chain the loop of `ht64_find` passes its assertions and returns
the value of the node with the key, if there is one. -/
theorem ht64_find_walk_ascending {V : Type} (key : Nat) (chain : List (Nat × V))
    (h : ht64_ascending chain) : ht64_find_walk key chain = .ok (alist_find chain key) := by
  induction chain with
  | nil => rfl
  | cons node next ih =>
    have hrec := ih (List.pairwise_cons.mp h).2
    obtain ⟨k', v⟩ := node
    cases next with
    | nil =>
      simp only [ht64_find_walk, c_assert_true, except_ok_bind]
      by_cases hk : k' = key
      · simp only [alist_find, if_pos hk]; rfl
      · simp only [alist_find, if_neg hk]; rfl
    | cons nxt rest =>
      have hgt : nxt.1 > k' := (List.pairwise_cons.mp h).1 nxt (List.mem_cons_self _ _)
      rw [ht64_find_walk]
      simp only [decide_eq_true hgt, c_assert_true, except_ok_bind, hrec]
      by_cases hk : k' = key
      · have e : alist_find ((k', v) :: nxt :: rest) key = some v := by
          simp only [alist_find, if_pos hk]
        rw [if_pos hk, e]; rfl
      · have e : alist_find ((k', v) :: nxt :: rest) key = alist_find (nxt :: rest) key := by
          simp only [alist_find, if_neg hk]
        rw [if_neg hk, e]

theorem alist_find_filter {V : Type} (p : Nat → Bool) (key : Nat) (hp : p key = true)
    (chain : List (Nat × V)) :
    alist_find (chain.filter (fun n => p n.1)) key = alist_find chain key := by
  induction chain with
  | nil => rfl
  | cons node next ih =>
    obtain ⟨k', v⟩ := node
    by_cases hk : k' = key
    · subst hk
      simp only [List.filter_cons, hp, if_true, alist_find]
    · cases hpk : p k' with
      | true => simp only [List.filter_cons, hpk, if_true, alist_find, if_neg hk, ih]
      | false =>
        simp only [List.filter_cons, hpk, Bool.false_eq_true, if_false, alist_find, if_neg hk,
          ih]

/-- C39 (resize of the hash table): for a table with `2 ^ k` buckets (`k < 63`), the mask
`bucket_count - 1`, every chain strictly ascending by key and every node in the bucket
selected by `hash(key) & bucket_mask`, and for any hash function, `ht64_resize` returns; the
new table has twice the buckets, the mask `bucket_count - 1` and the same `item_count`; every
chain is strictly ascending by key with every node in the bucket selected by
`hash(key) & bucket_mask` (the new bucket `j` holds the nodes of the old bucket `j % 2 ^ k`
that hash to `j`, in their old order); and `ht64_find` returns for every key what it returned
before. -/
theorem ht64_resize_preserves {V : Type} (hash : Nat → Nat) (ht64 : ht64_buckets_t V) (k : Nat)
    (hwf : ht64_buckets_wf hash ht64 k) (hk : k < 63) :
    ∃ ht', ht64_resize hash ht64 = .ok ht' ∧
      ht'.bucket_count = 2 * ht64.bucket_count ∧ ht'.item_count = ht64.item_count ∧
      ht64_buckets_wf hash ht' (k + 1) ∧
      (∀ j, ht'.buckets j = (ht64.buckets (j % 2 ^ k)).filter
        (fun n => decide (hash n.1 &&& ht'.bucket_mask = j))) ∧
      ∀ key, ht64_buckets_find hash ht' key = ht64_buckets_find hash ht64 key ∧
        ht64_buckets_find hash ht64 key
          = .ok (alist_find (ht64.buckets (hash key &&& ht64.bucket_mask)) key) := by
  have hpow : 2 ^ (k + 1) < 2 ^ 64 := Nat.pow_lt_pow_right (by decide) (by omega)
  have hpos : 0 < 2 ^ (k + 1) := Nat.pow_pos (by decide)
  have hposk : 0 < 2 ^ k := Nat.pow_pos (by decide)
  have hcount : (ht64.bucket_count <<< 1) % 2 ^ 64 = 2 ^ (k + 1) := by
    rw [hwf.count, Nat.shiftLeft_eq, Nat.pow_one, ← Nat.pow_succ]
    exact Nat.mod_eq_of_lt hpow
  have hmask : (2 ^ (k + 1) + (2 ^ 64 - 1)) % 2 ^ 64 = 2 ^ (k + 1) - 1 := by
    have e : 2 ^ (k + 1) + (2 ^ 64 - 1) = (2 ^ (k + 1) - 1) + 2 ^ 64 := by omega
    rw [e, Nat.add_mod_right]
    exact Nat.mod_eq_of_lt (by omega)
  have hm0 : ht64.bucket_mask = 2 ^ k - 1 := by rw [hwf.mask, hwf.count]
  have hplaced : ∀ i, i < 2 ^ k → ∀ n ∈ ht64.buckets i, hash n.1 &&& (2 ^ k - 1) = i := by
    intro i hi n hn
    rw [← hm0]
    exact hwf.placed i (by rw [hwf.count]; exact hi) n hn
  have hfilter := fun j => ht64_chain_nodes_filter hash ht64.buckets k j hplaced
    (List.range (2 ^ k)) (List.nodup_range _) (fun i hi => List.mem_range.mp hi)
  have hjmod : ∀ j, j % 2 ^ k ∈ List.range (2 ^ k) :=
    fun j => List.mem_range.mpr (Nat.mod_lt _ hposk)
  have hasc0 : ∀ j, ht64_ascending ((ht64.buckets (j % 2 ^ k)).filter
      (fun n => decide (hash n.1 &&& (2 ^ (k + 1) - 1) = j))) := by
    intro j
    exact List.Pairwise.sublist (List.filter_sublist _)
      (hwf.ascending (j % 2 ^ k) (by rw [hwf.count]; exact Nat.mod_lt _ hposk))
  obtain ⟨ht', e, c1, c2, c3, c4⟩ := ht64_rehash_spec hash ht64.buckets
    (List.range (2 ^ k))
    { bucket_count := 2 ^ (k + 1), bucket_mask := 2 ^ (k + 1) - 1, buckets := fun _ => [],
      item_count := ht64.item_count }
    (fun n _ => by
      show hash n.1 &&& (2 ^ (k + 1) - 1) < 2 ^ (k + 1)
      rw [Nat.and_pow_two_sub_one_eq_mod]
      exact Nat.mod_lt _ hpos)
    (fun j => by
      show ht64_ascending ([] ++ (ht64_chain_nodes ht64.buckets (List.range (2 ^ k))).filter
        (fun n => decide (hash n.1 &&& (2 ^ (k + 1) - 1) = j)))
      rw [List.nil_append, hfilter j, if_pos (hjmod j)]
      exact hasc0 j)
  have c1' : ht'.bucket_count = 2 ^ (k + 1) := c1
  have c2' : ht'.bucket_mask = 2 ^ (k + 1) - 1 := c2
  have hb : ∀ j, ht'.buckets j = (ht64.buckets (j % 2 ^ k)).filter
      (fun n => decide (hash n.1 &&& (2 ^ (k + 1) - 1) = j)) := by
    intro j
    have := c4 j
    simp only [List.nil_append] at this
    rw [this, hfilter j, if_pos (hjmod j)]
  have hfind0 : ∀ key, ht64_buckets_find hash ht64 key
      = .ok (alist_find (ht64.buckets (hash key &&& ht64.bucket_mask)) key) := by
    intro key
    have hi : hash key &&& ht64.bucket_mask < ht64.bucket_count := by
      rw [hm0, hwf.count, Nat.and_pow_two_sub_one_eq_mod]
      exact Nat.mod_lt _ hposk
    unfold ht64_buckets_find
    simp only [decide_eq_true hi, c_assert_true, except_ok_bind]
    exact ht64_find_walk_ascending key _ (hwf.ascending _ hi)
  refine ⟨ht', ?_, ?_, c3, ?_, ?_, fun key => ⟨?_, hfind0 key⟩⟩
  · unfold ht64_resize
    simp only [hcount, hmask]
    rw [hwf.count]
    exact e
  · rw [c1', hwf.count, Nat.pow_succ, Nat.mul_comm]
  · exact { count := c1'
            mask := by rw [c2', c1']
            ascending := fun j _ => by rw [hb j]; exact hasc0 j
            placed := fun j _ n hn => by
              rw [hb j] at hn
              rw [c2']
              exact of_decide_eq_true (List.mem_filter.mp hn).2 }
  · intro j
    rw [c2']
    exact hb j
  · rw [hfind0 key]
    have hi : hash key &&& ht'.bucket_mask < ht'.bucket_count := by
      rw [c2', c1', Nat.and_pow_two_sub_one_eq_mod]
      exact Nat.mod_lt _ hpos
    unfold ht64_buckets_find
    simp only [decide_eq_true hi, c_assert_true, except_ok_bind]
    rw [c2', hb, ht64_find_walk_ascending key _ (hasc0 _), and_mask_mod, ← hm0]
    exact congrArg Except.ok (alist_find_filter
      (fun x => decide (hash x &&& (2 ^ (k + 1) - 1) = hash key &&& (2 ^ (k + 1) - 1)))
      key (by simp) _)
theorem ht64_two_buckets_wf : ht64_buckets_wf id ht64_two_buckets 1 where
  count := rfl
  mask := rfl
  ascending := by
    intro i hi
    have hi' : i < 2 := hi
    unfold ht64_ascending
    interval_cases i
    · decide
    · decide
  placed := by
    intro i hi
    have hi' : i < 2 := hi
    interval_cases i
    · decide
    · decide

/-- Witness for C39: the table with two buckets under the identity hash, with keys 2, 4 in
bucket 0 and keys 1, 3, 7 in bucket 1, is well formed; `ht64_resize` makes four buckets
holding the keys 4; 1; 2; 3, 7, and keeps `item_count = 5`. -/
theorem ht64_resize_preserves_witness :
    ht64_buckets_wf id ht64_two_buckets 1 ∧
    (ht64_resize id ht64_two_buckets).map
        (fun ht => (ht.bucket_count, ht.bucket_mask, (List.range 4).map ht.buckets,
                    ht.item_count))
      = .ok (4, 3, [[(4, 40)], [(1, 10)], [(2, 20)], [(3, 30), (7, 70)]], 5) ∧
    ∃ ht', ht64_resize id ht64_two_buckets = .ok ht' ∧
      ht'.bucket_count = 2 * ht64_two_buckets.bucket_count ∧
      ht'.item_count = ht64_two_buckets.item_count ∧ ht64_buckets_wf id ht' (1 + 1) :=
  ⟨ht64_two_buckets_wf, rfl,
    match ht64_resize_preserves id ht64_two_buckets 1 ht64_two_buckets_wf (by decide) with
    | ⟨ht', h1, h2, h3, h4, _⟩ => ⟨ht', h1, h2, h3, h4⟩⟩

/-! ## C37: the size accounting of inserts and of unlinks agrees -/

theorem alist_erase_absent {K V : Type} [DecidableEq K] {l : List (K × V)} {k : K}
    (h : alist_find l k = none) : alist_erase l k = l := by
  unfold alist_erase
  apply List.filter_eq_self.mpr
  intro a ha
  have := alist_find_none_iff.mp h
  simp only [ne_eq, decide_eq_true_eq]
  intro h2
  exact this (h2 ▸ List.mem_map_of_mem Prod.fst ha)

theorem alist_sum_erase {K V : Type} [DecidableEq K] (f : K × V → Nat) (k : K) (v0 : V) :
    ∀ (l : List (K × V)), (l.map Prod.fst).Nodup → alist_find l k = some v0 →
      ((alist_erase l k).map f).sum + f (k, v0) = (l.map f).sum := by
  intro l
  induction l with
  | nil => intro _ h; simp [alist_find] at h
  | cons a t ih =>
    obtain ⟨a1, a2⟩ := a
    intro hnd h
    simp only [List.map_cons, List.nodup_cons] at hnd
    simp only [alist_find] at h
    by_cases h1 : a1 = k
    · simp only [h1, if_true, Option.some.injEq] at h
      subst h1
      subst h
      have hnone : alist_find t a1 = none := alist_find_none_iff.mpr hnd.1
      have e : alist_erase ((a1, a2) :: t) a1 = alist_erase t a1 := by
        unfold alist_erase; simp [List.filter]
      rw [e, alist_erase_absent hnone, List.map_cons, List.sum_cons]
      omega
    · simp only [h1, if_false] at h
      have e : alist_erase ((a1, a2) :: t) k = (a1, a2) :: alist_erase t k := by
        unfold alist_erase; simp [List.filter, h1]
      rw [e, List.map_cons, List.sum_cons, List.map_cons, List.sum_cons, ← ih hnd.2 h]
      omega

theorem alist_sum_set_new {K V : Type} [DecidableEq K] {l : List (K × V)} {k : K} (v : V)
    (f : K × V → Nat) (h : alist_find l k = none) :
    ((alist_set l k v).map f).sum = (l.map f).sum + f (k, v) := by
  unfold alist_set
  rw [alist_erase_absent h, List.map_cons, List.sum_cons]
  omega

theorem alist_sum_set_old {K V : Type} [DecidableEq K] {l : List (K × V)} {k : K} {v0 : V}
    (v : V) (f : K × V → Nat) (hnd : (l.map Prod.fst).Nodup) (h : alist_find l k = some v0) :
    ((alist_set l k v).map f).sum + f (k, v0) = (l.map f).sum + f (k, v) := by
  unfold alist_set
  rw [List.map_cons, List.sum_cons]
  have := alist_sum_erase f k v0 l hnd h
  omega

theorem alist_length_erase {K V : Type} [DecidableEq K] (k : K) (v0 : V) (l : List (K × V))
    (hnd : (l.map Prod.fst).Nodup) (h : alist_find l k = some v0) :
    (alist_erase l k).length + 1 = l.length := by
  have := alist_sum_erase (fun _ => 1) k v0 l hnd h
  simpa using this

theorem alist_length_set_old {K V : Type} [DecidableEq K] {l : List (K × V)} {k : K} {v0 : V}
    (v : V) (hnd : (l.map Prod.fst).Nodup) (h : alist_find l k = some v0) :
    (alist_set l k v).length = l.length := by
  unfold alist_set
  rw [List.length_cons]
  exact alist_length_erase k v0 l hnd h

theorem overlay_page_added_succ (n : Nat) :
    overlay_page_added (n + 1) = overlay_page_added n + overlay_insert_bytes n := by
  unfold overlay_page_added
  rw [List.range_succ, List.map_append, List.sum_append]
  simp

/-- The bytes added by the insert transitions for a page of `n` lines are the size class of
`n`, for every `n` at which `overlay_page_size_class` is defined. -/
theorem overlay_page_size_class_added (n : Nat) (h : n < 64) :
    overlay_page_size_class n
      = .ok (if n = 0 then 256 else overlay_page_added n) := by
  interval_cases n <;> rfl
/-- The size that `overlay_epoch_insert` returns and adds: the bytes of the transition when
the page gains a line, nothing when the line was there. -/
theorem overlay_epoch_insert_size {ep : overlay_epoch_t} {addr : Nat} {ep' : overlay_epoch_t}
    {ret : Nat} (h : overlay_epoch_insert ep addr = .ok (ep', ret)) :
    (bitmap64_popcount (bitmap64_add ((mtable_find ep.mtable addr).getD overlay_page_init).bitmap
        (page_line_offset addr))
      = bitmap64_popcount ((mtable_find ep.mtable addr).getD overlay_page_init).bitmap ∧
      ret = 0 ∨
     bitmap64_popcount (bitmap64_add ((mtable_find ep.mtable addr).getD overlay_page_init).bitmap
        (page_line_offset addr))
      = bitmap64_popcount ((mtable_find ep.mtable addr).getD overlay_page_init).bitmap + 1 ∧
      ret = overlay_insert_bytes
        (bitmap64_popcount ((mtable_find ep.mtable addr).getD overlay_page_init).bitmap)) ∧
    ep'.size = ep.size + ret := by
  unfold overlay_epoch_insert at h
  simp only [bind, Except.bind, pure, Except.pure, mtable_find_insert] at h
  split at h
  · cases h
  · split at h
    · rename_i heq
      cases h
      exact ⟨Or.inl ⟨heq.symm, rfl⟩, rfl⟩
    · split at h
      · cases h
      · rename_i hone
        cases h
        exact ⟨Or.inr ⟨by simpa using c_assert_ok hone, rfl⟩, rfl⟩

/-- The accounting of one epoch after an insert into it, when the page the line goes to, if
it exists, still holds a reference. -/
theorem overlay_epoch_insert_accounting {ep : overlay_epoch_t} {addr : Nat}
    {ep' : overlay_epoch_t} {ret : Nat} (h : overlay_epoch_insert ep addr = .ok (ep', ret))
    (hnd : (ep.mtable.slots.map Prod.fst).Nodup)
    (hsize : ep.size = overlay_epoch_live_bytes ep)
    (hcount : ep.overlay_page_count = overlay_epoch_live_pages ep)
    (hlive : ∀ pg, mtable_find ep.mtable addr = some pg → 0 < pg.ref_count)
    (hpages : ∀ p pg, alist_find ep.mtable.slots p = some pg →
      1 ≤ bitmap64_popcount pg.bitmap) :
    (ep'.mtable.slots.map Prod.fst).Nodup ∧ ep'.size = overlay_epoch_live_bytes ep' ∧
    ep'.overlay_page_count = overlay_epoch_live_pages ep' ∧ ep'.epoch = ep.epoch ∧
    ∀ p pg, alist_find ep'.mtable.slots p = some pg → 1 ≤ bitmap64_popcount pg.bitmap := by
  obtain ⟨hret, hsz⟩ := overlay_epoch_insert_size h
  obtain ⟨sz, hep'⟩ := overlay_epoch_insert_ok h
  have hepoch : ep'.epoch = ep.epoch := by rw [hep']
  cases hf : mtable_find ep.mtable addr with
  | none =>
    have hf' : alist_find ep.mtable.slots (mtable_path ep.mtable.idx addr) = none := hf
    simp only [hf, Option.getD_none, Option.isNone_none, if_true] at hret hep'
    have hslots : ep'.mtable.slots = alist_set ep.mtable.slots (mtable_path ep.mtable.idx addr)
        { bitmap := bitmap64_add overlay_page_init.bitmap (page_line_offset addr),
          ref_count := overlay_page_init.ref_count + 1 } := by
      rw [hep']
      simp [mtable_slot_write]
    have hpc : ep'.overlay_page_count = ep.overlay_page_count + 1 := by rw [hep']
    have h0 : bitmap64_popcount overlay_page_init.bitmap = 0 := rfl
    rw [h0] at hret
    have hpg' : ∀ p pg, alist_find ep'.mtable.slots p = some pg →
        1 ≤ bitmap64_popcount pg.bitmap := by
      intro p pg hp
      rw [hslots, alist_find_set] at hp
      by_cases hpe : p = mtable_path ep.mtable.idx addr
      · rw [if_pos hpe] at hp
        cases hp
        exact bitmap64_popcount_add_pos _ _ (page_line_offset_lt addr)
      · rw [if_neg hpe] at hp
        exact hpages p pg hp
    refine ⟨?_, ?_, ?_, hepoch, hpg'⟩
    · rw [hslots]; exact alist_set_nodup _ _ hnd
    · rw [hsz, hsize]
      unfold overlay_epoch_live_bytes
      rw [hslots, alist_sum_set_new _ _ hf']
      simp only [Nat.zero_lt_succ, if_true]
      rcases hret with ⟨e1, e2⟩ | ⟨e1, e2⟩
      · rw [e1, e2]; rfl
      · rw [e1, e2, overlay_page_added_succ]; rfl
    · rw [hpc, hcount]
      unfold overlay_epoch_live_pages
      rw [hslots, alist_countP_set_new _ _ hf']
      simp
  | some pg =>
    have hf' : alist_find ep.mtable.slots (mtable_path ep.mtable.idx addr) = some pg := hf
    simp only [hf, Option.getD_some, Option.isNone_some, Bool.false_eq_true, if_false]
      at hret hep'
    have hslots : ep'.mtable.slots = alist_set ep.mtable.slots (mtable_path ep.mtable.idx addr)
        { bitmap := bitmap64_add pg.bitmap (page_line_offset addr),
          ref_count := pg.ref_count + 1 } := by
      rw [hep']
      simp [mtable_slot_write]
    have hpc : ep'.overlay_page_count = ep.overlay_page_count := by rw [hep']
    have hpos := hlive pg hf
    have hpg' : ∀ p pg2, alist_find ep'.mtable.slots p = some pg2 →
        1 ≤ bitmap64_popcount pg2.bitmap := by
      intro p pg2 hp
      rw [hslots, alist_find_set] at hp
      by_cases hpe : p = mtable_path ep.mtable.idx addr
      · rw [if_pos hpe] at hp
        cases hp
        exact bitmap64_popcount_add_pos _ _ (page_line_offset_lt addr)
      · rw [if_neg hpe] at hp
        exact hpages p pg2 hp
    refine ⟨?_, ?_, ?_, hepoch, hpg'⟩
    · rw [hslots]; exact alist_set_nodup _ _ hnd
    · rw [hsz, hsize]
      unfold overlay_epoch_live_bytes
      rw [hslots]
      have hsum := alist_sum_set_old
        { bitmap := bitmap64_add pg.bitmap (page_line_offset addr),
          ref_count := pg.ref_count + 1 }
        (fun s : List Nat × overlay_page_t =>
          if 0 < s.2.ref_count then overlay_page_added (bitmap64_popcount s.2.bitmap) else 0)
        hnd hf'
      simp only [Nat.zero_lt_succ, if_true, if_pos hpos] at hsum
      rcases hret with ⟨e1, e2⟩ | ⟨e1, e2⟩
      · rw [e1] at hsum
        rw [e2]
        omega
      · rw [e1, overlay_page_added_succ] at hsum
        rw [e2]
        omega
    · rw [hpc, hcount]
      unfold overlay_epoch_live_pages
      rw [hslots]
      have hc := alist_countP_set_old
        { bitmap := bitmap64_add pg.bitmap (page_line_offset addr),
          ref_count := pg.ref_count + 1 }
        (fun s : List Nat × overlay_page_t => decide (0 < s.2.ref_count)) hnd hf'
      simp only [Nat.zero_lt_succ, decide_True, if_true, decide_eq_true hpos] at hc
      omega
theorem overlay_insert_shape {ov ov' : overlay_t} {addr e : Nat}
    (h : overlay_insert ov addr e = .ok ov') :
    ∃ ep0 ep' ret,
      ((alist_find ov.epochs.nodes e = some ep0 ∧
          ov'.epochs.nodes = alist_set ov.epochs.nodes e ep' ∧
          ov'.epoch_count = ov.epoch_count) ∨
       (alist_find ov.epochs.nodes e = none ∧ ep0 = { overlay_epoch_init with epoch := e } ∧
          ov'.epochs.nodes = alist_set ((e, ep0) :: ov.epochs.nodes) e ep' ∧
          ov'.epoch_count = ov.epoch_count + 1)) ∧
      ep0.epoch = e ∧ ep0.merged = false ∧ overlay_epoch_insert ep0 addr = .ok (ep', ret) ∧
      ov'.size = ov.size + ret := by
  unfold overlay_insert at h
  simp only [bind, Except.bind, pure, Except.pure, ht64_find, ht64_insert, ht64_store] at h
  split at h
  · cases h
  · cases hf : alist_find ov.epochs.nodes e with
    | some ep0 =>
      simp only [hf] at h
      split at h
      · cases h
      · rename_i hep
        have hep' := c_assert_ok hep
        split at h
        · cases h
        · rename_i hm
          split at h
          · cases h
          · rename_i v heq
            obtain ⟨ep', ret⟩ := v
            cases h
            exact ⟨ep0, ep', ret, Or.inl ⟨rfl, rfl, rfl⟩, by simpa using hep',
              by simpa using hm, heq, rfl⟩
    | none =>
      simp only [hf, c_assert_true] at h
      split at h
      · cases h
      · split at h
        · cases h
        · rename_i hm
          split at h
          · cases h
          · rename_i v heq
            obtain ⟨ep', ret⟩ := v
            cases h
            exact ⟨_, ep', ret, Or.inr ⟨rfl, rfl, rfl, rfl⟩, rfl, by simpa using hm, heq, rfl⟩

/-- An insert keeps the size accounting, when the pages of the epoch it goes to still hold
their references. -/
theorem overlay_insert_accounting {ov ov' : overlay_t} {addr e : Nat} (hI : SizeInv ov)
    (hlive : ∀ ep pg, alist_find ov.epochs.nodes e = some ep → ep.merged = false →
      mtable_find ep.mtable addr = some pg → 0 < pg.ref_count)
    (h : overlay_insert ov addr e = .ok ov') : SizeInv ov' := by
  obtain ⟨ep0, ep', ret, hcase, hepoch, hmerged, hins, hsize⟩ := overlay_insert_shape h
  have hsz := (overlay_epoch_insert_size hins).2
  rcases hcase with ⟨hf, hnodes, hcount⟩ | ⟨hf, hep0, hnodes, hcount⟩
  · obtain ⟨k1, k2, k3, k4, k5⟩ := hI.epoch_ok e ep0 hf
    obtain ⟨a1, a2, a3, a4, a5⟩ := overlay_epoch_insert_accounting hins k2 k3 k4
      (fun pg hpg => hlive ep0 pg hf hmerged hpg) k5
    refine { nodup_epochs := ?_, total := ?_, count := ?_, epoch_ok := ?_ }
    · rw [hnodes]; exact alist_set_nodup _ _ hI.nodup_epochs
    · rw [hsize, hnodes, hI.total]
      have := alist_sum_set_old ep' (fun n : Nat × overlay_epoch_t => n.2.size)
        hI.nodup_epochs hf
      simp only at this
      omega
    · rw [hcount, hnodes, alist_length_set_old ep' hI.nodup_epochs hf]
      exact hI.count
    · intro e'' ep'' hfind
      rw [hnodes, alist_find_set] at hfind
      by_cases he : e'' = e
      · rw [if_pos he] at hfind
        cases hfind
        exact ⟨by rw [a4, he]; exact k1, a1, a2, a3, a5⟩
      · rw [if_neg he] at hfind
        exact hI.epoch_ok e'' ep'' hfind
  · have hnd0 : (((e, ep0) :: ov.epochs.nodes).map Prod.fst).Nodup := by
      rw [List.map_cons, List.nodup_cons]
      exact ⟨alist_find_none_iff.mp hf, hI.nodup_epochs⟩
    have hf0 : alist_find ((e, ep0) :: ov.epochs.nodes) e = some ep0 := by
      simp only [alist_find, if_true]
    have hz : ep0.size = 0 := by rw [hep0]; rfl
    obtain ⟨a1, a2, a3, a4, a5⟩ := overlay_epoch_insert_accounting hins
      (by rw [hep0]; exact List.nodup_nil) (by rw [hep0]; rfl) (by rw [hep0]; rfl)
      (fun pg hpg => by rw [hep0] at hpg; cases hpg)
      (fun p pg hpg => by rw [hep0] at hpg; cases hpg)
    refine { nodup_epochs := ?_, total := ?_, count := ?_, epoch_ok := ?_ }
    · rw [hnodes]; exact alist_set_nodup _ _ hnd0
    · rw [hsize, hnodes, hI.total]
      have := alist_sum_set_old ep' (fun n : Nat × overlay_epoch_t => n.2.size) hnd0 hf0
      simp only [List.map_cons, List.sum_cons] at this
      omega
    · rw [hcount, hnodes, alist_length_set_old ep' hnd0 hf0, List.length_cons, hI.count]
    · intro e'' ep'' hfind
      rw [hnodes, alist_find_set] at hfind
      by_cases he : e'' = e
      · rw [if_pos he] at hfind
        cases hfind
        exact ⟨by rw [a4, he]; exact hepoch, a1, a2, a3, a5⟩
      · rw [if_neg he] at hfind
        have hne : ¬ e = e'' := fun h => he h.symm
        simp only [alist_find, if_neg hne] at hfind
        exact hI.epoch_ok e'' ep'' hfind
theorem live_bytes_zero_of_no_live (slots : List (List Nat × overlay_page_t))
    (h : slots.countP (fun s => decide (0 < s.2.ref_count)) = 0) :
    (slots.map (fun s =>
      if 0 < s.2.ref_count then overlay_page_added (bitmap64_popcount s.2.bitmap) else 0)).sum
      = 0 := by
  induction slots with
  | nil => rfl
  | cons a t ih =>
    rw [List.countP_cons] at h
    have h1 : t.countP (fun s => decide (0 < s.2.ref_count)) = 0 := by omega
    have h2 : ¬ 0 < a.2.ref_count := by
      intro hp
      rw [if_pos (decide_eq_true hp)] at h
      omega
    rw [List.map_cons, List.sum_cons, ih h1, if_neg h2]

/-- What an unlink that returns does to the epoch behind the handle, with all the sizes. -/
theorem overlay_line_unlink_shape {ov ov' : overlay_t} {h pa : Nat} (hI : SizeInv ov)
    (hu : overlay_line_unlink ov h pa = .ok ov') :
    ∃ ep pg, alist_find ov.epochs.nodes h = some ep ∧ mtable_find ep.mtable pa = some pg ∧
      0 < pg.ref_count ∧
      ((pg.ref_count ≠ 1 ∧ ov'.size = ov.size ∧ ov'.epoch_count = ov.epoch_count ∧
          ov'.epochs.nodes = alist_set ov.epochs.nodes h { ep with
            mtable := mtable_slot_write ep.mtable pa
              { pg with ref_count := pg.ref_count - 1 } }) ∨
       (pg.ref_count = 1 ∧ ∃ page_size,
          overlay_page_size_class (bitmap64_popcount pg.bitmap) = .ok page_size ∧
          page_size ≤ ep.size ∧ page_size ≤ ov.size ∧ 1 ≤ ep.overlay_page_count ∧
          ov'.size = ov.size - page_size ∧
          ((ep.overlay_page_count ≠ 1 ∧ ov'.epoch_count = ov.epoch_count ∧
              ov'.epochs.nodes = alist_set ov.epochs.nodes h { ep with
                mtable := mtable_slot_write ep.mtable pa { pg with ref_count := 0 },
                overlay_page_count := ep.overlay_page_count - 1,
                size := ep.size - page_size }) ∨
           (ep.overlay_page_count = 1 ∧ 1 ≤ ov.epoch_count ∧
              ov'.epoch_count = ov.epoch_count - 1 ∧
              ov'.epochs.nodes = alist_erase ov.epochs.nodes h)))) := by
  obtain ⟨-, ep, pg, e3, hfind, hpg, hpos, he3e, -, -, hcases⟩ := overlay_line_unlink_ok hu
  have hk : ep.epoch = h := (hI.epoch_ok h ep hfind).1
  obtain ⟨-, hA, hB⟩ := overlay_line_unlink_spec hu hfind hk hpg
  refine ⟨ep, pg, hfind, hpg, hpos, ?_⟩
  have hset : ∀ E : List (Nat × overlay_epoch_t), E = alist_set ov.epochs.nodes h e3 →
      alist_find E h = some e3 := by
    intro E hE
    rw [hE, alist_find_set, if_pos rfl]
  have herase : alist_erase (alist_set ov.epochs.nodes h e3) e3.epoch
      = alist_erase ov.epochs.nodes h := by
    rw [he3e, hk]
    unfold alist_set alist_erase
    simp [List.filter_filter]
  by_cases h1 : pg.ref_count = 1
  · right
    refine ⟨h1, ?_⟩
    obtain ⟨page_size, c1, c2, c3, c4, c5, c6, c7⟩ := hB h1
    refine ⟨page_size, c1, c2, c3, c4, c5, ?_⟩
    have hz : pg.ref_count - 1 = 0 := by omega
    rcases hcases with ⟨hne, -⟩ | ⟨-, -, -, hn⟩
    · exact absurd hz hne
    · by_cases hc1 : ep.overlay_page_count = 1
      · right
        obtain ⟨d1, d2, d3⟩ := c7 hc1
        refine ⟨hc1, d2, d3, ?_⟩
        rcases hn with hn | ⟨-, hn⟩
        · have := hset _ hn
          have d1' : alist_find ov'.epochs.nodes h = none := d1
          rw [d1'] at this
          cases this
        · rw [hn, herase]
      · left
        obtain ⟨d1, d2⟩ := c6 hc1
        have d1' : alist_find ov'.epochs.nodes h = some _ := d1
        refine ⟨hc1, d2, ?_⟩
        rcases hn with hn | ⟨-, hn⟩
        · have := hset _ hn
          rw [d1'] at this
          cases this
          exact hn
        · rw [hn, herase, alist_find_erase, if_pos rfl] at d1'
          cases d1'
  · left
    obtain ⟨d1, d2, d3⟩ := hA h1
    have d1' : alist_find ov'.epochs.nodes h = some _ := d1
    refine ⟨h1, d2, d3, ?_⟩
    rcases hcases with ⟨-, -, hn⟩ | ⟨hz, -⟩
    · have := hset _ hn
      rw [d1'] at this
      cases this
      exact hn
    · omega
/-- An unlink that returns keeps the size accounting. -/
theorem overlay_line_unlink_accounting {ov ov' : overlay_t} {h pa : Nat} (hI : SizeInv ov)
    (hu : overlay_line_unlink ov h pa = .ok ov') : SizeInv ov' := by
  obtain ⟨ep, pg, hfind, hpg, hpos, hcase⟩ := overlay_line_unlink_shape hI hu
  obtain ⟨k1, k2, k3, k4, k5⟩ := hI.epoch_ok h ep hfind
  have hpg' : alist_find ep.mtable.slots (mtable_path ep.mtable.idx pa) = some pg := hpg
  have hpc := k5 _ pg hpg'
  -- the sums over the pages after the write of the page with one reference less
  have hbytes : ∀ r : Nat,
      ((alist_set ep.mtable.slots (mtable_path ep.mtable.idx pa)
          { pg with ref_count := r }).map (fun s =>
        if 0 < s.2.ref_count then overlay_page_added (bitmap64_popcount s.2.bitmap)
        else 0)).sum + overlay_page_added (bitmap64_popcount pg.bitmap)
      = overlay_epoch_live_bytes ep
        + (if 0 < r then overlay_page_added (bitmap64_popcount pg.bitmap) else 0) := by
    intro r
    have := alist_sum_set_old { pg with ref_count := r }
      (fun s : List Nat × overlay_page_t =>
        if 0 < s.2.ref_count then overlay_page_added (bitmap64_popcount s.2.bitmap) else 0)
      k2 hpg'
    simp only [if_pos hpos] at this
    exact this
  have hpages : ∀ r : Nat,
      (alist_set ep.mtable.slots (mtable_path ep.mtable.idx pa)
          { pg with ref_count := r }).countP (fun s => decide (0 < s.2.ref_count)) + 1
      = overlay_epoch_live_pages ep + (if 0 < r then 1 else 0) := by
    intro r
    have := alist_countP_set_old { pg with ref_count := r }
      (fun s : List Nat × overlay_page_t => decide (0 < s.2.ref_count)) k2 hpg'
    simp only [decide_eq_true hpos, if_true, decide_eq_true_eq] at this
    exact this
  have hfind_set : ∀ (r : Nat) p pg2,
      alist_find (alist_set ep.mtable.slots (mtable_path ep.mtable.idx pa)
        { pg with ref_count := r }) p = some pg2 → 1 ≤ bitmap64_popcount pg2.bitmap := by
    intro r p pg2 hp
    rw [alist_find_set] at hp
    by_cases hpe : p = mtable_path ep.mtable.idx pa
    · rw [if_pos hpe] at hp
      cases hp
      exact hpc
    · rw [if_neg hpe] at hp
      exact k5 p pg2 hp
  rcases hcase with ⟨hne, hsz, hcnt, hnodes⟩ |
    ⟨h1, page_size, c1, c2, c3, c4, c5, hsub⟩
  · -- the page keeps a reference
    have hr : 0 < pg.ref_count - 1 := by omega
    refine { nodup_epochs := ?_, total := ?_, count := ?_, epoch_ok := ?_ }
    · rw [hnodes]; exact alist_set_nodup _ _ hI.nodup_epochs
    · rw [hsz, hnodes, hI.total]
      have := alist_sum_set_old
        { ep with mtable := mtable_slot_write ep.mtable pa
                    { pg with ref_count := pg.ref_count - 1 } }
        (fun n : Nat × overlay_epoch_t => n.2.size) hI.nodup_epochs hfind
      simp only at this
      omega
    · rw [hcnt, hnodes, alist_length_set_old _ hI.nodup_epochs hfind]
      exact hI.count
    · intro e'' ep'' hf''
      rw [hnodes, alist_find_set] at hf''
      by_cases he : e'' = h
      · rw [if_pos he] at hf''
        cases hf''
        refine ⟨by rw [he]; exact k1, alist_set_nodup _ _ k2, ?_, ?_, hfind_set _⟩
        · have := hbytes (pg.ref_count - 1)
          rw [if_pos hr] at this
          show ep.size = _
          unfold overlay_epoch_live_bytes at this k3 ⊢
          simp only [mtable_slot_write]
          omega
        · have := hpages (pg.ref_count - 1)
          rw [if_pos hr] at this
          show ep.overlay_page_count = _
          unfold overlay_epoch_live_pages at this k4 ⊢
          simp only [mtable_slot_write]
          omega
      · rw [if_neg he] at hf''
        exact hI.epoch_ok e'' ep'' hf''
  · -- the page is reclaimed
    have hlt : bitmap64_popcount pg.bitmap < 64 := by
      by_contra hge
      unfold overlay_page_size_class at c1
      have hd : decide (bitmap64_popcount pg.bitmap < UTIL_PAGE_SIZE / UTIL_CACHE_LINE_SIZE)
          = false := decide_eq_false hge
      simp only [hd, c_assert] at c1
      cases c1
    have hps : page_size = overlay_page_added (bitmap64_popcount pg.bitmap) := by
      rw [overlay_page_size_class_added _ hlt, if_neg (by omega)] at c1
      cases c1
      rfl
    have hb0 := hbytes 0
    have hp0 := hpages 0
    simp only [Nat.lt_irrefl, if_false, Nat.add_zero] at hb0 hp0
    rcases hsub with ⟨hc1, hcnt, hnodes⟩ | ⟨hc1, d2, d3, hnodes⟩
    · refine { nodup_epochs := ?_, total := ?_, count := ?_, epoch_ok := ?_ }
      · rw [hnodes]; exact alist_set_nodup _ _ hI.nodup_epochs
      · rw [c5, hnodes, hI.total]
        have := alist_sum_set_old
          { ep with mtable := mtable_slot_write ep.mtable pa { pg with ref_count := 0 },
                    overlay_page_count := ep.overlay_page_count - 1,
                    size := ep.size - page_size }
          (fun n : Nat × overlay_epoch_t => n.2.size) hI.nodup_epochs hfind
        simp only at this
        omega
      · rw [hcnt, hnodes, alist_length_set_old _ hI.nodup_epochs hfind]
        exact hI.count
      · intro e'' ep'' hf''
        rw [hnodes, alist_find_set] at hf''
        by_cases he : e'' = h
        · rw [if_pos he] at hf''
          cases hf''
          refine ⟨by rw [he]; exact k1, alist_set_nodup _ _ k2, ?_, ?_, hfind_set _⟩
          · show ep.size - page_size = _
            unfold overlay_epoch_live_bytes at hb0 k3 ⊢
            simp only [mtable_slot_write]
            omega
          · show ep.overlay_page_count - 1 = _
            unfold overlay_epoch_live_pages at hp0 k4 ⊢
            simp only [mtable_slot_write]
            omega
        · rw [if_neg he] at hf''
          exact hI.epoch_ok e'' ep'' hf''
    · -- the epoch is reclaimed with its last page
      have hzero : (alist_set ep.mtable.slots (mtable_path ep.mtable.idx pa)
          { pg with ref_count := 0 }).countP (fun s => decide (0 < s.2.ref_count)) = 0 := by
        omega
      have hb := live_bytes_zero_of_no_live _ hzero
      have hsize : ep.size = page_size := by omega
      refine { nodup_epochs := ?_, total := ?_, count := ?_, epoch_ok := ?_ }
      · rw [hnodes]; exact alist_erase_nodup _ hI.nodup_epochs
      · rw [c5, hnodes, hI.total]
        have := alist_sum_erase (fun n : Nat × overlay_epoch_t => n.2.size) h ep
          ov.epochs.nodes hI.nodup_epochs hfind
        simp only at this
        omega
      · rw [d3, hnodes]
        have := alist_length_erase h ep ov.epochs.nodes hI.nodup_epochs hfind
        have := hI.count
        omega
      · intro e'' ep'' hf''
        rw [hnodes, alist_find_erase] at hf''
        by_cases he : e'' = h
        · rw [if_pos he] at hf''
          cases hf''
        · rw [if_neg he] at hf''
          exact hI.epoch_ok e'' ep'' hf''
/-- A property of the overlay that returning unlinks keep is kept by the line loop of a merge. -/
theorem overlay_merge_lines_keeps (P : overlay_t → Prop)
    (hP : ∀ ov h pa ov', P ov → overlay_line_unlink ov h pa = .ok ov' → P ov') (e0 pa : Nat) :
    ∀ (offs : List Nat) (ov : overlay_t) (omt : omt_t) (ov' : overlay_t) (omt' : omt_t),
      P ov → overlay_merge_lines e0 pa offs (ov, omt) = .ok (ov', omt') → P ov' := by
  intro offs
  induction offs with
  | nil =>
    intro ov omt ov' omt' h hm
    simp only [overlay_merge_lines, pure, Except.pure, Except.ok.injEq, Prod.mk.injEq] at hm
    rw [← hm.1]
    exact h
  | cons off rest ih =>
    intro ov omt ov' omt' h hm
    simp only [overlay_merge_lines, bind, Except.bind] at hm
    cases hold : (omt_merge_line omt e0 (pa ||| off <<< UTIL_CACHE_LINE_BITS)).2 with
    | none =>
      simp only [hold, pure, Except.pure] at hm
      exact ih ov _ ov' omt' h hm
    | some old =>
      simp only [hold] at hm
      cases hu : overlay_line_unlink ov old pa with
      | error a => simp only [hu] at hm; cases hm
      | ok ov1 =>
        simp only [hu] at hm
        exact ih ov1 _ ov' omt' (hP ov old pa ov1 h hu) hm

/-- A property of the overlay that returning unlinks keep is kept by the page loop of a merge. -/
theorem overlay_merge_pages_keeps (P : overlay_t → Prop)
    (hP : ∀ ov h pa ov', P ov → overlay_line_unlink ov h pa = .ok ov' → P ov') (e0 : Nat) :
    ∀ (ps : List (Nat × overlay_page_t)) (ov : overlay_t) (omt : omt_t) (ov' : overlay_t)
      (omt' : omt_t),
      P ov → overlay_merge_pages e0 ps (ov, omt) = .ok (ov', omt') → P ov' := by
  intro ps
  induction ps with
  | nil =>
    intro ov omt ov' omt' h hm
    simp only [overlay_merge_pages, pure, Except.pure, Except.ok.injEq, Prod.mk.injEq] at hm
    rw [← hm.1]
    exact h
  | cons s rest ih =>
    intro ov omt ov' omt' h hm
    obtain ⟨pa, node⟩ := s
    simp only [overlay_merge_pages, overlay_merge_epoch_cb, bind, Except.bind] at hm
    cases hl : overlay_merge_lines e0 pa (bitmap64_members node.bitmap) (ov, omt) with
    | error a => simp only [hl] at hm; cases hm
    | ok st1 =>
      obtain ⟨ov1, omt1⟩ := st1
      simp only [hl] at hm
      exact ih ov1 omt1 ov' omt' (overlay_merge_lines_keeps P hP e0 pa _ ov omt ov1 omt1 h hl) hm

/-- Setting the merged flag of an epoch keeps the size accounting. -/
theorem SizeInv_mark_merged {ov : overlay_t} {e : Nat} {ep : overlay_epoch_t} (hI : SizeInv ov)
    (hf : alist_find ov.epochs.nodes e = some ep) :
    SizeInv { ov with epochs := ht64_store ov.epochs e { ep with merged := true } } := by
  refine { nodup_epochs := ?_, total := ?_, count := ?_, epoch_ok := ?_ }
  · exact alist_set_nodup _ _ hI.nodup_epochs
  · show ov.size = _
    rw [hI.total]
    have := alist_sum_set_old { ep with merged := true }
      (fun n : Nat × overlay_epoch_t => n.2.size) hI.nodup_epochs hf
    simp only [ht64_store]
    simp only at this
    omega
  · show ov.epoch_count = _
    simp only [ht64_store]
    rw [alist_length_set_old _ hI.nodup_epochs hf]
    exact hI.count
  · intro e'' ep'' hf''
    simp only [ht64_store] at hf''
    rw [alist_find_set] at hf''
    by_cases he : e'' = e
    · rw [if_pos he] at hf''
      cases hf''
      have := hI.epoch_ok e ep hf
      rw [he]
      exact this
    · rw [if_neg he] at hf''
      exact hI.epoch_ok e'' ep'' hf''

/-- A merge that returns keeps the size accounting. -/
theorem overlay_epoch_merge_accounting {ov ov' : overlay_t} {omt omt' : omt_t} {e : Nat}
    (hI : SizeInv ov) (hm : overlay_epoch_merge ov e omt = .ok (ov', omt')) : SizeInv ov' := by
  unfold overlay_epoch_merge at hm
  simp only [overlay_find, ht64_find, bind, Except.bind] at hm
  cases hf : alist_find ov.epochs.nodes e with
  | none => simp only [hf] at hm; cases hm
  | some ep =>
    simp only [hf] at hm
    split at hm
    · cases hm
    · exact overlay_merge_pages_keeps SizeInv
        (fun _ _ _ _ h hu => overlay_line_unlink_accounting h hu) e _ _ omt ov' omt'
        (SizeInv_mark_merged hI hf) hm

/-- The size accounting holds in every reachable state of the overlay. -/
theorem overlay_reach_accounting {ov : overlay_t} {omt : omt_t} (hr : overlay_reach ov omt) :
    SizeInv ov := by
  induction hr with
  | init =>
    refine { nodup_epochs := by simp [overlay_init, ht64_init], total := rfl, count := rfl,
             epoch_ok := ?_ }
    intro e ep h
    simp [overlay_init, ht64_init, alist_find] at h
  | @insert ov0 ov1 omt0 addr epoch hr0 hi ih =>
    have hO := (overlay_reach_inv hr0).1
    refine overlay_insert_accounting ih ?_ hi
    intro ep pg hf hmg hp
    have := (hO.page_wf epoch ep _ pg hf hp).2
    simp only [pending_steady, hmg, Bool.false_eq_true, if_false] at this
    omega
  | merge epoch _ hm ih => exact overlay_epoch_merge_accounting ih hm
/-- A page that still holds a reference is counted in the bytes and the pages of its epoch,
and it makes them up alone when it is the only such page. -/
theorem live_page_facts {ep : overlay_epoch_t} {p : List Nat} {pg : overlay_page_t}
    (hnd : (ep.mtable.slots.map Prod.fst).Nodup)
    (hpg : alist_find ep.mtable.slots p = some pg) (hpos : 0 < pg.ref_count) :
    overlay_page_added (bitmap64_popcount pg.bitmap) ≤ overlay_epoch_live_bytes ep ∧
    1 ≤ overlay_epoch_live_pages ep ∧
    (overlay_epoch_live_pages ep = 1 →
      overlay_epoch_live_bytes ep = overlay_page_added (bitmap64_popcount pg.bitmap)) := by
  have hb := alist_sum_set_old { pg with ref_count := 0 }
    (fun s : List Nat × overlay_page_t =>
      if 0 < s.2.ref_count then overlay_page_added (bitmap64_popcount s.2.bitmap) else 0)
    hnd hpg
  have hp := alist_countP_set_old { pg with ref_count := 0 }
    (fun s : List Nat × overlay_page_t => decide (0 < s.2.ref_count)) hnd hpg
  simp only [if_pos hpos, Nat.lt_irrefl, if_false, Nat.add_zero, decide_eq_true hpos, if_true,
    decide_False, Bool.false_eq_true] at hb hp
  unfold overlay_epoch_live_bytes overlay_epoch_live_pages
  refine ⟨by omega, by omega, ?_⟩
  intro h1
  have hz := live_bytes_zero_of_no_live (alist_set ep.mtable.slots p { pg with ref_count := 0 })
    (by omega)
  omega

/-- The sum of the size classes over pages that all hold a reference and have 1 to 63 lines is
the sum of the bytes their inserts added. -/
theorem class_sum_of_live (slots : List (List Nat × overlay_page_t))
    (h : ∀ s ∈ slots, 0 < s.2.ref_count ∧ 1 ≤ bitmap64_popcount s.2.bitmap ∧
      bitmap64_popcount s.2.bitmap < 64) :
    slots.foldr (fun s acc => do
      let rest ← acc
      let page_size ← overlay_page_size_class (bitmap64_popcount s.2.bitmap)
      pure (page_size + rest)) (pure 0 : Except Abort Nat)
    = .ok (slots.map (fun s =>
        if 0 < s.2.ref_count then overlay_page_added (bitmap64_popcount s.2.bitmap)
        else 0)).sum := by
  induction slots with
  | nil => rfl
  | cons a t ih =>
    obtain ⟨h1, h2, h3⟩ := h a (List.mem_cons_self _ _)
    rw [List.foldr_cons, ih (fun s hs => h s (List.mem_cons_of_mem _ hs)),
      List.map_cons, List.sum_cons, if_pos h1]
    simp only [bind, Except.bind, overlay_page_size_class_added _ h3,
      if_neg (Nat.pos_iff_ne_zero.mp h2), pure, Except.pure]

/-- With the size accounting in force, an unlink of a page that holds a reference and has
fewer than 64 lines returns; when it drops the last reference of the last page of the epoch,
the size of the epoch is the size class of that page and the epoch is removed. -/
theorem overlay_line_unlink_returns {ov : overlay_t} {h pa : Nat} {ep : overlay_epoch_t}
    {pg : overlay_page_t} (hI : SizeInv ov) (hpa : page_aligned pa = true)
    (hfind : alist_find ov.epochs.nodes h = some ep)
    (hpg : mtable_find ep.mtable pa = some pg) (hpos : 0 < pg.ref_count)
    (hlt : bitmap64_popcount pg.bitmap < 64) :
    ∃ page_size ov', overlay_page_size_class (bitmap64_popcount pg.bitmap) = .ok page_size ∧
      page_size ≤ ep.size ∧ overlay_line_unlink ov h pa = .ok ov' ∧
      (pg.ref_count = 1 → ep.overlay_page_count = 1 →
        ep.size = page_size ∧ alist_find ov'.epochs.nodes h = none) := by
  obtain ⟨k1, k2, k3, k4, k5⟩ := hI.epoch_ok h ep hfind
  have hpg' : alist_find ep.mtable.slots (mtable_path ep.mtable.idx pa) = some pg := hpg
  have hpc := k5 _ pg hpg'
  obtain ⟨f1, f2, f3⟩ := live_page_facts k2 hpg' hpos
  have hcls : overlay_page_size_class (bitmap64_popcount pg.bitmap)
      = .ok (overlay_page_added (bitmap64_popcount pg.bitmap)) := by
    rw [overlay_page_size_class_added _ hlt, if_neg (by omega)]
  have hle : ep.size ≤ ov.size := by
    rw [hI.total]
    exact le_sum_map_of_mem ov.epochs.nodes (fun n : Nat × overlay_epoch_t => n.2.size)
      (alist_find_mem hfind)
  have hlen : 1 ≤ ov.epochs.nodes.length := by
    have := alist_find_mem hfind
    cases hn : ov.epochs.nodes with
    | nil => rw [hn] at this; cases this
    | cons a t => simp
  have hposd : decide (pg.ref_count > 0) = true := decide_eq_true hpos
  cases hu : overlay_line_unlink ov h pa with
  | error a =>
    exfalso
    unfold overlay_line_unlink at hu
    simp only [hpa, c_assert, ht64_find, hfind, overlay_epoch_find, hpg, bind, Except.bind,
      hposd, if_true, hcls] at hu
    by_cases h1 : pg.ref_count = 1
    · have hr0 : pg.ref_count - 1 = 0 := by omega
      have hpc1 : decide (ep.overlay_page_count ≠ 0) = true := decide_eq_true (by omega)
      have hs1 : decide (ep.size ≥ overlay_page_added (bitmap64_popcount pg.bitmap)) = true :=
        decide_eq_true (by omega)
      have hs2 : decide (ov.size ≥ overlay_page_added (bitmap64_popcount pg.bitmap)) = true :=
        decide_eq_true (by omega)
      simp only [hr0, if_true, hpc1, hs1, hs2] at hu
      by_cases hc : ep.overlay_page_count = 1
      · have hc0 : ep.overlay_page_count - 1 = 0 := by omega
        have hz : decide (ep.size - overlay_page_added (bitmap64_popcount pg.bitmap) = 0)
            = true := decide_eq_true (by have := f3 (by omega); omega)
        have hcnt : decide (ov.epoch_count ≠ 0) = true :=
          decide_eq_true (by have := hI.count; omega)
        simp only [hc0, if_true, overlay_gc_epoch, overlay_remove, ht64_remove, ht64_store,
          c_assert, bind, Except.bind, decide_True, hz, alist_find_set, k1, hcnt] at hu
        have hs3 : decide (ov.size - overlay_page_added (bitmap64_popcount pg.bitmap) ≥
            ep.size - overlay_page_added (bitmap64_popcount pg.bitmap)) = true :=
          decide_eq_true (by omega)
        simp only [hs3, if_true, pure, Except.pure] at hu
        cases hu
      · have hc0 : ¬ ep.overlay_page_count - 1 = 0 := by omega
        simp only [hc0, if_false, pure, Except.pure] at hu
        cases hu
    · have hr0 : ¬ pg.ref_count - 1 = 0 := by omega
      simp only [hr0, if_false, pure, Except.pure] at hu
      cases hu
  | ok ov' =>
    refine ⟨_, ov', hcls, by omega, rfl, fun h1 hc => ⟨by have := f3 (by omega); omega, ?_⟩⟩
    obtain ⟨ep2, pg2, g1, g2, -, hcase⟩ := overlay_line_unlink_shape hI hu
    rw [hfind] at g1
    cases g1
    rw [hpg] at g2
    cases g2
    rcases hcase with ⟨hne, -⟩ | ⟨-, ps, -, -, -, -, -, hsub⟩
    · exact (hne h1).elim
    · rcases hsub with ⟨hne, -⟩ | ⟨-, -, -, hnodes⟩
      · exact (hne hc).elim
      · rw [hnodes, alist_find_erase, if_pos rfl]

/-- C37: the size accounting of the insert side and of the reclaiming side agree.  The bytes
that the insert transitions 0 → 1, ..., n - 1 → n add for a page sum to
`overlay_page_size_class(n)` for 1 ≤ n ≤ 63, and one insert adds the bytes of its transition.
In every state reachable by `overlay_insert` and `overlay_epoch_merge` calls that return, the
aggregate size of the overlay is the sum of the sizes of its epochs; the size of an epoch is the
sum of the inserted bytes of its pages that still hold a reference; an unmerged epoch, which no
unlink has touched, has only such pages; where all pages hold a reference and have at most 63
lines, the size of the epoch is the sum of `overlay_page_size_class(popcount)` over its pages;
and an unlink of a page with at most 63 lines returns, so that when it reclaims the last page of
the epoch the size of the epoch is exactly the size class it subtracts, zero is left at the
assertion of `overlay_gc_epoch`, and the epoch is removed. -/
theorem size_accounting_agrees {ov : overlay_t} {omt : omt_t} (hr : overlay_reach ov omt) :
    (∀ n, 1 ≤ n → n ≤ 63 →
      overlay_page_size_class n = .ok ((List.range n).map overlay_insert_bytes).sum) ∧
    (∀ ep addr ep' ret, overlay_epoch_insert ep addr = .ok (ep', ret) →
      (bitmap64_popcount (bitmap64_add
          ((overlay_epoch_find ep addr).getD overlay_page_init).bitmap (page_line_offset addr))
        = bitmap64_popcount ((overlay_epoch_find ep addr).getD overlay_page_init).bitmap ∧
        ret = 0 ∨
       bitmap64_popcount (bitmap64_add
          ((overlay_epoch_find ep addr).getD overlay_page_init).bitmap (page_line_offset addr))
        = bitmap64_popcount ((overlay_epoch_find ep addr).getD overlay_page_init).bitmap + 1 ∧
        ret = overlay_insert_bytes
          (bitmap64_popcount ((overlay_epoch_find ep addr).getD overlay_page_init).bitmap)) ∧
      ep'.size = ep.size + ret) ∧
    ov.size = (ov.epochs.nodes.map (fun n => n.2.size)).sum ∧
    ∀ e ep, overlay_find ov e = some ep →
      ep.size = overlay_epoch_live_bytes ep ∧
      (ep.merged = false → ∀ s ∈ ep.mtable.slots, 0 < s.2.ref_count) ∧
      ((∀ s ∈ ep.mtable.slots, 0 < s.2.ref_count ∧ bitmap64_popcount s.2.bitmap < 64) →
        overlay_epoch_class_sum ep = .ok ep.size) ∧
      ∀ pa pg, page_aligned pa = true → overlay_epoch_find ep pa = some pg →
        0 < pg.ref_count → bitmap64_popcount pg.bitmap < 64 →
        ∃ page_size ov', overlay_page_size_class (bitmap64_popcount pg.bitmap) = .ok page_size ∧
          page_size ≤ ep.size ∧ overlay_line_unlink ov e pa = .ok ov' ∧
          (pg.ref_count = 1 → ep.overlay_page_count = 1 →
            ep.size - page_size = 0 ∧ overlay_find ov' e = none) := by
  have hI := overlay_reach_accounting hr
  have hO := (overlay_reach_inv hr).1
  refine ⟨?_, ?_, hI.total, ?_⟩
  · intro n h1 h2
    rw [overlay_page_size_class_added n (by omega), if_neg (by omega)]
    rfl
  · intro ep addr ep' ret hins
    exact overlay_epoch_insert_size hins
  · intro e ep hf
    obtain ⟨k1, k2, k3, k4, k5⟩ := hI.epoch_ok e ep hf
    refine ⟨k3, ?_, ?_, ?_⟩
    · intro hmg s hs
      have hfs := alist_mem_find k2 (show (s.1, s.2) ∈ ep.mtable.slots from hs)
      have := (hO.page_wf e ep s.1 s.2 hf hfs).2
      simp only [pending_steady, hmg, Bool.false_eq_true, if_false] at this
      omega
    · intro hall
      unfold overlay_epoch_class_sum
      rw [class_sum_of_live ep.mtable.slots (fun s hs =>
        ⟨(hall s hs).1, k5 s.1 s.2 (alist_mem_find k2 hs), (hall s hs).2⟩), k3]
      rfl
    · intro pa pg hpa hpg hpos hlt
      obtain ⟨ps, ov', c1, c2, c3, c4⟩ := overlay_line_unlink_returns hI hpa hf hpg hpos hlt
      refine ⟨ps, ov', c1, c2, c3, fun h1 hc => ?_⟩
      have := c4 h1 hc
      exact ⟨by omega, this.2⟩

/-- Witness for C37: after `overlay_insert(0x1000, 0)` and `overlay_epoch_merge(0, omt)` on the
empty overlay and OMT, the epoch 0 has one page with one line and one reference, its size is the
256 bytes of the smallest size class, and the unlink of that page returns with the epoch
removed. -/
theorem size_accounting_agrees_witness :
    overlay_reach overlay_one_line_merged.1 overlay_one_line_merged.2 ∧
    overlay_one_line_merged.1.size = 256 ∧
    ∃ ep, overlay_find overlay_one_line_merged.1 0 = some ep ∧
      overlay_epoch_class_sum ep = .ok ep.size ∧
      ∃ page_size ov', overlay_page_size_class 1 = .ok page_size ∧ page_size ≤ ep.size ∧
        overlay_line_unlink overlay_one_line_merged.1 0 0x1000 = .ok ov' ∧
        ep.size - page_size = 0 ∧ overlay_find ov' 0 = none :=
  have hr : overlay_reach overlay_one_line_merged.1 overlay_one_line_merged.2 :=
    overlay_reach.merge 0 (overlay_reach.insert 0x1000 0 overlay_reach.init
      (show overlay_insert overlay_init 0x1000 0 = .ok overlay_one_line from rfl))
      (show overlay_epoch_merge overlay_one_line 0 omt_init
        = .ok (overlay_one_line_merged.1, overlay_one_line_merged.2) from rfl)
  have hf : ∃ ep, overlay_find overlay_one_line_merged.1 0 = some ep ∧
      (∀ s ∈ ep.mtable.slots, 0 < s.2.ref_count ∧ bitmap64_popcount s.2.bitmap < 64) ∧
      ∃ pg, overlay_epoch_find ep 0x1000 = some pg ∧ pg.ref_count = 1 ∧
        bitmap64_popcount pg.bitmap = 1 ∧ ep.overlay_page_count = 1 :=
    ⟨_, rfl, by decide, _, rfl, rfl, rfl, rfl⟩
  match hf with
  | ⟨ep, h1, h2, pg, h3, h4, h5, h6⟩ =>
    have h := (size_accounting_agrees hr).2.2.2 0 ep h1
    match h.2.2.2 0x1000 pg (by decide) h3 (by omega) (by omega) with
    | ⟨ps, ov', c1, c2, c3, c4⟩ =>
      ⟨hr, by decide, ep, h1, h.2.2.1 h2, ps, ov', h5 ▸ c1, c2, c3, c4 h4 h6⟩

/-! ## C31: the radix map is a map on the indexed bits -/

theorem mtable_ptr_find_null {V : Type} (key : Nat) (idx : List mtable_idx_t) :
    mtable_ptr_find key idx (mtable_null V idx) = none := by
  cases idx with
  | nil => rfl
  | cons i idx => rfl

/-- The pages that `_mtable_insert` allocates leave every lookup as it was. -/
theorem mtable_ptr_find_insert {V : Type} (key key' : Nat) (idx : List mtable_idx_t) :
    ∀ prev : mtable_ptr V idx,
      mtable_ptr_find key' idx (mtable_ptr_insert key idx prev).1 = mtable_ptr_find key' idx prev := by
  induction idx with
  | nil => intro prev; rfl
  | cons i idx ih =>
    intro prev
    cases prev with
    | none =>
      simp only [mtable_ptr_insert, mtable_ptr_find]
      by_cases hs : mtable_slice i key' = mtable_slice i key
      · rw [if_pos hs, ih, mtable_ptr_find_null]
      · rw [if_neg hs, mtable_ptr_find_null]
    | some curr =>
      simp only [mtable_ptr_insert, mtable_ptr_find]
      by_cases hs : mtable_slice i key' = mtable_slice i key
      · rw [if_pos hs, ih, hs]
      · rw [if_neg hs]

/-- After `_mtable_insert` and the store through the slot it returns, a lookup on the same
slice path finds the stored value and every other lookup finds what it found before. -/
theorem mtable_ptr_find_write {V : Type} (key key' : Nat) (v : Option V)
    (idx : List mtable_idx_t) :
    ∀ prev : mtable_ptr V idx,
      mtable_ptr_find key' idx (mtable_ptr_write key v idx (mtable_ptr_insert key idx prev).1)
        = if mtable_path idx key' = mtable_path idx key then v
          else mtable_ptr_find key' idx prev := by
  induction idx with
  | nil => intro prev; simp [mtable_ptr_write, mtable_ptr_find, mtable_path]
  | cons i idx ih =>
    intro prev
    have hp : ∀ k, mtable_path (i :: idx) k = mtable_slice i k :: mtable_path idx k :=
      fun _ => rfl
    simp only [hp, List.cons.injEq]
    cases prev with
    | none =>
      simp only [mtable_ptr_insert, mtable_ptr_write, mtable_ptr_find]
      by_cases hs : mtable_slice i key' = mtable_slice i key
      · simp only [hs, if_true, true_and]
        rw [ih, mtable_ptr_find_null]
      · simp only [hs, if_false, false_and]
        exact mtable_ptr_find_null _ _
    | some curr =>
      simp only [mtable_ptr_insert, mtable_ptr_write, mtable_ptr_find]
      by_cases hs : mtable_slice i key' = mtable_slice i key
      · simp only [hs, if_true, true_and]
        rw [ih]
      · simp only [hs, if_false, false_and]

theorem mtable_tree_find_write {V : Type} (m : mtable_tree_t V) (key key' : Nat)
    (v : Option V) :
    (mtable_tree_find (mtable_tree_write (mtable_tree_insert m key) key v) key').1
      = if mtable_path m.idx key' = mtable_path m.idx key then v
        else (mtable_tree_find m key').1 :=
  mtable_ptr_find_write key key' v m.idx m.root

theorem mtable_tree_build_idx {V : Type} (ops : List (Nat × Option V)) :
    ∀ m : mtable_tree_t V, (mtable_tree_build ops m).idx = m.idx := by
  induction ops with
  | nil => intro m; rfl
  | cons op ops ih =>
    intro m
    obtain ⟨k, v⟩ := op
    rw [mtable_tree_build, ih]
    rfl

/-- A lookup on a slice path that no insert has named finds what it found at the start. -/
theorem mtable_tree_build_find {V : Type} (key : Nat) (ops : List (Nat × Option V)) :
    ∀ m : mtable_tree_t V,
      (∀ op ∈ ops, mtable_path m.idx op.1 ≠ mtable_path m.idx key) →
      (mtable_tree_find (mtable_tree_build ops m) key).1 = (mtable_tree_find m key).1 := by
  induction ops with
  | nil => intro m _; rfl
  | cons op ops ih =>
    intro m h
    obtain ⟨k, v⟩ := op
    have h1 := ih (mtable_tree_write (mtable_tree_insert m k) k v)
      (fun op hop => h op (List.mem_cons_of_mem _ hop))
    have h2 := mtable_tree_find_write m k key v
    rw [if_neg (fun e => h (k, v) (List.mem_cons_self _ _) e.symm)] at h2
    rw [mtable_tree_build, h1, h2]

/-- Two keys have the same slices at the five levels of the OMT exactly when they agree on the
bits 6 to 47. -/
theorem omt_path_eq_iff (k k' : Nat) :
    mtable_path omt_idx k' = mtable_path omt_idx k ↔ k' / 2 ^ 6 % 2 ^ 42 = k / 2 ^ 6 % 2 ^ 42 := by
  simp only [mtable_path, omt_idx, List.map_cons, List.map_nil, slice_eq, List.cons.injEq,
    and_true]
  constructor
  · rintro ⟨h1, h2, h3, h4, h5⟩
    omega
  · intro h
    refine ⟨?_, ?_, ?_, ?_, ?_⟩ <;> omega
/-! ## C32: the traversal of the radix map -/

theorem filterMap_flatMap {α β γ : Type} (f : β → Option γ) (g : α → List β) (l : List α) :
    (l.flatMap g).filterMap f = l.flatMap (fun a => (g a).filterMap f) := by
  induction l with
  | nil => rfl
  | cons a t ih => simp only [List.flatMap_cons, List.filterMap_append, ih]

theorem filterMap_none {α β : Type} (l : List α) :
    l.filterMap (fun _ => (none : Option β)) = [] := by
  induction l with
  | nil => rfl
  | cons a t ih => simp only [List.filterMap_cons, ih]

theorem filterMap_eq_flatMap_single {α β γ : Type} (f : α → Option γ) (b : β)
    (F : α → β → Option γ) (h : ∀ a, f a = F a b) (l : List α) :
    l.filterMap f = l.flatMap (fun a => [b].filterMap (F a)) := by
  induction l with
  | nil => rfl
  | cons a t ih =>
    rw [List.flatMap_cons, ← ih, List.filterMap_cons, List.filterMap_cons, ← h a]
    cases f a <;> rfl

theorem flatMap_congr_fun {α β : Type} (f g : α → List β) (l : List α) (h : ∀ a, f a = g a) :
    l.flatMap f = l.flatMap g := by
  rw [show f = g from funext h]

theorem mtable_all_paths_filterMap {γ : Type} (i : mtable_idx_t) (idx : List mtable_idx_t)
    (F : List Nat → Option γ) :
    (mtable_all_paths (i :: idx)).filterMap F
      = (List.range (1 <<< i.bits)).flatMap (fun s =>
          (mtable_all_paths idx).filterMap (fun path => F (s :: path))) := by
  rw [mtable_all_paths, filterMap_flatMap]
  apply flatMap_congr_fun
  intro s
  rw [List.filterMap_map]
  rfl

/-- The calls of `_mtable_traverse`: one for every slice path whose slot is not NULL, in the
order of the slice paths. -/
theorem mtable_ptr_traverse_eq {V : Type} (idx : List mtable_idx_t) :
    ∀ (i : mtable_idx_t) (tree : mtable_ptr V (i :: idx)) (key : Nat),
      mtable_ptr_traverse (i :: idx) tree key
        = (mtable_all_paths (i :: idx)).filterMap (fun path =>
            (mtable_ptr_slot (i :: idx) tree path).map
              (fun v => (key ||| mtable_ptr_key (i :: idx) path, v))) := by
  induction idx with
  | nil =>
    intro i tree key
    cases tree with
    | none =>
      have : (fun path : List Nat => (mtable_ptr_slot [i] (none : mtable_ptr V [i]) path).map
          (fun v => (key ||| mtable_ptr_key [i] path, v))) = fun _ => none := by
        funext path
        cases path <;> rfl
      rw [this, filterMap_none]
      rfl
    | some t =>
      rw [mtable_all_paths_filterMap]
      simp only [mtable_ptr_traverse, mtable_all_paths]
      apply filterMap_eq_flatMap_single
      intro s
      simp only [mtable_ptr_slot, mtable_ptr_key, Nat.or_zero]
  | cons j idx ih =>
    intro i tree key
    cases tree with
    | none =>
      have : (fun path : List Nat =>
          (mtable_ptr_slot (i :: j :: idx) (none : mtable_ptr V (i :: j :: idx)) path).map
            (fun v => (key ||| mtable_ptr_key (i :: j :: idx) path, v))) = fun _ => none := by
        funext path
        cases path <;> rfl
      rw [this, filterMap_none]
      rfl
    | some t =>
      rw [mtable_all_paths_filterMap]
      simp only [mtable_ptr_traverse]
      apply flatMap_congr_fun
      intro s
      rw [ih]
      simp only [mtable_ptr_slot, mtable_ptr_key, Nat.or_assoc]
theorem mtable_all_paths_mem (idx : List mtable_idx_t) :
    ∀ path, path ∈ mtable_all_paths idx ↔ mtable_slices_ok idx path := by
  induction idx with
  | nil =>
    intro path
    cases path with
    | nil => simp [mtable_all_paths, mtable_slices_ok]
    | cons s p => simp [mtable_all_paths, mtable_slices_ok]
  | cons i idx ih =>
    intro path
    simp only [mtable_all_paths, List.mem_flatMap, List.mem_range, List.mem_map]
    cases path with
    | nil =>
      simp only [mtable_slices_ok, iff_false]
      rintro ⟨s, -, p, -, h⟩
      cases h
    | cons s p =>
      simp only [mtable_slices_ok, List.cons.injEq]
      constructor
      · rintro ⟨s', hs, p', hp, rfl, rfl⟩
        exact ⟨hs, (ih _).mp hp⟩
      · rintro ⟨hs, hp⟩
        exact ⟨s, hs, p, (ih _).mpr hp, rfl, rfl⟩

theorem mtable_all_paths_sorted (idx : List mtable_idx_t) (hne : idx ≠ []) :
    (mtable_all_paths idx).Pairwise mtable_path_lt := by
  induction idx with
  | nil => exact (hne rfl).elim
  | cons i idx ih =>
    rw [mtable_all_paths, List.pairwise_flatMap]
    constructor
    · intro s _
      rw [List.pairwise_map]
      cases idx with
      | nil => simp [mtable_all_paths]
      | cons j idx =>
        exact (ih (by simp)).imp (fun h => Or.inr ⟨rfl, h⟩)
    · refine (List.pairwise_lt_range _).imp ?_
      intro a b hab x hx y hy
      obtain ⟨p, -, rfl⟩ := List.mem_map.mp hx
      obtain ⟨q, -, rfl⟩ := List.mem_map.mp hy
      exact Or.inl hab

theorem mtable_ptr_slot_path {V : Type} (key : Nat) (idx : List mtable_idx_t) :
    ∀ prev : mtable_ptr V idx,
      mtable_ptr_slot idx prev (mtable_path idx key) = mtable_ptr_find key idx prev := by
  induction idx with
  | nil => intro prev; rfl
  | cons i idx ih =>
    intro prev
    cases prev with
    | none => rfl
    | some curr => exact ih (curr (mtable_slice i key))

theorem mtable_slice_lt (i : mtable_idx_t) (key : Nat) : mtable_slice i key < 1 <<< i.bits := by
  obtain ⟨r, b⟩ := i
  rw [slice_eq, Nat.one_shiftLeft]
  exact Nat.mod_lt _ (Nat.two_pow_pos b)

theorem mtable_path_slices_ok (key : Nat) (idx : List mtable_idx_t) :
    mtable_slices_ok idx (mtable_path idx key) := by
  induction idx with
  | nil => trivial
  | cons i idx ih => exact ⟨mtable_slice_lt i key, ih⟩

theorem mtable_idx_init_ok {start_bit bits : Int} {i : mtable_idx_t}
    (h : mtable_idx_init start_bit bits = .ok i) : 1 ≤ i.bits ∧ i.rshift + i.bits ≤ 64 := by
  unfold mtable_idx_init at h
  simp only at h
  split at h
  · cases h
  · split at h
    · cases h
    · split at h
      · cases h
      · cases h
        simp only
        omega

theorem mtable_idx_add_ok {idx idx' : List mtable_idx_t} {start_bit bits : Int}
    (hok : mtable_levels_ok idx) (h : mtable_idx_add idx start_bit bits = .ok idx') :
    mtable_levels_ok idx' := by
  unfold mtable_idx_add at h
  simp only [bind, Except.bind] at h
  cases hi : mtable_idx_init start_bit bits with
  | error a => simp only [hi] at h; cases h
  | ok i =>
    simp only [hi] at h
    obtain ⟨h1, h2⟩ := mtable_idx_init_ok hi
    split at h
    · rename_i hall
      cases h
      rw [List.all_eq_true] at hall
      refine ⟨?_, ?_⟩
      · intro j hj
        rcases List.mem_append.mp hj with hj | hj
        · exact hok.1 j hj
        · rw [List.mem_singleton.mp hj]; exact h2
      · rw [List.pairwise_append]
        refine ⟨hok.2, List.pairwise_singleton _ _, ?_⟩
        intro a ha b hb
        rw [List.mem_singleton.mp hb]
        have := of_decide_eq_true (hall a ha)
        omega
    · cases h

theorem mtable_idx_adds_ok (levels : List (Int × Int)) :
    ∀ idx idx' : List mtable_idx_t, mtable_levels_ok idx →
      mtable_idx_adds levels idx = .ok idx' → mtable_levels_ok idx' := by
  induction levels with
  | nil =>
    intro idx idx' hok h
    cases h
    exact hok
  | cons l levels ih =>
    intro idx idx' hok h
    obtain ⟨s, b⟩ := l
    simp only [mtable_idx_adds, bind, Except.bind] at h
    cases ha : mtable_idx_add idx s b with
    | error a => simp only [ha] at h; cases h
    | ok idx1 =>
      simp only [ha] at h
      exact ih idx1 idx' (mtable_idx_add_ok hok ha) h

theorem mtable_idx_valid_ok {idx : List mtable_idx_t} (h : mtable_idx_valid idx) :
    mtable_levels_ok idx := by
  obtain ⟨-, levels, hl⟩ := h
  exact mtable_idx_adds_ok levels [] idx ⟨by simp, List.Pairwise.nil⟩ hl
theorem shiftLeft_mod_of_level {s r b : Nat} (hs : s < 1 <<< b) (h : r + b ≤ 64) :
    (s <<< r) % 2 ^ 64 = s <<< r := by
  apply Nat.mod_eq_of_lt
  rw [Nat.one_shiftLeft] at hs
  rw [Nat.shiftLeft_eq]
  calc s * 2 ^ r < 2 ^ b * 2 ^ r := Nat.mul_lt_mul_of_pos_right hs (Nat.two_pow_pos r)
    _ = 2 ^ (b + r) := (Nat.pow_add 2 b r).symm
    _ ≤ 2 ^ 64 := Nat.pow_le_pow_right (by decide) (by omega)

/-- Within 64 bits the key accumulated by `_mtable_traverse` is the union of the shifted
slices. -/
theorem mtable_ptr_key_eq (idx : List mtable_idx_t) :
    ∀ path, (∀ i ∈ idx, i.rshift + i.bits ≤ 64) → mtable_slices_ok idx path →
      mtable_ptr_key idx path = mtable_traverse_key idx path := by
  induction idx with
  | nil => intro path _ _; cases path <;> rfl
  | cons i idx ih =>
    intro path h hok
    cases path with
    | nil => rfl
    | cons s p =>
      simp only [mtable_ptr_key, mtable_traverse_key]
      rw [shiftLeft_mod_of_level hok.1 (h i (List.mem_cons_self _ _)),
        ih p (fun j hj => h j (List.mem_cons_of_mem _ hj)) hok.2]

theorem shiftLeft_testBit_level {s r b n : Nat} (hs : s < 1 <<< b)
    (h : (s <<< r).testBit n = true) : r ≤ n ∧ n < r + b := by
  rw [Nat.testBit_shiftLeft] at h
  simp only [Bool.and_eq_true, decide_eq_true_eq] at h
  refine ⟨h.1, ?_⟩
  by_contra hn
  rw [Nat.one_shiftLeft] at hs
  have : s < 2 ^ (n - r) :=
    Nat.lt_of_lt_of_le hs (Nat.pow_le_pow_right (by decide) (by omega))
  rw [Nat.testBit_lt_two_pow this] at h
  exact Bool.false_ne_true h.2

/-- Every bit of the accumulated key lies in one of the levels. -/
theorem traverse_key_testBit (idx : List mtable_idx_t) :
    ∀ path n, mtable_slices_ok idx path → (mtable_traverse_key idx path).testBit n = true →
      ∃ i ∈ idx, i.rshift ≤ n ∧ n < i.rshift + i.bits := by
  induction idx with
  | nil =>
    intro path n _ h
    cases path <;> simp [mtable_traverse_key] at h
  | cons i idx ih =>
    intro path n hok h
    cases path with
    | nil => simp [mtable_traverse_key] at h
    | cons s p =>
      simp only [mtable_traverse_key, Nat.testBit_or, Bool.or_eq_true] at h
      rcases h with h | h
      · exact ⟨i, List.mem_cons_self _ _, shiftLeft_testBit_level hok.1 h⟩
      · obtain ⟨j, hj, hr⟩ := ih p n hok.2 h
        exact ⟨j, List.mem_cons_of_mem _ hj, hr⟩

theorem mtable_slice_or (i : mtable_idx_t) (a b : Nat) :
    mtable_slice i (a ||| b) = mtable_slice i a ||| mtable_slice i b := by
  apply Nat.eq_of_testBit_eq
  intro n
  simp only [mtable_slice, Nat.testBit_and, Nat.testBit_or, Nat.testBit_shiftRight]
  cases a.testBit (i.rshift + n) <;> cases b.testBit (i.rshift + n) <;> simp

theorem mtable_slice_zero (i : mtable_idx_t) (a : Nat)
    (h : ∀ n, i.rshift ≤ n → n < i.rshift + i.bits → a.testBit n = false) :
    mtable_slice i a = 0 := by
  apply Nat.eq_of_testBit_eq
  intro n
  simp only [mtable_slice, mtable_idx_t.mask, Nat.one_shiftLeft, Nat.testBit_and,
    Nat.testBit_shiftRight, Nat.testBit_two_pow_sub_one, Nat.zero_testBit]
  by_cases hn : n < i.bits
  · rw [h (i.rshift + n) (by omega) (by omega)]
    rfl
  · simp [hn]

theorem mtable_slice_shift (i : mtable_idx_t) (s : Nat) (hs : s < 1 <<< i.bits) :
    mtable_slice i (s <<< i.rshift) = s := by
  apply Nat.eq_of_testBit_eq
  intro n
  simp only [mtable_slice, mtable_idx_t.mask, Nat.one_shiftLeft, Nat.testBit_and,
    Nat.testBit_shiftRight, Nat.testBit_two_pow_sub_one, Nat.testBit_shiftLeft]
  have e : i.rshift + n - i.rshift = n := by omega
  rw [e]
  by_cases hn : n < i.bits
  · simp [hn]
  · rw [Nat.one_shiftLeft] at hs
    have : s < 2 ^ n := Nat.lt_of_lt_of_le hs (Nat.pow_le_pow_right (by decide) (by omega))
    rw [Nat.testBit_lt_two_pow this]
    simp

/-- The slices of the accumulated key are the slices it was accumulated from, when no two
levels share a bit. -/
theorem mtable_path_traverse_key (idx : List mtable_idx_t) :
    ∀ path, mtable_levels_ok idx → mtable_slices_ok idx path →
      mtable_path idx (mtable_traverse_key idx path) = path := by
  induction idx with
  | nil =>
    intro path _ hok
    cases path with
    | nil => rfl
    | cons s p => exact hok.elim
  | cons i idx ih =>
    intro path hl hok
    cases path with
    | nil => exact hok.elim
    | cons s p =>
      have hl' : mtable_levels_ok idx :=
        ⟨fun j hj => hl.1 j (List.mem_cons_of_mem _ hj), (List.pairwise_cons.mp hl.2).2⟩
      have hdis := (List.pairwise_cons.mp hl.2).1
      have hrest := ih p hl' hok.2
      show mtable_slice i (mtable_traverse_key (i :: idx) (s :: p))
        :: idx.map (fun j => mtable_slice j (mtable_traverse_key (i :: idx) (s :: p))) = s :: p
      simp only [mtable_traverse_key, mtable_slice_or]
      congr 1
      · rw [mtable_slice_shift i s hok.1, mtable_slice_zero i, Nat.or_zero]
        intro n h1 h2
        by_contra hb
        obtain ⟨j, hj, hr⟩ := traverse_key_testBit idx p n hok.2 (by simpa using hb)
        have := hdis j hj
        omega
      · have hm : idx.map (fun j => mtable_slice j (s <<< i.rshift)
              ||| mtable_slice j (mtable_traverse_key idx p))
            = idx.map (fun j => mtable_slice j (mtable_traverse_key idx p)) := by
          apply List.map_congr_left
          intro j hj
          rw [mtable_slice_zero j (s <<< i.rshift), Nat.zero_or]
          intro n h1 h2
          by_contra hb
          have := shiftLeft_testBit_level hok.1 (by simpa using hb)
          have := hdis j hj
          omega
        rw [hm]
        exact hrest
theorem mtable_slice_shiftLeft (i : mtable_idx_t) (k : Nat) :
    mtable_slice i k <<< i.rshift = k &&& (i.mask <<< i.rshift) := by
  apply Nat.eq_of_testBit_eq
  intro n
  simp only [mtable_slice, Nat.testBit_shiftLeft, Nat.testBit_and, Nat.testBit_shiftRight]
  by_cases hn : i.rshift ≤ n
  · have e : i.rshift + (n - i.rshift) = n := by omega
    simp [hn, e]
  · simp [hn]

/-- The key accumulated along the slice path of a key is that key restricted to the indexed
bits. -/
theorem traverse_key_path (idx : List mtable_idx_t) (k : Nat) :
    mtable_traverse_key idx (mtable_path idx k) = k &&& mtable_idx_bits idx := by
  induction idx with
  | nil => simp [mtable_traverse_key, mtable_path, mtable_idx_bits]
  | cons i idx ih =>
    show (mtable_slice i k <<< i.rshift) ||| mtable_traverse_key idx (mtable_path idx k) = _
    rw [ih, mtable_slice_shiftLeft, mtable_idx_bits, Nat.and_or_distrib_left]

theorem traverse_key_lt (idx : List mtable_idx_t) (R : Nat) (path : List Nat)
    (h : ∀ j ∈ idx, j.rshift + j.bits ≤ R) (hok : mtable_slices_ok idx path) :
    mtable_traverse_key idx path < 2 ^ R := by
  apply Nat.lt_pow_two_of_testBit
  intro n hn
  by_contra hb
  obtain ⟨j, hj, hr⟩ := traverse_key_testBit idx path n hok (by simpa using hb)
  have := h j hj
  omega

/-- With every level below the one before it, the order of the slice paths is the order of
the keys. -/
theorem traverse_key_strict_mono (idx : List mtable_idx_t) :
    ∀ p q, mtable_idx_descending idx → mtable_slices_ok idx p → mtable_slices_ok idx q →
      mtable_path_lt p q → mtable_traverse_key idx p < mtable_traverse_key idx q := by
  induction idx with
  | nil =>
    intro p q _ hp hq hlt
    cases p <;> cases q <;> first | exact hlt.elim | exact hp.elim
  | cons i idx ih =>
    intro p q hd hp hq hlt
    cases p with
    | nil => exact hp.elim
    | cons a p =>
      cases q with
      | nil => exact hq.elim
      | cons b q =>
        have hpl := traverse_key_lt idx i.rshift p hd.1 hp.2
        have hql := traverse_key_lt idx i.rshift q hd.1 hq.2
        simp only [mtable_traverse_key, Nat.shiftLeft_eq]
        rw [Nat.mul_comm a, Nat.mul_comm b, ← Nat.mul_add_lt_is_or hpl, ← Nat.mul_add_lt_is_or hql]
        rcases hlt with hab | ⟨hab, hlt'⟩
        · calc 2 ^ i.rshift * a + mtable_traverse_key idx p
              < 2 ^ i.rshift * a + 2 ^ i.rshift := by omega
            _ = 2 ^ i.rshift * (a + 1) := by rw [Nat.mul_add, Nat.mul_one]
            _ ≤ 2 ^ i.rshift * b := Nat.mul_le_mul_left _ hab
            _ ≤ 2 ^ i.rshift * b + mtable_traverse_key idx q := Nat.le_add_right _ _
        · have := ih p q hd.2 hp.2 hq.2 hlt'
          rw [hab]
          omega

theorem mtable_path_lt_ne {p q : List Nat} : mtable_path_lt p q → p ≠ q := by
  induction p generalizing q with
  | nil => intro h; cases q <;> exact h.elim
  | cons a p ih =>
    intro h
    cases q with
    | nil => exact h.elim
    | cons b q =>
      intro e
      cases e
      rcases h with h | ⟨-, h⟩
      · exact Nat.lt_irrefl _ h
      · exact ih h rfl
/-- The calls of a traversal from the root: each is the key accumulated along a slice path
whose slot holds the value, and the calls follow the order of the slice paths. -/
theorem mtable_ptr_traverse_spec {V : Type} (i : mtable_idx_t) (idx : List mtable_idx_t)
    (root : mtable_ptr V (i :: idx)) (h64 : ∀ j ∈ i :: idx, j.rshift + j.bits ≤ 64) :
    (∀ e, e ∈ mtable_ptr_traverse (i :: idx) root 0 ↔
      ∃ path, mtable_slices_ok (i :: idx) path ∧
        mtable_ptr_slot (i :: idx) root path = some e.2 ∧
        e.1 = mtable_traverse_key (i :: idx) path) ∧
    (mtable_ptr_traverse (i :: idx) root 0).Pairwise (fun a b =>
      ∃ p q, mtable_slices_ok (i :: idx) p ∧ mtable_slices_ok (i :: idx) q ∧
        a.1 = mtable_traverse_key (i :: idx) p ∧ b.1 = mtable_traverse_key (i :: idx) q ∧
        mtable_path_lt p q) := by
  rw [mtable_ptr_traverse_eq]
  constructor
  · intro e
    rw [List.mem_filterMap]
    constructor
    · rintro ⟨path, hmem, he⟩
      have hok := (mtable_all_paths_mem _ _).mp hmem
      cases hs : mtable_ptr_slot (i :: idx) root path with
      | none => rw [hs] at he; cases he
      | some v =>
        rw [hs] at he
        simp only [Option.map_some', Option.some.injEq] at he
        refine ⟨path, hok, ?_, ?_⟩
        · rw [← he]; exact hs
        · rw [← he, Nat.zero_or, mtable_ptr_key_eq _ _ h64 hok]
    · rintro ⟨path, hok, hs, hk⟩
      refine ⟨path, (mtable_all_paths_mem _ _).mpr hok, ?_⟩
      rw [hs, Option.map_some', Nat.zero_or, mtable_ptr_key_eq _ _ h64 hok, ← hk]
  · have hsorted : (mtable_all_paths (i :: idx)).Pairwise (fun p q =>
        mtable_slices_ok (i :: idx) p ∧ mtable_slices_ok (i :: idx) q ∧ mtable_path_lt p q) :=
      (mtable_all_paths_sorted (i :: idx) (by simp)).imp_of_mem
        (fun hp hq hlt => ⟨(mtable_all_paths_mem _ _).mp hp, (mtable_all_paths_mem _ _).mp hq, hlt⟩)
    refine List.Pairwise.filterMap _ ?_ hsorted
    rintro p q ⟨hp, hq, hlt⟩ a ha b hb
    refine ⟨p, q, hp, hq, ?_, ?_, hlt⟩
    · cases hs : mtable_ptr_slot (i :: idx) root p with
      | none => rw [hs] at ha; cases ha
      | some v =>
        rw [hs] at ha
        simp only [Option.map_some', Option.mem_def, Option.some.injEq] at ha
        rw [← ha, Nat.zero_or, mtable_ptr_key_eq _ _ h64 hp]
    · cases hs : mtable_ptr_slot (i :: idx) root q with
      | none => rw [hs] at hb; cases hb
      | some v =>
        rw [hs] at hb
        simp only [Option.map_some', Option.mem_def, Option.some.injEq] at hb
        rw [← hb, Nat.zero_or, mtable_ptr_key_eq _ _ h64 hq]

/-- C32 (amended): for every table with a valid level list, `mtable_traverse` returns, and
its calls `cb(key, value)` are these: a key with a non-NULL slot is called with its indexed
bits and its value; no key is passed twice; every call passes a key that consists of indexed
bits only and whose slot holds the value passed, so that no NULL slot is called; the calls
follow the order of the slice paths, the first level counting most; and when every level
indexes bits below those of the level before it, the keys of the calls increase strictly. -/
theorem traverse_visits_slots {V : Type} (m : mtable_tree_t V) (hv : mtable_idx_valid m.idx) :
    ∃ l, mtable_tree_traverse m = .ok l ∧
      (∀ k v, (mtable_tree_find m k).1 = some v ↔ (k &&& mtable_idx_bits m.idx, v) ∈ l) ∧
      (l.map Prod.fst).Nodup ∧
      (∀ e ∈ l, e.1 &&& mtable_idx_bits m.idx = e.1 ∧ (mtable_tree_find m e.1).1 = some e.2) ∧
      l.Pairwise (fun a b => mtable_path_lt (mtable_path m.idx a.1) (mtable_path m.idx b.1)) ∧
      (mtable_idx_descending m.idx → l.Pairwise (fun a b => a.1 < b.1)) := by
  have hl := mtable_idx_valid_ok hv
  obtain ⟨idx, root, pc, sz⟩ := m
  cases idx with
  | nil => exact (hv.1 rfl).elim
  | cons i idx =>
    obtain ⟨hmem, hpw⟩ := mtable_ptr_traverse_spec i idx root hl.1
    refine ⟨mtable_ptr_traverse (i :: idx) root 0, rfl, ?_, ?_, ?_, ?_, ?_⟩
    · intro k v
      rw [hmem]
      constructor
      · intro hf
        refine ⟨mtable_path (i :: idx) k, mtable_path_slices_ok _ _, ?_, ?_⟩
        · rw [mtable_ptr_slot_path]; exact hf
        · exact (traverse_key_path _ _).symm
      · rintro ⟨path, hok, hs, hk⟩
        have h1 := mtable_path_traverse_key (i :: idx) path hl hok
        simp only at hk
        rw [← hk, ← traverse_key_path,
          mtable_path_traverse_key (i :: idx) _ hl (mtable_path_slices_ok _ _)] at h1
        show mtable_ptr_find k (i :: idx) root = some v
        rw [← mtable_ptr_slot_path, h1]
        exact hs
    · rw [List.Nodup, List.pairwise_map]
      refine hpw.imp ?_
      rintro a b ⟨p, q, hp, hq, ha, hb, hlt⟩ hab
      apply mtable_path_lt_ne hlt
      rw [← mtable_path_traverse_key (i :: idx) p hl hp,
        ← mtable_path_traverse_key (i :: idx) q hl hq, ← ha, ← hb, hab]
    · intro e he
      obtain ⟨path, hok, hs, hk⟩ := (hmem e).mp he
      have h1 := mtable_path_traverse_key (i :: idx) path hl hok
      rw [← hk] at h1
      constructor
      · show e.1 &&& mtable_idx_bits (i :: idx) = e.1
        rw [← traverse_key_path, h1, ← hk]
      · show mtable_ptr_find e.1 (i :: idx) root = some e.2
        rw [← mtable_ptr_slot_path, h1]
        exact hs
    · refine hpw.imp ?_
      rintro a b ⟨p, q, hp, hq, ha, hb, hlt⟩
      show mtable_path_lt (mtable_path (i :: idx) a.1) (mtable_path (i :: idx) b.1)
      rw [ha, hb, mtable_path_traverse_key (i :: idx) p hl hp,
        mtable_path_traverse_key (i :: idx) q hl hq]
      exact hlt
    · intro hd
      refine hpw.imp ?_
      rintro a b ⟨p, q, hp, hq, ha, hb, hlt⟩
      rw [ha, hb]
      exact traverse_key_strict_mono (i :: idx) p q hd hp hq hlt
/-- C32, the claim as stated fails: the level list with bit 0 first and bit 1 second is accepted
by `mtable_idx_add`, and with the keys 1 and 2 inserted the traversal calls the callback for
key 2 before key 1, so the keys do not increase. -/
theorem traverse_low_level_first :
    mtable_idx_adds [(0, 1), (1, 1)] [] = .ok mtable_low_first.idx ∧
    mtable_idx_valid mtable_low_first.idx ∧
    mtable_tree_traverse mtable_low_first = .ok [(2, 20), (1, 10)] ∧
    ¬ [((2 : Nat), (20 : Nat)), (1, 10)].Pairwise (fun a b => a.1 < b.1) :=
  ⟨rfl, ⟨fun h => (by cases h), [(0, 1), (1, 1)], rfl⟩, rfl, by decide⟩

/-- Witness for C32: the level list with bit 1 first and bit 0 second is valid and descending,
and the traversal of the table with the keys 1 and 2 returns calls with distinct, increasing
keys. -/
theorem traverse_visits_slots_witness :
    mtable_idx_valid mtable_high_first.idx ∧ mtable_idx_descending mtable_high_first.idx ∧
    ∃ l, mtable_tree_traverse mtable_high_first = .ok l ∧ (l.map Prod.fst).Nodup ∧
      l.Pairwise (fun a b => a.1 < b.1) :=
  have hv : mtable_idx_valid mtable_high_first.idx :=
    ⟨fun h => (by cases h), [(1, 1), (0, 1)], rfl⟩
  have hd : mtable_idx_descending mtable_high_first.idx := by
    show mtable_idx_descending [⟨1, 1⟩, ⟨0, 1⟩]
    simp [mtable_idx_descending]
  match traverse_visits_slots mtable_high_first hv with
  | ⟨l, h1, _, h3, _, _, h6⟩ => ⟨hv, hd, l, h1, h3, h6 hd⟩

/-- C31, the claim as stated fails: in a table with the five levels of the OMT that maps line
`0x1000` to the value 0, after the insert of line `0x1040` and the store of the same value 0
through the slot, `mtable_find(0x1000)` returns that value although `0x1000` and `0x1040` have
different slices (they differ in bit 6). -/
theorem find_other_key_same_value :
    (mtable_tree_find
      (mtable_tree_write (mtable_tree_insert mtable_omt_one_line 0x1040) 0x1040 (some 0))
      0x1000).1 = some 0 ∧
    mtable_path omt_idx 0x1000 ≠ mtable_path omt_idx 0x1040 ∧
    ¬ ((mtable_tree_find
        (mtable_tree_write (mtable_tree_insert mtable_omt_one_line 0x1040) 0x1040 (some 0))
        0x1000).1 = some 0 ↔
      mtable_path mtable_omt_one_line.idx 0x1000 = mtable_path mtable_omt_one_line.idx 0x1040) :=
  ⟨rfl, by decide, fun h => absurd (h.mp rfl) (by decide)⟩

/-- C31 (amended): for every level list, table and keys `k`, `k'`, after `mtable_insert(k)` and
the store of a non-NULL value `v` through the slot it returns, `mtable_find(k')` returns `v`
if `k'` has the slices of `k` at every level, and returns what it returned before the insert
otherwise; so it returns `v` exactly for the keys with the slices of `k`, apart from keys that
returned `v` before.  With the five levels of the OMT two keys have the same slices exactly
when they agree on the bits 6 to 47.  In a table built from the empty one by inserts and
stores, `mtable_find` of a key whose slice path no insert has named returns NULL, and
`mtable_find` leaves the table, with `page_count` and `size`, as it was. -/
theorem radix_map_find_after_insert {V : Type} (m : mtable_tree_t V) (k k' : Nat) (v : V) :
    (mtable_path m.idx k' = mtable_path m.idx k →
      (mtable_tree_find (mtable_tree_write (mtable_tree_insert m k) k (some v)) k').1
        = some v) ∧
    (mtable_path m.idx k' ≠ mtable_path m.idx k →
      (mtable_tree_find (mtable_tree_write (mtable_tree_insert m k) k (some v)) k').1
        = (mtable_tree_find m k').1) ∧
    ((mtable_tree_find m k').1 ≠ some v →
      ((mtable_tree_find (mtable_tree_write (mtable_tree_insert m k) k (some v)) k').1 = some v
        ↔ mtable_path m.idx k' = mtable_path m.idx k)) ∧
    (m.idx = omt_idx →
      (mtable_path m.idx k' = mtable_path m.idx k ↔ k' / 2 ^ 6 % 2 ^ 42 = k / 2 ^ 6 % 2 ^ 42)) ∧
    (∀ ops : List (Nat × Option V),
      (∀ op ∈ ops, mtable_path m.idx op.1 ≠ mtable_path m.idx k) →
      (mtable_tree_find (mtable_tree_build ops (mtable_tree_init V m.idx)) k).1 = none) ∧
    (mtable_tree_find m k).2 = m ∧
    (mtable_tree_find m k).2.page_count = m.page_count ∧
    (mtable_tree_find m k).2.size = m.size := by
  have hw := mtable_tree_find_write m k k' (some v)
  refine ⟨?_, ?_, ?_, ?_, ?_, rfl, rfl, rfl⟩
  · intro h
    rw [hw, if_pos h]
  · intro h
    rw [hw, if_neg h]
  · intro hne
    rw [hw]
    by_cases h : mtable_path m.idx k' = mtable_path m.idx k
    · rw [if_pos h]
      exact ⟨fun _ => h, fun _ => rfl⟩
    · rw [if_neg h]
      exact ⟨fun e => (hne e).elim, fun e => (h e).elim⟩
  · intro hidx
    rw [hidx]
    exact omt_path_eq_iff k k'
  · intro ops hops
    rw [mtable_tree_build_find k ops (mtable_tree_init V m.idx) hops]
    exact mtable_ptr_find_null k m.idx

/-- Witness for C31: in the table with the five levels of the OMT that maps line `0x1000` to 0,
after the insert of line `0x2000` and the store of the value 3, the key `0x2008`, which agrees
with `0x2000` on the bits 6 to 47, finds 3, and the key `0x1000` still finds 0. -/
theorem radix_map_find_after_insert_witness :
    (mtable_tree_find
      (mtable_tree_write (mtable_tree_insert mtable_omt_one_line 0x2000) 0x2000 (some 3))
      0x2008).1 = some 3 ∧
    (mtable_tree_find
      (mtable_tree_write (mtable_tree_insert mtable_omt_one_line 0x2000) 0x2000 (some 3))
      0x1000).1 = (mtable_tree_find mtable_omt_one_line 0x1000).1 ∧
    (mtable_tree_find mtable_omt_one_line 0x1000).1 = some 0 :=
  ⟨(radix_map_find_after_insert mtable_omt_one_line 0x2000 0x2008 3).1 (by decide),
    (radix_map_find_after_insert mtable_omt_one_line 0x2000 0x1000 3).2.1 (by decide), rfl⟩
/-! ## C33: `omt_merge_line` -/

theorem mtable_path_pages_length (key : Nat) (idx : List mtable_idx_t) :
    ∀ pre p, p ∈ mtable_path_pages key idx pre → pre.length ≤ p.length := by
  induction idx with
  | nil => intro pre p hp; cases hp
  | cons i rest ih =>
    intro pre p hp
    rcases List.mem_cons.mp hp with h | h
    · rw [h]
    · have := ih _ p h
      rw [List.length_append] at this
      simp only [List.length_singleton] at this
      omega

/-- The loop of `_mtable_insert` allocates the pages of the path that are missing, and counts
one page for each. -/
theorem mtable_insert_walk_pages {V : Type} (key : Nat) (idx : List mtable_idx_t) :
    ∀ (pre : List Nat) (m : mtable_t V),
      (mtable_insert_walk key idx pre m).nodes
        = ((mtable_path_pages key idx pre).filter (fun p => decide (p ∉ m.nodes))).reverse
          ++ m.nodes ∧
      (mtable_insert_walk key idx pre m).page_count
        = m.page_count
          + ((mtable_path_pages key idx pre).filter (fun p => decide (p ∉ m.nodes))).length := by
  induction idx with
  | nil => intro pre m; exact ⟨rfl, rfl⟩
  | cons i rest ih =>
    intro pre m
    simp only [mtable_insert_walk, mtable_path_pages, List.filter_cons]
    by_cases hin : pre ∈ m.nodes
    · simp only [hin, if_true, not_true_eq_false, decide_False, Bool.false_eq_true, if_false]
      exact ih _ m
    · simp only [hin, if_false, not_false_eq_true, decide_True, if_true]
      obtain ⟨h1, h2⟩ := ih (pre ++ [mtable_slice i key])
        { m with nodes := pre :: m.nodes, page_count := m.page_count + 1,
                 size := m.size + i.pg_size }
      have hf : (mtable_path_pages key rest (pre ++ [mtable_slice i key])).filter
            (fun p => decide (p ∉ pre :: m.nodes))
          = (mtable_path_pages key rest (pre ++ [mtable_slice i key])).filter
            (fun p => decide (p ∉ m.nodes)) := by
        apply List.filter_congr
        intro p hp
        have := mtable_path_pages_length key rest _ p hp
        rw [List.length_append] at this
        simp only [List.length_singleton] at this
        have hne : p ≠ pre := fun e => by rw [e] at this; omega
        simp [hne]
      simp only at h1 h2
      rw [hf] at h1 h2
      refine ⟨?_, ?_⟩
      · rw [h1]
        simp
      · rw [h2, List.length_cons]
        omega

theorem mtable_insert_pages {V : Type} (m : mtable_t V) (key : Nat) :
    (mtable_insert m key).nodes = (mtable_new_pages m key).reverse ++ m.nodes ∧
    (mtable_insert m key).page_count = m.page_count + (mtable_new_pages m key).length :=
  mtable_insert_walk_pages key m.idx [] m

/-- After `mtable_insert(key)` no page on the path of `key` is missing. -/
theorem mtable_new_pages_insert {V : Type} (m : mtable_t V) (key : Nat) :
    mtable_new_pages (mtable_insert m key) key = [] := by
  unfold mtable_new_pages
  rw [mtable_insert_idx, List.filter_eq_nil_iff]
  intro p hp
  simp only [decide_eq_true_eq, not_not]
  rw [(mtable_insert_pages m key).1]
  by_cases h : p ∈ m.nodes
  · exact List.mem_append_right _ h
  · apply List.mem_append_left
    rw [List.mem_reverse]
    unfold mtable_new_pages
    rw [List.mem_filter]
    exact ⟨hp, decide_eq_true h⟩

theorem mtable_path_pages_count (key : Nat) (idx : List mtable_idx_t) :
    ∀ pre, (mtable_path_pages key idx pre).length = idx.length := by
  induction idx with
  | nil => intro pre; rfl
  | cons i rest ih => intro pre; simp only [mtable_path_pages, List.length_cons, ih]

/-- C33: for every OMT state, handle `h` and line address `a`, `omt_merge_line(omt, h, a)`
returns what the slot of `a` held before (`none` for NULL); afterwards the slot of `a` holds
`h` and the slot of every key with other slices holds what it held; the pages of the table
are the old ones and the pages on the path of `a` that were missing, which are what
`page_count` grows by; and `write_count` grows by the number of these new pages plus one.  So
the first merge into the empty five-level OMT charges 6 writes, and a merge of a line that has
just been merged charges 1. -/
theorem omt_merge_line_result (omt : omt_t) (h a : Nat) :
    (omt_merge_line omt h a).2 = omt_find omt a ∧
    omt_find (omt_merge_line omt h a).1 a = some h ∧
    (∀ a', mtable_path omt.mtable.idx a' ≠ mtable_path omt.mtable.idx a →
      omt_find (omt_merge_line omt h a).1 a' = omt_find omt a') ∧
    (omt_merge_line omt h a).1.mtable.nodes
      = (mtable_new_pages omt.mtable a).reverse ++ omt.mtable.nodes ∧
    (omt_merge_line omt h a).1.mtable.page_count
      = omt.mtable.page_count + (mtable_new_pages omt.mtable a).length ∧
    (omt_merge_line omt h a).1.write_count
      = omt.write_count + ((mtable_new_pages omt.mtable a).length + 1) ∧
    (omt_merge_line omt_init h a).1.write_count = 6 ∧
    ∀ h', (omt_merge_line (omt_merge_line omt h a).1 h' a).1.write_count
      = (omt_merge_line omt h a).1.write_count + 1 := by
  obtain ⟨hn, hp⟩ := mtable_insert_pages omt.mtable a
  have hw : ∀ (o : omt_t) (e : Nat), (omt_merge_line o e a).1.write_count
      = o.write_count + ((mtable_new_pages o.mtable a).length + 1) := by
    intro o e
    have := (mtable_insert_pages o.mtable a).2
    simp only [omt_merge_line]
    rw [this]
    omega
  refine ⟨?_, ?_, ?_, ?_, ?_, hw omt h, ?_, ?_⟩
  · simp [omt_merge_line, omt_find]
  · simp [omt_merge_line, omt_find, mtable_find, mtable_slot_write, alist_find_set]
  · intro a' hne
    simp [omt_merge_line, omt_find, mtable_find, mtable_slot_write, alist_find_set, hne]
  · simp only [omt_merge_line, mtable_slot_write]
    exact hn
  · simp only [omt_merge_line, mtable_slot_write]
    exact hp
  · rw [hw]
    have : (mtable_new_pages omt_init.mtable a).length = 5 := by
      unfold mtable_new_pages
      have : omt_init.mtable.nodes = [] := rfl
      simp only [this, List.not_mem_nil, not_false_eq_true, decide_True, List.filter_true]
      exact mtable_path_pages_count a omt_idx []
    rw [this]
    rfl
  · intro h'
    rw [hw (omt_merge_line omt h a).1 h']
    have : mtable_new_pages (omt_merge_line omt h a).1.mtable a = [] := by
      have e := mtable_new_pages_insert omt.mtable a
      unfold mtable_new_pages at e ⊢
      simp only [omt_merge_line, mtable_slot_write]
      exact e
    rw [this]
    rfl

/-! ## The flattened table and the tree of pages agree -/

theorem mtable_path_pages_append (key : Nat) (idx : List mtable_idx_t) :
    ∀ a pre, mtable_path_pages key idx (a ++ pre)
      = (mtable_path_pages key idx pre).map (a ++ ·) := by
  induction idx with
  | nil => intro a pre; rfl
  | cons i rest ih =>
    intro a pre
    simp only [mtable_path_pages, List.map_cons, List.append_assoc, ih]

theorem mtable_new_count_congr (key : Nat) (idx : List mtable_idx_t) :
    ∀ pre (has has' : List Nat → Bool),
      (∀ x ∈ mtable_path_pages key idx pre, has x = has' x) →
      mtable_new_count key idx pre has = mtable_new_count key idx pre has' := by
  induction idx with
  | nil => intro pre has has' _; rfl
  | cons i rest ih =>
    intro pre has has' h
    simp only [mtable_new_count]
    rw [h pre (List.mem_cons_self _ _),
      ih _ has has' (fun x hx => h x (List.mem_cons_of_mem _ hx))]

theorem mtable_new_count_append (key : Nat) (idx : List mtable_idx_t) :
    ∀ a pre (has : List Nat → Bool),
      mtable_new_count key idx (a ++ pre) has
        = mtable_new_count key idx pre (fun x => has (a ++ x)) := by
  induction idx with
  | nil => intro a pre has; rfl
  | cons i rest ih =>
    intro a pre has
    simp only [mtable_new_count, List.append_assoc, ih]

/-- The loop of `_mtable_insert` on the flattened table counts the pages and bytes of the
missing pages. -/
theorem mtable_insert_walk_count {V : Type} (key : Nat) (idx : List mtable_idx_t) :
    ∀ (pre : List Nat) (m : mtable_t V),
      (mtable_insert_walk key idx pre m).page_count
        = m.page_count + (mtable_new_count key idx pre (fun x => decide (x ∈ m.nodes))).1 ∧
      (mtable_insert_walk key idx pre m).size
        = m.size + (mtable_new_count key idx pre (fun x => decide (x ∈ m.nodes))).2 := by
  induction idx with
  | nil => intro pre m; exact ⟨rfl, rfl⟩
  | cons i rest ih =>
    intro pre m
    simp only [mtable_insert_walk, mtable_new_count]
    by_cases hin : pre ∈ m.nodes
    · simp only [hin, if_true, decide_True]
      exact ih _ m
    · simp only [hin, if_false, decide_False, Bool.false_eq_true]
      obtain ⟨h1, h2⟩ := ih (pre ++ [mtable_slice i key])
        { m with nodes := pre :: m.nodes, page_count := m.page_count + 1,
                 size := m.size + i.pg_size }
      have hc : mtable_new_count key rest (pre ++ [mtable_slice i key])
            (fun x => decide (x ∈ pre :: m.nodes))
          = mtable_new_count key rest (pre ++ [mtable_slice i key])
            (fun x => decide (x ∈ m.nodes)) := by
        apply mtable_new_count_congr
        intro x hx
        have := mtable_path_pages_length key rest _ x hx
        rw [List.length_append] at this
        simp only [List.length_singleton] at this
        have hne : x ≠ pre := fun e => by rw [e] at this; omega
        simp [hne]
      simp only at h1 h2
      rw [hc] at h1 h2
      exact ⟨by rw [h1]; omega, by rw [h2]; omega⟩

/-- The loop of `_mtable_insert` on the tree counts the pages and bytes of the missing
pages. -/
theorem mtable_ptr_insert_count {V : Type} (key : Nat) (idx : List mtable_idx_t) :
    ∀ prev : mtable_ptr V idx,
      (mtable_ptr_insert key idx prev).2
        = mtable_new_count key idx [] (mtable_ptr_has_page idx prev) := by
  induction idx with
  | nil => intro prev; rfl
  | cons i rest ih =>
    intro prev
    have happ := mtable_new_count_append key rest [mtable_slice i key] []
    simp only [List.append_nil] at happ
    cases prev with
    | none =>
      simp only [mtable_ptr_insert, mtable_new_count, List.nil_append, happ]
      have h0 : mtable_ptr_has_page (i :: rest) (none : mtable_ptr V (i :: rest)) [] = false :=
        rfl
      rw [h0, ih]
      simp only [Bool.false_eq_true, if_false]
      have hc : mtable_new_count key rest []
            (fun x => mtable_ptr_has_page (i :: rest) (none : mtable_ptr V (i :: rest))
              ([mtable_slice i key] ++ x))
          = mtable_new_count key rest [] (mtable_ptr_has_page rest (mtable_null V rest)) := by
        apply mtable_new_count_congr
        intro x _
        show false = mtable_ptr_has_page rest (mtable_null V rest) x
        cases rest with
        | nil => rfl
        | cons j rest => cases x <;> rfl
      rw [hc]
    | some curr =>
      simp only [mtable_ptr_insert, mtable_new_count, List.nil_append, happ]
      have h0 : mtable_ptr_has_page (i :: rest) (some curr : mtable_ptr V (i :: rest)) []
          = true := rfl
      rw [h0, ih]
      simp only [if_true]
      rfl

/-- The pages of the tree after `_mtable_insert`: the old ones and those on the path. -/
theorem mtable_ptr_has_page_insert {V : Type} (key : Nat) (idx : List mtable_idx_t) :
    ∀ (prev : mtable_ptr V idx) (pre : List Nat),
      mtable_ptr_has_page idx (mtable_ptr_insert key idx prev).1 pre
        = (mtable_ptr_has_page idx prev pre || decide (pre ∈ mtable_path_pages key idx [])) := by
  induction idx with
  | nil => intro prev pre; simp [mtable_ptr_has_page, mtable_path_pages]
  | cons i rest ih =>
    intro prev pre
    have happ := mtable_path_pages_append key rest [mtable_slice i key] []
    simp only [List.append_nil] at happ
    have hmem : ∀ s x, (s :: x ∈ mtable_path_pages key (i :: rest) [])
        ↔ (s = mtable_slice i key ∧ x ∈ mtable_path_pages key rest []) := by
      intro s x
      simp only [mtable_path_pages, List.nil_append, happ, List.mem_cons, List.mem_map,
        List.singleton_append, List.cons.injEq, reduceCtorEq, false_or]
      constructor
      · rintro ⟨y, hy, h1, h2⟩
        exact ⟨h1.symm, h2 ▸ hy⟩
      · rintro ⟨h1, h2⟩
        exact ⟨x, h2, h1.symm, rfl⟩
    cases pre with
    | nil =>
      cases prev with
      | none => simp [mtable_ptr_insert, mtable_ptr_has_page, mtable_path_pages]
      | some curr => simp [mtable_ptr_insert, mtable_ptr_has_page, mtable_path_pages]
    | cons s x =>
      have hnull : mtable_ptr_has_page rest (mtable_null V rest) x = false := by
        cases rest with
        | nil => rfl
        | cons j rest => cases x <;> rfl
      cases prev with
      | none =>
        simp only [mtable_ptr_insert, mtable_ptr_has_page]
        by_cases hs : s = mtable_slice i key
        · rw [if_pos hs, ih, hnull]
          simp [hmem, hs]
        · rw [if_neg hs, hnull]
          simp [hmem, hs]
      | some curr =>
        simp only [mtable_ptr_insert, mtable_ptr_has_page]
        by_cases hs : s = mtable_slice i key
        · rw [if_pos hs, ih, hs]
          simp [hmem]
        · rw [if_neg hs]
          simp [hmem, hs]

/-- A store through the slot changes no page. -/
theorem mtable_ptr_has_page_write {V : Type} (key : Nat) (v : Option V)
    (idx : List mtable_idx_t) :
    ∀ (prev : mtable_ptr V idx) (pre : List Nat),
      mtable_ptr_has_page idx (mtable_ptr_write key v idx prev) pre
        = mtable_ptr_has_page idx prev pre := by
  induction idx with
  | nil => intro prev pre; rfl
  | cons i rest ih =>
    intro prev pre
    cases prev with
    | none => rfl
    | some curr =>
      cases pre with
      | nil => rfl
      | cons s x =>
        simp only [mtable_ptr_write, mtable_ptr_has_page]
        by_cases hs : s = mtable_slice i key
        · rw [if_pos hs, ih]
        · rw [if_neg hs]
theorem mtable_insert_walk_size_idx {V : Type} (m : mtable_t V) (key : Nat) :
    (mtable_insert m key).page_count
      = m.page_count + (mtable_new_count key m.idx [] (fun x => decide (x ∈ m.nodes))).1 ∧
    (mtable_insert m key).size
      = m.size + (mtable_new_count key m.idx [] (fun x => decide (x ∈ m.nodes))).2 :=
  mtable_insert_walk_count key m.idx [] m

/-- One insert and store keeps the tree of pages and the flattened table in agreement: the same
lookups, the same pages, the same counters. -/
theorem mtable_flat_step {V : Type} (t : mtable_tree_t V) (f : mtable_t V) (key : Nat) (v : V)
    (hidx : f.idx = t.idx)
    (hfind : ∀ k, mtable_ptr_find k t.idx t.root = mtable_find f k)
    (hpages : ∀ pre, mtable_ptr_has_page t.idx t.root pre = decide (pre ∈ f.nodes))
    (hcount : t.page_count = f.page_count) (hsize : t.size = f.size) :
    (mtable_slot_write (mtable_insert f key) key v).idx
      = (mtable_tree_write (mtable_tree_insert t key) key (some v)).idx ∧
    (∀ k, mtable_ptr_find k (mtable_tree_write (mtable_tree_insert t key) key (some v)).idx
        (mtable_tree_write (mtable_tree_insert t key) key (some v)).root
      = mtable_find (mtable_slot_write (mtable_insert f key) key v) k) ∧
    (∀ pre, mtable_ptr_has_page (mtable_tree_write (mtable_tree_insert t key) key (some v)).idx
        (mtable_tree_write (mtable_tree_insert t key) key (some v)).root pre
      = decide (pre ∈ (mtable_slot_write (mtable_insert f key) key v).nodes)) ∧
    (mtable_tree_write (mtable_tree_insert t key) key (some v)).page_count
      = (mtable_slot_write (mtable_insert f key) key v).page_count ∧
    (mtable_tree_write (mtable_tree_insert t key) key (some v)).size
      = (mtable_slot_write (mtable_insert f key) key v).size := by
  have hhas : mtable_ptr_has_page t.idx t.root = fun x => decide (x ∈ f.nodes) := funext hpages
  obtain ⟨c1, c2⟩ := mtable_insert_walk_size_idx f key
  have hcnt := mtable_ptr_insert_count key t.idx t.root
  rw [hhas] at hcnt
  rw [hidx] at c1 c2
  refine ⟨?_, ?_, ?_, ?_, ?_⟩
  · show (mtable_insert f key).idx = t.idx
    rw [mtable_insert_idx, hidx]
  · intro k
    show mtable_ptr_find k t.idx (mtable_ptr_write key (some v) t.idx
        (mtable_ptr_insert key t.idx t.root).1) = _
    rw [mtable_ptr_find_write, hfind]
    simp only [mtable_find, mtable_slot_write, mtable_insert_idx, mtable_insert_slots,
      alist_find_set, hidx]
  · intro pre
    show mtable_ptr_has_page t.idx (mtable_ptr_write key (some v) t.idx
        (mtable_ptr_insert key t.idx t.root).1) pre = _
    rw [mtable_ptr_has_page_write, mtable_ptr_has_page_insert, hpages]
    show _ = decide (pre ∈ (mtable_insert f key).nodes)
    rw [(mtable_insert_pages f key).1, Bool.eq_iff_iff]
    simp only [Bool.or_eq_true, decide_eq_true_eq, List.mem_append, List.mem_reverse,
      mtable_new_pages, List.mem_filter, hidx]
    tauto
  · show t.page_count + (mtable_ptr_insert key t.idx t.root).2.1 = (mtable_insert f key).page_count
    rw [c1, hcnt, hcount]
  · show t.size + (mtable_ptr_insert key t.idx t.root).2.2 = (mtable_insert f key).size
    rw [c2, hcnt, hsize]

theorem mtable_flat_build_agrees {V : Type} (ops : List (Nat × V)) :
    ∀ (t : mtable_tree_t V) (f : mtable_t V), f.idx = t.idx →
      (∀ k, mtable_ptr_find k t.idx t.root = mtable_find f k) →
      (∀ pre, mtable_ptr_has_page t.idx t.root pre = decide (pre ∈ f.nodes)) →
      t.page_count = f.page_count → t.size = f.size →
      (∀ k, (mtable_tree_find
          (mtable_tree_build (ops.map (fun o => (o.1, some o.2))) t) k).1
        = mtable_find (mtable_flat_build ops f) k) ∧
      (mtable_tree_build (ops.map (fun o => (o.1, some o.2))) t).page_count
        = (mtable_flat_build ops f).page_count ∧
      (mtable_tree_build (ops.map (fun o => (o.1, some o.2))) t).size
        = (mtable_flat_build ops f).size := by
  induction ops with
  | nil =>
    intro t f _ hfind _ hcount hsize
    exact ⟨hfind, hcount, hsize⟩
  | cons op ops ih =>
    intro t f hidx hfind hpages hcount hsize
    obtain ⟨key, v⟩ := op
    obtain ⟨s1, s2, s3, s4, s5⟩ := mtable_flat_step t f key v hidx hfind hpages hcount hsize
    exact ih _ _ s1 s2 s3 s4 s5

/-- The flattened table is the tree of pages seen through `mtable_find` and the counters:
after the same inserts and stores of non-NULL values into the empty table, both find the same
value for every key and both have the same `page_count` and `size`. -/
theorem mtable_flat_agrees {V : Type} (idx : List mtable_idx_t) (ops : List (Nat × V)) :
    (∀ k, (mtable_tree_find
        (mtable_tree_build (ops.map (fun o => (o.1, some o.2))) (mtable_tree_init V idx)) k).1
      = mtable_find (mtable_flat_build ops (mtable_init idx)) k) ∧
    (mtable_tree_build (ops.map (fun o => (o.1, some o.2))) (mtable_tree_init V idx)).page_count
      = (mtable_flat_build ops (mtable_init idx)).page_count ∧
    (mtable_tree_build (ops.map (fun o => (o.1, some o.2))) (mtable_tree_init V idx)).size
      = (mtable_flat_build ops (mtable_init idx)).size := by
  apply mtable_flat_build_agrees ops (mtable_tree_init V idx) (mtable_init idx) rfl
  · intro k
    show mtable_ptr_find k idx (mtable_null V idx) = _
    rw [mtable_ptr_find_null]
    rfl
  · intro pre
    show mtable_ptr_has_page idx (mtable_null V idx) pre = decide (pre ∈ [])
    cases idx with
    | nil => rfl
    | cons i rest => cases pre <;> rfl
  · rfl
  · rfl

end NVOverlay
